import Mathlib

/-!
# Staking ledger of the consensus layer

A shallow embedding of `go/consensus/cometbft/apps/staking/state/state.go` and of the
debonding loop of `go/consensus/cometbft/apps/staking/staking.go`.

* Quantities are arbitrary-precision non-negative integers, hence `Nat`.
* The key-value tree is a record of tables; every table is an association list that is read
  through `kvGet` (first binding of a key) and written through `kvInsert` / `kvRemove`.
* A routine that receives an ABCI context returns an `Outcome`: the state it leaves behind, the
  events it emitted and its Go return value. The state is part of the outcome on the error
  paths too, because the Go code may have written to the tree before it returns an error.
* Failures of the storage backend and of the CBOR codec (`UnavailableStateError`) are not
  modelled; the explicit `raw == nil` test of `ConsensusParameters` is, and so is the address
  test of `Account`: `Address.IsValid` belongs to package `staking/api`, which is not among the
  sources, so every routine that loads an account takes the test as its parameter `IsValid`.
-/

namespace Staking

/-- A 21-byte account address, read as a big-endian number. -/
abbrev Address := Nat

/-- An epoch number (`beacon.EpochTime`). -/
abbrev EpochTime := Nat

/-! ## Package `quantity` -/

namespace quantity

/-- Errors of package `quantity`. -/
inductive Error where
  | ErrInvalidQuantity
  | ErrInsufficientBalance
  | ErrInvalidAccount
  deriving DecidableEq, Repr

/-- Modelled from the spec: `Quantity.Add` of package `quantity` (not among the sources);
quantities are arbitrary-precision non-negative integers, so addition cannot overflow. -/
def Add (q n : Nat) : Except Error Nat := .ok (q + n)

/-- Modelled from the spec: `Quantity.Sub` of package `quantity` (not among the sources);
a quantity stays non-negative, so the subtraction fails when `q < n`. -/
def Sub (q n : Nat) : Except Error Nat :=
  if q < n then .error .ErrInsufficientBalance else .ok (q - n)

/-- Modelled from the spec: `Quantity.Mul` of package `quantity` (not among the sources). -/
def Mul (q n : Nat) : Except Error Nat := .ok (q * n)

/-- Modelled from the spec: `Quantity.Quo` of package `quantity` (not among the sources);
the quotient rounds down and a zero divisor is an error. -/
def Quo (q n : Nat) : Except Error Nat :=
  if n = 0 then .error .ErrInvalidQuantity else .ok (q / n)

/-- Modelled from the spec: `quantity.Move(dst, src, n)` (not among the sources), which
"succeeds only if `src ≥ amount`". Returns the new `(dst, src)`. -/
def Move (dst src n : Nat) : Except Error (Nat × Nat) :=
  match Sub src n with
  | .error e => .error e
  | .ok src1 => .ok (dst + n, src1)

/-- Modelled from the spec: `quantity.MoveUpTo(dst, src, n)` (not among the sources), which
"saturates at the source balance". Returns the new `(dst, src)` and the quantity moved. -/
def MoveUpTo (dst src n : Nat) : Except Error (Nat × Nat × Nat) :=
  let amount := min src n
  .ok (dst + amount, src - amount, amount)

/-- Modelled from the spec: `Quantity.FromInt64` (not among the sources); a quantity is
non-negative, so a negative integer is rejected. -/
def FromInt64 (n : Int) : Except Error Nat :=
  if n < 0 then .error .ErrInvalidQuantity else .ok n.toNat

end quantity

/-! ## Data model (package `staking/api`) -/

/-- The general (spendable) part of an account. -/
structure GeneralAccount where
  balance : Nat := 0
  nonce : Nat := 0
  deriving DecidableEq, Repr

/-- A share pool `{balance, totalShares}`. -/
structure SharePool where
  balance : Nat := 0
  totalShares : Nat := 0
  deriving DecidableEq, Repr

/-- One step of the commission rate schedule. -/
structure CommissionRateStep where
  start : EpochTime
  rate : Nat
  deriving DecidableEq, Repr

/-- One step of the commission rate bound schedule. -/
structure CommissionRateBoundStep where
  start : EpochTime
  rateMin : Nat
  rateMax : Nat
  deriving DecidableEq, Repr

/-- The commission schedule of an escrow account. -/
structure CommissionSchedule where
  rates : List CommissionRateStep := []
  bounds : List CommissionRateBoundStep := []
  deriving DecidableEq, Repr

/-- The escrow part of an account. -/
structure EscrowAccount where
  active : SharePool := {}
  debonding : SharePool := {}
  commissionSchedule : CommissionSchedule := {}
  deriving DecidableEq, Repr

/-- A staking account. The zero value is what `Account` returns for an unknown address. -/
structure Account where
  general : GeneralAccount := {}
  escrow : EscrowAccount := {}
  deriving DecidableEq, Repr

/-- A delegation: shares held in the active pool of an escrow account. -/
structure Delegation where
  shares : Nat := 0
  deriving DecidableEq, Repr

/-- A debonding delegation: shares of the debonding pool and their release epoch. -/
structure DebondingDelegation where
  shares : Nat := 0
  debondEndTime : EpochTime := 0
  deriving DecidableEq, Repr

/-- One step of the reward schedule. -/
structure RewardStep where
  until_ : EpochTime
  scale : Nat
  deriving DecidableEq, Repr

/-- The rules every commission schedule obeys. -/
structure CommissionScheduleRules where
  rateChangeInterval : EpochTime := 0
  rateBoundLead : EpochTime := 0
  maxRateSteps : Nat := 0
  maxBoundSteps : Nat := 0
  minCommissionRate : Nat := 0
  deriving DecidableEq, Repr

/-- The consensus parameters of the staking application that the ledger reads. -/
structure ConsensusParameters where
  debondingInterval : EpochTime := 0
  rewardSchedule : List RewardStep := []
  commissionScheduleRules : CommissionScheduleRules := {}
  minTransactBalance : Nat := 0
  deriving DecidableEq, Repr

/-- Constants of package `staking/api`, which is not among the sources: the two reserved
addresses named in events and the two fixed denominators. -/
structure Constants where
  CommonPoolAddress : Address
  GovernanceDepositsAddress : Address
  CommissionRateDenominator : Nat
  RewardAmountDenominator : Nat
  deriving DecidableEq, Repr

/-- Modelled from the spec: `CommissionSchedule.IsEmpty` of package `staking/api` (not among
the sources); a schedule is empty when it has neither rate steps nor bound steps. -/
def CommissionSchedule.IsEmpty (cs : CommissionSchedule) : Bool :=
  cs.rates.isEmpty && cs.bounds.isEmpty

/-- The scan of `CurrentRate`: keep the last step that has started, stop at the first step
that starts after `now`. -/
def CommissionSchedule.latestStarted (now : EpochTime) :
    List CommissionRateStep → Option CommissionRateStep → Option CommissionRateStep
  | [], latest => latest
  | step :: rest, latest =>
    if now < step.start then latest else latestStarted now rest (some step)

/-- Modelled from the spec: `CommissionSchedule.CurrentRate` of package `staking/api` (not
among the sources); "current rate is looked up from the piecewise schedule at a given epoch",
`none` (Go `nil`) when no step has started. -/
def CommissionSchedule.CurrentRate (cs : CommissionSchedule) (now : EpochTime) : Option Nat :=
  (CommissionSchedule.latestStarted now cs.rates none).map (fun step => step.rate)

/-- Modelled from the spec: the share issuance of `SharePool.Deposit` (package `staking/api`,
not among the sources); "`new_shares = q × s / b` if `b > 0` and `s > 0`, else
`new_shares = q`", rounded down. -/
def SharePool.sharesForStake (p : SharePool) (amount : Nat) : Nat :=
  if 0 < p.balance ∧ 0 < p.totalShares then amount * p.totalShares / p.balance else amount

/-- Modelled from the spec: `SharePool.Deposit(shareDst, stakeSrc, amount)` of package
`staking/api` (not among the sources); moves `amount` from `stakeSrc` into the pool balance and
issues the new shares to the pool and to `shareDst`. Returns the new shares, the pool, the new
`shareDst` and the new `stakeSrc`. -/
def SharePool.Deposit (p : SharePool) (shareDst stakeSrc amount : Nat) :
    Except quantity.Error (Nat × SharePool × Nat × Nat) :=
  let shares := p.sharesForStake amount
  match quantity.Move p.balance stakeSrc amount with
  | .error e => .error e
  | .ok (bal, src) =>
    .ok (shares, { balance := bal, totalShares := p.totalShares + shares }, shareDst + shares, src)

/-- Modelled from the spec: the payout of `SharePool.Withdraw` (package `staking/api`, not among
the sources); "`out = n × b / s` (round down)". -/
def SharePool.stakeForShares (p : SharePool) (amount : Nat) : Nat :=
  amount * p.balance / p.totalShares

/-- Modelled from the spec: `SharePool.Withdraw(stakeDst, shareSrc, shareAmount)` of package
`staking/api` (not among the sources); takes `shareAmount` shares from `shareSrc` and from
the pool and moves their value out of the pool balance into `stakeDst`. Returns the pool, the
new `stakeDst` and the new `shareSrc`. -/
def SharePool.Withdraw (p : SharePool) (stakeDst shareSrc shareAmount : Nat) :
    Except quantity.Error (SharePool × Nat × Nat) :=
  let baseUnits := p.stakeForShares shareAmount
  match quantity.Sub shareSrc shareAmount with
  | .error e => .error e
  | .ok src =>
    match quantity.Sub p.totalShares shareAmount with
    | .error e => .error e
    | .ok total =>
      match quantity.Move stakeDst p.balance baseUnits with
      | .error e => .error e
      | .ok (dst, bal) => .ok ({ balance := bal, totalShares := total }, dst, src)

/-- Modelled from the spec: `DebondingDelegation.Merge` of package `staking/api` (not among the
sources); "entries with the same triple are merged on insert (shares added)". -/
def DebondingDelegation.Merge (d other : DebondingDelegation) :
    Except quantity.Error DebondingDelegation :=
  match quantity.Add d.shares other.shares with
  | .error e => .error e
  | .ok shares => .ok { d with shares := shares }

/-! ## Events -/

/-- The event of a transfer between general balances. -/
structure TransferEvent where
  From : Address
  To : Address
  Amount : Nat
  deriving DecidableEq, Repr

/-- The event of a deposit into an escrow account. -/
structure AddEscrowEvent where
  Owner : Address
  Escrow : Address
  Amount : Nat
  NewShares : Nat
  deriving DecidableEq, Repr

/-- The event of a slash. -/
structure TakeEscrowEvent where
  Owner : Address
  Amount : Nat
  DebondingAmount : Nat
  deriving DecidableEq, Repr

/-- The event of a released debonding delegation. -/
structure ReclaimEscrowEvent where
  Owner : Address
  Escrow : Address
  Amount : Nat
  Shares : Nat
  deriving DecidableEq, Repr

/-- The typed events of the staking application. -/
inductive Event where
  | Transfer (e : TransferEvent)
  | AddEscrow (e : AddEscrowEvent)
  | TakeEscrow (e : TakeEscrowEvent)
  | ReclaimEscrow (e : ReclaimEscrowEvent)
  deriving DecidableEq, Repr

/-! ## Errors -/

/-- Which side of a transfer is below the minimum balance. -/
inductive BalanceSide where
  | source
  | dest
  deriving DecidableEq, Repr

/-- The errors of the staking ledger. -/
inductive StakingError where
  /-- Go `staking.ErrInsufficientBalance`. -/
  | ErrInsufficientBalance
  /-- Go `staking.ErrBalanceTooLow`, with the context "source account" or "dest account". -/
  | ErrBalanceTooLow (side : BalanceSide)
  /-- The error "expected consensus parameters to be present in app state". -/
  | noConsensusParameters
  /-- An error of package `quantity`, wrapped by the caller. -/
  | quantity (e : quantity.Error)
  /-- The error "invalid account address" of `Account`, wrapped by the caller. -/
  | invalidAccountAddress (address : Address)
  deriving DecidableEq, Repr

/-! ## The key-value tree -/

/-- The first binding of `k`. -/
def kvGet {κ ν : Type} [DecidableEq κ] : List (κ × ν) → κ → Option ν
  | [], _ => none
  | (k1, v) :: rest, k => if k1 = k then some v else kvGet rest k

/-- Insert: overwrite the binding of `k`, or add one. -/
def kvInsert {κ ν : Type} [DecidableEq κ] : List (κ × ν) → κ → ν → List (κ × ν)
  | [], k, v => [(k, v)]
  | (k1, v1) :: rest, k, v =>
    if k1 = k then (k, v) :: rest else (k1, v1) :: kvInsert rest k v

/-- Remove: drop the binding of `k`. -/
def kvRemove {κ ν : Type} [DecidableEq κ] (m : List (κ × ν)) (k : κ) : List (κ × ν) :=
  m.filter (fun kv => decide (kv.1 ≠ k))

/-- Insert into a table of keys with empty values. -/
def keyInsert {κ : Type} [DecidableEq κ] (m : List κ) (k : κ) : List κ :=
  if k ∈ m then m else m ++ [k]

/-- Remove from a table of keys with empty values. -/
def keyRemove {κ : Type} [DecidableEq κ] (m : List κ) (k : κ) : List κ :=
  m.filter (fun k1 => decide (k1 ≠ k))

/-- The tables of the staking application, one field per key format. -/
structure State where
  /-- Key tag `0x50`: address → account. -/
  accounts : List (Address × Account) := []
  /-- Key tag `0x51`. -/
  totalSupply : Option Nat := none
  /-- Key tag `0x52`. -/
  commonPool : Option Nat := none
  /-- Key tag `0x53`: (escrow, delegator) → delegation. -/
  delegations : List ((Address × Address) × Delegation) := []
  /-- Key tag `0x54`: (delegator, escrow, epoch) → debonding delegation. -/
  debondingDelegations : List ((Address × Address × EpochTime) × DebondingDelegation) := []
  /-- Key tag `0x55`: (epoch, delegator, escrow), empty value. -/
  debondingQueue : List (EpochTime × Address × Address) := []
  /-- Key tag `0x56`. -/
  parameters : Option ConsensusParameters := none
  /-- Key tag `0x57`. -/
  lastBlockFees : Option Nat := none
  /-- Key tag `0x59`. -/
  governanceDeposits : Option Nat := none
  /-- Key tag `0x5A`: (delegator, escrow) → delegation. -/
  delegationsReverse : List ((Address × Address) × Delegation) := []
  /-- Key tag `0x5B`: address, empty value. -/
  commissionScheduleAddresses : List Address := []
  deriving DecidableEq, Repr

/-- The part of the ABCI context the ledger reads. -/
structure Context where
  checkOnly : Bool := false
  currentEpoch : EpochTime := 0
  deriving DecidableEq, Repr

deriving instance DecidableEq for Except

/-- What a call leaves behind: the tree, the emitted events and the Go return value. -/
structure Outcome (α : Type) where
  state : State
  events : List Event
  ret : Except StakingError α
  deriving DecidableEq

/-- Emit under `!ctx.IsCheckOnly()`. -/
def Context.emit (ctx : Context) (evs : List Event) : List Event :=
  if ctx.checkOnly then [] else evs

namespace State

/-- Embedding of `loadStoredBalance`: an absent key reads as zero. -/
def loadStoredBalance (v : Option Nat) : Nat := v.getD 0

/-- Embedding of `TotalSupply`. -/
def TotalSupply (s : State) : Nat := loadStoredBalance s.totalSupply

/-- Embedding of `CommonPool`. -/
def CommonPool (s : State) : Nat := loadStoredBalance s.commonPool

/-- Embedding of `LastBlockFees`. -/
def LastBlockFees (s : State) : Nat := loadStoredBalance s.lastBlockFees

/-- Embedding of `GovernanceDeposits`. -/
def GovernanceDeposits (s : State) : Nat := loadStoredBalance s.governanceDeposits

/-- Embedding of `ConsensusParameters`: an absent key is an error. -/
def ConsensusParameters (s : State) : Except StakingError ConsensusParameters :=
  match s.parameters with
  | none => .error .noConsensusParameters
  | some params => .ok params

/-- Embedding of `Account`: an address that is not valid is an error, and an absent key reads as
the zero account. `Address.IsValid` is a method of package `staking/api`, which is not among the
sources (it rejects the reserved addresses, such as the common pool address), so the test is the
parameter `IsValid` here and in every routine that loads an account. -/
def Account (IsValid : Address → Bool) (s : State) (address : Address) :
    Except StakingError Account :=
  if !IsValid address then
    .error (.invalidAccountAddress address)
  else
    match kvGet s.accounts address with
    | none => .ok {}
    | some ent => .ok ent

/-- The account that the tree holds for an address, the zero account when the key is absent: what
`Account` returns for a valid address. -/
def accountOf (s : State) (address : Address) : Staking.Account :=
  (kvGet s.accounts address).getD {}

/-- Embedding of `Delegation`: an absent key reads as the zero delegation. -/
def Delegation (s : State) (delegatorAddr escrowAddr : Address) : Delegation :=
  (kvGet s.delegations (escrowAddr, delegatorAddr)).getD {}

/-- Embedding of `DebondingDelegation`: an absent key reads as the zero debonding delegation. -/
def DebondingDelegation (s : State) (delegatorAddr escrowAddr : Address) (epoch : EpochTime) :
    DebondingDelegation :=
  (kvGet s.debondingDelegations (delegatorAddr, escrowAddr, epoch)).getD {}

/-- Embedding of `SetAccount`: store the account and update the commission schedule index. -/
def SetAccount (s : State) (addr : Address) (account : Staking.Account) : State :=
  { s with
    accounts := kvInsert s.accounts addr account
    commissionScheduleAddresses :=
      if account.escrow.commissionSchedule.IsEmpty then
        keyRemove s.commissionScheduleAddresses addr
      else
        keyInsert s.commissionScheduleAddresses addr }

/-- Embedding of `SetCommonPool`. -/
def SetCommonPool (s : State) (q : Nat) : State := { s with commonPool := some q }

/-- Embedding of `SetGovernanceDeposits`. -/
def SetGovernanceDeposits (s : State) (q : Nat) : State := { s with governanceDeposits := some q }

/-- Embedding of `SetDelegation`: a delegation without shares is removed from both indices. -/
def SetDelegation (s : State) (delegatorAddr escrowAddr : Address) (d : Staking.Delegation) :
    State :=
  if d.shares = 0 then
    { s with
      delegations := kvRemove s.delegations (escrowAddr, delegatorAddr)
      delegationsReverse := kvRemove s.delegationsReverse (delegatorAddr, escrowAddr) }
  else
    { s with
      delegations := kvInsert s.delegations (escrowAddr, delegatorAddr) d
      delegationsReverse := kvInsert s.delegationsReverse (delegatorAddr, escrowAddr) d }

/-- Embedding of `RemoveFromDebondingQueue`. -/
def RemoveFromDebondingQueue (s : State) (epoch : EpochTime) (delegatorAddr escrowAddr : Address) :
    State :=
  { s with debondingQueue := keyRemove s.debondingQueue (epoch, delegatorAddr, escrowAddr) }

/-- Embedding of `SetDebondingDelegation`: `none` (Go `nil`) removes the descriptor; otherwise the
descriptor is merged with a stored one of the same key, queued and stored. -/
def SetDebondingDelegation (s : State) (delegatorAddr escrowAddr : Address) (epoch : EpochTime)
    (d : Option Staking.DebondingDelegation) : Except StakingError State :=
  let key := (delegatorAddr, escrowAddr, epoch)
  match d with
  | none => .ok { s with debondingDelegations := kvRemove s.debondingDelegations key }
  | some d =>
    let debDel : Staking.DebondingDelegation :=
      { shares := d.shares, debondEndTime := d.debondEndTime }
    let merged : Except quantity.Error Staking.DebondingDelegation :=
      match kvGet s.debondingDelegations key with
      | none => .ok debDel
      | some deb => debDel.Merge deb
    match merged with
    | .error e => .error (.quantity e)
    | .ok debDel =>
      .ok { s with
        debondingQueue := keyInsert s.debondingQueue (d.debondEndTime, delegatorAddr, escrowAddr)
        debondingDelegations := kvInsert s.debondingDelegations key debDel }

end State

/-- Embedding of `CommissionScheduleAddresses`: the addresses of the commission schedule index,
in the ascending order in which the tree yields its keys. -/
def State.CommissionScheduleAddresses (s : State) : List Address :=
  s.commissionScheduleAddresses.insertionSort (fun a b => a ≤ b)

/-! ## Delegation queries -/

/-- The order of the keys of the two delegation indices in the tree: byte-wise on the encoding of
the two addresses, that is lexicographic on the pair. -/
def delegationKeyLe (a b : Address × Address) : Prop :=
  a.1 < b.1 ∨ (a.1 = b.1 ∧ a.2 ≤ b.2)

instance : DecidableRel delegationKeyLe := fun a b => by
  unfold delegationKeyLe
  infer_instance

/-- The iterator over a table of the tree: its bindings in ascending order of their keys, one
binding per key. -/
def kvIterator {κ ν : Type} [DecidableEq κ] (le : κ → κ → Prop) [DecidableRel le]
    (m : List (κ × ν)) : List (κ × ν) :=
  (((m.map Prod.fst).dedup).insertionSort le).filterMap
    (fun k => (kvGet m k).map (fun v => (k, v)))

/-- The iterator after `Seek` to the prefix of `addr`: the bindings whose first address is below
`addr` are skipped. -/
def seekAddress (addr : Address) (it : List ((Address × Address) × Delegation)) :
    List ((Address × Address) × Delegation) :=
  it.dropWhile (fun kv => decide (kv.1.1 < addr))

/-- The loop of `DelegationsFor` and of `DelegationsTo` over the iterator: it breaks at the first
key whose first address is not `addr`, and stores every delegation before that in the map, under
the second address of its key. -/
def delegationsScan (addr : Address) :
    List ((Address × Address) × Delegation) → List (Address × Delegation) →
      List (Address × Delegation)
  | [], delegations => delegations
  | ((first, second), del) :: rest, delegations =>
    if first ≠ addr then
      delegations
    else
      delegationsScan addr rest (kvInsert delegations second del)

/-- Embedding of `DelegationsFor`: the delegations of `delegatorAddr`, by escrow address, read
from the reverse index. -/
def State.DelegationsFor (s : State) (delegatorAddr : Address) :
    List (Address × Staking.Delegation) :=
  delegationsScan delegatorAddr
    (seekAddress delegatorAddr (kvIterator delegationKeyLe s.delegationsReverse)) []

/-- Embedding of `DelegationsTo`: the delegations to `destAddr`, by delegator address, read from
the forward index. -/
def State.DelegationsTo (s : State) (destAddr : Address) :
    List (Address × Staking.Delegation) :=
  delegationsScan destAddr
    (seekAddress destAddr (kvIterator delegationKeyLe s.delegations)) []

/-- The forward and the reverse delegation index hold the same pairs with the same values. -/
def State.DelegationIndicesAgree (s : State) : Prop :=
  ∀ delegatorAddr escrowAddr : Address,
    kvGet s.delegations (escrowAddr, delegatorAddr)
      = kvGet s.delegationsReverse (delegatorAddr, escrowAddr)

/-! ## Slashing -/

/-- Embedding of `slashPool(dst, p, amount, total)`: move `amount * p.Balance / total`, capped at
the pool balance, from the pool to `dst`. Returns the new `dst` and the pool. -/
def slashPool (dst : Nat) (p : SharePool) (amount total : Nat) :
    Except StakingError (Nat × SharePool) :=
  if total = 0 then
    -- Nothing to slash.
    .ok (dst, p)
  else
    match quantity.Mul p.balance amount with
    | .error e => .error (.quantity e)
    | .ok product =>
      match quantity.Quo product total with
      | .error e => .error (.quantity e)
      | .ok slashAmount =>
        match quantity.MoveUpTo dst p.balance slashAmount with
        | .error e => .error (.quantity e)
        | .ok (dst1, balance1, _) => .ok (dst1, { p with balance := balance1 })

/-- Embedding of `MutableState.SlashEscrow`: slash the active and the debonding pool of `fromAddr`
in proportion to their balances and move what was taken to the common pool. Returns the quantity
actually slashed. -/
def SlashEscrow (IsValid : Address → Bool) (ctx : Context) (s : State) (fromAddr : Address)
    (amount : Nat) : Outcome Nat :=
  let commonPool := s.CommonPool
  match s.Account IsValid fromAddr with
  | .error e => ⟨s, [], .error e⟩
  | .ok acct =>
  match quantity.Add acct.escrow.active.balance acct.escrow.debonding.balance with
  | .error e => ⟨s, [], .error (.quantity e)⟩
  | .ok total =>
    match slashPool 0 acct.escrow.active amount total with
    | .error e => ⟨s, [], .error e⟩
    | .ok (activeSlashed, active1) =>
      match slashPool 0 acct.escrow.debonding amount total with
      | .error e => ⟨s, [], .error e⟩
      | .ok (debondingSlashed, debonding1) =>
        match quantity.Add activeSlashed debondingSlashed with
        | .error e => ⟨s, [], .error (.quantity e)⟩
        | .ok totalSlashed =>
          if totalSlashed = 0 then
            -- Nothing was slashed.
            ⟨s, [], .ok totalSlashed⟩
          else
            match quantity.Move commonPool totalSlashed totalSlashed with
            | .error e => ⟨s, [], .error (.quantity e)⟩
            | .ok (commonPool1, _) =>
              let acct1 : Account :=
                { acct with
                  escrow := { acct.escrow with active := active1, debonding := debonding1 } }
              let s1 := s.SetCommonPool commonPool1
              let s2 := s1.SetAccount fromAddr acct1
              ⟨s2,
               ctx.emit [.TakeEscrow
                 { Owner := fromAddr, Amount := totalSlashed,
                   DebondingAmount := debondingSlashed }],
               .ok totalSlashed⟩

/-! ## Transfers -/

/-- Embedding of `MutableState.Transfer`: a transfer between two general balances. -/
def Transfer (IsValid : Address → Bool) (ctx : Context) (s : State) (fromAddr toAddr : Address)
    (amount : Nat) : Outcome Unit :=
  if fromAddr = toAddr ∨ amount = 0 then
    ⟨s, [], .ok ()⟩
  else
    match s.Account IsValid fromAddr with
    | .error e => ⟨s, [], .error e⟩
    | .ok fromAcct =>
    match s.Account IsValid toAddr with
    | .error e => ⟨s, [], .error e⟩
    | .ok toAcct =>
    match quantity.Move toAcct.general.balance fromAcct.general.balance amount with
    | .error _ => ⟨s, [], .error .ErrInsufficientBalance⟩
    | .ok (toBalance, fromBalance) =>
      -- Check against minimum balance.
      match s.ConsensusParameters with
      | .error e => ⟨s, [], .error e⟩
      | .ok params =>
        if fromBalance < params.minTransactBalance then
          ⟨s, [], .error (.ErrBalanceTooLow .source)⟩
        else if toBalance < params.minTransactBalance then
          ⟨s, [], .error (.ErrBalanceTooLow .dest)⟩
        else
          let s1 := s.SetAccount fromAddr
            { fromAcct with general := { fromAcct.general with balance := fromBalance } }
          let s2 := s1.SetAccount toAddr
            { toAcct with general := { toAcct.general with balance := toBalance } }
          ⟨s2, ctx.emit [.Transfer { From := fromAddr, To := toAddr, Amount := amount }], .ok ()⟩

/-- Embedding of `MutableState.computeCommission`: the commission for a rate and a total, and the
rest. A `none` rate (Go `nil`) stands for the `MinCommissionRate` consensus parameter. -/
def computeCommission (K : Constants) (s : State) (rate : Option Nat) (total : Nat) :
    Except StakingError (Nat × Nat) :=
  let rateOrMin : Except StakingError Nat :=
    match rate with
    | some r => .ok r
    | none =>
      match s.ConsensusParameters with
      | .error e => .error e
      | .ok params => .ok params.commissionScheduleRules.minCommissionRate
  match rateOrMin with
  | .error e => .error e
  | .ok r =>
    -- Multiply first.
    match quantity.Mul total r with
    | .error e => .error (.quantity e)
    | .ok product =>
      match quantity.Quo product K.CommissionRateDenominator with
      | .error e => .error (.quantity e)
      | .ok com =>
        match quantity.Sub total com with
        | .error e => .error (.quantity e)
        | .ok remaining => .ok (com, remaining)

/-! ## Transfers from and to the global pools -/

/-- Embedding of `MutableState.TransferFromCommon`: move up to `amount` from the common pool to
the general balance of `toAddr`; with `escrow` the moved stake is escrowed at once, split by the
commission rate of the account. Returns whether anything was moved. Events emitted before an error
stay in the outcome. -/
def TransferFromCommon (IsValid : Address → Bool) (K : Constants) (ctx : Context) (s : State)
    (toAddr : Address) (amount : Nat) (escrow : Bool) : Outcome Bool :=
  let commonPool := s.CommonPool
  match s.Account IsValid toAddr with
  | .error e => ⟨s, [], .error e⟩
  | .ok toAcct =>
  match quantity.MoveUpTo toAcct.general.balance commonPool amount with
  | .error e => ⟨s, [], .error (.quantity e)⟩
  | .ok (toBalance, commonPool1, transferred) =>
    if transferred = 0 then
      -- Common pool has been depleted, nothing to transfer.
      ⟨s, [], .ok false⟩
    else
      let to1 : Account := { toAcct with general := { toAcct.general with balance := toBalance } }
      match escrow with
      | true =>
        -- The commission, the account and the events after the non-commissioned part.
        let split : Except StakingError (Nat × Account × List Event) :=
          if to1.escrow.active.totalShares = 0 then
            -- If nothing has been escrowed before, everything counts as commission.
            .ok (transferred, to1, [])
          else
            let rate := to1.escrow.commissionSchedule.CurrentRate ctx.currentEpoch
            match computeCommission K s rate transferred with
            | .error e => .error e
            | .ok (com, rest) =>
              -- Escrow everything except the commission (increases value of all shares).
              match quantity.Move to1.escrow.active.balance to1.general.balance rest with
              | .error e => .error (.quantity e)
              | .ok (activeBalance, generalBalance) =>
                .ok (com,
                  { to1 with
                    general := { to1.general with balance := generalBalance }
                    escrow := { to1.escrow with
                      active := { to1.escrow.active with balance := activeBalance } } },
                  ctx.emit [.AddEscrow
                    { Owner := K.CommonPoolAddress, Escrow := toAddr, Amount := rest,
                      NewShares := 0 }])
        match split with
        | .error e => ⟨s, [], .error e⟩
        | .ok (com, to2, events1) =>
          -- Escrow commission.
          if com ≠ 0 then
            let delegation := s.Delegation toAddr toAddr
            match to2.escrow.active.Deposit delegation.shares to2.general.balance com with
            | .error e => ⟨s, events1, .error (.quantity e)⟩
            | .ok (obtainedShares, active3, shares3, generalBalance3) =>
              let to3 : Account :=
                { to2 with
                  general := { to2.general with balance := generalBalance3 }
                  escrow := { to2.escrow with active := active3 } }
              let s1 := s.SetDelegation toAddr toAddr { delegation with shares := shares3 }
              let events2 := ctx.emit
                [.Transfer { From := K.CommonPoolAddress, To := toAddr, Amount := com },
                 .AddEscrow
                  { Owner := toAddr, Escrow := toAddr, Amount := com,
                    NewShares := obtainedShares }]
              let s2 := s1.SetCommonPool commonPool1
              let s3 := s2.SetAccount toAddr to3
              ⟨s3, events1 ++ events2, .ok true⟩
          else
            let s2 := s.SetCommonPool commonPool1
            let s3 := s2.SetAccount toAddr to2
            ⟨s3, events1, .ok true⟩
      | false =>
        let events := ctx.emit
          [.Transfer { From := K.CommonPoolAddress, To := toAddr, Amount := transferred }]
        let s2 := s.SetCommonPool commonPool1
        let s3 := s2.SetAccount toAddr to1
        ⟨s3, events, .ok true⟩

/-- Embedding of `MutableState.TransferToGovernanceDeposits`: move `amount` from the general
balance of the submitter to the governance deposits pool. -/
def TransferToGovernanceDeposits (IsValid : Address → Bool) (K : Constants) (ctx : Context)
    (s : State) (fromAddr : Address) (amount : Nat) : Outcome Unit :=
  match s.Account IsValid fromAddr with
  | .error e => ⟨s, [], .error e⟩
  | .ok fromAcct =>
  let deposits := s.GovernanceDeposits
  match quantity.Move deposits fromAcct.general.balance amount with
  | .error e => ⟨s, [], .error (.quantity e)⟩
  | .ok (deposits1, fromBalance) =>
    let s1 := s.SetAccount fromAddr
      { fromAcct with general := { fromAcct.general with balance := fromBalance } }
    let s2 := s1.SetGovernanceDeposits deposits1
    ⟨s2,
     ctx.emit [.Transfer { From := fromAddr, To := K.GovernanceDepositsAddress, Amount := amount }],
     .ok ()⟩

/-- Embedding of `MutableState.TransferFromGovernanceDeposits`: move `amount` from the governance
deposits pool to the general balance of `toAddr`. -/
def TransferFromGovernanceDeposits (IsValid : Address → Bool) (K : Constants) (ctx : Context)
    (s : State) (toAddr : Address) (amount : Nat) : Outcome Unit :=
  match s.Account IsValid toAddr with
  | .error e => ⟨s, [], .error e⟩
  | .ok toAcct =>
  let deposits := s.GovernanceDeposits
  match quantity.Move toAcct.general.balance deposits amount with
  | .error e => ⟨s, [], .error (.quantity e)⟩
  | .ok (toBalance, deposits1) =>
    let s1 := s.SetAccount toAddr
      { toAcct with general := { toAcct.general with balance := toBalance } }
    let s2 := s1.SetGovernanceDeposits deposits1
    ⟨s2,
     ctx.emit [.Transfer { From := K.GovernanceDepositsAddress, To := toAddr, Amount := amount }],
     .ok ()⟩

/-- Embedding of `MutableState.DiscardGovernanceDeposit`: move `amount` from the governance
deposits pool to the common pool. -/
def DiscardGovernanceDeposit (K : Constants) (ctx : Context) (s : State) (amount : Nat) :
    Outcome Unit :=
  let commonPool := s.CommonPool
  let deposits := s.GovernanceDeposits
  match quantity.Move commonPool deposits amount with
  | .error e => ⟨s, [], .error (.quantity e)⟩
  | .ok (commonPool1, deposits1) =>
    let s1 := s.SetGovernanceDeposits deposits1
    let s2 := s1.SetCommonPool commonPool1
    ⟨s2,
     ctx.emit [.Transfer
       { From := K.GovernanceDepositsAddress, To := K.CommonPoolAddress, Amount := amount }],
     .ok ()⟩

/-! ## Rewards -/

namespace State

/-- Embedding of `RewardSchedule`. -/
def RewardSchedule (s : State) : Except StakingError (List RewardStep) :=
  match s.ConsensusParameters with
  | .error e => .error e
  | .ok params => .ok params.rewardSchedule

end State

/-- The search of `AddRewards` and `AddRewardSingleAttenuated` for the active step: the first
step of the schedule with `time < step.Until`. -/
def activeRewardStep (steps : List RewardStep) (time : EpochTime) : Option RewardStep :=
  steps.find? (fun step => decide (time < step.until_))

/-- The payment of a reward `q` that fits into the common pool, as both `AddRewards`
(lines 1246-1302) and `AddRewardSingleAttenuated` (lines 1381-1436) spell it out: split `q` by
the commission rate of the account, move the rest from the common pool to the active balance
without new shares, deposit the commission as the self-delegation of the account, store the
account. `commonPool` is the local copy of the common pool, which the caller stores later; the
return value is its new value. The events are emitted whatever the check-only flag says. -/
def payReward (K : Constants) (s : State) (commonPool : Nat) (time : EpochTime) (addr : Address)
    (ent : Account) (q : Nat) : Outcome Nat :=
  let rate := ent.escrow.commissionSchedule.CurrentRate time
  match computeCommission K s rate q with
  | .error e => ⟨s, [], .error e⟩
  | .ok (com, rest) =>
    -- The non-commissioned part, the common pool and the account after it.
    let moved : Except StakingError (Nat × Account × List Event) :=
      if rest ≠ 0 then
        match quantity.Move ent.escrow.active.balance commonPool rest with
        | .error e => .error (.quantity e)
        | .ok (activeBalance, commonPool1) =>
          .ok (commonPool1,
            { ent with
              escrow := { ent.escrow with
                active := { ent.escrow.active with balance := activeBalance } } },
            [.AddEscrow
              { Owner := K.CommonPoolAddress, Escrow := addr, Amount := rest, NewShares := 0 }])
      else
        .ok (commonPool, ent, [])
    match moved with
    | .error e => ⟨s, [], .error e⟩
    | .ok (commonPool1, ent1, events1) =>
      if com ≠ 0 then
        let delegation := s.Delegation addr addr
        match ent1.escrow.active.Deposit delegation.shares commonPool1 com with
        | .error e => ⟨s, events1, .error (.quantity e)⟩
        | .ok (obtainedShares, active2, shares2, commonPool2) =>
          let ent2 : Account := { ent1 with escrow := { ent1.escrow with active := active2 } }
          let s1 := s.SetDelegation addr addr { delegation with shares := shares2 }
          let events2 : List Event :=
            [.Transfer { From := K.CommonPoolAddress, To := addr, Amount := com },
             .AddEscrow
              { Owner := addr, Escrow := addr, Amount := com, NewShares := obtainedShares }]
          ⟨s1.SetAccount addr ent2, events1 ++ events2, .ok commonPool2⟩
      else
        ⟨s.SetAccount addr ent1, events1, .ok commonPool1⟩

/-- One turn of the loop of `AddRewards`, for the address `addr`. Returns the new value of
the local copy of the common pool. -/
def AddRewards.step (IsValid : Address → Bool) (K : Constants) (time : EpochTime) (factor : Nat)
    (activeStep : RewardStep) (s : State) (commonPool : Nat) (addr : Address) : Outcome Nat :=
  match s.Account IsValid addr with
  | .error e => ⟨s, [], .error e⟩
  | .ok ent =>
  -- Multiply first.
  match quantity.Mul ent.escrow.active.balance factor with
  | .error e => ⟨s, [], .error (.quantity e)⟩
  | .ok q1 =>
    match quantity.Mul q1 activeStep.scale with
    | .error e => ⟨s, [], .error (.quantity e)⟩
    | .ok q2 =>
      match quantity.Quo q2 K.RewardAmountDenominator with
      | .error e => ⟨s, [], .error (.quantity e)⟩
      | .ok q =>
        if q = 0 then
          ⟨s, [], .ok commonPool⟩
        else if q > commonPool then
          -- Not enough balance left in common pool, skip.
          ⟨s, [], .ok commonPool⟩
        else
          payReward K s commonPool time addr ent q

/-- The loop of `AddRewards` over the addresses; an error ends it at once. -/
def AddRewards.loop (IsValid : Address → Bool) (K : Constants) (time : EpochTime) (factor : Nat)
    (activeStep : RewardStep) : List Address → State → Nat → Outcome Nat
  | [], s, commonPool => ⟨s, [], .ok commonPool⟩
  | addr :: rest, s, commonPool =>
    let r := AddRewards.step IsValid K time factor activeStep s commonPool addr
    match r.ret with
    | .error e => ⟨r.state, r.events, .error e⟩
    | .ok commonPool1 =>
      let r2 := AddRewards.loop IsValid K time factor activeStep rest r.state commonPool1
      ⟨r2.state, r.events ++ r2.events, r2.ret⟩

/-- Embedding of `MutableState.AddRewards`: compute and transfer a staking reward to the active
escrow of every listed account; a reward that does not fit into the common pool is skipped. The
common pool is stored once, after the loop. -/
def AddRewards (IsValid : Address → Bool) (K : Constants) (_ctx : Context) (s : State)
    (time : EpochTime) (factor : Nat) (addresses : List Address) : Outcome Unit :=
  match s.RewardSchedule with
  | .error e => ⟨s, [], .error e⟩
  | .ok steps =>
    match activeRewardStep steps time with
    | none =>
      -- We are past the end of the schedule.
      ⟨s, [], .ok ()⟩
    | some activeStep =>
      let r := AddRewards.loop IsValid K time factor activeStep addresses s s.CommonPool
      match r.ret with
      | .error e => ⟨r.state, r.events, .error e⟩
      | .ok commonPool => ⟨r.state.SetCommonPool commonPool, r.events, .ok ()⟩

/-- Embedding of `MutableState.AddRewardSingleAttenuated`: compute, scale and transfer a staking
reward to one active escrow account. -/
def AddRewardSingleAttenuated (IsValid : Address → Bool) (K : Constants) (_ctx : Context)
    (s : State) (time : EpochTime) (factor : Nat)
    (attenuationNumerator attenuationDenominator : Int) (address : Address) : Outcome Unit :=
  match s.RewardSchedule with
  | .error e => ⟨s, [], .error e⟩
  | .ok steps =>
    match activeRewardStep steps time with
    | none =>
      -- We are past the end of the schedule.
      ⟨s, [], .ok ()⟩
    | some activeStep =>
      match quantity.FromInt64 attenuationNumerator with
      | .error e => ⟨s, [], .error (.quantity e)⟩
      | .ok numQ =>
        match quantity.FromInt64 attenuationDenominator with
        | .error e => ⟨s, [], .error (.quantity e)⟩
        | .ok denQ =>
          let commonPool := s.CommonPool
          match s.Account IsValid address with
          | .error e => ⟨s, [], .error e⟩
          | .ok acct =>
          -- Multiply first.
          match quantity.Mul acct.escrow.active.balance factor with
          | .error e => ⟨s, [], .error (.quantity e)⟩
          | .ok q1 =>
            match quantity.Mul q1 activeStep.scale with
            | .error e => ⟨s, [], .error (.quantity e)⟩
            | .ok q2 =>
              match quantity.Mul q2 numQ with
              | .error e => ⟨s, [], .error (.quantity e)⟩
              | .ok q3 =>
                match quantity.Quo q3 K.RewardAmountDenominator with
                | .error e => ⟨s, [], .error (.quantity e)⟩
                | .ok q4 =>
                  match quantity.Quo q4 denQ with
                  | .error e => ⟨s, [], .error (.quantity e)⟩
                  | .ok q =>
                    if q = 0 then
                      ⟨s, [], .ok ()⟩
                    else if q > commonPool then
                      -- Not enough balance left in common pool, skip.
                      ⟨s, [], .ok ()⟩
                    else
                      let r := payReward K s commonPool time address acct q
                      match r.ret with
                      | .error e => ⟨r.state, r.events, .error e⟩
                      | .ok commonPool1 =>
                        ⟨r.state.SetCommonPool commonPool1, r.events, .ok ()⟩

/-! ## Debonding -/

/-- An entry of the debonding queue together with its debonding delegation. -/
structure DebondingQueueEntry where
  Epoch : EpochTime
  DelegatorAddr : Address
  EscrowAddr : Address
  Delegation : DebondingDelegation
  deriving DecidableEq, Repr

/-- The order of the keys of the debonding queue in the tree: byte-wise on the encoding of
(epoch, delegator, escrow), that is lexicographic on the triple. -/
def debondingQueueKeyLe (a b : EpochTime × Address × Address) : Prop :=
  a.1 < b.1 ∨ (a.1 = b.1 ∧ (a.2.1 < b.2.1 ∨ (a.2.1 = b.2.1 ∧ a.2.2 ≤ b.2.2)))

instance : DecidableRel debondingQueueKeyLe := fun a b => by
  unfold debondingQueueKeyLe
  infer_instance

namespace State

/-- The iterator over the debonding queue: the tree yields its keys in ascending order. -/
def debondingQueueIterator (s : State) : List (EpochTime × Address × Address) :=
  s.debondingQueue.insertionSort debondingQueueKeyLe

/-- The loop of `ExpiredDebondingQueue` over the iterator: it breaks at the first key whose
epoch is after `epoch`. -/
def ExpiredDebondingQueue.scan (s : State) (epoch : EpochTime) :
    List (EpochTime × Address × Address) → List DebondingQueueEntry
  | [] => []
  | (decEpoch, delegatorAddr, escrowAddr) :: rest =>
    if decEpoch > epoch then
      []
    else
      { Epoch := decEpoch, DelegatorAddr := delegatorAddr, EscrowAddr := escrowAddr,
        Delegation := s.DebondingDelegation delegatorAddr escrowAddr decEpoch }
        :: ExpiredDebondingQueue.scan s epoch rest

/-- Embedding of `ExpiredDebondingQueue`: the entries of the debonding queue up to `epoch`. -/
def ExpiredDebondingQueue (s : State) (epoch : EpochTime) : List DebondingQueueEntry :=
  ExpiredDebondingQueue.scan s epoch s.debondingQueueIterator

end State

/-- One turn of the debonding loop of `onEpochChange`: redeem the shares of the entry from the
debonding pool of the escrow account, move the stake to the general balance of the delegator,
remove the queue entry and the debonding delegation, store the accounts and emit the event.
If delegator and escrow are the same account it is loaded and stored once. -/
def onEpochChange.release (IsValid : Address → Bool) (s : State) (e : DebondingQueueEntry) :
    Outcome Unit :=
  let deb := e.Delegation
  let shareAmount := deb.shares
  match s.Account IsValid e.DelegatorAddr with
  | .error err => ⟨s, [], .error err⟩
  | .ok delegator =>
  -- The same account is loaded once.
  let loaded : Except StakingError Account :=
    if e.DelegatorAddr = e.EscrowAddr then .ok delegator else s.Account IsValid e.EscrowAddr
  match loaded with
  | .error err => ⟨s, [], .error err⟩
  | .ok escrow =>
  match escrow.escrow.debonding.Withdraw 0 deb.shares shareAmount with
  | .error err => ⟨s, [], .error (.quantity err)⟩
  | .ok (debonding1, baseUnits, _) =>
    let stakeAmount := baseUnits
    -- The delegator account as the withdrawal left it.
    let delegator0 : Account :=
      if e.DelegatorAddr = e.EscrowAddr then
        { delegator with escrow := { delegator.escrow with debonding := debonding1 } }
      else delegator
    match quantity.Move delegator0.general.balance baseUnits stakeAmount with
    | .error err => ⟨s, [], .error (.quantity err)⟩
    | .ok (generalBalance, _) =>
      let delegator1 : Account :=
        { delegator0 with general := { delegator0.general with balance := generalBalance } }
      -- Update state.
      let s1 := s.RemoveFromDebondingQueue e.Epoch e.DelegatorAddr e.EscrowAddr
      match s1.SetDebondingDelegation e.DelegatorAddr e.EscrowAddr e.Delegation.debondEndTime
          none with
      | .error err => ⟨s1, [], .error err⟩
      | .ok s2 =>
        let s3 := s2.SetAccount e.DelegatorAddr delegator1
        let s4 :=
          if e.DelegatorAddr ≠ e.EscrowAddr then
            s3.SetAccount e.EscrowAddr
              { escrow with escrow := { escrow.escrow with debonding := debonding1 } }
          else s3
        ⟨s4,
         [.ReclaimEscrow
           { Owner := e.DelegatorAddr, Escrow := e.EscrowAddr, Amount := stakeAmount,
             Shares := shareAmount }],
         .ok ()⟩

/-- The debonding loop of `onEpochChange` over the expired entries; an error ends it. -/
def onEpochChange.releaseAll (IsValid : Address → Bool) :
    List DebondingQueueEntry → State → Outcome Unit
  | [], s => ⟨s, [], .ok ()⟩
  | e :: rest, s =>
    let r := onEpochChange.release IsValid s e
    match r.ret with
    | .error err => ⟨r.state, r.events, .error err⟩
    | .ok () =>
      let r2 := onEpochChange.releaseAll IsValid rest r.state
      ⟨r2.state, r.events ++ r2.events, r2.ret⟩

/-- Embedding of `Application.onEpochChange`: release the debonding delegations whose period has
elapsed, then add the signing rewards. `rewardEpochSigning` is a method of the application that is
not among the sources, so it is a parameter here. -/
def onEpochChange (IsValid : Address → Bool)
    (rewardEpochSigning : State → EpochTime → Outcome Unit) (s : State) (epoch : EpochTime) :
    Outcome Unit :=
  let expiredDebondingQueue := s.ExpiredDebondingQueue epoch
  let r := onEpochChange.releaseAll IsValid expiredDebondingQueue s
  match r.ret with
  | .error err => ⟨r.state, r.events, .error err⟩
  | .ok () =>
    -- Add signing rewards.
    let r2 := rewardEpochSigning r.state epoch
    ⟨r2.state, r.events ++ r2.events, r2.ret⟩

/-! ## Epoch signing -/

/-- A public key of an entity; the order of the numbers is the byte-wise order of the keys. -/
abbrev PublicKey := Nat

/-- The largest `uint64`, Go `math.MaxUint64`. -/
def maxUint64 : Nat := 2 ^ 64 - 1

/-- The ways in which the methods of `EpochSigning` fail. The Go errors are formatted strings;
the Go run-time panic of an integer division by zero is listed with them. -/
inductive EpochSigningError where
  | totalOverflow
  | countOverflow
  | thresholdOverflow
  | comparisonOverflow
  | divisionByZero
  deriving DecidableEq, Repr

/-- Embedding of `EpochSigning`: the blocks of the epoch and, per entity, the blocks it signed.
The counters are `uint64`; the map is a table whose absent keys read as zero. -/
structure EpochSigning where
  Total : Nat := 0
  ByEntity : List (PublicKey × Nat) := []
  deriving DecidableEq, Repr

/-- The loop of `Update` over the signing entities: the count of each is incremented in `uint64`
arithmetic and stored; an increment that wraps around ends the loop with an error. Returns the
map and the Go return value. -/
def EpochSigning.Update.loop :
    List PublicKey → List (PublicKey × Nat) →
      List (PublicKey × Nat) × Except EpochSigningError Unit
  | [], byEntity => (byEntity, .ok ())
  | entityID :: rest, byEntity =>
    let oldCount := (kvGet byEntity entityID).getD 0
    let byEntity1 := kvInsert byEntity entityID ((oldCount + 1) % 2 ^ 64)
    if (kvGet byEntity1 entityID).getD 0 ≤ oldCount then
      (byEntity1, .error .countOverflow)
    else
      EpochSigning.Update.loop rest byEntity1

/-- Embedding of `EpochSigning.Update`: count one more block, and one more signed block for each
of the signing entities. Returns the receiver as the call leaves it and the Go return value. -/
def EpochSigning.Update (es : EpochSigning) (signingEntities : List PublicKey) :
    EpochSigning × Except EpochSigningError Unit :=
  let oldTotal := es.Total
  let es1 : EpochSigning := { es with Total := (oldTotal + 1) % 2 ^ 64 }
  if es1.Total ≤ oldTotal then
    (es1, .error .totalOverflow)
  else
    let r := EpochSigning.Update.loop signingEntities es1.ByEntity
    ({ es1 with ByEntity := r.1 }, r.2)

/-- The loop of `EligibleEntities` over the map: an entity whose count times the denominator does
not reach the premultiplied threshold is skipped, the others are appended. -/
def EpochSigning.EligibleEntities.loop (thresholdDenominator thresholdPremultiplied : Nat) :
    List (PublicKey × Nat) → List PublicKey → Except EpochSigningError (List PublicKey)
  | [], eligibleEntities => .ok eligibleEntities
  | (entityID, count) :: rest, eligibleEntities =>
    if thresholdDenominator = 0 then
      .error .divisionByZero
    else if count > maxUint64 / thresholdDenominator then
      .error .comparisonOverflow
    else if (count * thresholdDenominator) % 2 ^ 64 < thresholdPremultiplied then
      EpochSigning.EligibleEntities.loop thresholdDenominator thresholdPremultiplied rest
        eligibleEntities
    else
      EpochSigning.EligibleEntities.loop thresholdDenominator thresholdPremultiplied rest
        (eligibleEntities ++ [entityID])

/-- Embedding of `EpochSigning.EligibleEntities`: the entities that signed at least the fraction
`thresholdNumerator / thresholdDenominator` of the blocks of the epoch, sorted by public key.
The Go map is ranged over in no particular order; here in the order of the keys. -/
def EpochSigning.EligibleEntities (es : EpochSigning)
    (thresholdNumerator thresholdDenominator : Nat) :
    Except EpochSigningError (List PublicKey) :=
  if thresholdNumerator = 0 then
    .error .divisionByZero
  else if es.Total > maxUint64 / thresholdNumerator then
    .error .thresholdOverflow
  else
    let thresholdPremultiplied := (es.Total * thresholdNumerator) % 2 ^ 64
    match EpochSigning.EligibleEntities.loop thresholdDenominator thresholdPremultiplied
        (kvIterator (fun a b : PublicKey => a ≤ b) es.ByEntity) [] with
    | .error e => .error e
    | .ok eligibleEntities => .ok (eligibleEntities.insertionSort (fun a b => a ≤ b))

/-- The count of an entity, Go `es.ByEntity[entityID]`. -/
def EpochSigning.count (es : EpochSigning) (entityID : PublicKey) : Nat :=
  (kvGet es.ByEntity entityID).getD 0

/-- The counters are `uint64` values. -/
def EpochSigning.InRange (es : EpochSigning) : Prop :=
  es.Total < 2 ^ 64 ∧ ∀ kv ∈ es.ByEntity, kv.2 < 2 ^ 64

instance (es : EpochSigning) : Decidable es.InRange := by
  unfold EpochSigning.InRange
  infer_instance

/-! ## Supply -/

/-- The stake an account holds: general balance, active escrow and debonding escrow. -/
def Account.total (a : Account) : Nat :=
  a.general.balance + a.escrow.active.balance + a.escrow.debonding.balance

namespace State

/-- The stake held by all stored accounts. -/
def accountsTotal (s : State) : Nat := (s.accounts.map (fun kv => kv.2.total)).sum

/-- The sum that the total supply is compared with: common pool, governance deposits, last
block fees and the stake of all accounts. -/
def supplySum (s : State) : Nat :=
  s.CommonPool + s.GovernanceDeposits + s.LastBlockFees + s.accountsTotal

/-- The part of the supply sum that is outside the common pool. -/
def outsideCommonPool (s : State) : Nat :=
  s.GovernanceDeposits + s.LastBlockFees + s.accountsTotal

/-- Two states hold the same accounts, the same global balances and the same stored total
supply. -/
def SameLedger (s1 s2 : State) : Prop :=
  s1.accounts = s2.accounts ∧ s1.commonPool = s2.commonPool ∧
  s1.governanceDeposits = s2.governanceDeposits ∧ s1.lastBlockFees = s2.lastBlockFees ∧
  s1.totalSupply = s2.totalSupply

end State

/-! ## Auxiliary definitions of the statements -/

/-- The address test under which every address is valid: no load of an account fails. -/
def allValid : Address → Bool := fun _ => true

/-- The address test of the scenarios: the common pool address 100 and the governance deposits
address 101 of `rewardConstants` are reserved, every other address is valid. -/
def scenarioValid : Address → Bool := fun address => decide (address ≠ 100 ∧ address ≠ 101)

/-- The part of a pool with balance `b` that a slash of `amount` takes, where `total` is the
sum of the two pool balances of the account: `⌊b · amount / total⌋`, capped at `b`. -/
def slashedPart (b amount total : Nat) : Nat := min b (b * amount / total)

/-- The account that `SlashEscrow` stores for an account `acct` slashed by `amount`. -/
def slashedAccount (acct : Account) (amount : Nat) : Account :=
  let total := acct.escrow.active.balance + acct.escrow.debonding.balance
  { acct with
    escrow := { acct.escrow with
      active := { acct.escrow.active with
        balance := acct.escrow.active.balance
          - slashedPart acct.escrow.active.balance amount total }
      debonding := { acct.escrow.debonding with
        balance := acct.escrow.debonding.balance
          - slashedPart acct.escrow.debonding.balance amount total } } }

/-- Share-pool coherence: the pool is empty on both sides together. -/
def SharePool.Coherent (p : SharePool) : Prop := p.totalShares = 0 ↔ p.balance = 0

instance (p : SharePool) : Decidable p.Coherent := by
  unfold SharePool.Coherent
  infer_instance

/-- Debonding closure: every stored debonding delegation `(delegator, escrow, epoch)` has the
queue entry `(epoch, delegator, escrow)`, and every queue entry resolves to a stored debonding
delegation. -/
def State.DebondingClosure (s : State) : Prop :=
  (∀ kv ∈ s.debondingDelegations, (kv.1.2.2, kv.1.1, kv.1.2.1) ∈ s.debondingQueue) ∧
  (∀ k ∈ s.debondingQueue, (kvGet s.debondingDelegations (k.2.1, k.2.2, k.1)).isSome = true)

instance (s : State) : Decidable s.DebondingClosure := by
  unfold State.DebondingClosure
  infer_instance

/-- Every stored debonding delegation carries, as its `DebondEndTime`, the epoch of the key it is
stored under. -/
def State.DebondEndTimesMatch (s : State) : Prop :=
  ∀ kv ∈ s.debondingDelegations, kv.2.debondEndTime = kv.1.2.2

instance (s : State) : Decidable s.DebondEndTimesMatch := by
  unfold State.DebondEndTimesMatch
  infer_instance

/-- The shares that the entries of `entries` hold in the debonding pool of the escrow account
`x`. -/
def debondingSharesOf (entries : List DebondingQueueEntry) (x : Address) : Nat :=
  ((entries.filter (fun e => decide (e.EscrowAddr = x))).map (fun e => e.Delegation.shares)).sum

/-- The debonding pools hold the shares that debond until `epoch`: for every expired entry, the
shares of all expired entries of its escrow account are at most the `totalShares` of the
debonding pool of that account. -/
def State.HoldsExpiredShares (s : State) (epoch : EpochTime) : Prop :=
  ∀ e ∈ s.ExpiredDebondingQueue epoch,
    debondingSharesOf (s.ExpiredDebondingQueue epoch) e.EscrowAddr
      ≤ (s.accountOf e.EscrowAddr).escrow.debonding.totalShares

instance (s : State) (epoch : EpochTime) : Decidable (s.HoldsExpiredShares epoch) := by
  unfold State.HoldsExpiredShares
  infer_instance

/-- The expired entries carry, as the `DebondEndTime` of their debonding delegation, the epoch of
their queue key. -/
def State.ExpiredEndTimesMatch (s : State) (epoch : EpochTime) : Prop :=
  ∀ e ∈ s.ExpiredDebondingQueue epoch, e.Delegation.debondEndTime = e.Epoch

instance (s : State) (epoch : EpochTime) : Decidable (s.ExpiredEndTimesMatch epoch) := by
  unfold State.ExpiredEndTimesMatch
  infer_instance

/-! ## Scenarios -/

/-- Scenario A of the specification: a supply of 1000, all of it in the general balance of
Alice (address 1); Bob is address 2. -/
def scenarioA (minTransactBalance : Nat) : State :=
  { accounts := [(1, { general := { balance := 1000 } })]
    totalSupply := some 1000
    parameters := some { minTransactBalance := minTransactBalance } }

/-- Scenario B of the specification: the whole supply of 1000 is escrowed to one entity
(address 1), in its active pool; an equivocation is slashed by `MaxInt64`. -/
def scenarioB : State :=
  { accounts := [(1, { escrow := { active := { balance := 1000, totalShares := 1000 } } })]
    totalSupply := some 1000
    delegations := [((1, 1), { shares := 1000 })]
    delegationsReverse := [((1, 1), { shares := 1000 })]
    parameters := some {} }

/-- An account with stake in both pools: 600 active and 400 debonding. -/
def twoPoolState : State :=
  { accounts := [(1, { escrow := { active := { balance := 600, totalShares := 300 }
                                   debonding := { balance := 400, totalShares := 400 } } })]
    totalSupply := some 1000
    parameters := some {} }

/-- Scenario D of the specification after the reclaim: delegator 1 has reclaimed all 1000
shares from escrow account 2; they debond until epoch 2. -/
def scenarioD : State :=
  { accounts := [(1, {}),
                 (2, { escrow := { debonding := { balance := 1000, totalShares := 1000 } } })]
    totalSupply := some 1000
    debondingDelegations := [((1, 2, 2), { shares := 1000, debondEndTime := 2 })]
    debondingQueue := [(2, 1, 2)]
    parameters := some { debondingInterval := 2 } }

/-- A state with a funded common pool, a reward schedule and two escrow accounts, the first
with a commission rate of 20%. -/
def rewardState : State :=
  { accounts :=
      [(1, { general := { balance := 10 }
             escrow := { active := { balance := 1000, totalShares := 500 }
                         commissionSchedule := { rates := [{ start := 0, rate := 20000 }] } } }),
       (2, { escrow := { active := { balance := 3000, totalShares := 3000 } } })]
    totalSupply := some 6010
    commonPool := some 1500
    governanceDeposits := some 500
    delegations := [((1, 1), { shares := 500 }), ((2, 2), { shares := 3000 })]
    delegationsReverse := [((1, 1), { shares := 500 }), ((2, 2), { shares := 3000 })]
    commissionScheduleAddresses := [1]
    parameters := some { rewardSchedule := [{ until_ := 10, scale := 1000 }]
                         minTransactBalance := 1 } }

/-- The constants of `rewardState`. -/
def rewardConstants : Constants :=
  { CommonPoolAddress := 100
    GovernanceDepositsAddress := 101
    CommissionRateDenominator := 100000
    RewardAmountDenominator := 100000000 }

/-- An account with shares and a commission rate of 200%, twice the denominator, and a funded
common pool. -/
def overUnityState : State :=
  { accounts :=
      [(1, { escrow := { active := { balance := 1000, totalShares := 500 }
                         commissionSchedule := { rates := [{ start := 0, rate := 200000 }] } } })]
    totalSupply := some 2500
    commonPool := some 1500
    delegations := [((1, 1), { shares := 500 })]
    delegationsReverse := [((1, 1), { shares := 500 })]
    commissionScheduleAddresses := [1]
    parameters := some {} }

/-- Scenario D with a debonding pool that holds 500 shares only, fewer than the 1000 shares of
the debonding delegation. -/
def shortPoolState : State :=
  { accounts := [(1, {}),
                 (2, { escrow := { debonding := { balance := 500, totalShares := 500 } } })]
    totalSupply := some 500
    debondingDelegations := [((1, 2, 2), { shares := 1000, debondEndTime := 2 })]
    debondingQueue := [(2, 1, 2)]
    parameters := some { debondingInterval := 2 } }

/-- Scenario D with a debonding delegation that is stored and queued under epoch 2 but carries
the `DebondEndTime` 3. -/
def endTimeMismatchState : State :=
  { accounts := [(1, {}),
                 (2, { escrow := { debonding := { balance := 1000, totalShares := 1000 } } })]
    totalSupply := some 1000
    debondingDelegations := [((1, 2, 2), { shares := 1000, debondEndTime := 3 })]
    debondingQueue := [(2, 1, 2)]
    parameters := some { debondingInterval := 2 } }

/-- Scenario D with the common pool address 100, which is reserved, as the delegator of the
debonding delegation. -/
def reservedDelegatorState : State :=
  { accounts := [(2, { escrow := { debonding := { balance := 1000, totalShares := 1000 } } })]
    totalSupply := some 1000
    debondingDelegations := [((100, 2, 2), { shares := 1000, debondEndTime := 2 })]
    debondingQueue := [(2, 100, 2)]
    parameters := some { debondingInterval := 2 } }

end Staking

/-!
# Node upgrade manager

A shallow embedding of `go/upgrade/upgrade.go`.

* The manager is the record of its pending list, its stop flag and the value its store holds
  under the key `descriptors`. The mutex is not modelled: every method runs under the lock.
* Failures of the store are not modelled, so `flushDescriptorLocked` has no error of its own.
* The pending list holds pointers, and the loops update the upgrades they visit in place. A
  method that returns an error half-way leaves the updates it made so far in the list.
* A method returns an `Outcome`: the manager as the call leaves it, the migration steps of
  handlers it invoked, and its Go return value.
-/

namespace Upgrade

/-- The name of a migration handler. -/
abbrev HandlerName := Nat

/-- Modelled from the spec: the upgrade descriptor of package `upgrade/api` (not among the
sources), which names the handler, the target version and the upgrade epoch. -/
structure Descriptor where
  Handler : HandlerName
  Target : Nat := 0
  Epoch : Staking.EpochTime
  deriving DecidableEq, Repr

/-- Modelled from the spec: `Descriptor.Equals` of package `upgrade/api` (not among the
sources); "submitting an equal descriptor twice". -/
def Descriptor.Equals (d other : Descriptor) : Bool := decide (d = other)

/-- The stages of an upgrade that a pending upgrade records. -/
inductive UpgradeStage where
  | Startup
  | Consensus
  deriving DecidableEq, Repr

/-- Modelled from the spec: `InvalidUpgradeHeight` of package `upgrade/api` (not among the
sources). The pending upgrade that `SubmitDescriptor` creates has the zero height and is
"Submitted — `UpgradeHeight == Invalid`". -/
def InvalidUpgradeHeight : Int := 0

/-- Modelled from the spec: `PendingUpgrade` of package `upgrade/api` (not among the sources): the
descriptor, the height at which the upgrade epoch was seen, and the stages recorded. -/
structure PendingUpgrade where
  Descriptor : Descriptor
  UpgradeHeight : Int := 0
  Stages : List UpgradeStage := []
  deriving DecidableEq, Repr

/-- Modelled from the spec: `PendingUpgrade.HasStage` (not among the sources); the stage is
recorded. -/
def PendingUpgrade.HasStage (pu : PendingUpgrade) (stage : UpgradeStage) : Bool :=
  decide (stage ∈ pu.Stages)

/-- Modelled from the spec: `PendingUpgrade.HasAnyStages` (not among the sources); some stage is
recorded. -/
def PendingUpgrade.HasAnyStages (pu : PendingUpgrade) : Bool := !pu.Stages.isEmpty

/-- Modelled from the spec: `PendingUpgrade.PushStage` (not among the sources); records the
stage. -/
def PendingUpgrade.PushStage (pu : PendingUpgrade) (stage : UpgradeStage) : PendingUpgrade :=
  { pu with Stages := pu.Stages ++ [stage] }

/-- Modelled from the spec: `PendingUpgrade.IsCompleted` (not among the sources); "Completed —
all stages present". -/
def PendingUpgrade.IsCompleted (pu : PendingUpgrade) : Bool :=
  pu.HasStage .Startup && pu.HasStage .Consensus

/-- The errors of the upgrade manager: the sentinel errors of package `upgrade/api`, the errors
of handlers and of the handler registry and the compatibility check, and the Go panic of
`ConsensusUpgrade`. -/
inductive UpgradeError where
  | ErrBadDescriptor
  | ErrAlreadyPending
  | ErrUpgradeInProgress
  | ErrStopForUpgrade
  | ErrUpgradeNotFound
  | other (code : Nat)
  | panicFutureHeight
  deriving DecidableEq, Repr

/-- The private context that the consensus layer passes to `ConsensusUpgrade`. -/
abbrev PrivateCtx := Nat

/-- A migration handler of package `upgrade/migrations` (not among the sources): whether it has a
startup stage, and the results of its two migration steps. -/
structure Handler where
  HasStartupUpgrade : Bool
  StartupUpgrade : Except UpgradeError Unit
  ConsensusUpgrade : PrivateCtx → Except UpgradeError Unit

/-- What the manager calls outside its own package: the handler registry
`migrations.GetHandler` and the check `Descriptor.EnsureCompatible` of the running binary. -/
structure Environment where
  GetHandler : HandlerName → Except UpgradeError Handler
  EnsureCompatible : Descriptor → Except UpgradeError Unit

/-- A migration step of a handler that a method invoked: the pending upgrade it ran for, as it
was at the call, and the stage. -/
structure Invocation where
  upgrade : PendingUpgrade
  stage : UpgradeStage
  deriving DecidableEq, Repr

/-- Embedding of `upgradeManager`: the pending list, the stop flag and the list the store
holds under `metadataStoreKey` (`none` when the key is absent). -/
structure upgradeManager where
  pending : List PendingUpgrade := []
  shouldStop : Bool := false
  store : Option (List PendingUpgrade) := none
  deriving DecidableEq, Repr

/-- What a call leaves behind. -/
structure Outcome where
  manager : upgradeManager
  invoked : List Invocation
  ret : Except UpgradeError Unit
  deriving DecidableEq

/-- What the store holds after the pending list `pending` was flushed: nothing when the list is
empty. -/
def storeOf (pending : List PendingUpgrade) : Option (List PendingUpgrade) :=
  if pending.length = 0 then none else some pending

/-- Embedding of `flushDescriptorLocked`: drop the completed upgrades from the pending list and
persist the list, or delete the key when the list is empty. -/
def flushDescriptorLocked (u : upgradeManager) : upgradeManager :=
  let pending := u.pending.filter (fun pu => !pu.IsCompleted)
  { u with pending := pending, store := storeOf pending }

/-- Embedding of `SubmitDescriptor`; `none` is the Go `nil` descriptor. -/
def SubmitDescriptor (u : upgradeManager) (descriptor : Option Descriptor) : Outcome :=
  match descriptor with
  | none => ⟨u, [], .error .ErrBadDescriptor⟩
  | some descriptor =>
    if u.pending.any (fun pu => pu.Descriptor.Equals descriptor) then
      ⟨u, [], .error .ErrAlreadyPending⟩
    else
      let pending : PendingUpgrade := { Descriptor := descriptor }
      ⟨flushDescriptorLocked { u with pending := u.pending ++ [pending] }, [], .ok ()⟩

/-- The loop of `CancelUpgrade`: keep the upgrades of other descriptors; an upgrade of the
descriptor that has a height or a stage ends the loop with an error. -/
def CancelUpgrade.scan (descriptor : Descriptor) :
    List PendingUpgrade → List PendingUpgrade → Except UpgradeError (List PendingUpgrade)
  | [], pending => .ok pending
  | pu :: rest, pending =>
    if !pu.Descriptor.Equals descriptor then
      CancelUpgrade.scan descriptor rest (pending ++ [pu])
    else if pu.UpgradeHeight ≠ InvalidUpgradeHeight ∨ pu.HasAnyStages = true then
      .error .ErrUpgradeInProgress
    else
      CancelUpgrade.scan descriptor rest pending

/-- Embedding of `CancelUpgrade`; `none` is the Go `nil` descriptor. -/
def CancelUpgrade (u : upgradeManager) (descriptor : Option Descriptor) : Outcome :=
  match descriptor with
  | none => ⟨u, [], .error .ErrBadDescriptor⟩
  | some descriptor =>
    if u.pending.length = 0 then
      -- Make sure nothing is saved.
      ⟨flushDescriptorLocked u, [], .ok ()⟩
    else
      match CancelUpgrade.scan descriptor u.pending [] with
      | .error e => ⟨u, [], .error e⟩
      | .ok pending => ⟨flushDescriptorLocked { u with pending := pending }, [], .ok ()⟩

/-- The loop of `StartupUpgrade`. `done` are the upgrades visited so far, as the loop left them;
the result is the pending list, the steps invoked and the Go return value. -/
def StartupUpgrade.loop (env : Environment) :
    List PendingUpgrade → List PendingUpgrade → List Invocation →
      List PendingUpgrade × List Invocation × Except UpgradeError Unit
  | done, [], invoked => (done, invoked, .ok ())
  | done, pu :: rest, invoked =>
    if pu.UpgradeHeight = InvalidUpgradeHeight then
      StartupUpgrade.loop env (done ++ [pu]) rest invoked
    else if pu.HasStage .Startup then
      StartupUpgrade.loop env (done ++ [pu]) rest invoked
    else
      -- Execute the startup stage.
      match env.GetHandler pu.Descriptor.Handler with
      | .error e => (done ++ pu :: rest, invoked, .error e)
      | .ok handler =>
        match handler.StartupUpgrade with
        | .error e => (done ++ pu :: rest, invoked ++ [⟨pu, .Startup⟩], .error e)
        | .ok () =>
          StartupUpgrade.loop env (done ++ [pu.PushStage .Startup]) rest
            (invoked ++ [⟨pu, .Startup⟩])

/-- Embedding of `StartupUpgrade`. -/
def StartupUpgrade (env : Environment) (u : upgradeManager) : Outcome :=
  let r := StartupUpgrade.loop env [] u.pending []
  match r.2.2 with
  | .error e => ⟨{ u with pending := r.1 }, r.2.1, .error e⟩
  | .ok () => ⟨flushDescriptorLocked { u with pending := r.1 }, r.2.1, .ok ()⟩

/-- An element of the slice that the loop of `ConsensusUpgrade` ranges over: the upgrade, which
the loop updates in place, and whether the pending list of the manager still holds it. The loop
ranges over the slice as it was at the start, while `flushDescriptorLocked` replaces the pending
list of the manager by a shorter one. -/
structure Slot where
  pu : PendingUpgrade
  listed : Bool
  deriving DecidableEq, Repr

/-- The slot of an upgrade that the loop has not visited yet: a flush during this call has
dropped it from the pending list if it was completed. -/
def Slot.unvisited (flushed : Bool) (pu : PendingUpgrade) : Slot :=
  ⟨pu, !(flushed && pu.IsCompleted)⟩

/-- The effect of `flushDescriptorLocked` on the slots: a completed upgrade is no longer
listed. -/
def flushSlots (slots : List Slot) : List Slot :=
  slots.map (fun sl => { sl with listed := sl.listed && !sl.pu.IsCompleted })

/-- The pending list of the manager: the listed upgrades, in the order of the slice. -/
def listedUpgrades (slots : List Slot) : List PendingUpgrade :=
  (slots.filter (fun sl => sl.listed)).map (fun sl => sl.pu)

/-- The decision of `ConsensusUpgrade` whether the node must stop for the upgrade: the binary is
not compatible, the handler is not available, or the handler has a startup stage. -/
def ConsensusUpgrade.mustStop (env : Environment) (pu : PendingUpgrade) : Bool :=
  match env.EnsureCompatible pu.Descriptor with
  | .error _ => true
  | .ok () =>
    match env.GetHandler pu.Descriptor.Handler with
    | .error _ => true
    | .ok handler => handler.HasStartupUpgrade

/-- The part of a turn of the loop of `ConsensusUpgrade` that follows the stamping of the height:
an upgrade below the current height gets the consensus stage; one above it is the Go panic; at the
height the consensus step of the handler runs unless the stage is recorded or there is no private
context. Returns the upgrade, the steps invoked and the Go error, if any. -/
def ConsensusUpgrade.atHeight (env : Environment) (privateCtx : Option PrivateCtx)
    (currentHeight : Int) (pu : PendingUpgrade) :
    PendingUpgrade × List Invocation × Except UpgradeError Unit :=
  -- If we're already past the upgrade height, then everything must be complete.
  if pu.UpgradeHeight < currentHeight then
    (pu.PushStage .Consensus, [], .ok ())
  else if pu.UpgradeHeight > currentHeight then
    (pu, [], .error .panicFutureHeight)
  else
    match privateCtx with
    | none => (pu, [], .ok ())
    | some ctx =>
      if !pu.HasStage .Consensus then
        match env.GetHandler pu.Descriptor.Handler with
        | .error e => (pu, [], .error e)
        | .ok handler =>
          match handler.ConsensusUpgrade ctx with
          | .error e => (pu, [⟨pu, .Consensus⟩], .error e)
          | .ok () => (pu, [⟨pu, .Consensus⟩], .ok ())
      else
        (pu, [], .ok ())

/-- The state of the loop of `ConsensusUpgrade` besides the slice: whether the pending list was
flushed during this call, the stop flag, the store and the steps invoked. -/
structure ConsensusUpgrade.LoopState where
  flushed : Bool
  shouldStop : Bool
  store : Option (List PendingUpgrade)
  invoked : List Invocation
  deriving DecidableEq

/-- The loop of `ConsensusUpgrade`. `done` are the slots visited so far; the second list holds
the upgrades still to visit. Returns all slots, the loop state and the Go return value. -/
def ConsensusUpgrade.loop (env : Environment) (privateCtx : Option PrivateCtx)
    (currentEpoch : Staking.EpochTime) (currentHeight : Int) :
    List Slot → List PendingUpgrade → ConsensusUpgrade.LoopState →
      List Slot × ConsensusUpgrade.LoopState × Except UpgradeError Unit
  | done, [], st => (done, st, .ok ())
  | done, pu :: rest, st =>
    let sl := Slot.unvisited st.flushed pu
    -- If we haven't reached the upgrade epoch yet, we run normally.
    if pu.UpgradeHeight = InvalidUpgradeHeight then
      if currentEpoch < pu.Descriptor.Epoch then
        ConsensusUpgrade.loop env privateCtx currentEpoch currentHeight (done ++ [sl]) rest st
      else
        let pu1 : PendingUpgrade := { pu with UpgradeHeight := currentHeight }
        -- The flush of the pending list.
        let done1 := flushSlots done
        let sl1 : Slot := ⟨pu1, sl.listed && !pu1.IsCompleted⟩
        let store1 := storeOf
          (listedUpgrades (done1 ++ sl1 :: rest.map (Slot.unvisited true)))
        -- Check if we can proceed in place (e.g. without a restart).
        let shouldStop := ConsensusUpgrade.mustStop env pu1
        let st1 : ConsensusUpgrade.LoopState :=
          { st with flushed := true, shouldStop := shouldStop, store := store1 }
        if shouldStop then
          (done1 ++ sl1 :: rest.map (Slot.unvisited true), st1, .error .ErrStopForUpgrade)
        else
          -- We can continue with the upgrade in place.
          let r := ConsensusUpgrade.atHeight env privateCtx currentHeight
            (pu1.PushStage .Startup)
          let sl2 : Slot := ⟨r.1, sl1.listed⟩
          let st2 : ConsensusUpgrade.LoopState := { st1 with invoked := st1.invoked ++ r.2.1 }
          match r.2.2 with
          | .error e => (done1 ++ sl2 :: rest.map (Slot.unvisited true), st2, .error e)
          | .ok () =>
            ConsensusUpgrade.loop env privateCtx currentEpoch currentHeight (done1 ++ [sl2])
              rest st2
    else
      let r := ConsensusUpgrade.atHeight env privateCtx currentHeight pu
      let sl2 : Slot := ⟨r.1, sl.listed⟩
      let st2 : ConsensusUpgrade.LoopState := { st with invoked := st.invoked ++ r.2.1 }
      match r.2.2 with
      | .error e => (done ++ sl2 :: rest.map (Slot.unvisited st.flushed), st2, .error e)
      | .ok () =>
        ConsensusUpgrade.loop env privateCtx currentEpoch currentHeight (done ++ [sl2]) rest st2

/-- Embedding of `ConsensusUpgrade`; `privateCtx = none` is the Go `nil` context. -/
def ConsensusUpgrade (env : Environment) (u : upgradeManager) (privateCtx : Option PrivateCtx)
    (currentEpoch : Staking.EpochTime) (currentHeight : Int) : Outcome :=
  -- In case this method has been re-entered before the node has actually stopped.
  if u.shouldStop then
    ⟨u, [], .error .ErrStopForUpgrade⟩
  else
    let r := ConsensusUpgrade.loop env privateCtx currentEpoch currentHeight [] u.pending
      { flushed := false, shouldStop := u.shouldStop, store := u.store, invoked := [] }
    match r.2.2 with
    | .error e =>
      ⟨{ pending := listedUpgrades r.1, shouldStop := r.2.1.shouldStop, store := r.2.1.store },
        r.2.1.invoked, .error e⟩
    | .ok () =>
      ⟨{ pending := listedUpgrades (flushSlots r.1), shouldStop := r.2.1.shouldStop,
         store := storeOf (listedUpgrades (flushSlots r.1)) },
        r.2.1.invoked, .ok ()⟩

/-- A pending upgrade in the state Submitted of the specification: no height, no stage. -/
def PendingUpgrade.Submitted (pu : PendingUpgrade) : Prop :=
  pu.UpgradeHeight = InvalidUpgradeHeight ∧ pu.Stages = []

instance (pu : PendingUpgrade) : Decidable pu.Submitted := by
  unfold PendingUpgrade.Submitted
  infer_instance

/-- An upgrade that `StartupUpgrade` passes over: it has no height, or the startup stage is
recorded. -/
def PendingUpgrade.StartupSettled (pu : PendingUpgrade) : Prop :=
  pu.UpgradeHeight = InvalidUpgradeHeight ∨ pu.HasStage .Startup = true

/-- A pending upgrade in the state Startup-done of the specification, before the consensus
migration: the height is set, the startup stage is recorded, the consensus stage is not. -/
def PendingUpgrade.StartupDone (pu : PendingUpgrade) : Prop :=
  pu.UpgradeHeight ≠ InvalidUpgradeHeight ∧ pu.HasStage .Startup = true ∧
    pu.HasStage .Consensus = false

instance (pu : PendingUpgrade) : Decidable pu.StartupDone := by
  unfold PendingUpgrade.StartupDone
  infer_instance

/-- The loop of `checkStatus` over the stored upgrades: an upgrade that is not completed and has
a height needs a compatible binary and a registered handler. -/
def checkStatus.scan (env : Environment) : List PendingUpgrade → Except UpgradeError Unit
  | [] => .ok ()
  | pu :: rest =>
    if pu.IsCompleted then
      checkStatus.scan env rest
    -- Check if upgrade should proceed.
    else if pu.UpgradeHeight = InvalidUpgradeHeight then
      checkStatus.scan env rest
    else
      -- The upgrade should proceed right now. Check that we have the right binary.
      match env.EnsureCompatible pu.Descriptor with
      | .error e => .error e
      | .ok () =>
        -- Ensure the upgrade handler exists.
        match env.GetHandler pu.Descriptor.Handler with
        | .error e => .error e
        | .ok _ => checkStatus.scan env rest

/-- Embedding of `checkStatus`: load the pending list from the store, check it, and flush it.
A store without the key is the Go `persistent.ErrNotFound`; a stored value that does not decode
is not modelled. -/
def checkStatus (env : Environment) (u : upgradeManager) : Outcome :=
  match u.store with
  | none =>
    -- No upgrade pending, nothing to do.
    ⟨{ u with pending := [] }, [], .ok ()⟩
  | some stored =>
    match checkStatus.scan env stored with
    | .error e => ⟨{ u with pending := stored }, [], .error e⟩
    | .ok () => ⟨flushDescriptorLocked { u with pending := stored }, [], .ok ()⟩

/-- A call of `ConsensusUpgrade`: the private context, the current epoch and the current
height. -/
structure ConsensusCall where
  privateCtx : Option PrivateCtx
  currentEpoch : Staking.EpochTime
  currentHeight : Int
  deriving DecidableEq, Repr

/-- A sequence of `ConsensusUpgrade` calls, each on the manager that the call before left: the
list of the calls, each with its manager and its outcome. -/
def ConsensusUpgrade.calls (env : Environment) :
    upgradeManager → List ConsensusCall → List (ConsensusCall × upgradeManager × Outcome)
  | _, [] => []
  | u, call :: rest =>
    let o := ConsensusUpgrade env u call.privateCtx call.currentEpoch call.currentHeight
    (call, u, o) :: ConsensusUpgrade.calls env o.manager rest

/-- The registry and the handlers return Go errors: none of them is the value that stands for
the Go panic of `ConsensusUpgrade`. -/
def Environment.ReturnsErrors (env : Environment) : Prop :=
  (∀ name, env.GetHandler name ≠ .error .panicFutureHeight) ∧
  ∀ name handler ctx, env.GetHandler name = .ok handler →
    handler.ConsensusUpgrade ctx ≠ .error .panicFutureHeight

/-! ## Scenarios of the upgrade manager -/

/-- A handler without startup stage whose steps succeed. -/
def inPlaceHandler : Handler :=
  { HasStartupUpgrade := false, StartupUpgrade := .ok (), ConsensusUpgrade := fun _ => .ok () }

/-- A handler with a startup stage whose steps succeed. -/
def restartHandler : Handler :=
  { HasStartupUpgrade := true, StartupUpgrade := .ok (), ConsensusUpgrade := fun _ => .ok () }

/-- A compatible binary whose registry holds `inPlaceHandler` under every name. -/
def inPlaceEnvironment : Environment :=
  { GetHandler := fun _ => .ok inPlaceHandler, EnsureCompatible := fun _ => .ok () }

/-- A compatible binary whose registry holds `restartHandler` under every name. -/
def restartEnvironment : Environment :=
  { GetHandler := fun _ => .ok restartHandler, EnsureCompatible := fun _ => .ok () }

/-- A compatible binary with an empty registry. -/
def emptyEnvironment : Environment :=
  { GetHandler := fun _ => .error .ErrUpgradeNotFound, EnsureCompatible := fun _ => .ok () }

/-- A handler without startup stage whose consensus step fails. -/
def failingStepHandler : Handler :=
  { HasStartupUpgrade := false, StartupUpgrade := .ok (),
    ConsensusUpgrade := fun _ => .error (.other 1) }

/-- A compatible binary whose registry holds `failingStepHandler` under every name. -/
def failingStepEnvironment : Environment :=
  { GetHandler := fun _ => .ok failingStepHandler, EnsureCompatible := fun _ => .ok () }

/-- The pending upgrade that `SubmitDescriptor` makes of a descriptor for epoch 5. -/
def epochFiveUpgrade : PendingUpgrade := { Descriptor := { Handler := 1, Epoch := 5 } }

end Upgrade

/-!
# Governance application: genesis

A shallow embedding of `InitChain` of `go/consensus/cometbft/apps/governance/genesis.go`. The
governance state (package `governance/state`) and the governance API (package `governance/api`)
are not among the sources; the tables that `InitChain` writes are modelled from the
specification. Proposal identifiers are `uint64`: natural numbers, with sums taken modulo `2^64`.
-/

namespace Governance

open Staking (kvGet kvInsert keyInsert EpochTime Address)

/-- The states of a proposal. -/
inductive ProposalState where
  | Active
  | Passed
  | Rejected
  | Failed
  deriving DecidableEq, Repr

/-- The descriptor of an upgrade proposal: handler and upgrade epoch. -/
structure UpgradeDescriptor where
  Handler : Nat
  Epoch : EpochTime
  deriving DecidableEq, Repr

/-- Modelled from the spec: a proposal of package `governance/api` (not among the sources), with
the fields `InitChain` reads: "`{id, submitter, deposit, content, state, created-at-epoch,
closing-at-epoch, …}`"; the content is kept where it is an upgrade. -/
structure Proposal where
  ID : Nat
  Submitter : Address := 0
  State : ProposalState := .Active
  Deposit : Nat := 0
  Upgrade : Option UpgradeDescriptor := none
  CreatedAt : EpochTime := 0
  ClosesAt : EpochTime := 0
  deriving DecidableEq, Repr

/-- Modelled from the spec: an entry of the list form of the votes, `VoteEntries[proposal-id]`. -/
structure VoteEntry where
  Voter : Address
  Vote : Nat
  deriving DecidableEq, Repr

/-- The governance part of the genesis document. -/
structure Genesis where
  Parameters : Nat := 0
  Proposals : List Proposal := []
  VoteEntries : List (Nat × List VoteEntry) := []
  deriving DecidableEq, Repr

/-- Modelled from the spec: the tables of the governance state (package `governance/state`, not
among the sources): the consensus parameters, the proposals by identifier, the index of active
proposals by closing epoch, the votes by proposal and voter, the pending upgrades by epoch and
proposal, and the next proposal identifier. -/
structure State where
  parameters : Option Nat := none
  proposals : List (Nat × Proposal) := []
  activeProposals : List (EpochTime × Nat) := []
  votes : List ((Nat × Address) × Nat) := []
  pendingUpgrades : List ((EpochTime × Nat) × UpgradeDescriptor) := []
  nextProposalIdentifier : Option Nat := none
  deriving DecidableEq, Repr

namespace State

/-- Modelled from the spec: `SetConsensusParameters` of the governance state. -/
def SetConsensusParameters (s : State) (params : Nat) : State :=
  { s with parameters := some params }

/-- Modelled from the spec: `SetProposal` of the governance state; the proposal is stored under
its identifier. -/
def SetProposal (s : State) (proposal : Proposal) : State :=
  { s with proposals := kvInsert s.proposals proposal.ID proposal }

/-- Modelled from the spec: `SetActiveProposal` of the governance state; the proposal is stored
and listed among the active ones by its closing epoch. -/
def SetActiveProposal (s : State) (proposal : Proposal) : State :=
  { s with
    proposals := kvInsert s.proposals proposal.ID proposal
    activeProposals := keyInsert s.activeProposals (proposal.ClosesAt, proposal.ID) }

/-- Modelled from the spec: `SetVote` of the governance state; "`(proposal-id, voter-entity) →
choice`". -/
def SetVote (s : State) (id : Nat) (voter : Address) (vote : Nat) : State :=
  { s with votes := kvInsert s.votes (id, voter) vote }

/-- Modelled from the spec: `SetPendingUpgrade` of the governance state. -/
def SetPendingUpgrade (s : State) (id : Nat) (upgrade : UpgradeDescriptor) : State :=
  { s with pendingUpgrades := kvInsert s.pendingUpgrades (upgrade.Epoch, id) upgrade }

/-- Modelled from the spec: `SetNextProposalIdentifier` of the governance state. -/
def SetNextProposalIdentifier (s : State) (id : Nat) : State :=
  { s with nextProposalIdentifier := some id }

end State

/-- Modelled from the spec: `PendingUpgradesFromProposals` of package `governance/api` (not
among the sources); "recompute pending upgrades by selecting `Passed` upgrade proposals whose
target epoch ≥ current". Returns the upgrades with the identifiers of their proposals. -/
def PendingUpgradesFromProposals (proposals : List Proposal) (epoch : EpochTime) :
    List (UpgradeDescriptor × Nat) :=
  proposals.filterMap (fun p =>
    match p.Upgrade with
    | some up => if p.State = .Passed ∧ epoch ≤ up.Epoch then some (up, p.ID) else none
    | none => none)

/-- The errors of `InitChain`. -/
inductive InitChainError where
  | currentEpoch
  deriving DecidableEq, Repr

/-- The loop of `InitChain` that inserts the proposals and their votes and keeps the largest
proposal identifier seen. -/
def InitChain.insertProposals (st : Genesis) : List Proposal → Nat → State → Nat × State
  | [], largestProposalID, state => (largestProposalID, state)
  | proposal :: rest, largestProposalID, state =>
    let largestProposalID1 :=
      if proposal.ID > largestProposalID then proposal.ID else largestProposalID
    let state1 :=
      match proposal.State with
      | .Active => state.SetActiveProposal proposal
      | _ => state.SetProposal proposal
    -- Insert votes for the proposal.
    let state2 := ((kvGet st.VoteEntries proposal.ID).getD []).foldl
      (fun s vote => s.SetVote proposal.ID vote.Voter vote.Vote) state1
    InitChain.insertProposals st rest largestProposalID1 state2

/-- Embedding of `Application.InitChain`: `currentEpoch` is the result of
`app.state.GetCurrentEpoch`, `state` the governance state of the context, `st` the governance
part of the genesis document. The identifier after the largest one is a `uint64` sum. -/
def InitChain (currentEpoch : Except InitChainError EpochTime) (state : State) (st : Genesis) :
    Except InitChainError State :=
  match currentEpoch with
  | .error e => .error e
  | .ok epoch =>
    let state1 := state.SetConsensusParameters st.Parameters
    -- Insert proposals.
    let r := InitChain.insertProposals st st.Proposals 0 state1
    -- Compute pending upgrades from proposals.
    let state3 := (PendingUpgradesFromProposals st.Proposals epoch).foldl
      (fun s up => s.SetPendingUpgrade up.2 up.1) r.2
    .ok (state3.SetNextProposalIdentifier ((r.1 + 1) % 2 ^ 64))

/-- The largest identifier of a list of proposals, zero for the empty list. -/
def largestID (proposals : List Proposal) : Nat :=
  (proposals.map (fun p => p.ID)).foldr max 0

end Governance

/-!
# Scheduler application: validator election, validator updates and executor workers

A shallow embedding of `diffValidators`, `electValidators`, `stakingAddressMapToSliceByStake`,
`stakingAddressMapToSortedSlice` and `isSuitableExecutorWorker` of
`go/consensus/cometbft/apps/scheduler/scheduler.go`.

* A Go map is a table that is read through `kvGet` and written through `kvInsert`; a Go map with
  `bool` values that only ever stores `true` is the list of its keys. A `range` over a map visits
  the keys in no particular order; here in the order of the keys.
* What the functions call outside this file (the beacon, the random number generator, the shuffle
  of the nodes, the stake accumulator, the voting power of a stake, the active deployment of a
  runtime, the suspension of a node and the verification of a TEE capability) is a parameter or
  a field of the record that stands for the Go object.
-/

namespace Scheduler

open Staking (kvGet kvInsert kvRemove kvIterator keyInsert Address PublicKey)

/-- Modelled from the spec: `scheduler.Validator` of package `scheduler/api` (not among the
sources): the node, its entity and the voting power. -/
structure Validator where
  ID : PublicKey
  EntityID : PublicKey
  VotingPower : Int
  deriving DecidableEq, Repr

/-- The update of one validator for the consensus engine, as `api.PublicKeyToValidatorUpdate`
builds it: the consensus key and the new voting power. -/
structure ValidatorUpdate where
  PubKey : PublicKey
  Power : Int
  deriving DecidableEq, Repr

/-- The first loop of `diffValidators`, over the current validators: a validator that is not in
the pending set is removed, with voting power 0. -/
def diffValidators.removals (pending : List (PublicKey × Validator)) :
    List (PublicKey × Validator) → List ValidatorUpdate → List ValidatorUpdate
  | [], updates => updates
  | (v, _) :: rest, updates =>
    match kvGet pending v with
    | none => diffValidators.removals pending rest (updates ++ [⟨v, 0⟩])
    | some _ => diffValidators.removals pending rest updates

/-- The second loop of `diffValidators`, over the pending validators: a validator that is current
with the same voting power is kept; any other is added, or its power changed. -/
def diffValidators.upserts (current : List (PublicKey × Validator)) :
    List (PublicKey × Validator) → List ValidatorUpdate → List ValidatorUpdate
  | [], updates => updates
  | (v, new) :: rest, updates =>
    match kvGet current v with
    | some curr =>
      if curr.VotingPower = new.VotingPower then
        diffValidators.upserts current rest updates
      else
        diffValidators.upserts current rest (updates ++ [⟨v, new.VotingPower⟩])
    | none => diffValidators.upserts current rest (updates ++ [⟨v, new.VotingPower⟩])

/-- Embedding of `diffValidators`. -/
def diffValidators (current pending : List (PublicKey × Validator)) : List ValidatorUpdate :=
  let updates := diffValidators.removals pending
    (kvIterator (fun a b : PublicKey => a ≤ b) current) []
  diffValidators.upserts current (kvIterator (fun a b : PublicKey => a ≤ b) pending) updates

/-- The key → voting-power map of a validator map. -/
def powerMap (validators : List (PublicKey × Validator)) : List (PublicKey × Int) :=
  validators.map (fun kv => (kv.1, kv.2.VotingPower))

/-- What the consensus engine does with a list of validator updates, in the words of the
specification: power 0 removes the key, any other power inserts or overwrites it. -/
def applyUpdates : List (PublicKey × Int) → List ValidatorUpdate → List (PublicKey × Int)
  | powers, [] => powers
  | powers, u :: rest =>
    applyUpdates
      (if u.Power = 0 then kvRemove powers u.PubKey else kvInsert powers u.PubKey u.Power) rest

/-- Modelled from the spec: a node of package `common/node` (not among the sources), with what
`electValidators` reads: the node key, the key of its entity, its consensus key and whether it
has the validator role (`HasRoles(node.RoleValidator)`). -/
structure Node where
  ID : PublicKey
  EntityID : PublicKey
  ConsensusID : PublicKey
  validator : Bool := true
  deriving DecidableEq, Repr

/-- Modelled from the spec: the scheduler parameters of package `scheduler/api` (not among the
sources) that `electValidators` reads; Go `int` values. -/
structure ConsensusParameters where
  MinValidators : Int
  MaxValidators : Int
  MaxValidatorsPerEntity : Int
  deriving DecidableEq, Repr

/-- The errors of the validator election. -/
inductive ElectError where
  | beacon
  | drbg
  | shuffle
  | escrowBalance
  | votingPower
  | noValidators
  | insufficientValidators
  deriving DecidableEq, Repr

/-- The stake accumulator cache of the staking state (not among the sources): whether the stake
claims of an account hold (`CheckStakeClaims` returns no error), and the escrow balance of an
account. -/
structure StakeAccumulatorCache where
  CheckStakeClaims : Address → Bool
  GetEscrowBalance : Address → Except ElectError Nat

/-- What the election calls outside this file: the address of an entity (`staking.NewAddress`),
the beacon of the epoch, the random number generator seeded from the beacon for the shuffle of
the entities (`draw i` is the number drawn for position `i`; instantiating the generator may
fail), the shuffle of the nodes (`shuffleValidators`, not among the sources) and
`scheduler.VotingPowerFromStake` with the voting power distribution of the parameters. -/
structure Environment where
  NewAddress : PublicKey → Address
  Beacon : Except ElectError Nat
  entitiesRng : Nat → Except ElectError (Nat → Nat)
  shuffleValidators : List Node → Except ElectError (List Node)
  VotingPowerFromStake : Nat → Except ElectError Int

/-- Embedding of `stakingAddressMapToSortedSlice`: the keys of the map, sorted. -/
def stakingAddressMapToSortedSlice (m : List Address) : List Address :=
  m.dedup.insertionSort (fun a b => a ≤ b)

/-- The swap function that `stakingAddressMapToSliceByStake` passes to `rng.Shuffle`. -/
def swapEntities (entities : List Address) (i j : Nat) : List Address :=
  match entities[i]?, entities[j]? with
  | some a, some b => (entities.set i b).set j a
  | _, _ => entities

/-- The Fisher-Yates shuffle of `rand.Shuffle` (Go standard library): for `i` from `n - 1` down
to 1, swap position `i` with a position `j` drawn among `0 … i`. -/
def shuffleEntities (draw : Nat → Nat) : Nat → List Address → List Address
  | 0, entities => entities
  | i + 1, entities =>
    shuffleEntities draw i (swapEntities entities (i + 1) (draw (i + 1) % (i + 2)))

/-- The escrow balance that the comparison of the stable sort reads; zero where it fails, in
which case the sort result is discarded. -/
def StakeAccumulatorCache.balance (stakeAcc : StakeAccumulatorCache) (addr : Address) : Nat :=
  match stakeAcc.GetEscrowBalance addr with
  | .ok balance => balance
  | .error _ => 0

/-- Whether the escrow balance query of `addr` returns an error. -/
def StakeAccumulatorCache.balanceFails (stakeAcc : StakeAccumulatorCache) (addr : Address) : Bool :=
  match stakeAcc.GetEscrowBalance addr with
  | .ok _ => false
  | .error _ => true

/-- Embedding of `stakingAddressMapToSliceByStake`: the keys of the map, sorted, shuffled, and
then stable-sorted by descending escrow balance. The comparison function of `sort.SliceStable`
keeps the error of a failed balance query, and the sort calls it on every entity as soon as
there are two. -/
def stakingAddressMapToSliceByStake (env : Environment) (entMap : List Address)
    (stakeAcc : Option StakeAccumulatorCache) (beacon : Nat) :
    Except ElectError (List Address) :=
  let entities := stakingAddressMapToSortedSlice entMap
  -- Shuffle the sorted slice to make tie-breaks "random".
  match env.entitiesRng beacon with
  | .error e => .error e
  | .ok draw =>
    let entities := shuffleEntities draw (entities.length - 1) entities
    match stakeAcc with
    | none => .ok entities
    | some stakeAcc =>
      -- Stable-sort the shuffled slice by descending escrow balance.
      if 2 ≤ entities.length ∧ ∃ e ∈ entities, stakeAcc.balanceFails e = true then
        .error .escrowBalance
      else
        .ok (entities.insertionSort (fun a b => stakeAcc.balance b ≤ stakeAcc.balance a))

/-- The filter at the head of `electValidators`: the nodes with the validator role whose entity
passes the stake claims check (no check without a stake accumulator), and the set of the
addresses of their entities. -/
def electValidators.filter (env : Environment) (stakeAcc : Option StakeAccumulatorCache) :
    List Node → List Node × List Address → List Node × List Address
  | [], acc => acc
  | n :: nodes, (nodeList, entities) =>
    if !n.validator then
      electValidators.filter env stakeAcc nodes (nodeList, entities)
    else
      let entAddr := env.NewAddress n.EntityID
      let failed :=
        match stakeAcc with
        | some stakeAcc => !stakeAcc.CheckStakeClaims entAddr
        | none => false
      if failed then
        electValidators.filter env stakeAcc nodes (nodeList, entities)
      else
        electValidators.filter env stakeAcc nodes (nodeList ++ [n], keyInsert entities entAddr)

/-- The loop of `electValidators` that gathers the nodes of every entity, in the order of the
shuffled list. -/
def electValidators.gather (env : Environment) :
    List Node → List (Address × List Node) → List (Address × List Node)
  | [], entityNodesMap => entityNodesMap
  | n :: shuffledNodes, entityNodesMap =>
    let entityAddress := env.NewAddress n.EntityID
    let entityNodes := (kvGet entityNodesMap entityAddress).getD []
    electValidators.gather env shuffledNodes
      (kvInsert entityNodesMap entityAddress (entityNodes ++ [n]))

/-- The maps that the election loop of `electValidators` writes: the entities eligible for a
reward (the map of the caller, `none` for a nil map), the entities with a validator, and the
new validator set by consensus key. -/
structure ElectState where
  entitiesEligibleForReward : Option (List Address)
  validatorEntities : List Address := []
  newValidators : List (PublicKey × Validator) := []
  deriving DecidableEq, Repr

/-- How an iteration of the election loop ends: it goes on with the next entity, it leaves the
loop (`break electLoop`), or the function returns an error. -/
inductive ElectFlow where
  | next
  | stop
  | fail (err : ElectError)
  deriving DecidableEq, Repr

/-- The inner loop of the election, for entity `entAddr`; `nodes` are the nodes of the entity
that the loop visits, that is the first `MaxValidatorsPerEntity` ones. -/
def electValidators.pick (env : Environment) (stakeAcc : Option StakeAccumulatorCache)
    (params : ConsensusParameters) (entAddr : Address) :
    List Node → ElectState → ElectState × ElectFlow
  | [], st => (st, .next)
  | n :: nodes, st =>
    -- If the entity gets a validator elected, it is eligible for rewards.
    let st := { st with
      entitiesEligibleForReward := st.entitiesEligibleForReward.map (keyInsert · entAddr) }
    let power : Except ElectError Int :=
      match stakeAcc with
      | none => .ok 1
      | some stakeAcc =>
        match stakeAcc.GetEscrowBalance entAddr with
        | .error _ => .error .escrowBalance
        | .ok stake =>
          match env.VotingPowerFromStake stake with
          | .error _ => .error .votingPower
          | .ok power => .ok power
    match power with
    | .error err => (st, .fail err)
    | .ok power =>
      let st := { st with
        validatorEntities := keyInsert st.validatorEntities entAddr
        newValidators := kvInsert st.newValidators n.ConsensusID
          { ID := n.ID, EntityID := n.EntityID, VotingPower := power } }
      if params.MaxValidators ≤ (st.newValidators.length : Int) then
        (st, .stop)
      else
        electValidators.pick env stakeAcc params entAddr nodes st

/-- The election loop of `electValidators` over the sorted entities. -/
def electValidators.electLoop (env : Environment) (stakeAcc : Option StakeAccumulatorCache)
    (params : ConsensusParameters) (entityNodesMap : List (Address × List Node)) :
    List Address → ElectState → ElectState × ElectFlow
  | [], st => (st, .next)
  | entAddr :: sortedEntities, st =>
    let nodes := (kvGet entityNodesMap entAddr).getD []
    match electValidators.pick env stakeAcc params entAddr
        (nodes.take params.MaxValidatorsPerEntity.toNat) st with
    | (st, .next) =>
      electValidators.electLoop env stakeAcc params entityNodesMap sortedEntities st
    | (st, flow) => (st, flow)

/-- What a call of `electValidators` leaves: the map of the entities eligible for a reward, which
it updates in place, the validator set it puts in the pending validators slot of the state
(`none` when it does not write the slot), and its return value. -/
structure ElectOutcome where
  entitiesEligibleForReward : Option (List Address)
  pendingValidators : Option (List (PublicKey × Validator))
  ret : Except ElectError (List Address)
  deriving DecidableEq, Repr

/-- Embedding of `Application.electValidators`. -/
def electValidators (env : Environment) (stakeAcc : Option StakeAccumulatorCache)
    (entitiesEligibleForReward : Option (List Address)) (nodes : List Node)
    (params : ConsensusParameters) : ElectOutcome :=
  -- Filter the node list based on eligibility and minimum required entity stake.
  let (nodeList, entities) := electValidators.filter env stakeAcc nodes ([], [])
  -- Sort all of the entities that are actually running eligible validator nodes by
  -- descending stake.
  match env.Beacon with
  | .error _ => ⟨entitiesEligibleForReward, none, .error .beacon⟩
  | .ok weakEntropy =>
    match stakingAddressMapToSliceByStake env entities stakeAcc weakEntropy with
    | .error err => ⟨entitiesEligibleForReward, none, .error err⟩
    | .ok sortedEntities =>
      -- Shuffle the node list.
      match env.shuffleValidators nodeList with
      | .error err => ⟨entitiesEligibleForReward, none, .error err⟩
      | .ok shuffledNodes =>
        -- Gather all the entities nodes.
        let entityNodesMap := electValidators.gather env shuffledNodes []
        -- Go down the list of entities running nodes by stake, picking one node to act as a
        -- validator till the maximum is reached.
        match electValidators.electLoop env stakeAcc params entityNodesMap sortedEntities
            ⟨entitiesEligibleForReward, [], []⟩ with
        | (st, .fail err) => ⟨st.entitiesEligibleForReward, none, .error err⟩
        | (st, _) =>
          if st.newValidators.length = 0 then
            ⟨st.entitiesEligibleForReward, none, .error .noValidators⟩
          else if (st.newValidators.length : Int) < params.MinValidators then
            ⟨st.entitiesEligibleForReward, none, .error .insufficientValidators⟩
          else
            -- Set the new pending validator set in the ABCI state.
            ⟨st.entitiesEligibleForReward, some st.newValidators, .ok st.validatorEntities⟩

/-! ## Scenario of the election by stake -/

/-- An environment of the election: the address of an entity is its key plus 100, the beacon is
7, the draws of the entity shuffle are `7 i + 3`, the node shuffle reverses the list, and the
voting power is the stake. -/
def electionEnvironment : Environment :=
  { NewAddress := fun k => k + 100
    Beacon := .ok 7
    entitiesRng := fun _ => .ok (fun i => i * 7 + 3)
    shuffleValidators := fun l => .ok l.reverse
    VotingPowerFromStake := fun stake => .ok stake }

/-- A stake accumulator: the stake claims of every account but 106 hold, and the escrow balance
of an account is its address modulo 3. -/
def electionStakes : StakeAccumulatorCache :=
  { CheckStakeClaims := fun addr => decide (addr ≠ 106)
    GetEscrowBalance := fun addr => .ok (addr % 3) }

/-- Eight nodes of six entities; entity 5 has two validator nodes, the last node is not a
validator. -/
def electionNodes : List Node :=
  [⟨1, 1, 11, true⟩, ⟨2, 2, 12, true⟩, ⟨3, 3, 13, true⟩, ⟨4, 4, 14, true⟩, ⟨5, 5, 15, true⟩,
    ⟨6, 6, 16, true⟩, ⟨7, 5, 17, true⟩, ⟨8, 1, 18, false⟩]

/-! ## Executor workers -/

/-- A TEE hardware kind of package `common/node` (not among the sources). -/
abbrev TEEHardware := Nat

/-- Modelled from the spec: `node.TEEHardwareInvalid` (not among the sources), the kind of a
runtime without TEE hardware; the zero value of the type. -/
def TEEHardwareInvalid : TEEHardware := 0

/-- The TEE capability of a node for a runtime, of package `common/node` (not among the sources):
the hardware kind, and the attestation that `Verify` checks. -/
structure CapabilityTEE where
  Hardware : TEEHardware
  Attestation : Nat := 0
  deriving DecidableEq, Repr

/-- A runtime entry of a node, `node.Runtime` (not among the sources): the runtime identifier,
the version by its `ToU64()` value, and the TEE capability (`none` is the Go `nil`). -/
structure NodeRuntime where
  ID : Nat
  Version : Nat
  TEE : Option CapabilityTEE := none
  deriving DecidableEq, Repr

/-- The deployment of a runtime, `registry.VersionInfo` (not among the sources): the version by
its `ToU64()` value and the TEE constraints. -/
structure VersionInfo where
  Version : Nat
  TEE : Nat := 0
  deriving DecidableEq, Repr

/-- A runtime descriptor, `registry.Runtime` (not among the sources), with what
`isSuitableExecutorWorker` reads: the identifier, the TEE hardware kind and the method
`ActiveDeployment`, which gives the deployment active at an epoch, if any. -/
structure Runtime where
  ID : Nat
  TEEHardware : TEEHardware
  ActiveDeployment : Staking.EpochTime → Option VersionInfo

/-- Embedding of `nodeWithStatus`, with what `isSuitableExecutorWorker` reads: of the node its
identifier, whether it has the compute worker role (`HasRoles(node.RoleComputeWorker)`) and its
runtime entries; of the status the method `IsSuspended`. -/
structure nodeWithStatus where
  ID : PublicKey
  computeWorker : Bool
  Runtimes : List NodeRuntime
  IsSuspended : Nat → Staking.EpochTime → Bool

/-- The loop of `isSuitableExecutorWorker` over the runtime entries of the node: the first entry
with the identifier of the runtime and the version of the active deployment decides. `verify`
stands for `nrt.Capabilities.TEE.Verify` (not among the sources) with the TEE features of the
registry parameters, the time and the height of the block, the TEE constraints of the deployment
and the node identifier; it is true when the verification returns no error. -/
def isSuitableExecutorWorker.scan (verify : CapabilityTEE → Nat → PublicKey → Bool)
    (n : nodeWithStatus) (rt : Runtime) (epoch : Staking.EpochTime)
    (activeDeployment : VersionInfo) : List NodeRuntime → Bool
  | [] => false
  | nrt :: rest =>
    if nrt.ID ≠ rt.ID then
      isSuitableExecutorWorker.scan verify n rt epoch activeDeployment rest
    else if nrt.Version ≠ activeDeployment.Version then
      isSuitableExecutorWorker.scan verify n rt epoch activeDeployment rest
    else if n.IsSuspended rt.ID epoch then
      false
    else if rt.TEEHardware = TEEHardwareInvalid then
      match nrt.TEE with
      | some _ => false
      | none => true
    else
      match nrt.TEE with
      | none => false
      | some tee =>
        if tee.Hardware ≠ rt.TEEHardware then
          false
        else if !verify tee activeDeployment.TEE n.ID then
          false
        else
          true

/-- Embedding of `Application.isSuitableExecutorWorker`. -/
def isSuitableExecutorWorker (verify : CapabilityTEE → Nat → PublicKey → Bool)
    (n : nodeWithStatus) (rt : Runtime) (epoch : Staking.EpochTime) : Bool :=
  if !n.computeWorker then
    false
  else
    match rt.ActiveDeployment epoch with
    | none => false
    | some activeDeployment =>
      isSuitableExecutorWorker.scan verify n rt epoch activeDeployment n.Runtimes

/-- The condition on the TEE capability of a runtime entry: the runtime has no TEE hardware and
the entry carries no capability, or the runtime has TEE hardware and the entry carries a
capability of that hardware whose verification succeeds. -/
def teeSuitable (verify : CapabilityTEE → Nat → PublicKey → Bool) (n : nodeWithStatus)
    (rt : Runtime) (activeDeployment : VersionInfo) (nrt : NodeRuntime) : Prop :=
  (rt.TEEHardware = TEEHardwareInvalid ∧ nrt.TEE = none) ∨
  (rt.TEEHardware ≠ TEEHardwareInvalid ∧
    ∃ tee, nrt.TEE = some tee ∧ tee.Hardware = rt.TEEHardware ∧
      verify tee activeDeployment.TEE n.ID = true)

/-- The conditions of the specification for a node to be eligible for an executor committee of
the runtime `rt` at `epoch`: the node has the compute worker role, the runtime has an active
deployment, the node registers a runtime entry with the identifier of the runtime and the version
of the deployment, the node is not suspended, and either the runtime has no TEE hardware and
that entry carries no TEE capability, or the entry carries a TEE capability of the hardware of
the runtime whose verification succeeds. -/
def ExecutorEligible (verify : CapabilityTEE → Nat → PublicKey → Bool) (n : nodeWithStatus)
    (rt : Runtime) (epoch : Staking.EpochTime) : Prop :=
  n.computeWorker = true ∧
  ∃ activeDeployment, rt.ActiveDeployment epoch = some activeDeployment ∧
    ∃ nrt ∈ n.Runtimes, nrt.ID = rt.ID ∧ nrt.Version = activeDeployment.Version ∧
      n.IsSuspended rt.ID epoch = false ∧
      ((rt.TEEHardware = TEEHardwareInvalid ∧ nrt.TEE = none) ∨
        ∃ tee, nrt.TEE = some tee ∧ tee.Hardware = rt.TEEHardware ∧
          verify tee activeDeployment.TEE n.ID = true)

end Scheduler

/-! # Theorems -/

namespace Staking

/-! ## Lemmas -/

/-- A load under `allValid` never fails: it returns the account of the address. -/
theorem State.Account_allValid (s : State) (address : Address) :
    s.Account allValid address = .ok (s.accountOf address) := by
  unfold State.Account State.accountOf allValid
  cases kvGet s.accounts address <;> rfl

/-- A load of a valid address returns the account of the address. -/
theorem State.Account_of_valid (IsValid : Address → Bool) (s : State) (address : Address)
    (h : IsValid address = true) : s.Account IsValid address = .ok (s.accountOf address) := by
  unfold State.Account State.accountOf
  rw [h]
  cases kvGet s.accounts address <;> rfl

/-- A load of an address that is not valid fails. -/
theorem State.Account_of_invalid (IsValid : Address → Bool) (s : State) (address : Address)
    (h : IsValid address = false) :
    s.Account IsValid address = .error (.invalidAccountAddress address) := by
  unfold State.Account
  rw [h]
  rfl

/-- A load succeeds exactly on a valid address, with the account of the address. -/
theorem State.Account_ok_iff (IsValid : Address → Bool) (s : State) (address : Address)
    (acct : Staking.Account) :
    s.Account IsValid address = .ok acct ↔ IsValid address = true ∧ acct = s.accountOf address := by
  cases h : IsValid address
  · rw [State.Account_of_invalid IsValid s address h]
    constructor
    · intro h2
      cases h2
    · intro h2
      cases h2.1
  · rw [State.Account_of_valid IsValid s address h]
    constructor
    · intro h2
      injection h2 with h3
      exact ⟨rfl, h3.symm⟩
    · intro h2
      rw [h2.2]

theorem kvGet_kvInsert_self {κ ν : Type} [DecidableEq κ] (m : List (κ × ν)) (k : κ) (v : ν) :
    kvGet (kvInsert m k v) k = some v := by
  induction m with
  | nil => simp [kvInsert, kvGet]
  | cons hd tl ih =>
    obtain ⟨k1, v1⟩ := hd
    by_cases h : k1 = k
    · simp [kvInsert, kvGet, h]
    · simp [kvInsert, kvGet, h, ih]

theorem kvGet_kvInsert_ne {κ ν : Type} [DecidableEq κ] (m : List (κ × ν)) (k k2 : κ) (v : ν)
    (hne : k2 ≠ k) : kvGet (kvInsert m k v) k2 = kvGet m k2 := by
  induction m with
  | nil => simp [kvInsert, kvGet, Ne.symm hne]
  | cons hd tl ih =>
    obtain ⟨k1, v1⟩ := hd
    by_cases h : k1 = k
    · subst h
      simp [kvInsert, kvGet, Ne.symm hne]
    · by_cases h2 : k1 = k2
      · subst h2
        simp [kvInsert, kvGet, h]
      · simp [kvInsert, kvGet, h, h2, ih]

theorem State.accountOf_SetAccount_self (s : State) (a : Address) (acct : Staking.Account) :
    (s.SetAccount a acct).accountOf a = acct := by
  simp [State.accountOf, State.SetAccount, kvGet_kvInsert_self]

theorem State.accounts_SetAccount_ne (s : State) (a b : Address) (acct : Staking.Account)
    (hne : b ≠ a) : kvGet (s.SetAccount a acct).accounts b = kvGet s.accounts b := by
  simp [State.SetAccount, kvGet_kvInsert_ne _ _ _ _ hne]

theorem State.accountOf_SetAccount_ne (s : State) (a b : Address) (acct : Staking.Account)
    (hne : b ≠ a) : (s.SetAccount a acct).accountOf b = s.accountOf b := by
  simp [State.accountOf, State.accounts_SetAccount_ne _ _ _ _ hne]

theorem slashPool_eq (p : SharePool) (amount total : Nat) (h : p.balance ≤ total) :
    slashPool 0 p amount total =
      .ok (slashedPart p.balance amount total,
           { p with balance := p.balance - slashedPart p.balance amount total }) := by
  by_cases ht : total = 0
  · obtain ⟨b, sh⟩ := p
    have hb : b = 0 := by
      simp only [] at h
      omega
    subst hb
    simp [slashPool, ht, slashedPart]
  · simp [slashPool, ht, slashedPart, quantity.Mul, quantity.Quo, quantity.MoveUpTo]

theorem SlashEscrow_eq (ctx : Context) (s : State) (fromAddr : Address) (amount : Nat) :
    SlashEscrow allValid ctx s fromAddr amount =
      let acct := s.accountOf fromAddr
      let total := acct.escrow.active.balance + acct.escrow.debonding.balance
      let a := slashedPart acct.escrow.active.balance amount total
      let d := slashedPart acct.escrow.debonding.balance amount total
      if a + d = 0 then ⟨s, [], .ok 0⟩
      else
        ⟨(s.SetCommonPool (s.CommonPool + (a + d))).SetAccount fromAddr
            (slashedAccount acct amount),
         ctx.emit [.TakeEscrow { Owner := fromAddr, Amount := a + d, DebondingAmount := d }],
         .ok (a + d)⟩ := by
  simp only [SlashEscrow, State.Account_allValid, quantity.Add]
  rw [slashPool_eq _ _ _ (Nat.le_add_right _ _), slashPool_eq _ _ _ (Nat.le_add_left _ _)]
  simp only []
  split
  · rename_i h
    simp only [h]
  · simp [quantity.Move, quantity.Sub, slashedAccount]

theorem slashedPart_le (b amount total : Nat) : slashedPart b amount total ≤ b :=
  Nat.min_le_left _ _

theorem slashedPart_full (b amount total : Nat) (hb : b ≤ total) (h : total ≤ amount) :
    slashedPart b amount total = b := by
  unfold slashedPart
  apply Nat.min_eq_left
  by_cases ht : total = 0
  · have : b = 0 := by omega
    subst this
    exact Nat.zero_le _
  · rw [Nat.le_div_iff_mul_le (Nat.pos_of_ne_zero ht)]
    exact Nat.mul_le_mul_left b h

theorem slashedPart_lt (b amount total : Nat) (hb : 0 < b) (h : amount < total) :
    slashedPart b amount total < b := by
  unfold slashedPart
  apply lt_of_le_of_lt (Nat.min_le_right _ _)
  rw [Nat.div_lt_iff_lt_mul (by omega)]
  exact Nat.mul_lt_mul_of_pos_left h hb

theorem SlashEscrow_account (ctx : Context) (s : State) (fromAddr : Address) (amount : Nat) :
    (SlashEscrow allValid ctx s fromAddr amount).state.accountOf fromAddr =
      slashedAccount (s.accountOf fromAddr) amount := by
  rw [SlashEscrow_eq]
  simp only []
  split
  · rename_i h
    have ha := Nat.eq_zero_of_add_eq_zero_right h
    have hd := Nat.eq_zero_of_add_eq_zero_left h
    simp only [slashedAccount, ha, hd, Nat.sub_zero]
  · rw [State.accountOf_SetAccount_self]

theorem kvInsert_sum {κ ν : Type} [DecidableEq κ] (f : ν → Nat) (m : List (κ × ν)) (k : κ)
    (v : ν) :
    ((kvInsert m k v).map (fun kv => f kv.2)).sum + ((kvGet m k).map f).getD 0 =
      (m.map (fun kv => f kv.2)).sum + f v := by
  induction m with
  | nil => simp [kvInsert, kvGet]
  | cons hd tl ih =>
    obtain ⟨k1, v1⟩ := hd
    by_cases h : k1 = k
    · simp [kvInsert, kvGet, h]
      omega
    · simp [kvInsert, kvGet, h]
      omega

theorem State.accountsTotal_SetAccount (s : State) (a : Address) (acct : Staking.Account) :
    (s.SetAccount a acct).accountsTotal + (s.accountOf a).total = s.accountsTotal + acct.total := by
  have h := kvInsert_sum Account.total s.accounts a acct
  have e : ((kvGet s.accounts a).map Account.total).getD 0 = (s.accountOf a).total := by
    unfold State.accountOf
    cases kvGet s.accounts a <;> rfl
  rw [e] at h
  exact h

theorem Transfer_conserves (ctx : Context) (s : State) (fromAddr toAddr : Address) (amount : Nat)
    (h : (Transfer allValid ctx s fromAddr toAddr amount).ret = .ok ()) :
    (Transfer allValid ctx s fromAddr toAddr amount).state.supplySum = s.supplySum ∧
    (Transfer allValid ctx s fromAddr toAddr amount).state.totalSupply = s.totalSupply := by
  revert h
  by_cases h0 : fromAddr = toAddr ∨ amount = 0
  · have hT : Transfer allValid ctx s fromAddr toAddr amount = ⟨s, [], .ok ()⟩ := by
      simp only [Transfer, State.Account_allValid, if_pos h0]
    rw [hT]
    exact fun _ => ⟨rfl, rfl⟩
  by_cases h1 : (s.accountOf fromAddr).general.balance < amount
  · simp only [Transfer, State.Account_allValid, if_neg h0, quantity.Move, quantity.Sub, if_pos h1]
    intro h
    cases h
  cases hp : s.parameters with
  | none =>
    simp only [Transfer, State.Account_allValid, if_neg h0, quantity.Move, quantity.Sub, if_neg h1,
      State.ConsensusParameters, hp]
    intro h
    cases h
  | some params =>
    simp only [Transfer, State.Account_allValid, if_neg h0, quantity.Move, quantity.Sub, if_neg h1,
      State.ConsensusParameters, hp]
    split
    · intro h
      cases h
    split
    · intro h
      cases h
    intro _
    refine ⟨?_, rfl⟩
    have hne : toAddr ≠ fromAddr := fun e => h0 (Or.inl e.symm)
    have e1 := State.accountsTotal_SetAccount s fromAddr
      { s.accountOf fromAddr with
        general := { (s.accountOf fromAddr).general with
          balance := (s.accountOf fromAddr).general.balance - amount } }
    have e2 := State.accountsTotal_SetAccount (s.SetAccount fromAddr
      { s.accountOf fromAddr with
        general := { (s.accountOf fromAddr).general with
          balance := (s.accountOf fromAddr).general.balance - amount } }) toAddr
      { s.accountOf toAddr with
        general := { (s.accountOf toAddr).general with
          balance := (s.accountOf toAddr).general.balance + amount } }
    rw [State.accountOf_SetAccount_ne _ _ _ _ hne] at e2
    simp only [Account.total] at e1 e2
    simp only [State.supplySum]
    have g1 : ∀ (x : State) (a : Address) (b : Account),
        (x.SetAccount a b).CommonPool = x.CommonPool := fun _ _ _ => rfl
    have g2 : ∀ (x : State) (a : Address) (b : Account),
        (x.SetAccount a b).GovernanceDeposits = x.GovernanceDeposits := fun _ _ _ => rfl
    have g3 : ∀ (x : State) (a : Address) (b : Account),
        (x.SetAccount a b).LastBlockFees = x.LastBlockFees := fun _ _ _ => rfl
    rw [g1, g2, g3, g1, g2, g3]
    omega

theorem State.CommonPool_SetAccount (s : State) (a : Address) (x : Staking.Account) :
    (s.SetAccount a x).CommonPool = s.CommonPool := rfl

theorem State.GovernanceDeposits_SetAccount (s : State) (a : Address) (x : Staking.Account) :
    (s.SetAccount a x).GovernanceDeposits = s.GovernanceDeposits := rfl

theorem State.LastBlockFees_SetAccount (s : State) (a : Address) (x : Staking.Account) :
    (s.SetAccount a x).LastBlockFees = s.LastBlockFees := rfl

theorem State.totalSupply_SetAccount (s : State) (a : Address) (x : Staking.Account) :
    (s.SetAccount a x).totalSupply = s.totalSupply := rfl

theorem State.CommonPool_SetCommonPool (s : State) (q : Nat) :
    (s.SetCommonPool q).CommonPool = q := rfl

theorem State.GovernanceDeposits_SetCommonPool (s : State) (q : Nat) :
    (s.SetCommonPool q).GovernanceDeposits = s.GovernanceDeposits := rfl

theorem State.LastBlockFees_SetCommonPool (s : State) (q : Nat) :
    (s.SetCommonPool q).LastBlockFees = s.LastBlockFees := rfl

theorem State.totalSupply_SetCommonPool (s : State) (q : Nat) :
    (s.SetCommonPool q).totalSupply = s.totalSupply := rfl

theorem State.accountsTotal_SetCommonPool (s : State) (q : Nat) :
    (s.SetCommonPool q).accountsTotal = s.accountsTotal := rfl

theorem State.accountOf_SetCommonPool (s : State) (q : Nat) (a : Address) :
    (s.SetCommonPool q).accountOf a = s.accountOf a := rfl

theorem State.CommonPool_SetGovernanceDeposits (s : State) (q : Nat) :
    (s.SetGovernanceDeposits q).CommonPool = s.CommonPool := rfl

theorem State.GovernanceDeposits_SetGovernanceDeposits (s : State) (q : Nat) :
    (s.SetGovernanceDeposits q).GovernanceDeposits = q := rfl

theorem State.LastBlockFees_SetGovernanceDeposits (s : State) (q : Nat) :
    (s.SetGovernanceDeposits q).LastBlockFees = s.LastBlockFees := rfl

theorem State.totalSupply_SetGovernanceDeposits (s : State) (q : Nat) :
    (s.SetGovernanceDeposits q).totalSupply = s.totalSupply := rfl

theorem State.accountsTotal_SetGovernanceDeposits (s : State) (q : Nat) :
    (s.SetGovernanceDeposits q).accountsTotal = s.accountsTotal := rfl

theorem State.accountOf_SetGovernanceDeposits (s : State) (q : Nat) (a : Address) :
    (s.SetGovernanceDeposits q).accountOf a = s.accountOf a := rfl

theorem State.CommonPool_SetDelegation (s : State) (a b : Address) (d : Staking.Delegation) :
    (s.SetDelegation a b d).CommonPool = s.CommonPool := by
  unfold State.SetDelegation; split <;> rfl

theorem State.GovernanceDeposits_SetDelegation (s : State) (a b : Address)
    (d : Staking.Delegation) :
    (s.SetDelegation a b d).GovernanceDeposits = s.GovernanceDeposits := by
  unfold State.SetDelegation; split <;> rfl

theorem State.LastBlockFees_SetDelegation (s : State) (a b : Address)
    (d : Staking.Delegation) :
    (s.SetDelegation a b d).LastBlockFees = s.LastBlockFees := by
  unfold State.SetDelegation; split <;> rfl

theorem State.totalSupply_SetDelegation (s : State) (a b : Address) (d : Staking.Delegation) :
    (s.SetDelegation a b d).totalSupply = s.totalSupply := by
  unfold State.SetDelegation; split <;> rfl

theorem State.accountsTotal_SetDelegation (s : State) (a b : Address)
    (d : Staking.Delegation) :
    (s.SetDelegation a b d).accountsTotal = s.accountsTotal := by
  unfold State.SetDelegation; split <;> rfl

theorem State.accountOf_SetDelegation (s : State) (a b : Address) (d : Staking.Delegation)
    (c : Address) : (s.SetDelegation a b d).accountOf c = s.accountOf c := by
  unfold State.SetDelegation; split <;> rfl

theorem computeCommission_some (K : Constants) (s : State) (r q com rest : Nat)
    (h : computeCommission K s (some r) q = .ok (com, rest)) : com + rest = q := by
  by_cases hd : K.CommissionRateDenominator = 0
  · simp [computeCommission, quantity.Mul, quantity.Quo, hd] at h
  · by_cases hlt : q < q * r / K.CommissionRateDenominator
    · simp [computeCommission, quantity.Mul, quantity.Quo, quantity.Sub, hd, hlt] at h
    · simp only [computeCommission, quantity.Mul, quantity.Quo, quantity.Sub, if_neg hd,
        if_neg hlt] at h
      injection h with h
      injection h with h1 h2
      omega

theorem computeCommission_add (K : Constants) (s : State) (rate : Option Nat) (q com rest : Nat)
    (h : computeCommission K s rate q = .ok (com, rest)) : com + rest = q := by
  cases rate with
  | some r => exact computeCommission_some K s r q com rest h
  | none =>
    cases hp : s.parameters with
    | none => simp [computeCommission, State.ConsensusParameters, hp] at h
    | some params =>
      apply computeCommission_some K s params.commissionScheduleRules.minCommissionRate
      rw [← h]
      simp only [computeCommission, State.ConsensusParameters, hp]

theorem SharePool.Deposit_ok (p : SharePool) (shareDst stakeSrc amount shares : Nat)
    (p1 : SharePool) (dst1 src1 : Nat)
    (h : p.Deposit shareDst stakeSrc amount = .ok (shares, p1, dst1, src1)) :
    p1.balance = p.balance + amount ∧ src1 + amount = stakeSrc := by
  by_cases hlt : stakeSrc < amount
  · simp [SharePool.Deposit, quantity.Move, quantity.Sub, hlt] at h
  · simp only [SharePool.Deposit, quantity.Move, quantity.Sub, if_neg hlt] at h
    injection h with h
    injection h with h1 h2
    injection h2 with h2 h3
    injection h3 with h3 h4
    subst h2 h4
    exact ⟨rfl, by omega⟩

theorem SharePool.Withdraw_ok (p : SharePool) (stakeDst shareSrc shareAmount : Nat)
    (p1 : SharePool) (dst1 src1 : Nat)
    (h : p.Withdraw stakeDst shareSrc shareAmount = .ok (p1, dst1, src1)) :
    dst1 + p1.balance = stakeDst + p.balance := by
  by_cases h1 : shareSrc < shareAmount
  · simp [SharePool.Withdraw, quantity.Sub, h1] at h
  by_cases h2 : p.totalShares < shareAmount
  · simp [SharePool.Withdraw, quantity.Sub, h1, h2] at h
  by_cases h3 : p.balance < p.stakeForShares shareAmount
  · simp [SharePool.Withdraw, quantity.Move, quantity.Sub, h1, h2, h3] at h
  simp only [SharePool.Withdraw, quantity.Move, quantity.Sub, if_neg h1, if_neg h2,
    if_neg h3] at h
  injection h with h
  injection h with h4 h5
  injection h5 with h5 h6
  subst h4 h5
  simp only []
  omega

theorem SlashEscrow_conserves (ctx : Context) (s : State) (fromAddr : Address) (amount : Nat) :
    (SlashEscrow allValid ctx s fromAddr amount).state.supplySum = s.supplySum ∧
    (SlashEscrow allValid ctx s fromAddr amount).state.totalSupply = s.totalSupply := by
  rw [SlashEscrow_eq]
  simp only []
  split
  · exact ⟨rfl, rfl⟩
  · refine ⟨?_, rfl⟩
    have e := State.accountsTotal_SetAccount
      (s.SetCommonPool (s.CommonPool
        + (slashedPart (s.accountOf fromAddr).escrow.active.balance amount
            ((s.accountOf fromAddr).escrow.active.balance
              + (s.accountOf fromAddr).escrow.debonding.balance)
          + slashedPart (s.accountOf fromAddr).escrow.debonding.balance amount
            ((s.accountOf fromAddr).escrow.active.balance
              + (s.accountOf fromAddr).escrow.debonding.balance))))
      fromAddr (slashedAccount (s.accountOf fromAddr) amount)
    have ha := slashedPart_le (s.accountOf fromAddr).escrow.active.balance amount
      ((s.accountOf fromAddr).escrow.active.balance +
          (s.accountOf fromAddr).escrow.debonding.balance)
    have hd := slashedPart_le (s.accountOf fromAddr).escrow.debonding.balance amount
      ((s.accountOf fromAddr).escrow.active.balance +
          (s.accountOf fromAddr).escrow.debonding.balance)
    have ht : (slashedAccount (s.accountOf fromAddr) amount).total
        + slashedPart (s.accountOf fromAddr).escrow.active.balance amount
            ((s.accountOf fromAddr).escrow.active.balance
              + (s.accountOf fromAddr).escrow.debonding.balance)
        + slashedPart (s.accountOf fromAddr).escrow.debonding.balance amount
            ((s.accountOf fromAddr).escrow.active.balance
              + (s.accountOf fromAddr).escrow.debonding.balance)
        = (s.accountOf fromAddr).total := by
      simp only [slashedAccount, Account.total]
      omega
    simp only [State.accountOf_SetCommonPool, State.accountsTotal_SetCommonPool] at e
    simp only [State.supplySum, State.CommonPool_SetAccount, State.GovernanceDeposits_SetAccount,
      State.LastBlockFees_SetAccount, State.CommonPool_SetCommonPool,
      State.GovernanceDeposits_SetCommonPool, State.LastBlockFees_SetCommonPool]
    omega

theorem TransferToGovernanceDeposits_conserves (K : Constants) (ctx : Context) (s : State)
    (fromAddr : Address) (amount : Nat)
    (h : (TransferToGovernanceDeposits allValid K ctx s fromAddr amount).ret = .ok ()) :
    (TransferToGovernanceDeposits allValid K ctx s fromAddr amount).state.supplySum = s.supplySum ∧
    (TransferToGovernanceDeposits allValid K ctx s fromAddr amount).state.totalSupply =
        s.totalSupply := by
  revert h
  by_cases hlt : (s.accountOf fromAddr).general.balance < amount
  · simp [TransferToGovernanceDeposits, State.Account_allValid, quantity.Move, quantity.Sub, hlt]
  · simp only [TransferToGovernanceDeposits, State.Account_allValid, quantity.Move, quantity.Sub,
      if_neg hlt]
    intro _
    refine ⟨?_, rfl⟩
    have e := State.accountsTotal_SetAccount s fromAddr
      { s.accountOf fromAddr with
        general := { (s.accountOf fromAddr).general with
          balance := (s.accountOf fromAddr).general.balance - amount } }
    simp only [Account.total] at e
    simp only [State.supplySum, State.CommonPool_SetAccount, State.GovernanceDeposits_SetAccount,
      State.LastBlockFees_SetAccount, State.CommonPool_SetGovernanceDeposits,
      State.GovernanceDeposits_SetGovernanceDeposits, State.LastBlockFees_SetGovernanceDeposits,
      State.accountsTotal_SetGovernanceDeposits]
    omega

theorem TransferFromGovernanceDeposits_conserves (K : Constants) (ctx : Context) (s : State)
    (toAddr : Address) (amount : Nat)
    (h : (TransferFromGovernanceDeposits allValid K ctx s toAddr amount).ret = .ok ()) :
    (TransferFromGovernanceDeposits allValid K ctx s toAddr amount).state.supplySum = s.supplySum ∧
    (TransferFromGovernanceDeposits allValid K ctx s toAddr amount).state.totalSupply =
        s.totalSupply := by
  revert h
  by_cases hlt : s.GovernanceDeposits < amount
  · simp [TransferFromGovernanceDeposits, State.Account_allValid, quantity.Move, quantity.Sub, hlt]
  · simp only [TransferFromGovernanceDeposits, State.Account_allValid, quantity.Move, quantity.Sub,
      if_neg hlt]
    intro _
    refine ⟨?_, rfl⟩
    have e := State.accountsTotal_SetAccount s toAddr
      { s.accountOf toAddr with
        general := { (s.accountOf toAddr).general with
          balance := (s.accountOf toAddr).general.balance + amount } }
    simp only [Account.total] at e
    simp only [State.supplySum, State.CommonPool_SetAccount, State.GovernanceDeposits_SetAccount,
      State.LastBlockFees_SetAccount, State.CommonPool_SetGovernanceDeposits,
      State.GovernanceDeposits_SetGovernanceDeposits, State.LastBlockFees_SetGovernanceDeposits,
      State.accountsTotal_SetGovernanceDeposits]
    omega

theorem DiscardGovernanceDeposit_conserves (K : Constants) (ctx : Context) (s : State)
    (amount : Nat) (h : (DiscardGovernanceDeposit K ctx s amount).ret = .ok ()) :
    (DiscardGovernanceDeposit K ctx s amount).state.supplySum = s.supplySum ∧
    (DiscardGovernanceDeposit K ctx s amount).state.totalSupply = s.totalSupply := by
  revert h
  by_cases hlt : s.GovernanceDeposits < amount
  · simp [DiscardGovernanceDeposit, quantity.Move, quantity.Sub, hlt]
  · simp only [DiscardGovernanceDeposit, quantity.Move, quantity.Sub, if_neg hlt]
    intro _
    refine ⟨?_, rfl⟩
    simp only [State.supplySum, State.CommonPool_SetCommonPool,
      State.GovernanceDeposits_SetCommonPool, State.LastBlockFees_SetCommonPool,
      State.accountsTotal_SetCommonPool,
      State.GovernanceDeposits_SetGovernanceDeposits, State.LastBlockFees_SetGovernanceDeposits,
      State.accountsTotal_SetGovernanceDeposits]
    omega

theorem State.supplySum_eq (s : State) : s.supplySum = s.CommonPool + s.outsideCommonPool := by
  simp only [State.supplySum, State.outsideCommonPool]
  omega

theorem State.outsideCommonPool_SetAccount (s : State) (a : Address) (x : Staking.Account) :
    (s.SetAccount a x).outsideCommonPool + (s.accountOf a).total
      = s.outsideCommonPool + x.total := by
  have e := State.accountsTotal_SetAccount s a x
  simp only [State.outsideCommonPool, State.GovernanceDeposits_SetAccount,
    State.LastBlockFees_SetAccount]
  omega

theorem State.outsideCommonPool_SetCommonPool (s : State) (q : Nat) :
    (s.SetCommonPool q).outsideCommonPool = s.outsideCommonPool := rfl

theorem State.outsideCommonPool_SetDelegation (s : State) (a b : Address)
    (d : Staking.Delegation) :
    (s.SetDelegation a b d).outsideCommonPool = s.outsideCommonPool := by
  simp only [State.outsideCommonPool, State.GovernanceDeposits_SetDelegation,
    State.LastBlockFees_SetDelegation, State.accountsTotal_SetDelegation]

theorem payReward_conserves (K : Constants) (s : State) (commonPool : Nat) (time : EpochTime)
    (addr : Address) (q commonPool1 : Nat)
    (h : (payReward K s commonPool time addr (s.accountOf addr) q).ret = .ok commonPool1) :
    commonPool1 + (payReward K s commonPool time addr (s.accountOf addr) q).state.outsideCommonPool
      = commonPool + s.outsideCommonPool ∧
    (payReward K s commonPool time addr (s.accountOf addr) q).state.totalSupply = s.totalSupply :=
        by
  revert h
  cases hC : computeCommission K s
      ((s.accountOf addr).escrow.commissionSchedule.CurrentRate time) q with
  | error e =>
    simp only [payReward, hC]
    intro h
    cases h
  | ok cr =>
    obtain ⟨com, rest⟩ := cr
    have hadd := computeCommission_add K s _ q com rest hC
    by_cases hr : rest ≠ 0
    · by_cases hlt : commonPool < rest
      · simp only [payReward, hC, if_pos hr, quantity.Move, quantity.Sub, if_pos hlt]
        intro h
        cases h
      · by_cases hc : com ≠ 0
        · simp only [payReward, hC, if_pos hr, quantity.Move, quantity.Sub, if_neg hlt, if_pos hc]
          split
          · intro h
            cases h
          · rename_i obtainedShares active2 shares2 commonPool2 hD
            intro h
            injection h with h
            subst h
            have hd := SharePool.Deposit_ok _ _ _ _ _ _ _ _ hD
            have e := State.outsideCommonPool_SetAccount
              (s.SetDelegation addr addr { shares := shares2 }) addr
              { general := (s.accountOf addr).general,
                escrow :=
                  { active := active2, debonding := (s.accountOf addr).escrow.debonding,
                    commissionSchedule := (s.accountOf addr).escrow.commissionSchedule } }
            rw [State.accountOf_SetDelegation, State.outsideCommonPool_SetDelegation] at e
            simp only [Account.total] at e
            simp only [] at hd
            refine ⟨?_, ?_⟩
            · simp only []
              omega
            · simp only [State.totalSupply_SetAccount, State.totalSupply_SetDelegation]
        · simp only [payReward, hC, if_pos hr, quantity.Move, quantity.Sub, if_neg hlt, if_neg hc]
          intro h
          injection h with h
          subst h
          have e := State.outsideCommonPool_SetAccount s addr
            { general := (s.accountOf addr).general,
              escrow :=
                { active :=
                    { balance := (s.accountOf addr).escrow.active.balance + rest,
                      totalShares := (s.accountOf addr).escrow.active.totalShares },
                  debonding := (s.accountOf addr).escrow.debonding,
                  commissionSchedule := (s.accountOf addr).escrow.commissionSchedule } }
          simp only [Account.total] at e
          refine ⟨?_, ?_⟩
          · omega
          · rfl
    · by_cases hc : com ≠ 0
      · simp only [payReward, hC, if_neg hr, if_pos hc]
        split
        · intro h
          cases h
        · rename_i obtainedShares active2 shares2 commonPool2 hD
          intro h
          injection h with h
          subst h
          have hd := SharePool.Deposit_ok _ _ _ _ _ _ _ _ hD
          have e := State.outsideCommonPool_SetAccount
            (s.SetDelegation addr addr { shares := shares2 }) addr
            { general := (s.accountOf addr).general,
              escrow :=
                { active := active2, debonding := (s.accountOf addr).escrow.debonding,
                  commissionSchedule := (s.accountOf addr).escrow.commissionSchedule } }
          rw [State.accountOf_SetDelegation, State.outsideCommonPool_SetDelegation] at e
          simp only [Account.total] at e
          refine ⟨?_, ?_⟩
          · simp only []
            omega
          · simp only [State.totalSupply_SetAccount, State.totalSupply_SetDelegation]
      · simp only [payReward, hC, if_neg hr, if_neg hc]
        intro h
        injection h with h
        subst h
        have e := State.outsideCommonPool_SetAccount s addr (s.accountOf addr)
        refine ⟨?_, ?_⟩
        · omega
        · rfl

theorem AddRewards.step_conserves (K : Constants) (time : EpochTime) (factor : Nat)
    (activeStep : RewardStep) (s : State) (commonPool : Nat) (addr : Address) (commonPool1 : Nat)
    (h : (AddRewards.step allValid K time factor activeStep s commonPool addr).ret = .ok
        commonPool1) :
    commonPool1
        + (AddRewards.step allValid K time factor activeStep s commonPool
            addr).state.outsideCommonPool
      = commonPool + s.outsideCommonPool ∧
    (AddRewards.step allValid K time factor activeStep s commonPool addr).state.totalSupply
      = s.totalSupply := by
  revert h
  by_cases hd : K.RewardAmountDenominator = 0
  · simp only [AddRewards.step, State.Account_allValid, quantity.Mul, quantity.Quo, if_pos hd]
    intro h
    cases h
  by_cases hq : (s.accountOf addr).escrow.active.balance * factor * activeStep.scale
      / K.RewardAmountDenominator = 0
  · simp only [AddRewards.step, State.Account_allValid, quantity.Mul, quantity.Quo, if_neg hd,
      if_pos hq]
    intro h
    injection h with h
    subst h
    refine ⟨?_, ?_⟩ <;> first | rfl | trivial
  by_cases hgt : (s.accountOf addr).escrow.active.balance * factor * activeStep.scale
      / K.RewardAmountDenominator > commonPool
  · simp only [AddRewards.step, State.Account_allValid, quantity.Mul, quantity.Quo, if_neg hd,
      if_neg hq, if_pos hgt]
    intro h
    injection h with h
    subst h
    refine ⟨?_, ?_⟩ <;> first | rfl | trivial
  simp only [AddRewards.step, State.Account_allValid, quantity.Mul, quantity.Quo, if_neg hd, if_neg
      hq, if_neg hgt]
  exact payReward_conserves K s commonPool time addr _ commonPool1

theorem AddRewards.loop_conserves (K : Constants) (time : EpochTime) (factor : Nat)
    (activeStep : RewardStep) (addresses : List Address) (s : State) (commonPool : Nat)
    (commonPool1 : Nat)
    (h : (AddRewards.loop allValid K time factor activeStep addresses s commonPool).ret
      = .ok commonPool1) :
    commonPool1
        + (AddRewards.loop allValid K time factor activeStep addresses s
            commonPool).state.outsideCommonPool
      = commonPool + s.outsideCommonPool ∧
    (AddRewards.loop allValid K time factor activeStep addresses s commonPool).state.totalSupply
      = s.totalSupply := by
  induction addresses generalizing s commonPool with
  | nil =>
    simp only [AddRewards.loop, State.Account_allValid] at h ⊢
    injection h with h
    subst h
    refine ⟨?_, ?_⟩ <;> first | rfl | trivial
  | cons addr rest ih =>
    revert h
    simp only [AddRewards.loop, State.Account_allValid]
    cases hs : (AddRewards.step allValid K time factor activeStep s commonPool addr).ret with
    | error e =>
      simp only []
      intro h
      cases h
    | ok cp1 =>
      simp only []
      intro h
      have h1 := AddRewards.step_conserves K time factor activeStep s commonPool addr cp1 hs
      have h2 := ih _ cp1 h
      exact ⟨by omega, h2.2.trans h1.2⟩

theorem AddRewards_conserves (K : Constants) (ctx : Context) (s : State) (time : EpochTime)
    (factor : Nat) (addresses : List Address)
    (h : (AddRewards allValid K ctx s time factor addresses).ret = .ok ()) :
    (AddRewards allValid K ctx s time factor addresses).state.supplySum = s.supplySum ∧
    (AddRewards allValid K ctx s time factor addresses).state.totalSupply = s.totalSupply := by
  revert h
  unfold AddRewards
  split
  · intro h
    cases h
  split
  · exact fun _ => ⟨rfl, rfl⟩
  rename_i activeStep _
  simp only []
  cases hl : (AddRewards.loop allValid K time factor activeStep addresses s s.CommonPool).ret with
  | error e =>
    simp only []
    intro h
    cases h
  | ok cp =>
    simp only []
    intro _
    have h1 := AddRewards.loop_conserves K time factor activeStep addresses s s.CommonPool cp hl
    refine ⟨?_, h1.2⟩
    rw [State.supplySum_eq, State.supplySum_eq, State.CommonPool_SetCommonPool,
      State.outsideCommonPool_SetCommonPool]
    exact h1.1

theorem AddRewardSingleAttenuated_conserves (K : Constants) (ctx : Context) (s : State)
    (time : EpochTime) (factor : Nat) (attenuationNumerator attenuationDenominator : Int)
    (address : Address)
    (h : (AddRewardSingleAttenuated allValid K ctx s time factor attenuationNumerator
      attenuationDenominator address).ret = .ok ()) :
    (AddRewardSingleAttenuated allValid K ctx s time factor attenuationNumerator
      attenuationDenominator address).state.supplySum = s.supplySum ∧
    (AddRewardSingleAttenuated allValid K ctx s time factor attenuationNumerator
      attenuationDenominator address).state.totalSupply = s.totalSupply := by
  revert h
  unfold AddRewardSingleAttenuated
  split
  · intro h
    cases h
  split
  · exact fun _ => ⟨rfl, rfl⟩
  rename_i activeStep _
  split
  · intro h
    cases h
  rename_i numQ _
  split
  · intro h
    cases h
  rename_i denQ _
  simp only [State.Account_allValid, quantity.Mul, quantity.Quo]
  by_cases hd : K.RewardAmountDenominator = 0
  · simp only [if_pos hd]
    intro h
    cases h
  by_cases hd2 : denQ = 0
  · simp only [if_neg hd, if_pos hd2]
    intro h
    cases h
  simp only [if_neg hd, if_neg hd2]
  split
  · exact fun _ => ⟨rfl, rfl⟩
  split
  · exact fun _ => ⟨rfl, rfl⟩
  split
  · intro h
    cases h
  · rename_i cp hp
    intro _
    have h1 := payReward_conserves K s s.CommonPool time address _ cp hp
    refine ⟨?_, h1.2⟩
    rw [State.supplySum_eq, State.supplySum_eq, State.CommonPool_SetCommonPool,
      State.outsideCommonPool_SetCommonPool]
    exact h1.1

theorem TransferFromCommon_conserves (K : Constants) (ctx : Context) (s : State)
    (toAddr : Address) (amount : Nat) (escrow : Bool) (moved : Bool)
    (h : (TransferFromCommon allValid K ctx s toAddr amount escrow).ret = .ok moved) :
    (TransferFromCommon allValid K ctx s toAddr amount escrow).state.supplySum = s.supplySum ∧
    (TransferFromCommon allValid K ctx s toAddr amount escrow).state.totalSupply = s.totalSupply :=
        by
  revert h
  have hmin : min s.CommonPool amount ≤ s.CommonPool := Nat.min_le_left _ _
  by_cases ht : min s.CommonPool amount = 0
  · have hT : TransferFromCommon allValid K ctx s toAddr amount escrow = ⟨s, [], .ok false⟩ := by
      simp only [TransferFromCommon, State.Account_allValid, quantity.MoveUpTo, if_pos ht]
    rw [hT]
    exact fun _ => ⟨rfl, rfl⟩
  cases escrow with
  | false =>
    simp only [TransferFromCommon, State.Account_allValid, quantity.MoveUpTo, if_neg ht]
    intro _
    refine ⟨?_, rfl⟩
    have e := State.outsideCommonPool_SetAccount
      (s.SetCommonPool (s.CommonPool - min s.CommonPool amount)) toAddr
      { general :=
          { balance := (s.accountOf toAddr).general.balance + min s.CommonPool amount,
            nonce := (s.accountOf toAddr).general.nonce },
        escrow := (s.accountOf toAddr).escrow }
    rw [State.accountOf_SetCommonPool, State.outsideCommonPool_SetCommonPool] at e
    simp only [Account.total] at e
    rw [State.supplySum_eq, State.supplySum_eq, State.CommonPool_SetAccount,
      State.CommonPool_SetCommonPool]
    omega
  | true =>
    by_cases hs : (s.accountOf toAddr).escrow.active.totalShares = 0
    · simp only [TransferFromCommon, State.Account_allValid, quantity.MoveUpTo, if_neg ht, if_pos
        hs,
        if_pos (show min s.CommonPool amount ≠ 0 from ht)]
      split
      · intro h
        cases h
      · rename_i obtainedShares active3 shares3 generalBalance3 hD
        intro _
        have hd := SharePool.Deposit_ok _ _ _ _ _ _ _ _ hD
        have e := State.outsideCommonPool_SetAccount
          ((s.SetDelegation toAddr toAddr { shares := shares3 }).SetCommonPool
            (s.CommonPool - min s.CommonPool amount)) toAddr
          { general := { balance := generalBalance3, nonce := (s.accountOf toAddr).general.nonce },
            escrow :=
              { active := active3, debonding := (s.accountOf toAddr).escrow.debonding,
                commissionSchedule := (s.accountOf toAddr).escrow.commissionSchedule } }
        rw [State.accountOf_SetCommonPool, State.outsideCommonPool_SetCommonPool,
          State.accountOf_SetDelegation, State.outsideCommonPool_SetDelegation] at e
        simp only [Account.total] at e
        refine ⟨?_, ?_⟩
        · simp only []
          rw [State.supplySum_eq, State.supplySum_eq, State.CommonPool_SetAccount,
            State.CommonPool_SetCommonPool]
          omega
        · simp only [State.totalSupply_SetAccount, State.totalSupply_SetCommonPool,
            State.totalSupply_SetDelegation]
    · simp only [TransferFromCommon, State.Account_allValid, quantity.MoveUpTo, if_neg ht, if_neg
        hs]
      cases hC : computeCommission K s
          ((s.accountOf toAddr).escrow.commissionSchedule.CurrentRate ctx.currentEpoch)
          (min s.CommonPool amount) with
      | error e =>
        simp only []
        intro h
        cases h
      | ok cr =>
        obtain ⟨com, rest⟩ := cr
        have hadd := computeCommission_add K s _ _ com rest hC
        simp only [quantity.Move, quantity.Sub]
        have hlt : ¬ ((s.accountOf toAddr).general.balance + min s.CommonPool amount < rest) := by
          omega
        simp only [if_neg hlt]
        by_cases hc : com ≠ 0
        · simp only [if_pos hc]
          split
          · intro h
            cases h
          · rename_i obtainedShares active3 shares3 generalBalance3 hD
            intro _
            have hd := SharePool.Deposit_ok _ _ _ _ _ _ _ _ hD
            simp only [] at hd
            have e := State.outsideCommonPool_SetAccount
              ((s.SetDelegation toAddr toAddr { shares := shares3 }).SetCommonPool
                (s.CommonPool - min s.CommonPool amount)) toAddr
              { general :=
                  { balance := generalBalance3, nonce := (s.accountOf toAddr).general.nonce },
                escrow :=
                  { active := active3, debonding := (s.accountOf toAddr).escrow.debonding,
                    commissionSchedule := (s.accountOf toAddr).escrow.commissionSchedule } }
            rw [State.accountOf_SetCommonPool, State.outsideCommonPool_SetCommonPool,
              State.accountOf_SetDelegation, State.outsideCommonPool_SetDelegation] at e
            simp only [Account.total] at e
            refine ⟨?_, ?_⟩
            · simp only []
              rw [State.supplySum_eq, State.supplySum_eq, State.CommonPool_SetAccount,
                State.CommonPool_SetCommonPool]
              omega
            · simp only [State.totalSupply_SetAccount, State.totalSupply_SetCommonPool,
                State.totalSupply_SetDelegation]
        · simp only [if_neg hc]
          intro _
          have e := State.outsideCommonPool_SetAccount
            (s.SetCommonPool (s.CommonPool - min s.CommonPool amount)) toAddr
            { general :=
                { balance := (s.accountOf toAddr).general.balance + min s.CommonPool amount - rest,
                  nonce := (s.accountOf toAddr).general.nonce },
              escrow :=
                { active :=
                    { balance := (s.accountOf toAddr).escrow.active.balance + rest,
                      totalShares := (s.accountOf toAddr).escrow.active.totalShares },
                  debonding := (s.accountOf toAddr).escrow.debonding,
                  commissionSchedule := (s.accountOf toAddr).escrow.commissionSchedule } }
          rw [State.accountOf_SetCommonPool, State.outsideCommonPool_SetCommonPool] at e
          simp only [Account.total] at e
          refine ⟨?_, rfl⟩
          rw [State.supplySum_eq, State.supplySum_eq, State.CommonPool_SetAccount,
            State.CommonPool_SetCommonPool]
          omega

theorem State.SameLedger.accountOf {s1 s2 : State} (h : s1.SameLedger s2) (a : Address) :
    s1.accountOf a = s2.accountOf a := by
  unfold State.accountOf
  rw [h.1]

theorem State.SameLedger.outsideCommonPool {s1 s2 : State} (h : s1.SameLedger s2) :
    s1.outsideCommonPool = s2.outsideCommonPool := by
  obtain ⟨h1, _, h3, h4, _⟩ := h
  simp only [State.outsideCommonPool, State.GovernanceDeposits, State.LastBlockFees,
    State.accountsTotal, h1, h3, h4]

theorem State.SameLedger.CommonPool {s1 s2 : State} (h : s1.SameLedger s2) :
    s1.CommonPool = s2.CommonPool := by
  unfold State.CommonPool
  rw [h.2.1]

theorem State.debondingRemoved_sameLedger (s : State) (epoch : EpochTime)
    (delegatorAddr escrowAddr : Address) (endTime : EpochTime) :
    ∃ s2, (s.RemoveFromDebondingQueue epoch delegatorAddr escrowAddr).SetDebondingDelegation
        delegatorAddr escrowAddr endTime none = .ok s2 ∧ s2.SameLedger s :=
  ⟨_, rfl, rfl, rfl, rfl, rfl, rfl⟩

theorem onEpochChange.release_conserves (s : State) (e : DebondingQueueEntry)
    (h : (onEpochChange.release allValid s e).ret = .ok ()) :
    (onEpochChange.release allValid s e).state.supplySum = s.supplySum ∧
    (onEpochChange.release allValid s e).state.totalSupply = s.totalSupply := by
  revert h
  obtain ⟨s2, hs2, hsame2⟩ := State.debondingRemoved_sameLedger s e.Epoch e.DelegatorAddr
    e.EscrowAddr e.Delegation.debondEndTime
  have hacc := hsame2.accountOf
  have hout := hsame2.outsideCommonPool
  have hcp := hsame2.CommonPool
  have htot := hsame2.2.2.2.2
  by_cases hsame : e.DelegatorAddr = e.EscrowAddr
  · have hn : ¬ (e.DelegatorAddr ≠ e.EscrowAddr) := fun h => h hsame
    simp only [onEpochChange.release, State.Account_allValid, if_pos hsame, if_neg hn, hs2,
        quantity.Move,
      quantity.Sub, Nat.lt_irrefl, if_false]
    split
    · intro h
      cases h
    · rename_i debonding1 baseUnits x hW
      intro _
      have hw := SharePool.Withdraw_ok _ _ _ _ _ _ _ hW
      have e1 := State.outsideCommonPool_SetAccount s2 e.DelegatorAddr
        { general :=
            { balance := (s.accountOf e.DelegatorAddr).general.balance + baseUnits,
              nonce := (s.accountOf e.DelegatorAddr).general.nonce },
          escrow :=
            { active := (s.accountOf e.DelegatorAddr).escrow.active, debonding := debonding1,
              commissionSchedule := (s.accountOf e.DelegatorAddr).escrow.commissionSchedule } }
      rw [hacc, hout] at e1
      simp only [Account.total] at e1
      refine ⟨?_, ?_⟩
      · simp only []
        rw [State.supplySum_eq, State.supplySum_eq, State.CommonPool_SetAccount, hcp]
        omega
      · simp only [State.totalSupply_SetAccount, htot]
  · have hn : e.DelegatorAddr ≠ e.EscrowAddr := hsame
    simp only [onEpochChange.release, State.Account_allValid, if_neg hsame, if_pos hn, hs2,
        quantity.Move,
      quantity.Sub, Nat.lt_irrefl, if_false]
    split
    · intro h
      cases h
    · rename_i debonding1 baseUnits x hW
      intro _
      have hw := SharePool.Withdraw_ok _ _ _ _ _ _ _ hW
      have e1 := State.outsideCommonPool_SetAccount s2 e.DelegatorAddr
        { general :=
            { balance := (s.accountOf e.DelegatorAddr).general.balance + baseUnits,
              nonce := (s.accountOf e.DelegatorAddr).general.nonce },
          escrow := (s.accountOf e.DelegatorAddr).escrow }
      have e2 := State.outsideCommonPool_SetAccount (s2.SetAccount e.DelegatorAddr
        { general :=
            { balance := (s.accountOf e.DelegatorAddr).general.balance + baseUnits,
              nonce := (s.accountOf e.DelegatorAddr).general.nonce },
          escrow := (s.accountOf e.DelegatorAddr).escrow }) e.EscrowAddr
        { general := (s.accountOf e.EscrowAddr).general,
          escrow :=
            { active := (s.accountOf e.EscrowAddr).escrow.active, debonding := debonding1,
              commissionSchedule := (s.accountOf e.EscrowAddr).escrow.commissionSchedule } }
      rw [State.accountOf_SetAccount_ne _ _ _ _ (Ne.symm hn), hacc] at e2
      rw [hacc, hout] at e1
      simp only [Account.total] at e1 e2
      refine ⟨?_, ?_⟩
      · simp only []
        rw [State.supplySum_eq, State.supplySum_eq, State.CommonPool_SetAccount,
          State.CommonPool_SetAccount, hcp]
        omega
      · simp only [State.totalSupply_SetAccount, htot]

theorem onEpochChange.releaseAll_conserves (entries : List DebondingQueueEntry) (s : State)
    (h : (onEpochChange.releaseAll allValid entries s).ret = .ok ()) :
    (onEpochChange.releaseAll allValid entries s).state.supplySum = s.supplySum ∧
    (onEpochChange.releaseAll allValid entries s).state.totalSupply = s.totalSupply := by
  induction entries generalizing s with
  | nil => exact ⟨rfl, rfl⟩
  | cons e rest ih =>
    revert h
    simp only [onEpochChange.releaseAll, State.Account_allValid]
    cases hr : (onEpochChange.release allValid s e).ret with
    | error err =>
      simp only []
      intro h
      cases h
    | ok u =>
      simp only []
      intro h
      have h1 := onEpochChange.release_conserves s e hr
      have h2 := ih _ h
      exact ⟨h2.1.trans h1.1, h2.2.trans h1.2⟩

theorem TransferFromCommon_zero (K : Constants) (ctx : Context) (s : State) (toAddr : Address)
    (amount : Nat) (escrow : Bool) (h : min s.CommonPool amount = 0) :
    TransferFromCommon allValid K ctx s toAddr amount escrow = ⟨s, [], .ok false⟩ := by
  simp only [TransferFromCommon, State.Account_allValid, quantity.MoveUpTo, if_pos h]

theorem TransferFromCommon_false (K : Constants) (ctx : Context) (s : State) (toAddr : Address)
    (amount : Nat) (h : min s.CommonPool amount ≠ 0) :
    TransferFromCommon allValid K ctx s toAddr amount false =
      ⟨(s.SetCommonPool (s.CommonPool - min s.CommonPool amount)).SetAccount toAddr
          { s.accountOf toAddr with
            general := { (s.accountOf toAddr).general with
              balance := (s.accountOf toAddr).general.balance + min s.CommonPool amount } },
        ctx.emit [.Transfer
          { From := K.CommonPoolAddress, To := toAddr, Amount := min s.CommonPool amount }],
        .ok true⟩ := by
  simp only [TransferFromCommon, State.Account_allValid, quantity.MoveUpTo, if_neg h]

theorem TransferFromCommon_ok (K : Constants) (ctx : Context) (s : State) (toAddr : Address)
    (amount : Nat) (escrow : Bool) (moved : Bool)
    (h : (TransferFromCommon allValid K ctx s toAddr amount escrow).ret = .ok moved) :
    (moved = true ↔ 0 < min s.CommonPool amount) ∧
    (TransferFromCommon allValid K ctx s toAddr amount escrow).state.CommonPool
      = s.CommonPool - min s.CommonPool amount := by
  revert h
  by_cases ht : min s.CommonPool amount = 0
  · rw [TransferFromCommon_zero K ctx s toAddr amount escrow ht, ht]
    intro h
    injection h with h
    subst h
    exact ⟨by simp, rfl⟩
  have hpos : 0 < min s.CommonPool amount := Nat.pos_of_ne_zero ht
  cases escrow with
  | false =>
    rw [TransferFromCommon_false K ctx s toAddr amount ht]
    intro h
    injection h with h
    subst h
    exact ⟨by simp [hpos], rfl⟩
  | true =>
    by_cases hs : (s.accountOf toAddr).escrow.active.totalShares = 0
    · simp only [TransferFromCommon, State.Account_allValid, quantity.MoveUpTo, if_neg ht, if_pos
        hs,
        if_pos (show min s.CommonPool amount ≠ 0 from ht)]
      split
      · intro h
        cases h
      · intro h
        injection h with h
        subst h
        refine ⟨by simp [hpos], ?_⟩
        simp only [State.CommonPool_SetAccount, State.CommonPool_SetCommonPool]
    · simp only [TransferFromCommon, State.Account_allValid, quantity.MoveUpTo, if_neg ht, if_neg
        hs]
      cases hC : computeCommission K s
          ((s.accountOf toAddr).escrow.commissionSchedule.CurrentRate ctx.currentEpoch)
          (min s.CommonPool amount) with
      | error e =>
        simp only []
        intro h
        cases h
      | ok cr =>
        obtain ⟨com, rest⟩ := cr
        have hadd := computeCommission_add K s _ _ com rest hC
        simp only [quantity.Move, quantity.Sub]
        have hlt : ¬ ((s.accountOf toAddr).general.balance + min s.CommonPool amount < rest) := by
          omega
        simp only [if_neg hlt]
        by_cases hc : com ≠ 0
        · simp only [if_pos hc]
          split
          · intro h
            cases h
          · intro h
            injection h with h
            subst h
            refine ⟨by simp [hpos], ?_⟩
            simp only [State.CommonPool_SetAccount, State.CommonPool_SetCommonPool]
        · simp only [if_neg hc]
          intro h
          injection h with h
          subst h
          refine ⟨by simp [hpos], ?_⟩
          simp only [State.CommonPool_SetAccount, State.CommonPool_SetCommonPool]

theorem kvGet_kvRemove_self {κ ν : Type} [DecidableEq κ] (m : List (κ × ν)) (k : κ) :
    kvGet (kvRemove m k) k = none := by
  induction m with
  | nil => rfl
  | cons hd tl ih =>
    obtain ⟨k1, v1⟩ := hd
    by_cases h : k1 = k
    · simpa [kvRemove, h] using ih
    · have : kvRemove ((k1, v1) :: tl) k = (k1, v1) :: kvRemove tl k := by
        simp [kvRemove, h]
      rw [this]
      simp only [kvGet, if_neg h]
      exact ih

theorem kvGet_kvRemove_ne {κ ν : Type} [DecidableEq κ] (m : List (κ × ν)) (k k2 : κ)
    (hne : k2 ≠ k) : kvGet (kvRemove m k) k2 = kvGet m k2 := by
  induction m with
  | nil => rfl
  | cons hd tl ih =>
    obtain ⟨k1, v1⟩ := hd
    by_cases h : k1 = k
    · have h2 : ¬ k1 = k2 := fun e => hne (e ▸ h)
      have : kvRemove ((k1, v1) :: tl) k = kvRemove tl k := by
        simp [kvRemove, h]
      rw [this, ih]
      simp only [kvGet, if_neg h2]
    · have : kvRemove ((k1, v1) :: tl) k = (k1, v1) :: kvRemove tl k := by
        simp [kvRemove, h]
      rw [this]
      by_cases h2 : k1 = k2
      · simp only [kvGet, if_pos h2]
      · simp only [kvGet, if_neg h2]
        exact ih

theorem State.Delegation_SetDelegation_self (s : State) (a b : Address)
    (d : Staking.Delegation) :
    ((s.SetDelegation a b d).Delegation a b).shares = d.shares := by
  by_cases h : d.shares = 0
  · have e : s.SetDelegation a b d =
        { s with
          delegations := kvRemove s.delegations (b, a)
          delegationsReverse := kvRemove s.delegationsReverse (a, b) } := by
      simp only [State.SetDelegation, if_pos h]
    rw [e]
    simp only [State.Delegation, kvGet_kvRemove_self]
    exact h.symm
  · have e : s.SetDelegation a b d =
        { s with
          delegations := kvInsert s.delegations (b, a) d
          delegationsReverse := kvInsert s.delegationsReverse (a, b) d } := by
      simp only [State.SetDelegation, if_neg h]
    rw [e]
    simp only [State.Delegation, kvGet_kvInsert_self]
    rfl

theorem computeCommission_rate (K : Constants) (s : State) (rate : Option Nat) (r total : Nat)
    (hden : 0 < K.CommissionRateDenominator) (hle : r ≤ K.CommissionRateDenominator)
    (hrate : rate = some r ∨
      (rate = none ∧
        ∃ params, s.parameters = some params ∧
          params.commissionScheduleRules.minCommissionRate = r)) :
    computeCommission K s rate total =
      .ok (total * r / K.CommissionRateDenominator,
           total - total * r / K.CommissionRateDenominator) := by
  have hcom : total * r / K.CommissionRateDenominator ≤ total := by
    apply Nat.div_le_of_le_mul
    calc total * r ≤ total * K.CommissionRateDenominator := Nat.mul_le_mul_left total hle
      _ = K.CommissionRateDenominator * total := Nat.mul_comm _ _
  rcases hrate with h | ⟨h, params, hp, hr⟩
  · subst h
    simp only [computeCommission, quantity.Mul, quantity.Quo, quantity.Sub,
      if_neg (Nat.pos_iff_ne_zero.mp hden), if_neg (Nat.not_lt.mpr hcom)]
  · subst h
    subst hr
    simp only [computeCommission, State.ConsensusParameters, hp, quantity.Mul, quantity.Quo,
      quantity.Sub, if_neg (Nat.pos_iff_ne_zero.mp hden), if_neg (Nat.not_lt.mpr hcom)]

theorem State.accountOf_SetDelegation_SetAccount_ne (s : State) (a b c x : Address)
    (d : Staking.Delegation) (acct : Staking.Account) (hne : x ≠ c) :
    ((s.SetDelegation a b d).SetAccount c acct).accountOf x = s.accountOf x := by
  rw [State.accountOf_SetAccount_ne _ _ _ _ hne, State.accountOf_SetDelegation]

theorem payReward_pays (K : Constants) (s : State) (commonPool : Nat) (time : EpochTime)
    (addr : Address) (q r : Nat)
    (hden : 0 < K.CommissionRateDenominator) (hle : r ≤ K.CommissionRateDenominator)
    (hrate : (s.accountOf addr).escrow.commissionSchedule.CurrentRate time = some r ∨
      ((s.accountOf addr).escrow.commissionSchedule.CurrentRate time = none ∧
        ∃ params, s.parameters = some params ∧
          params.commissionScheduleRules.minCommissionRate = r))
    (hq : q ≤ commonPool) :
    (payReward K s commonPool time addr (s.accountOf addr) q).ret = .ok (commonPool - q) ∧
    ((payReward K s commonPool time addr (s.accountOf addr) q).state.accountOf addr
      ).escrow.active.balance = (s.accountOf addr).escrow.active.balance + q ∧
    ((payReward K s commonPool time addr (s.accountOf addr) q).state.accountOf addr).general
      = (s.accountOf addr).general ∧
    (∀ a, a ≠ addr →
      (payReward K s commonPool time addr (s.accountOf addr) q).state.accountOf a = s.accountOf a)
          := by
  have hC := computeCommission_rate K s _ r q hden hle hrate
  have hcle : q * r / K.CommissionRateDenominator ≤ q := by
    apply Nat.div_le_of_le_mul
    calc q * r ≤ q * K.CommissionRateDenominator := Nat.mul_le_mul_left _ hle
      _ = K.CommissionRateDenominator * q := Nat.mul_comm _ _
  generalize q * r / K.CommissionRateDenominator = com at hC hcle
  by_cases hr : q - com ≠ 0
  · have hlt : ¬ (commonPool < q - com) := by omega
    by_cases hc : com ≠ 0
    · have hlt2 : ¬ (commonPool - (q - com) < com) := by omega
      refine ⟨?_, ?_, ?_, ?_⟩ <;>
        simp only [payReward, hC, if_pos hr, quantity.Move, quantity.Sub, if_neg hlt, if_pos hc,
          SharePool.Deposit, if_neg hlt2]
      · exact congrArg _ (by omega)
      · rw [State.accountOf_SetAccount_self]
        simp only []
        omega
      · rw [State.accountOf_SetAccount_self]
      · intro a ha
        exact State.accountOf_SetDelegation_SetAccount_ne _ _ _ _ _ _ _ ha
    · refine ⟨?_, ?_, ?_, ?_⟩ <;>
        simp only [payReward, hC, if_pos hr, quantity.Move, quantity.Sub, if_neg hlt, if_neg hc]
      · exact congrArg _ (by omega)
      · rw [State.accountOf_SetAccount_self]
        simp only []
        omega
      · rw [State.accountOf_SetAccount_self]
      · intro a ha
        exact State.accountOf_SetAccount_ne _ _ _ _ ha
  · by_cases hc : com ≠ 0
    · have hlt2 : ¬ (commonPool < com) := by omega
      refine ⟨?_, ?_, ?_, ?_⟩ <;>
        simp only [payReward, hC, if_neg hr, quantity.Move, quantity.Sub, if_pos hc,
          SharePool.Deposit, if_neg hlt2]
      · exact congrArg _ (by omega)
      · rw [State.accountOf_SetAccount_self]
        simp only []
        omega
      · rw [State.accountOf_SetAccount_self]
      · intro a ha
        exact State.accountOf_SetDelegation_SetAccount_ne _ _ _ _ _ _ _ ha
    · refine ⟨?_, ?_, ?_, ?_⟩ <;>
        simp only [payReward, hC, if_neg hr, if_neg hc]
      · exact congrArg _ (by omega)
      · rw [State.accountOf_SetAccount_self]
        omega
      · rw [State.accountOf_SetAccount_self]
      · intro a ha
        exact State.accountOf_SetAccount_ne _ _ _ _ ha

theorem mem_keyInsert {κ : Type} [DecidableEq κ] (m : List κ) (k x : κ) :
    x ∈ keyInsert m k ↔ x ∈ m ∨ x = k := by
  unfold keyInsert
  by_cases h : k ∈ m
  · rw [if_pos h]
    constructor
    · exact Or.inl
    · rintro (h1 | h1)
      · exact h1
      · exact h1 ▸ h
  · rw [if_neg h]
    simp

theorem mem_keyRemove {κ : Type} [DecidableEq κ] (m : List κ) (k x : κ) :
    x ∈ keyRemove m k ↔ x ∈ m ∧ x ≠ k := by
  simp [keyRemove]

theorem mem_kvInsert {κ ν : Type} [DecidableEq κ] (m : List (κ × ν)) (k : κ) (v : ν)
    (x : κ × ν) (h : x ∈ kvInsert m k v) : x ∈ m ∨ x = (k, v) := by
  induction m with
  | nil =>
    simp only [kvInsert, List.mem_singleton] at h
    exact Or.inr h
  | cons hd tl ih =>
    obtain ⟨k1, v1⟩ := hd
    by_cases hk : k1 = k
    · simp only [kvInsert, if_pos hk, List.mem_cons] at h
      rcases h with h | h
      · exact Or.inr h
      · exact Or.inl (List.mem_cons_of_mem _ h)
    · simp only [kvInsert, if_neg hk, List.mem_cons] at h
      rcases h with h | h
      · exact Or.inl (h ▸ List.mem_cons_self _ _)
      · rcases ih h with h1 | h1
        · exact Or.inl (List.mem_cons_of_mem _ h1)
        · exact Or.inr h1

theorem mem_kvRemove {κ ν : Type} [DecidableEq κ] (m : List (κ × ν)) (k : κ) (x : κ × ν) :
    x ∈ kvRemove m k ↔ x ∈ m ∧ x.1 ≠ k := by
  simp [kvRemove]

theorem kvGet_isSome_kvInsert {κ ν : Type} [DecidableEq κ] (m : List (κ × ν)) (k k2 : κ) (v : ν)
    (h : (kvGet m k2).isSome = true) : (kvGet (kvInsert m k v) k2).isSome = true := by
  by_cases hk : k2 = k
  · rw [hk, kvGet_kvInsert_self]
    rfl
  · rw [kvGet_kvInsert_ne _ _ _ _ hk]
    exact h

/-- What one turn of the debonding loop does to the two debonding tables: nothing when it fails;
otherwise it removes the queue key of the entry and the descriptor stored under the end time of
the entry. -/
theorem onEpochChange.release_tables (IsValid : Address → Bool) (s : State)
    (e : DebondingQueueEntry) :
    ((onEpochChange.release IsValid s e).state.debondingQueue = s.debondingQueue ∧
      (onEpochChange.release IsValid s e).state.debondingDelegations = s.debondingDelegations ∧
      (onEpochChange.release IsValid s e).ret ≠ .ok ()) ∨
    ((onEpochChange.release IsValid s e).state.debondingQueue
        = keyRemove s.debondingQueue (e.Epoch, e.DelegatorAddr, e.EscrowAddr) ∧
      (onEpochChange.release IsValid s e).state.debondingDelegations
        = kvRemove s.debondingDelegations
            (e.DelegatorAddr, e.EscrowAddr, e.Delegation.debondEndTime) ∧
      (onEpochChange.release IsValid s e).ret = .ok ()) := by
  unfold onEpochChange.release
  simp only []
  split
  · exact Or.inl ⟨rfl, rfl, fun h => by cases h⟩
  split
  · exact Or.inl ⟨rfl, rfl, fun h => by cases h⟩
  split
  · exact Or.inl ⟨rfl, rfl, fun h => by cases h⟩
  · split
    · exact Or.inl ⟨rfl, rfl, fun h => by cases h⟩
    · refine Or.inr ?_
      simp only [State.SetDebondingDelegation, State.RemoveFromDebondingQueue]
      by_cases hne : e.DelegatorAddr = e.EscrowAddr
      · simp only [hne, ne_eq, not_true_eq_false, if_false, State.SetAccount, and_self]
      · simp only [hne, ne_eq, not_false_eq_true, if_true, State.SetAccount, and_self]

theorem kvGet_mem {κ ν : Type} [DecidableEq κ] (m : List (κ × ν)) (k : κ) (v : ν)
    (h : kvGet m k = some v) : (k, v) ∈ m := by
  induction m with
  | nil => cases h
  | cons hd tl ih =>
    obtain ⟨k1, v1⟩ := hd
    by_cases hk : k1 = k
    · simp only [kvGet, if_pos hk] at h
      cases h
      rw [hk]
      exact List.mem_cons_self _ _
    · simp only [kvGet, if_neg hk] at h
      exact List.mem_cons_of_mem _ (ih h)

theorem State.ExpiredDebondingQueue.scan_mem (s : State) (epoch : EpochTime)
    (l : List (EpochTime × Address × Address)) (e : DebondingQueueEntry)
    (h : e ∈ State.ExpiredDebondingQueue.scan s epoch l) :
    (e.Epoch, e.DelegatorAddr, e.EscrowAddr) ∈ l ∧ e.Epoch ≤ epoch ∧
    e.Delegation = s.DebondingDelegation e.DelegatorAddr e.EscrowAddr e.Epoch := by
  induction l with
  | nil => simp [State.ExpiredDebondingQueue.scan] at h
  | cons hd tl ih =>
    obtain ⟨ep, del, esc⟩ := hd
    by_cases hgt : ep > epoch
    · simp [State.ExpiredDebondingQueue.scan, hgt] at h
    · simp only [State.ExpiredDebondingQueue.scan, if_neg hgt, List.mem_cons] at h
      rcases h with h | h
      · subst h
        exact ⟨List.mem_cons_self _ _, Nat.not_lt.mp hgt, rfl⟩
      · obtain ⟨h1, h2, h3⟩ := ih h
        exact ⟨List.mem_cons_of_mem _ h1, h2, h3⟩

theorem State.ExpiredDebondingQueue_mem (s : State) (epoch : EpochTime) (e : DebondingQueueEntry)
    (h : e ∈ s.ExpiredDebondingQueue epoch) :
    (e.Epoch, e.DelegatorAddr, e.EscrowAddr) ∈ s.debondingQueue ∧ e.Epoch ≤ epoch ∧
    e.Delegation = s.DebondingDelegation e.DelegatorAddr e.EscrowAddr e.Epoch := by
  obtain ⟨h1, h2, h3⟩ := State.ExpiredDebondingQueue.scan_mem s epoch _ e h
  refine ⟨?_, h2, h3⟩
  exact (List.perm_insertionSort debondingQueueKeyLe s.debondingQueue).mem_iff.mp h1

theorem State.ExpiredDebondingQueue_endTimes (s : State) (epoch : EpochTime)
    (h1 : s.DebondingClosure) (h2 : s.DebondEndTimesMatch) (e : DebondingQueueEntry)
    (h : e ∈ s.ExpiredDebondingQueue epoch) : e.Delegation.debondEndTime = e.Epoch := by
  obtain ⟨hq, _, hd⟩ := State.ExpiredDebondingQueue_mem s epoch e h
  have hs := h1.2 _ hq
  simp only [] at hs
  cases hget : kvGet s.debondingDelegations (e.DelegatorAddr, e.EscrowAddr, e.Epoch) with
  | none => rw [hget] at hs; cases hs
  | some deb =>
    have hm := h2 _ (kvGet_mem _ _ _ hget)
    simp only [] at hm
    rw [hd, State.DebondingDelegation, hget]
    exact hm

/-- Removing a queue key together with the descriptor of the same triple keeps the closure. -/
theorem State.closure_removed (s s1 : State) (ep : EpochTime) (del esc : Address)
    (hq : s1.debondingQueue = keyRemove s.debondingQueue (ep, del, esc))
    (hd : s1.debondingDelegations = kvRemove s.debondingDelegations (del, esc, ep))
    (h1 : s.DebondingClosure) (h2 : s.DebondEndTimesMatch) :
    s1.DebondingClosure ∧ s1.DebondEndTimesMatch := by
  refine ⟨⟨?_, ?_⟩, ?_⟩
  · intro kv hkv
    rw [hd, mem_kvRemove] at hkv
    rw [hq, mem_keyRemove]
    refine ⟨h1.1 kv hkv.1, ?_⟩
    intro heq
    apply hkv.2
    obtain ⟨⟨a, b, c⟩, v⟩ := kv
    simp only [Prod.mk.injEq] at heq ⊢
    exact ⟨heq.2.1, heq.2.2, heq.1⟩
  · intro k hk
    rw [hq, mem_keyRemove] at hk
    rw [hd, kvGet_kvRemove_ne]
    · exact h1.2 k hk.1
    · intro heq
      apply hk.2
      obtain ⟨a, b, c⟩ := k
      simp only [Prod.mk.injEq] at heq ⊢
      exact ⟨heq.2.2, heq.1, heq.2.1⟩
  · intro kv hkv
    rw [hd, mem_kvRemove] at hkv
    exact h2 kv hkv.1

theorem State.closure_of_tables (s s1 : State) (hq : s1.debondingQueue = s.debondingQueue)
    (hd : s1.debondingDelegations = s.debondingDelegations)
    (h : s.DebondingClosure ∧ s.DebondEndTimesMatch) :
    s1.DebondingClosure ∧ s1.DebondEndTimesMatch := by
  unfold State.DebondingClosure State.DebondEndTimesMatch at *
  rw [hq, hd]
  exact h

theorem onEpochChange.releaseAll_closure (IsValid : Address → Bool)
    (entries : List DebondingQueueEntry) :
    ∀ s : State, (∀ e ∈ entries, e.Delegation.debondEndTime = e.Epoch) →
      s.DebondingClosure ∧ s.DebondEndTimesMatch →
      (onEpochChange.releaseAll IsValid entries s).state.DebondingClosure ∧
      (onEpochChange.releaseAll IsValid entries s).state.DebondEndTimesMatch := by
  induction entries with
  | nil => intro s _ h; exact h
  | cons e rest ih =>
    intro s he h
    have hstep : (onEpochChange.release IsValid s e).state.DebondingClosure ∧
        (onEpochChange.release IsValid s e).state.DebondEndTimesMatch := by
      rcases onEpochChange.release_tables _ s e with ⟨hq, hd, _⟩ | ⟨hq, hd, _⟩
      · exact State.closure_of_tables s _ hq hd h
      · rw [he e (List.mem_cons_self _ _)] at hd
        exact State.closure_removed s _ _ _ _ hq hd h.1 h.2
    simp only [onEpochChange.releaseAll]
    split
    · exact hstep
    · exact ih _ (fun x hx => he x (List.mem_cons_of_mem _ hx)) hstep

theorem SharePool.stakeForShares_le (p : SharePool) (n : Nat) (h : n ≤ p.totalShares) :
    p.stakeForShares n ≤ p.balance := by
  unfold SharePool.stakeForShares
  by_cases h0 : p.totalShares = 0
  · rw [h0, Nat.div_zero]
    exact Nat.zero_le _
  · apply Nat.div_le_of_le_mul
    exact Nat.mul_le_mul_right _ h

theorem SharePool.Withdraw_all (p : SharePool) (n : Nat) (h : n ≤ p.totalShares) :
    p.Withdraw 0 n n = .ok
      ({ balance := p.balance - p.stakeForShares n, totalShares := p.totalShares - n },
        p.stakeForShares n, 0) := by
  have h1 : ¬ n < n := Nat.lt_irrefl n
  have h2 : ¬ p.totalShares < n := Nat.not_lt.mpr h
  have h3 : ¬ p.balance < p.stakeForShares n := Nat.not_lt.mpr (p.stakeForShares_le n h)
  simp only [SharePool.Withdraw, quantity.Move, quantity.Sub, if_neg h1, if_neg h2, if_neg h3,
    Nat.sub_self, Nat.zero_add]

theorem SharePool.Withdraw_short (p : SharePool) (n : Nat) (h : p.totalShares < n) :
    p.Withdraw 0 n n = .error .ErrInsufficientBalance := by
  have h1 : ¬ n < n := Nat.lt_irrefl n
  simp only [SharePool.Withdraw, quantity.Sub, if_neg h1, if_pos h]

/-- The outcome of one turn of the debonding loop for an entry whose shares the debonding pool
of the escrow account holds, delegator and escrow account being different. -/
theorem onEpochChange.release_ne (s : State) (e : DebondingQueueEntry)
    (hne : e.DelegatorAddr ≠ e.EscrowAddr)
    (hn : e.Delegation.shares ≤ (s.accountOf e.EscrowAddr).escrow.debonding.totalShares) :
    onEpochChange.release allValid s e =
      ⟨({ s with
          debondingQueue := keyRemove s.debondingQueue (e.Epoch, e.DelegatorAddr, e.EscrowAddr)
          debondingDelegations := kvRemove s.debondingDelegations
            (e.DelegatorAddr, e.EscrowAddr, e.Delegation.debondEndTime) }
          : State).SetAccount e.DelegatorAddr
            { s.accountOf e.DelegatorAddr with
              general := { (s.accountOf e.DelegatorAddr).general with
                balance := (s.accountOf e.DelegatorAddr).general.balance
                  + (s.accountOf e.EscrowAddr).escrow.debonding.stakeForShares
                      e.Delegation.shares } }
          |>.SetAccount e.EscrowAddr
            { s.accountOf e.EscrowAddr with
              escrow := { (s.accountOf e.EscrowAddr).escrow with
                debonding :=
                  { balance := (s.accountOf e.EscrowAddr).escrow.debonding.balance
                      - (s.accountOf e.EscrowAddr).escrow.debonding.stakeForShares
                          e.Delegation.shares
                    totalShares := (s.accountOf e.EscrowAddr).escrow.debonding.totalShares
                      - e.Delegation.shares } } },
       [.ReclaimEscrow
         { Owner := e.DelegatorAddr, Escrow := e.EscrowAddr,
           Amount := (s.accountOf e.EscrowAddr).escrow.debonding.stakeForShares e.Delegation.shares,
           Shares := e.Delegation.shares }],
       .ok ()⟩ := by
  have hlt : ¬ (s.accountOf e.EscrowAddr).escrow.debonding.stakeForShares e.Delegation.shares
      < (s.accountOf e.EscrowAddr).escrow.debonding.stakeForShares e.Delegation.shares :=
    Nat.lt_irrefl _
  simp only [onEpochChange.release, State.Account_allValid, if_neg hne, SharePool.Withdraw_all _ _
      hn, quantity.Move,
    quantity.Sub, if_neg hlt, State.SetDebondingDelegation, State.RemoveFromDebondingQueue,
    ne_eq, hne, not_false_eq_true, if_true, if_false]

/-- The outcome of one turn of the debonding loop for an entry whose shares the debonding pool
of the escrow account holds, the delegator being the escrow account itself. -/
theorem onEpochChange.release_self (s : State) (e : DebondingQueueEntry)
    (heq : e.DelegatorAddr = e.EscrowAddr)
    (hn : e.Delegation.shares ≤ (s.accountOf e.EscrowAddr).escrow.debonding.totalShares) :
    onEpochChange.release allValid s e =
      ⟨({ s with
          debondingQueue := keyRemove s.debondingQueue (e.Epoch, e.DelegatorAddr, e.EscrowAddr)
          debondingDelegations := kvRemove s.debondingDelegations
            (e.DelegatorAddr, e.EscrowAddr, e.Delegation.debondEndTime) }
          : State).SetAccount e.DelegatorAddr
            { s.accountOf e.EscrowAddr with
              general := { (s.accountOf e.EscrowAddr).general with
                balance := (s.accountOf e.EscrowAddr).general.balance
                  + (s.accountOf e.EscrowAddr).escrow.debonding.stakeForShares
                      e.Delegation.shares }
              escrow := { (s.accountOf e.EscrowAddr).escrow with
                debonding :=
                  { balance := (s.accountOf e.EscrowAddr).escrow.debonding.balance
                      - (s.accountOf e.EscrowAddr).escrow.debonding.stakeForShares
                          e.Delegation.shares
                    totalShares := (s.accountOf e.EscrowAddr).escrow.debonding.totalShares
                      - e.Delegation.shares } } },
       [.ReclaimEscrow
         { Owner := e.DelegatorAddr, Escrow := e.EscrowAddr,
           Amount := (s.accountOf e.EscrowAddr).escrow.debonding.stakeForShares e.Delegation.shares,
           Shares := e.Delegation.shares }],
       .ok ()⟩ := by
  have hlt : ¬ (s.accountOf e.EscrowAddr).escrow.debonding.stakeForShares e.Delegation.shares
      < (s.accountOf e.EscrowAddr).escrow.debonding.stakeForShares e.Delegation.shares :=
    Nat.lt_irrefl _
  have hn2 : e.Delegation.shares ≤ (s.accountOf e.DelegatorAddr).escrow.debonding.totalShares := by
    rw [heq]; exact hn
  simp only [onEpochChange.release, State.Account_allValid, if_pos heq, SharePool.Withdraw_all _ _
      hn2,
    SharePool.Withdraw_all _ _ hn, quantity.Move,
    quantity.Sub, State.SetDebondingDelegation, State.RemoveFromDebondingQueue,
    ne_eq, heq, not_true_eq_false, if_false, if_true, if_neg hlt]

/-- What one turn of the debonding loop does for an entry whose shares the debonding pool of the
escrow account holds. -/
theorem onEpochChange.release_effects (s : State) (e : DebondingQueueEntry)
    (hn : e.Delegation.shares ≤ (s.accountOf e.EscrowAddr).escrow.debonding.totalShares) :
    (onEpochChange.release allValid s e).ret = .ok () ∧
    (onEpochChange.release allValid s e).events =
      [.ReclaimEscrow
        { Owner := e.DelegatorAddr, Escrow := e.EscrowAddr,
          Amount := (s.accountOf e.EscrowAddr).escrow.debonding.stakeForShares e.Delegation.shares,
          Shares := e.Delegation.shares }] ∧
    ((onEpochChange.release allValid s e).state.accountOf e.DelegatorAddr).general.balance
      = (s.accountOf e.DelegatorAddr).general.balance
        + (s.accountOf e.EscrowAddr).escrow.debonding.stakeForShares e.Delegation.shares ∧
    ((onEpochChange.release allValid s e).state.accountOf e.EscrowAddr).escrow.debonding
      = { balance := (s.accountOf e.EscrowAddr).escrow.debonding.balance
            - (s.accountOf e.EscrowAddr).escrow.debonding.stakeForShares e.Delegation.shares
          totalShares := (s.accountOf e.EscrowAddr).escrow.debonding.totalShares
            - e.Delegation.shares } ∧
    (∀ a, a ≠ e.EscrowAddr →
      ((onEpochChange.release allValid s e).state.accountOf a).escrow.debonding
        = (s.accountOf a).escrow.debonding) ∧
    (∀ a, a ≠ e.DelegatorAddr → a ≠ e.EscrowAddr →
      (onEpochChange.release allValid s e).state.accountOf a = s.accountOf a) := by
  by_cases hde : e.DelegatorAddr = e.EscrowAddr
  · rw [onEpochChange.release_self s e hde hn]
    refine ⟨rfl, rfl, ?_, ?_, ?_, ?_⟩
    · simp only [State.accountOf_SetAccount_self]
      rw [hde]
    · rw [← hde]
      simp only [State.accountOf_SetAccount_self]
    · intro a ha
      rw [← hde] at ha
      simp only []
      rw [State.accountOf_SetAccount_ne _ _ _ _ ha]
      rfl
    · intro a ha _
      simp only []
      rw [State.accountOf_SetAccount_ne _ _ _ _ ha]
      rfl
  · rw [onEpochChange.release_ne s e hde hn]
    refine ⟨rfl, rfl, ?_, ?_, ?_, ?_⟩
    · simp only []
      rw [State.accountOf_SetAccount_ne _ _ _ _ hde, State.accountOf_SetAccount_self]
    · simp only [State.accountOf_SetAccount_self]
    · intro a ha
      simp only []
      rw [State.accountOf_SetAccount_ne _ _ _ _ ha]
      by_cases had : a = e.DelegatorAddr
      · rw [had, State.accountOf_SetAccount_self]
      · rw [State.accountOf_SetAccount_ne _ _ _ _ had]
        rfl
    · intro a had ha
      simp only []
      rw [State.accountOf_SetAccount_ne _ _ _ _ ha, State.accountOf_SetAccount_ne _ _ _ _ had]
      rfl

theorem onEpochChange.releaseAll_cons_ok (e : DebondingQueueEntry)
    (rest : List DebondingQueueEntry) (s : State) (h : (onEpochChange.release allValid s e).ret =
        .ok ()) :
    onEpochChange.releaseAll allValid (e :: rest) s =
      ⟨(onEpochChange.releaseAll allValid rest (onEpochChange.release allValid s e).state).state,
       (onEpochChange.release allValid s e).events
         ++ (onEpochChange.releaseAll allValid rest
             (onEpochChange.release allValid s e).state).events,
       (onEpochChange.releaseAll allValid rest (onEpochChange.release allValid s e).state).ret⟩ :=
           by
  simp only [onEpochChange.releaseAll, State.Account_allValid, h]

theorem onEpochChange.releaseAll_cons_error (e : DebondingQueueEntry)
    (rest : List DebondingQueueEntry) (s : State) (h : (onEpochChange.release allValid s e).ret ≠
        .ok ()) :
    onEpochChange.releaseAll allValid (e :: rest) s =
      ⟨(onEpochChange.release allValid s e).state, (onEpochChange.release allValid s e).events,
       (onEpochChange.release allValid s e).ret⟩ := by
  cases hr : (onEpochChange.release allValid s e).ret with
  | error err => simp only [onEpochChange.releaseAll, State.Account_allValid, hr]
  | ok u => exact absurd hr h

theorem debondingSharesOf_cons_self (e : DebondingQueueEntry) (rest : List DebondingQueueEntry) :
    debondingSharesOf (e :: rest) e.EscrowAddr
      = e.Delegation.shares + debondingSharesOf rest e.EscrowAddr := by
  simp [debondingSharesOf]

theorem debondingSharesOf_cons_ne (e : DebondingQueueEntry) (rest : List DebondingQueueEntry)
    (x : Address) (h : x ≠ e.EscrowAddr) :
    debondingSharesOf (e :: rest) x = debondingSharesOf rest x := by
  simp [debondingSharesOf, Ne.symm h]

theorem debondingSharesOf_eq_zero (entries : List DebondingQueueEntry) (x : Address)
    (h : ∀ e ∈ entries, e.EscrowAddr ≠ x) : debondingSharesOf entries x = 0 := by
  induction entries with
  | nil => rfl
  | cons e rest ih =>
    rw [debondingSharesOf_cons_ne e rest x (Ne.symm (h e (List.mem_cons_self _ _)))]
    exact ih (fun e1 h1 => h e1 (List.mem_cons_of_mem _ h1))

/-- The debonding loop returns no error when the debonding pools hold the shares of its
entries. -/
theorem onEpochChange.releaseAll_ok (entries : List DebondingQueueEntry) :
    ∀ s : State,
      (∀ x, debondingSharesOf entries x ≤ (s.accountOf x).escrow.debonding.totalShares) →
      (onEpochChange.releaseAll allValid entries s).ret = .ok () := by
  induction entries with
  | nil => intro s _; rfl
  | cons e rest ih =>
    intro s h
    have hx := h e.EscrowAddr
    rw [debondingSharesOf_cons_self] at hx
    have hn : e.Delegation.shares ≤ (s.accountOf e.EscrowAddr).escrow.debonding.totalShares := by
      omega
    obtain ⟨hret, _, _, hpool, hother, _⟩ := onEpochChange.release_effects s e hn
    rw [onEpochChange.releaseAll_cons_ok e rest s hret]
    apply ih
    intro x
    by_cases hxe : x = e.EscrowAddr
    · rw [hxe, hpool]
      simp only []
      omega
    · rw [hother x hxe, ← debondingSharesOf_cons_ne e rest x hxe]
      exact h x

theorem State.HoldsExpiredShares_all (s : State) (epoch : EpochTime)
    (h : s.HoldsExpiredShares epoch) (x : Address) :
    debondingSharesOf (s.ExpiredDebondingQueue epoch) x
      ≤ (s.accountOf x).escrow.debonding.totalShares := by
  by_cases hx : ∃ e ∈ s.ExpiredDebondingQueue epoch, e.EscrowAddr = x
  · obtain ⟨e, he, hex⟩ := hx
    rw [← hex]
    exact h e he
  · rw [debondingSharesOf_eq_zero _ x (fun e he hex => hx ⟨e, he, hex⟩)]
    exact Nat.zero_le _

/-- After a debonding loop without error the queue holds no key of its entries, and no new
key. -/
theorem onEpochChange.releaseAll_queue (entries : List DebondingQueueEntry) :
    ∀ s : State, (onEpochChange.releaseAll allValid entries s).ret = .ok () →
      ∀ k ∈ (onEpochChange.releaseAll allValid entries s).state.debondingQueue,
        k ∈ s.debondingQueue ∧
        ∀ e ∈ entries, (e.Epoch, e.DelegatorAddr, e.EscrowAddr) ≠ k := by
  induction entries with
  | nil =>
    intro s _ k hk
    exact ⟨hk, fun e he => by cases he⟩
  | cons e rest ih =>
    intro s hret k hk
    rcases onEpochChange.release_tables _ s e with ⟨_, _, herr⟩ | ⟨hq, _, hok⟩
    · rw [onEpochChange.releaseAll_cons_error e rest s herr] at hret
      exact absurd hret herr
    · rw [onEpochChange.releaseAll_cons_ok e rest s hok] at hret hk
      obtain ⟨h1, h2⟩ := ih _ hret k hk
      rw [hq, mem_keyRemove] at h1
      refine ⟨h1.1, ?_⟩
      intro e1 he1
      rcases List.mem_cons.mp he1 with h3 | h3
      · rw [h3]
        exact Ne.symm h1.2
      · exact h2 e1 h3

theorem kvGet_kvRemove_none {κ ν : Type} [DecidableEq κ] (m : List (κ × ν)) (k k2 : κ)
    (h : kvGet m k2 = none) : kvGet (kvRemove m k) k2 = none := by
  by_cases hk : k2 = k
  · rw [hk]
    exact kvGet_kvRemove_self m k
  · rw [kvGet_kvRemove_ne m k k2 hk]
    exact h

theorem onEpochChange.releaseAll_none (entries : List DebondingQueueEntry) :
    ∀ (s : State) (key : Address × Address × EpochTime),
      kvGet s.debondingDelegations key = none →
      kvGet (onEpochChange.releaseAll allValid entries s).state.debondingDelegations key = none :=
          by
  induction entries with
  | nil => intro s key h; exact h
  | cons e rest ih =>
    intro s key h
    rcases onEpochChange.release_tables _ s e with ⟨_, hd, herr⟩ | ⟨_, hd, hok⟩
    · rw [onEpochChange.releaseAll_cons_error e rest s herr]
      simp only []
      rw [hd]
      exact h
    · rw [onEpochChange.releaseAll_cons_ok e rest s hok]
      apply ih
      rw [hd]
      exact kvGet_kvRemove_none _ _ _ h

/-- After a debonding loop without error no descriptor is stored under the end time of any of
its entries. -/
theorem onEpochChange.releaseAll_delegations (entries : List DebondingQueueEntry) :
    ∀ s : State, (onEpochChange.releaseAll allValid entries s).ret = .ok () →
      ∀ e ∈ entries,
        kvGet (onEpochChange.releaseAll allValid entries s).state.debondingDelegations
          (e.DelegatorAddr, e.EscrowAddr, e.Delegation.debondEndTime) = none := by
  induction entries with
  | nil => intro s _ e he; cases he
  | cons e rest ih =>
    intro s hret e1 he1
    rcases onEpochChange.release_tables _ s e with ⟨_, _, herr⟩ | ⟨_, hd, hok⟩
    · rw [onEpochChange.releaseAll_cons_error e rest s herr] at hret
      exact absurd hret herr
    · rw [onEpochChange.releaseAll_cons_ok e rest s hok] at hret ⊢
      rcases List.mem_cons.mp he1 with h3 | h3
      · apply onEpochChange.releaseAll_none
        rw [hd, h3]
        exact kvGet_kvRemove_self _ _
      · exact ih _ hret e1 h3

theorem lexLe_total (a1 a2 a3 b1 b2 b3 : Nat) :
    (a1 < b1 ∨ (a1 = b1 ∧ (a2 < b2 ∨ (a2 = b2 ∧ a3 ≤ b3)))) ∨
    (b1 < a1 ∨ (b1 = a1 ∧ (b2 < a2 ∨ (b2 = a2 ∧ b3 ≤ a3)))) := by
  omega

theorem lexLe_trans (a1 a2 a3 b1 b2 b3 c1 c2 c3 : Nat)
    (h1 : a1 < b1 ∨ (a1 = b1 ∧ (a2 < b2 ∨ (a2 = b2 ∧ a3 ≤ b3))))
    (h2 : b1 < c1 ∨ (b1 = c1 ∧ (b2 < c2 ∨ (b2 = c2 ∧ b3 ≤ c3)))) :
    a1 < c1 ∨ (a1 = c1 ∧ (a2 < c2 ∨ (a2 = c2 ∧ a3 ≤ c3))) := by
  omega

theorem debondingQueueKeyLe_total (a b : EpochTime × Address × Address) :
    debondingQueueKeyLe a b ∨ debondingQueueKeyLe b a :=
  lexLe_total a.1 a.2.1 a.2.2 b.1 b.2.1 b.2.2

theorem debondingQueueKeyLe_trans (a b c : EpochTime × Address × Address)
    (h1 : debondingQueueKeyLe a b) (h2 : debondingQueueKeyLe b c) : debondingQueueKeyLe a c :=
  lexLe_trans a.1 a.2.1 a.2.2 b.1 b.2.1 b.2.2 c.1 c.2.1 c.2.2 h1 h2

theorem debondingQueueKeyLe_epoch (a b : EpochTime × Address × Address)
    (h : debondingQueueKeyLe a b) : a.1 ≤ b.1 := by
  unfold debondingQueueKeyLe at h
  rcases h with h | h
  · exact Nat.le_of_lt h
  · exact Nat.le_of_eq h.1

theorem State.debondingQueueIterator_sorted (s : State) :
    s.debondingQueueIterator.Sorted debondingQueueKeyLe :=
  @List.sorted_insertionSort _ debondingQueueKeyLe _ ⟨debondingQueueKeyLe_total⟩
    ⟨debondingQueueKeyLe_trans⟩ s.debondingQueue

theorem State.mem_debondingQueueIterator (s : State) (k : EpochTime × Address × Address) :
    k ∈ s.debondingQueueIterator ↔ k ∈ s.debondingQueue :=
  (List.perm_insertionSort debondingQueueKeyLe s.debondingQueue).mem_iff

theorem State.ExpiredDebondingQueue.scan_covers (s : State) (epoch : EpochTime)
    (l : List (EpochTime × Address × Address)) (hs : l.Sorted debondingQueueKeyLe)
    (k : EpochTime × Address × Address) (hk : k ∈ l) (hle : k.1 ≤ epoch) :
    { Epoch := k.1, DelegatorAddr := k.2.1, EscrowAddr := k.2.2,
      Delegation := s.DebondingDelegation k.2.1 k.2.2 k.1 }
      ∈ State.ExpiredDebondingQueue.scan s epoch l := by
  induction l with
  | nil => cases hk
  | cons hd tl ih =>
    obtain ⟨ep, del, esc⟩ := hd
    have hs2 := List.sorted_cons.mp hs
    have hep : ¬ ep > epoch := by
      rcases List.mem_cons.mp hk with h | h
      · rw [h] at hle
        exact Nat.not_lt.mpr hle
      · have hle2 : ep ≤ k.1 := debondingQueueKeyLe_epoch _ _ (hs2.1 k h)
        exact Nat.not_lt.mpr (Nat.le_trans hle2 hle)
    simp only [State.ExpiredDebondingQueue.scan, if_neg hep, List.mem_cons]
    rcases List.mem_cons.mp hk with h | h
    · left
      rw [h]
    · right
      exact ih hs2.2 h

theorem State.ExpiredDebondingQueue_covers (s : State) (epoch : EpochTime)
    (k : EpochTime × Address × Address) (hk : k ∈ s.debondingQueue) (hle : k.1 ≤ epoch) :
    { Epoch := k.1, DelegatorAddr := k.2.1, EscrowAddr := k.2.2,
      Delegation := s.DebondingDelegation k.2.1 k.2.2 k.1 } ∈ s.ExpiredDebondingQueue epoch :=
  State.ExpiredDebondingQueue.scan_covers s epoch _ s.debondingQueueIterator_sorted k
    ((s.mem_debondingQueueIterator k).mpr hk) hle

theorem State.ExpiredDebondingQueue_eq_nil (s : State) (epoch : EpochTime)
    (h : ∀ k ∈ s.debondingQueue, epoch < k.1) : s.ExpiredDebondingQueue epoch = [] := by
  unfold State.ExpiredDebondingQueue
  cases hl : s.debondingQueueIterator with
  | nil => rfl
  | cons hd tl =>
    obtain ⟨ep, del, esc⟩ := hd
    have hmem : (ep, del, esc) ∈ s.debondingQueue := by
      rw [← s.mem_debondingQueueIterator, hl]
      exact List.mem_cons_self _ _
    have hgt : ep > epoch := h _ hmem
    simp only [State.ExpiredDebondingQueue.scan, if_pos hgt]

/-- After a debonding loop over the expired entries that returns no error, no entry of the queue
is expired. -/
theorem onEpochChange.releaseAll_expired (s : State) (epoch : EpochTime)
    (h : (onEpochChange.releaseAll allValid (s.ExpiredDebondingQueue epoch) s).ret = .ok ()) :
    (onEpochChange.releaseAll allValid (s.ExpiredDebondingQueue epoch)
        s).state.ExpiredDebondingQueue epoch
      = [] := by
  apply State.ExpiredDebondingQueue_eq_nil
  intro k hk
  obtain ⟨h1, h2⟩ := onEpochChange.releaseAll_queue _ s h k hk
  by_contra hle
  exact h2 _ (State.ExpiredDebondingQueue_covers s epoch k h1 (Nat.not_lt.mp hle)) rfl

/-- After a debonding loop over the expired entries that returns no error, every key left in the
queue is later than `epoch`. -/
theorem onEpochChange.releaseAll_later (s : State) (epoch : EpochTime)
    (h : (onEpochChange.releaseAll allValid (s.ExpiredDebondingQueue epoch) s).ret = .ok ()) :
    ∀ k ∈ (onEpochChange.releaseAll allValid (s.ExpiredDebondingQueue epoch)
        s).state.debondingQueue,
      epoch < k.1 := by
  intro k hk
  obtain ⟨h1, h2⟩ := onEpochChange.releaseAll_queue _ s h k hk
  by_contra hle
  exact h2 _ (State.ExpiredDebondingQueue_covers s epoch k h1 (Nat.not_lt.mp hle)) rfl

/-- The debonding loop over `pre ++ post`, when the debonding pools hold the shares of these
entries: the loop over `pre` returns no error and leaves pools that hold the shares of `post`,
and the loop over `post` continues from there. -/
theorem onEpochChange.releaseAll_append (pre : List DebondingQueueEntry) :
    ∀ (post : List DebondingQueueEntry) (s : State),
      (∀ x, debondingSharesOf (pre ++ post) x ≤ (s.accountOf x).escrow.debonding.totalShares) →
      (onEpochChange.releaseAll allValid pre s).ret = .ok () ∧
      (∀ x, debondingSharesOf post x
        ≤ ((onEpochChange.releaseAll allValid pre s).state.accountOf
            x).escrow.debonding.totalShares) ∧
      onEpochChange.releaseAll allValid (pre ++ post) s =
        ⟨(onEpochChange.releaseAll allValid post (onEpochChange.releaseAll allValid pre
            s).state).state,
         (onEpochChange.releaseAll allValid pre s).events
           ++ (onEpochChange.releaseAll allValid post
               (onEpochChange.releaseAll allValid pre s).state).events,
         (onEpochChange.releaseAll allValid post (onEpochChange.releaseAll allValid pre
             s).state).ret⟩ := by
  induction pre with
  | nil =>
    intro post s h
    exact ⟨rfl, h, by simp only [onEpochChange.releaseAll, State.Account_allValid, List.nil_append]⟩
  | cons e pre ih =>
    intro post s h
    have hx := h e.EscrowAddr
    rw [List.cons_append, debondingSharesOf_cons_self] at hx
    have hn : e.Delegation.shares ≤ (s.accountOf e.EscrowAddr).escrow.debonding.totalShares := by
      omega
    obtain ⟨hret, _, _, hpool, hother, _⟩ := onEpochChange.release_effects s e hn
    have hinv : ∀ x, debondingSharesOf (pre ++ post) x
        ≤ ((onEpochChange.release allValid s e).state.accountOf x).escrow.debonding.totalShares :=
            by
      intro x
      by_cases hxe : x = e.EscrowAddr
      · rw [hxe, hpool]
        simp only []
        omega
      · rw [hother x hxe, ← debondingSharesOf_cons_ne e (pre ++ post) x hxe]
        exact h x
    obtain ⟨h1, h2, h3⟩ := ih post _ hinv
    rw [List.cons_append, onEpochChange.releaseAll_cons_ok e (pre ++ post) s hret,
      onEpochChange.releaseAll_cons_ok e pre s hret, h3]
    exact ⟨h1, h2, by simp only [List.append_assoc]⟩

theorem kvGet_eq_none_of_not_mem {κ ν : Type} [DecidableEq κ] (m : List (κ × ν)) (k : κ)
    (h : ∀ kv ∈ m, kv.1 ≠ k) : kvGet m k = none := by
  induction m with
  | nil => rfl
  | cons hd tl ih =>
    obtain ⟨k1, v1⟩ := hd
    have h1 : k1 ≠ k := h (k1, v1) (List.mem_cons_self _ _)
    simp only [kvGet, if_neg h1]
    exact ih (fun kv hkv => h kv (List.mem_cons_of_mem _ hkv))

theorem kvGet_filterMap_keys {κ ν : Type} [DecidableEq κ] (m : List (κ × ν)) (ks : List κ)
    (k : κ) :
    kvGet (ks.filterMap (fun k1 => (kvGet m k1).map (fun v => (k1, v)))) k
      = if k ∈ ks then kvGet m k else none := by
  induction ks with
  | nil => rfl
  | cons k1 rest ih =>
    cases hget : kvGet m k1 with
    | none =>
      simp only [List.filterMap_cons, hget, Option.map_none', List.mem_cons]
      rw [ih]
      by_cases hk : k = k1
      · subst hk
        simp only [true_or, if_true, hget]
        split <;> rfl
      · simp only [hk, false_or]
    | some v =>
      simp only [List.filterMap_cons, hget, Option.map_some', List.mem_cons]
      by_cases hk : k = k1
      · subst hk
        simp only [kvGet, if_true, true_or, hget]
      · have hk2 : ¬ k1 = k := fun h => hk h.symm
        simp only [kvGet, if_neg hk2, hk, false_or]
        exact ih

/-- The iterator yields, for every key, the value stored under it. -/
theorem kvGet_kvIterator {κ ν : Type} [DecidableEq κ] (le : κ → κ → Prop) [DecidableRel le]
    (m : List (κ × ν)) (k : κ) : kvGet (kvIterator le m) k = kvGet m k := by
  unfold kvIterator
  rw [kvGet_filterMap_keys]
  split
  · rfl
  · rename_i hk
    symm
    apply kvGet_eq_none_of_not_mem
    intro kv hkv heq
    apply hk
    rw [(List.perm_insertionSort le _).mem_iff, List.mem_dedup, List.mem_map]
    exact ⟨kv, hkv, heq⟩

theorem filterMap_keys_sublist {κ ν : Type} [DecidableEq κ] (m : List (κ × ν)) (ks : List κ) :
    ((ks.filterMap (fun k1 => (kvGet m k1).map (fun v => (k1, v)))).map Prod.fst).Sublist
      ks := by
  induction ks with
  | nil => exact List.Sublist.slnil
  | cons k1 rest ih =>
    cases hget : kvGet m k1 with
    | none =>
      simp only [List.filterMap_cons, hget, Option.map_none']
      exact List.Sublist.cons _ ih
    | some v =>
      simp only [List.filterMap_cons, hget, Option.map_some', List.map_cons]
      exact List.Sublist.cons₂ _ ih

theorem lexLe2_total (a1 a2 b1 b2 : Nat) :
    (a1 < b1 ∨ (a1 = b1 ∧ a2 ≤ b2)) ∨ (b1 < a1 ∨ (b1 = a1 ∧ b2 ≤ a2)) := by
  omega

theorem lexLe2_trans (a1 a2 b1 b2 c1 c2 : Nat) (h1 : a1 < b1 ∨ (a1 = b1 ∧ a2 ≤ b2))
    (h2 : b1 < c1 ∨ (b1 = c1 ∧ b2 ≤ c2)) : a1 < c1 ∨ (a1 = c1 ∧ a2 ≤ c2) := by
  omega

/-- The keys of the iterator over a delegation index ascend strictly. -/
theorem kvIterator_keys_pairwise {ν : Type} (m : List ((Address × Address) × ν)) :
    ((kvIterator delegationKeyLe m).map Prod.fst).Pairwise
      (fun a b => delegationKeyLe a b ∧ a ≠ b) := by
  have hs : (((m.map Prod.fst).dedup).insertionSort delegationKeyLe).Sorted delegationKeyLe :=
    @List.sorted_insertionSort _ delegationKeyLe _
      ⟨fun a b => lexLe2_total a.1 a.2 b.1 b.2⟩
      ⟨fun a b c h1 h2 => lexLe2_trans a.1 a.2 b.1 b.2 c.1 c.2 h1 h2⟩ _
  have hn : (((m.map Prod.fst).dedup).insertionSort delegationKeyLe).Nodup :=
    (List.perm_insertionSort delegationKeyLe _).nodup_iff.mpr (List.nodup_dedup _)
  have hp : (((m.map Prod.fst).dedup).insertionSort delegationKeyLe).Pairwise
      (fun a b => delegationKeyLe a b ∧ a ≠ b) :=
    List.pairwise_and_iff.mpr ⟨hs, hn⟩
  exact hp.sublist (filterMap_keys_sublist m _)

theorem delegationKeyLe_fst (a b : Address × Address) (h : delegationKeyLe a b) : a.1 ≤ b.1 := by
  unfold delegationKeyLe at h
  rcases h with h | h
  · exact Nat.le_of_lt h
  · exact Nat.le_of_eq h.1

/-- The loop of `DelegationsFor` and `DelegationsTo` over bindings with strictly ascending keys
whose first addresses are not below `addr`: the map it builds holds, under `second`, the binding
of `(addr, second)`, and keeps what it held under the other addresses. -/
theorem delegationsScan_get (addr second : Address) :
    ∀ (it : List ((Address × Address) × Delegation)) (delegations : List (Address × Delegation)),
      (it.map Prod.fst).Pairwise (fun a b => delegationKeyLe a b ∧ a ≠ b) →
      (∀ kv ∈ it, addr ≤ kv.1.1) →
      kvGet (delegationsScan addr it delegations) second =
        match kvGet it (addr, second) with
        | some del => some del
        | none => kvGet delegations second := by
  intro it
  induction it with
  | nil => intro delegations _ _; rfl
  | cons hd tl ih =>
    intro delegations hp hge
    obtain ⟨⟨first, snd⟩, del⟩ := hd
    rw [List.map_cons, List.pairwise_cons] at hp
    by_cases hf : first = addr
    · subst hf
      have htl : ∀ kv ∈ tl, first ≤ kv.1.1 := fun kv hkv => hge kv (List.mem_cons_of_mem _ hkv)
      have hne : ¬ first ≠ first := fun h => h rfl
      simp only [delegationsScan, if_neg hne]
      rw [ih _ hp.2 htl]
      by_cases hs : snd = second
      · subst hs
        have hnone : kvGet tl (first, snd) = none := by
          apply kvGet_eq_none_of_not_mem
          intro kv hkv heq
          exact (hp.1 kv.1 (List.mem_map_of_mem _ hkv)).2 heq.symm
        simp only [hnone, kvGet, if_true, kvGet_kvInsert_self]
      · have hk : ¬ (first, snd) = (first, second) := fun h => hs (Prod.mk.inj h).2
        simp only [kvGet, if_neg hk]
        rw [kvGet_kvInsert_ne _ _ _ _ (Ne.symm hs)]
    · have hnone : kvGet (((first, snd), del) :: tl) (addr, second) = none := by
        apply kvGet_eq_none_of_not_mem
        intro kv hkv heq
        have hlt : addr < first := by
          have := hge _ (List.mem_cons_self _ _)
          simp only [] at this
          exact Nat.lt_of_le_of_ne this (Ne.symm hf)
        rcases List.mem_cons.mp hkv with h | h
        · rw [h] at heq
          exact hf (Prod.mk.inj heq).1
        · have hle := delegationKeyLe_fst _ _ (hp.1 kv.1 (List.mem_map_of_mem _ h)).1
          rw [heq] at hle
          exact Nat.lt_irrefl _ (Nat.lt_of_lt_of_le hlt hle)
      rw [hnone]
      simp only [delegationsScan, ne_eq, hf, not_false_eq_true, if_true]

/-- The loop after `Seek` reads the bindings of `addr` off the iterator. -/
theorem delegationsScan_seek (addr second : Address) :
    ∀ (it : List ((Address × Address) × Delegation)),
      (it.map Prod.fst).Pairwise (fun a b => delegationKeyLe a b ∧ a ≠ b) →
      kvGet (delegationsScan addr (seekAddress addr it) []) second = kvGet it (addr, second) := by
  intro it
  induction it with
  | nil => intro _; rfl
  | cons hd tl ih =>
    intro hp
    have hp2 := hp
    rw [List.map_cons, List.pairwise_cons] at hp2
    by_cases hlt : hd.1.1 < addr
    · have hk : ¬ hd.1 = (addr, second) := by
        intro h
        rw [h] at hlt
        exact Nat.lt_irrefl _ hlt
      have hseek : seekAddress addr (hd :: tl) = seekAddress addr tl := by
        simp only [seekAddress, List.dropWhile_cons, hlt, decide_True, if_true]
      rw [hseek, ih hp2.2]
      obtain ⟨k, v⟩ := hd
      simp only [kvGet, if_neg hk]
    · have hseek : seekAddress addr (hd :: tl) = hd :: tl := by
        simp only [seekAddress, List.dropWhile_cons, hlt, decide_False, Bool.false_eq_true,
          if_false]
      rw [hseek, delegationsScan_get addr second _ [] hp]
      · cases kvGet (hd :: tl) (addr, second) <;> rfl
      · intro kv hkv
        rcases List.mem_cons.mp hkv with h | h
        · rw [h]
          exact Nat.not_lt.mp hlt
        · exact Nat.le_trans (Nat.not_lt.mp hlt)
            (delegationKeyLe_fst _ _ (hp2.1 kv.1 (List.mem_map_of_mem _ h)).1)

theorem State.DelegationsFor_get (s : State) (delegatorAddr escrowAddr : Address) :
    kvGet (s.DelegationsFor delegatorAddr) escrowAddr
      = kvGet s.delegationsReverse (delegatorAddr, escrowAddr) := by
  unfold State.DelegationsFor
  rw [delegationsScan_seek _ _ _ (kvIterator_keys_pairwise _), kvGet_kvIterator]

theorem State.DelegationsTo_get (s : State) (destAddr delegatorAddr : Address) :
    kvGet (s.DelegationsTo destAddr) delegatorAddr
      = kvGet s.delegations (destAddr, delegatorAddr) := by
  unfold State.DelegationsTo
  rw [delegationsScan_seek _ _ _ (kvIterator_keys_pairwise _), kvGet_kvIterator]

theorem kvGet_getD_lt {κ : Type} [DecidableEq κ] (m : List (κ × Nat)) (bound : Nat)
    (hb : 0 < bound) (h : ∀ kv ∈ m, kv.2 < bound) (k : κ) : (kvGet m k).getD 0 < bound := by
  cases hget : kvGet m k with
  | none => exact hb
  | some v => exact h _ (kvGet_mem m k v hget)

/-- The loop of `Update` on a map of `uint64` counts: it returns no error exactly when no count
of a listed entity reaches `2^64 - 1` before one of its increments, and then every count has
grown by the number of occurrences of its entity. -/
theorem EpochSigning.Update.loop_spec (l : List PublicKey) :
    ∀ m : List (PublicKey × Nat), (∀ e, (kvGet m e).getD 0 < 2 ^ 64) →
      (((EpochSigning.Update.loop l m).2 = .ok ()) ↔
        ∀ e ∈ l, (kvGet m e).getD 0 + l.count e < 2 ^ 64) ∧
      ((EpochSigning.Update.loop l m).2 = .ok () →
        ∀ e, (kvGet (EpochSigning.Update.loop l m).1 e).getD 0
          = (kvGet m e).getD 0 + l.count e) := by
  induction l with
  | nil =>
    intro m _
    refine ⟨⟨fun _ e he => (by cases he), fun _ => rfl⟩, fun _ e => ?_⟩
    simp only [EpochSigning.Update.loop, List.count_nil, Nat.add_zero]
  | cons x rest ih =>
    intro m hm
    have hold := hm x
    by_cases hmax : (kvGet m x).getD 0 + 1 = 2 ^ 64
    · have hwrap : ((kvGet m x).getD 0 + 1) % 2 ^ 64 = 0 := by
        rw [hmax]
        exact Nat.mod_self _
      have herr : (EpochSigning.Update.loop (x :: rest) m).2 = .error .countOverflow := by
        simp only [EpochSigning.Update.loop, hwrap, kvGet_kvInsert_self, Option.getD_some,
          Nat.zero_le, if_true]
      rw [herr]
      refine ⟨⟨fun h => (by cases h), fun h => ?_⟩, fun h => (by cases h)⟩
      have := h x (List.mem_cons_self _ _)
      rw [List.count_cons_self] at this
      omega
    · have hstep : ((kvGet m x).getD 0 + 1) % 2 ^ 64 = (kvGet m x).getD 0 + 1 :=
        Nat.mod_eq_of_lt (by omega)
      have hcont : EpochSigning.Update.loop (x :: rest) m
          = EpochSigning.Update.loop rest (kvInsert m x ((kvGet m x).getD 0 + 1)) := by
        have hgt : ¬ (kvGet m x).getD 0 + 1 ≤ (kvGet m x).getD 0 := by omega
        simp only [EpochSigning.Update.loop, hstep, kvGet_kvInsert_self, Option.getD_some,
          if_neg hgt]
      have hcnt : ∀ e, (kvGet (kvInsert m x ((kvGet m x).getD 0 + 1)) e).getD 0
          = if e = x then (kvGet m x).getD 0 + 1 else (kvGet m e).getD 0 := by
        intro e
        by_cases he : e = x
        · rw [if_pos he, he, kvGet_kvInsert_self]
          rfl
        · rw [if_neg he, kvGet_kvInsert_ne _ _ _ _ he]
      have hm1 : ∀ e, (kvGet (kvInsert m x ((kvGet m x).getD 0 + 1)) e).getD 0 < 2 ^ 64 := by
        intro e
        rw [hcnt e]
        split
        · omega
        · exact hm e
      obtain ⟨ih1, ih2⟩ := ih _ hm1
      rw [hcont]
      refine ⟨ih1.trans ⟨fun h e he => ?_, fun h e he => ?_⟩, fun hok e => ?_⟩
      · by_cases hex : e = x
        · rw [hex, List.count_cons_self]
          by_cases hxr : x ∈ rest
          · have := h x hxr
            rw [hcnt x, if_pos rfl] at this
            omega
          · rw [List.count_eq_zero_of_not_mem hxr]
            omega
        · have her : e ∈ rest := by
            rcases List.mem_cons.mp he with h1 | h1
            · exact absurd h1 hex
            · exact h1
          have := h e her
          rw [hcnt e, if_neg hex] at this
          rw [List.count_cons_of_ne hex]
          exact this
      · have := h e (List.mem_cons_of_mem _ he)
        rw [hcnt e]
        by_cases hex : e = x
        · rw [if_pos hex]
          rw [hex, List.count_cons_self] at this
          rw [hex]
          omega
        · rw [if_neg hex]
          rw [List.count_cons_of_ne hex] at this
          exact this
      · rw [ih2 hok e, hcnt e]
        by_cases hex : e = x
        · rw [if_pos hex, hex, List.count_cons_self]
          omega
        · rw [if_neg hex, List.count_cons_of_ne hex]

theorem kvIterator_keys_nodup {κ ν : Type} [DecidableEq κ] (le : κ → κ → Prop) [DecidableRel le]
    (m : List (κ × ν)) : ((kvIterator le m).map Prod.fst).Nodup :=
  ((List.perm_insertionSort le _).nodup_iff.mpr (List.nodup_dedup _)).sublist
    (filterMap_keys_sublist m _)

theorem kvGet_of_mem_nodup {κ ν : Type} [DecidableEq κ] (m : List (κ × ν)) (k : κ) (v : ν)
    (hn : (m.map Prod.fst).Nodup) (h : (k, v) ∈ m) : kvGet m k = some v := by
  induction m with
  | nil => cases h
  | cons hd tl ih =>
    obtain ⟨k1, v1⟩ := hd
    rw [List.map_cons, List.nodup_cons] at hn
    rcases List.mem_cons.mp h with h1 | h1
    · cases h1
      simp only [kvGet, if_true]
    · have hne : ¬ k1 = k := by
        intro heq
        apply hn.1
        rw [heq]
        exact List.mem_map.mpr ⟨(k, v), h1, rfl⟩
      simp only [kvGet, if_neg hne]
      exact ih hn.2 h1

/-- The iterator yields exactly the bindings of the table. -/
theorem mem_kvIterator {κ ν : Type} [DecidableEq κ] (le : κ → κ → Prop) [DecidableRel le]
    (m : List (κ × ν)) (k : κ) (v : ν) : (k, v) ∈ kvIterator le m ↔ kvGet m k = some v := by
  constructor
  · intro h
    rw [← kvGet_kvIterator le m k]
    exact kvGet_of_mem_nodup _ k v (kvIterator_keys_nodup le m) h
  · intro h
    rw [← kvGet_kvIterator le m k] at h
    exact kvGet_mem _ k v h

/-- The loop of `EligibleEntities` over entries whose products with the denominator are `uint64`
values: every entry that reaches the threshold is appended. -/
theorem EpochSigning.EligibleEntities.loop_ok (den tp : Nat) (hden : 0 < den) :
    ∀ (it : List (PublicKey × Nat)) (eligible : List PublicKey),
      (∀ kv ∈ it, kv.2 * den ≤ 2 ^ 64 - 1) →
      EpochSigning.EligibleEntities.loop den tp it eligible =
        .ok (eligible ++ (it.filter (fun kv => decide (tp ≤ kv.2 * den))).map Prod.fst) := by
  intro it
  induction it with
  | nil =>
    intro eligible _
    simp only [EpochSigning.EligibleEntities.loop, List.filter_nil, List.map_nil,
      List.append_nil]
  | cons hd tl ih =>
    intro eligible h
    obtain ⟨entityID, count⟩ := hd
    have hd0 : ¬ den = 0 := Nat.pos_iff_ne_zero.mp hden
    have hc : count * den ≤ 2 ^ 64 - 1 := h (entityID, count) (List.mem_cons_self _ _)
    have hle : ¬ count > maxUint64 / den := by
      unfold maxUint64
      rw [gt_iff_lt, Nat.div_lt_iff_lt_mul hden]
      exact Nat.not_lt.mpr hc
    have hmod : count * den % 2 ^ 64 = count * den := Nat.mod_eq_of_lt (by omega)
    have htl : ∀ kv ∈ tl, kv.2 * den ≤ 2 ^ 64 - 1 := fun kv hkv => h kv (List.mem_cons_of_mem _ hkv)
    by_cases hlt : count * den < tp
    · have hnot : ¬ tp ≤ count * den := Nat.not_le.mpr hlt
      simp only [EpochSigning.EligibleEntities.loop, if_neg hd0, if_neg hle, hmod, if_pos hlt,
        List.filter_cons, hnot, decide_False, Bool.false_eq_true, if_false]
      exact ih eligible htl
    · have hge : tp ≤ count * den := Nat.not_lt.mp hlt
      simp only [EpochSigning.EligibleEntities.loop, if_neg hd0, if_neg hle, hmod, if_neg hlt,
        List.filter_cons, hge, decide_True, if_true, List.map_cons]
      rw [ih _ htl, List.append_assoc]
      rfl

/-- The loop of `EligibleEntities` fails when the product of some count with the denominator is
no `uint64` value. -/
theorem EpochSigning.EligibleEntities.loop_error (den tp : Nat) (hden : 0 < den) :
    ∀ (it : List (PublicKey × Nat)) (eligible : List PublicKey),
      (∃ kv ∈ it, 2 ^ 64 - 1 < kv.2 * den) →
      EpochSigning.EligibleEntities.loop den tp it eligible = .error .comparisonOverflow := by
  intro it
  induction it with
  | nil =>
    intro eligible h
    obtain ⟨kv, hkv, _⟩ := h
    cases hkv
  | cons hd tl ih =>
    intro eligible h
    obtain ⟨entityID, count⟩ := hd
    have hd0 : ¬ den = 0 := Nat.pos_iff_ne_zero.mp hden
    by_cases hc : count > maxUint64 / den
    · simp only [EpochSigning.EligibleEntities.loop, if_neg hd0, if_pos hc]
    · have htl : ∃ kv ∈ tl, 2 ^ 64 - 1 < kv.2 * den := by
        obtain ⟨kv, hkv, hlt⟩ := h
        rcases List.mem_cons.mp hkv with h1 | h1
        · exfalso
          apply hc
          rw [h1] at hlt
          unfold maxUint64
          rw [gt_iff_lt, Nat.div_lt_iff_lt_mul hden]
          exact hlt
        · exact ⟨kv, h1, hlt⟩
      simp only [EpochSigning.EligibleEntities.loop, if_neg hd0, if_neg hc]
      split
      · exact ih _ htl
      · exact ih _ htl

theorem State.mem_CommissionScheduleAddresses (s : State) (a : Address) :
    a ∈ s.CommissionScheduleAddresses ↔ a ∈ s.commissionScheduleAddresses :=
  (List.perm_insertionSort _ s.commissionScheduleAddresses).mem_iff

/-! ## The loads of the accounts -/

theorem SlashEscrow_of_valid (IsValid : Address → Bool) (ctx : Context) (s : State)
    (fromAddr : Address) (amount : Nat) (h : IsValid fromAddr = true) :
    SlashEscrow IsValid ctx s fromAddr amount = SlashEscrow allValid ctx s fromAddr amount := by
  simp only [SlashEscrow, State.Account_of_valid IsValid s fromAddr h, State.Account_allValid]

theorem SlashEscrow_of_invalid (IsValid : Address → Bool) (ctx : Context) (s : State)
    (fromAddr : Address) (amount : Nat) (h : IsValid fromAddr = false) :
    SlashEscrow IsValid ctx s fromAddr amount
      = ⟨s, [], .error (.invalidAccountAddress fromAddr)⟩ := by
  simp only [SlashEscrow, State.Account_of_invalid IsValid s fromAddr h]

theorem Transfer_of_valid (IsValid : Address → Bool) (ctx : Context) (s : State)
    (fromAddr toAddr : Address) (amount : Nat) (hf : IsValid fromAddr = true)
    (ht : IsValid toAddr = true) :
    Transfer IsValid ctx s fromAddr toAddr amount = Transfer allValid ctx s fromAddr toAddr amount
        := by
  simp only [Transfer, State.Account_of_valid IsValid s fromAddr hf,
    State.Account_of_valid IsValid s toAddr ht, State.Account_allValid]

theorem Transfer_of_invalid_source (IsValid : Address → Bool) (ctx : Context) (s : State)
    (fromAddr toAddr : Address) (amount : Nat) (hne : fromAddr ≠ toAddr) (hpos : amount ≠ 0)
    (hf : IsValid fromAddr = false) :
    Transfer IsValid ctx s fromAddr toAddr amount
      = ⟨s, [], .error (.invalidAccountAddress fromAddr)⟩ := by
  have h0 : ¬ (fromAddr = toAddr ∨ amount = 0) := fun h => h.elim hne hpos
  simp only [Transfer, if_neg h0, State.Account_of_invalid IsValid s fromAddr hf]

theorem Transfer_of_invalid_dest (IsValid : Address → Bool) (ctx : Context) (s : State)
    (fromAddr toAddr : Address) (amount : Nat) (hne : fromAddr ≠ toAddr) (hpos : amount ≠ 0)
    (hf : IsValid fromAddr = true) (ht : IsValid toAddr = false) :
    Transfer IsValid ctx s fromAddr toAddr amount
      = ⟨s, [], .error (.invalidAccountAddress toAddr)⟩ := by
  have h0 : ¬ (fromAddr = toAddr ∨ amount = 0) := fun h => h.elim hne hpos
  simp only [Transfer, if_neg h0, State.Account_of_valid IsValid s fromAddr hf,
    State.Account_of_invalid IsValid s toAddr ht]

theorem Transfer_of_guard (IsValid : Address → Bool) (ctx : Context) (s : State)
    (fromAddr toAddr : Address) (amount : Nat) (h : fromAddr = toAddr ∨ amount = 0) :
    Transfer IsValid ctx s fromAddr toAddr amount = ⟨s, [], .ok ()⟩ := by
  simp only [Transfer, if_pos h]

/-- A transfer that succeeds is the transfer with every load succeeding. -/
theorem Transfer_of_ok (IsValid : Address → Bool) (ctx : Context) (s : State)
    (fromAddr toAddr : Address) (amount : Nat)
    (h : (Transfer IsValid ctx s fromAddr toAddr amount).ret = .ok ()) :
    Transfer IsValid ctx s fromAddr toAddr amount = Transfer allValid ctx s fromAddr toAddr amount
        := by
  by_cases h0 : fromAddr = toAddr ∨ amount = 0
  · rw [Transfer_of_guard IsValid ctx s _ _ _ h0, Transfer_of_guard allValid ctx s _ _ _ h0]
  · have hne : fromAddr ≠ toAddr := fun e => h0 (Or.inl e)
    have hpos : amount ≠ 0 := fun e => h0 (Or.inr e)
    cases hf : IsValid fromAddr
    · rw [Transfer_of_invalid_source IsValid ctx s _ _ _ hne hpos hf] at h
      cases h
    · cases ht : IsValid toAddr
      · rw [Transfer_of_invalid_dest IsValid ctx s _ _ _ hne hpos hf ht] at h
        cases h
      · exact Transfer_of_valid IsValid ctx s _ _ _ hf ht

theorem SlashEscrow_of_ok (IsValid : Address → Bool) (ctx : Context) (s : State)
    (fromAddr : Address) (amount : Nat) (slashed : Nat)
    (h : (SlashEscrow IsValid ctx s fromAddr amount).ret = .ok slashed) :
    SlashEscrow IsValid ctx s fromAddr amount = SlashEscrow allValid ctx s fromAddr amount := by
  cases hf : IsValid fromAddr
  · rw [SlashEscrow_of_invalid IsValid ctx s _ _ hf] at h
    cases h
  · exact SlashEscrow_of_valid IsValid ctx s _ _ hf

theorem TransferFromCommon_of_valid (IsValid : Address → Bool) (K : Constants) (ctx : Context)
    (s : State) (toAddr : Address) (amount : Nat) (escrow : Bool) (h : IsValid toAddr = true) :
    TransferFromCommon IsValid K ctx s toAddr amount escrow
      = TransferFromCommon allValid K ctx s toAddr amount escrow := by
  simp only [TransferFromCommon, State.Account_of_valid IsValid s toAddr h,
    State.Account_allValid]

theorem TransferFromCommon_of_invalid (IsValid : Address → Bool) (K : Constants) (ctx : Context)
    (s : State) (toAddr : Address) (amount : Nat) (escrow : Bool) (h : IsValid toAddr = false) :
    TransferFromCommon IsValid K ctx s toAddr amount escrow
      = ⟨s, [], .error (.invalidAccountAddress toAddr)⟩ := by
  simp only [TransferFromCommon, State.Account_of_invalid IsValid s toAddr h]

theorem TransferFromCommon_of_ok (IsValid : Address → Bool) (K : Constants) (ctx : Context)
    (s : State) (toAddr : Address) (amount : Nat) (escrow : Bool) (moved : Bool)
    (h : (TransferFromCommon IsValid K ctx s toAddr amount escrow).ret = .ok moved) :
    TransferFromCommon IsValid K ctx s toAddr amount escrow
      = TransferFromCommon allValid K ctx s toAddr amount escrow := by
  cases hf : IsValid toAddr
  · rw [TransferFromCommon_of_invalid IsValid K ctx s _ _ _ hf] at h
    cases h
  · exact TransferFromCommon_of_valid IsValid K ctx s _ _ _ hf

theorem TransferToGovernanceDeposits_of_valid (IsValid : Address → Bool) (K : Constants)
    (ctx : Context) (s : State) (fromAddr : Address) (amount : Nat)
    (h : IsValid fromAddr = true) :
    TransferToGovernanceDeposits IsValid K ctx s fromAddr amount
      = TransferToGovernanceDeposits allValid K ctx s fromAddr amount := by
  simp only [TransferToGovernanceDeposits, State.Account_of_valid IsValid s fromAddr h,
    State.Account_allValid]

theorem TransferToGovernanceDeposits_of_invalid (IsValid : Address → Bool) (K : Constants)
    (ctx : Context) (s : State) (fromAddr : Address) (amount : Nat)
    (h : IsValid fromAddr = false) :
    TransferToGovernanceDeposits IsValid K ctx s fromAddr amount
      = ⟨s, [], .error (.invalidAccountAddress fromAddr)⟩ := by
  simp only [TransferToGovernanceDeposits, State.Account_of_invalid IsValid s fromAddr h]

theorem TransferToGovernanceDeposits_of_ok (IsValid : Address → Bool) (K : Constants)
    (ctx : Context) (s : State) (fromAddr : Address) (amount : Nat)
    (h : (TransferToGovernanceDeposits IsValid K ctx s fromAddr amount).ret = .ok ()) :
    TransferToGovernanceDeposits IsValid K ctx s fromAddr amount
      = TransferToGovernanceDeposits allValid K ctx s fromAddr amount := by
  cases hf : IsValid fromAddr
  · rw [TransferToGovernanceDeposits_of_invalid IsValid K ctx s _ _ hf] at h
    cases h
  · exact TransferToGovernanceDeposits_of_valid IsValid K ctx s _ _ hf

theorem TransferFromGovernanceDeposits_of_valid (IsValid : Address → Bool) (K : Constants)
    (ctx : Context) (s : State) (toAddr : Address) (amount : Nat) (h : IsValid toAddr = true) :
    TransferFromGovernanceDeposits IsValid K ctx s toAddr amount
      = TransferFromGovernanceDeposits allValid K ctx s toAddr amount := by
  simp only [TransferFromGovernanceDeposits, State.Account_of_valid IsValid s toAddr h,
    State.Account_allValid]

theorem TransferFromGovernanceDeposits_of_invalid (IsValid : Address → Bool) (K : Constants)
    (ctx : Context) (s : State) (toAddr : Address) (amount : Nat) (h : IsValid toAddr = false) :
    TransferFromGovernanceDeposits IsValid K ctx s toAddr amount
      = ⟨s, [], .error (.invalidAccountAddress toAddr)⟩ := by
  simp only [TransferFromGovernanceDeposits, State.Account_of_invalid IsValid s toAddr h]

theorem TransferFromGovernanceDeposits_of_ok (IsValid : Address → Bool) (K : Constants)
    (ctx : Context) (s : State) (toAddr : Address) (amount : Nat)
    (h : (TransferFromGovernanceDeposits IsValid K ctx s toAddr amount).ret = .ok ()) :
    TransferFromGovernanceDeposits IsValid K ctx s toAddr amount
      = TransferFromGovernanceDeposits allValid K ctx s toAddr amount := by
  cases hf : IsValid toAddr
  · rw [TransferFromGovernanceDeposits_of_invalid IsValid K ctx s _ _ hf] at h
    cases h
  · exact TransferFromGovernanceDeposits_of_valid IsValid K ctx s _ _ hf

theorem AddRewards.step_of_valid (IsValid : Address → Bool) (K : Constants) (time : EpochTime)
    (factor : Nat) (activeStep : RewardStep) (s : State) (commonPool : Nat) (addr : Address)
    (h : IsValid addr = true) :
    AddRewards.step IsValid K time factor activeStep s commonPool addr
      = AddRewards.step allValid K time factor activeStep s commonPool addr := by
  simp only [AddRewards.step, State.Account_of_valid IsValid s addr h, State.Account_allValid]

theorem AddRewards.step_of_invalid (IsValid : Address → Bool) (K : Constants) (time : EpochTime)
    (factor : Nat) (activeStep : RewardStep) (s : State) (commonPool : Nat) (addr : Address)
    (h : IsValid addr = false) :
    AddRewards.step IsValid K time factor activeStep s commonPool addr
      = ⟨s, [], .error (.invalidAccountAddress addr)⟩ := by
  simp only [AddRewards.step, State.Account_of_invalid IsValid s addr h]

theorem AddRewards.loop_of_valid (IsValid : Address → Bool) (K : Constants) (time : EpochTime)
    (factor : Nat) (activeStep : RewardStep) (addresses : List Address) :
    ∀ (s : State) (commonPool : Nat), (∀ a ∈ addresses, IsValid a = true) →
    AddRewards.loop IsValid K time factor activeStep addresses s commonPool
      = AddRewards.loop allValid K time factor activeStep addresses s commonPool := by
  induction addresses with
  | nil =>
    intro s cp _
    rfl
  | cons a rest ih =>
    intro s cp hv
    have ha : IsValid a = true := hv a (List.mem_cons_self _ _)
    have hr : ∀ b ∈ rest, IsValid b = true := fun b hb => hv b (List.mem_cons_of_mem _ hb)
    simp only [AddRewards.loop, AddRewards.step_of_valid IsValid K time factor activeStep s cp a ha]
    cases (AddRewards.step allValid K time factor activeStep s cp a).ret with
    | error e => rfl
    | ok cp1 =>
      simp only []
      rw [ih _ _ hr]

theorem AddRewards.loop_of_ok (IsValid : Address → Bool) (K : Constants) (time : EpochTime)
    (factor : Nat) (activeStep : RewardStep) (addresses : List Address) :
    ∀ (s : State) (commonPool cp : Nat),
    (AddRewards.loop IsValid K time factor activeStep addresses s commonPool).ret = .ok cp →
    AddRewards.loop IsValid K time factor activeStep addresses s commonPool
      = AddRewards.loop allValid K time factor activeStep addresses s commonPool := by
  induction addresses with
  | nil =>
    intro s cp _ _
    rfl
  | cons a rest ih =>
    intro s cp cp2 hok
    cases ha : IsValid a
    · simp only [AddRewards.loop,
        AddRewards.step_of_invalid IsValid K time factor activeStep s cp a ha] at hok
      cases hok
    · simp only [AddRewards.loop,
        AddRewards.step_of_valid IsValid K time factor activeStep s cp a ha] at hok ⊢
      cases hs : (AddRewards.step allValid K time factor activeStep s cp a).ret with
      | error e =>
        exfalso
        rw [hs] at hok
        cases hok
      | ok cp1 =>
        rw [hs] at hok
        simp only [] at hok ⊢
        rw [ih _ _ _ hok]

theorem AddRewards_of_valid (IsValid : Address → Bool) (K : Constants) (ctx : Context)
    (s : State) (time : EpochTime) (factor : Nat) (addresses : List Address)
    (hv : ∀ a ∈ addresses, IsValid a = true) :
    AddRewards IsValid K ctx s time factor addresses
      = AddRewards allValid K ctx s time factor addresses := by
  unfold AddRewards
  cases s.RewardSchedule with
  | error e => rfl
  | ok steps =>
    simp only []
    cases activeRewardStep steps time with
    | none => rfl
    | some activeStep =>
      simp only []
      rw [AddRewards.loop_of_valid IsValid K time factor activeStep addresses s _ hv]

theorem AddRewards_of_ok (IsValid : Address → Bool) (K : Constants) (ctx : Context)
    (s : State) (time : EpochTime) (factor : Nat) (addresses : List Address)
    (h : (AddRewards IsValid K ctx s time factor addresses).ret = .ok ()) :
    AddRewards IsValid K ctx s time factor addresses
      = AddRewards allValid K ctx s time factor addresses := by
  unfold AddRewards at h ⊢
  cases hs : s.RewardSchedule with
  | error e => rfl
  | ok steps =>
    rw [hs] at h
    simp only [] at h ⊢
    cases ha : activeRewardStep steps time with
    | none => rfl
    | some activeStep =>
      rw [ha] at h
      simp only [] at h ⊢
      cases hl : (AddRewards.loop IsValid K time factor activeStep addresses s s.CommonPool).ret
          with
      | error e =>
        rw [hl] at h
        cases h
      | ok cp =>
        rw [← AddRewards.loop_of_ok IsValid K time factor activeStep addresses s _ cp hl, hl]

theorem AddRewardSingleAttenuated_of_valid (IsValid : Address → Bool) (K : Constants)
    (ctx : Context) (s : State) (time : EpochTime) (factor : Nat)
    (attenuationNumerator attenuationDenominator : Int) (address : Address)
    (h : IsValid address = true) :
    AddRewardSingleAttenuated IsValid K ctx s time factor attenuationNumerator
        attenuationDenominator address
      = AddRewardSingleAttenuated allValid K ctx s time factor attenuationNumerator
        attenuationDenominator address := by
  simp only [AddRewardSingleAttenuated, State.Account_of_valid IsValid s address h,
    State.Account_allValid]

theorem AddRewardSingleAttenuated_of_ok (IsValid : Address → Bool) (K : Constants)
    (ctx : Context) (s : State) (time : EpochTime) (factor : Nat)
    (attenuationNumerator attenuationDenominator : Int) (address : Address)
    (h : (AddRewardSingleAttenuated IsValid K ctx s time factor attenuationNumerator
        attenuationDenominator address).ret = .ok ()) :
    AddRewardSingleAttenuated IsValid K ctx s time factor attenuationNumerator
        attenuationDenominator address
      = AddRewardSingleAttenuated allValid K ctx s time factor attenuationNumerator
        attenuationDenominator address := by
  cases hv : IsValid address
  · revert h
    simp only [AddRewardSingleAttenuated, State.Account_of_invalid IsValid s address hv,
      State.Account_allValid]
    cases s.RewardSchedule with
    | error e => exact fun _ => rfl
    | ok steps =>
      simp only []
      cases activeRewardStep steps time with
      | none => exact fun _ => rfl
      | some activeStep =>
        simp only []
        cases quantity.FromInt64 attenuationNumerator with
        | error e => exact fun _ => rfl
        | ok numQ =>
          simp only []
          cases quantity.FromInt64 attenuationDenominator with
          | error e => exact fun _ => rfl
          | ok denQ =>
            simp only []
            intro h
            cases h
  · exact AddRewardSingleAttenuated_of_valid IsValid K ctx s time factor _ _ address hv

theorem onEpochChange.release_of_valid (IsValid : Address → Bool) (s : State)
    (e : DebondingQueueEntry) (hd : IsValid e.DelegatorAddr = true)
    (he : IsValid e.EscrowAddr = true) :
    onEpochChange.release IsValid s e = onEpochChange.release allValid s e := by
  simp only [onEpochChange.release, State.Account_of_valid IsValid s _ hd,
    State.Account_of_valid IsValid s _ he, State.Account_allValid]

theorem onEpochChange.release_of_invalid_delegator (IsValid : Address → Bool) (s : State)
    (e : DebondingQueueEntry) (hd : IsValid e.DelegatorAddr = false) :
    onEpochChange.release IsValid s e
      = ⟨s, [], .error (.invalidAccountAddress e.DelegatorAddr)⟩ := by
  simp only [onEpochChange.release, State.Account_of_invalid IsValid s _ hd]

theorem onEpochChange.release_of_invalid_escrow (IsValid : Address → Bool) (s : State)
    (e : DebondingQueueEntry) (hd : IsValid e.DelegatorAddr = true)
    (he : IsValid e.EscrowAddr = false) :
    onEpochChange.release IsValid s e
      = ⟨s, [], .error (.invalidAccountAddress e.EscrowAddr)⟩ := by
  have hne : e.DelegatorAddr ≠ e.EscrowAddr := by
    intro h
    rw [h, he] at hd
    cases hd
  simp only [onEpochChange.release, State.Account_of_valid IsValid s _ hd, if_neg hne,
    State.Account_of_invalid IsValid s _ he]

theorem onEpochChange.release_of_ok (IsValid : Address → Bool) (s : State)
    (e : DebondingQueueEntry) (h : (onEpochChange.release IsValid s e).ret = .ok ()) :
    onEpochChange.release IsValid s e = onEpochChange.release allValid s e := by
  cases hd : IsValid e.DelegatorAddr
  · rw [onEpochChange.release_of_invalid_delegator IsValid s e hd] at h
    cases h
  · cases he : IsValid e.EscrowAddr
    · rw [onEpochChange.release_of_invalid_escrow IsValid s e hd he] at h
      cases h
    · exact onEpochChange.release_of_valid IsValid s e hd he

theorem onEpochChange.releaseAll_of_valid (IsValid : Address → Bool)
    (entries : List DebondingQueueEntry) :
    ∀ s : State,
    (∀ e ∈ entries, IsValid e.DelegatorAddr = true ∧ IsValid e.EscrowAddr = true) →
    onEpochChange.releaseAll IsValid entries s = onEpochChange.releaseAll allValid entries s := by
  induction entries with
  | nil =>
    intro s _
    rfl
  | cons e rest ih =>
    intro s hv
    have he := hv e (List.mem_cons_self _ _)
    have hr : ∀ x ∈ rest, IsValid x.DelegatorAddr = true ∧ IsValid x.EscrowAddr = true :=
      fun x hx => hv x (List.mem_cons_of_mem _ hx)
    simp only [onEpochChange.releaseAll, onEpochChange.release_of_valid IsValid s e he.1 he.2]
    cases (onEpochChange.release allValid s e).ret with
    | error err => rfl
    | ok u =>
      simp only []
      rw [ih _ hr]

theorem onEpochChange.releaseAll_of_ok (IsValid : Address → Bool)
    (entries : List DebondingQueueEntry) :
    ∀ s : State, (onEpochChange.releaseAll IsValid entries s).ret = .ok () →
    onEpochChange.releaseAll IsValid entries s = onEpochChange.releaseAll allValid entries s := by
  induction entries with
  | nil =>
    intro s _
    rfl
  | cons e rest ih =>
    intro s hok
    cases hr : (onEpochChange.release IsValid s e).ret with
    | error err =>
      simp only [onEpochChange.releaseAll, hr] at hok
      cases hok
    | ok u =>
      have heq := onEpochChange.release_of_ok IsValid s e hr
      simp only [onEpochChange.releaseAll, hr] at hok
      simp only [onEpochChange.releaseAll]
      rw [← heq, hr]
      simp only []
      rw [ih _ hok]

/-! ## Claims -/

/-- C1. Supply conservation: for every staking state, a successful call of `Transfer`,
`SlashEscrow`, `TransferFromCommon`, `TransferToGovernanceDeposits`,
`TransferFromGovernanceDeposits`, `DiscardGovernanceDeposit`, `AddRewards`,
`AddRewardSingleAttenuated` or of the debonding release of `onEpochChange` leaves the sum
common pool + governance deposits + last block fees + Σ accounts (general + active escrow +
debonding escrow) as it was, and the stored total supply is the one stored before. -/
theorem supply_conservation (IsValid : Address → Bool) (K : Constants) (ctx : Context)
    (s : State) :
    (∀ fromAddr toAddr amount, (Transfer IsValid ctx s fromAddr toAddr amount).ret = .ok () →
      (Transfer IsValid ctx s fromAddr toAddr amount).state.supplySum = s.supplySum ∧
      (Transfer IsValid ctx s fromAddr toAddr amount).state.totalSupply = s.totalSupply) ∧
    (∀ fromAddr amount slashed, (SlashEscrow IsValid ctx s fromAddr amount).ret = .ok slashed →
      (SlashEscrow IsValid ctx s fromAddr amount).state.supplySum = s.supplySum ∧
      (SlashEscrow IsValid ctx s fromAddr amount).state.totalSupply = s.totalSupply) ∧
    (∀ toAddr amount escrow moved,
      (TransferFromCommon IsValid K ctx s toAddr amount escrow).ret = .ok moved →
      (TransferFromCommon IsValid K ctx s toAddr amount escrow).state.supplySum = s.supplySum ∧
      (TransferFromCommon IsValid K ctx s toAddr amount escrow).state.totalSupply = s.totalSupply) ∧
    (∀ fromAddr amount, (TransferToGovernanceDeposits IsValid K ctx s fromAddr amount).ret = .ok ()
        →
      (TransferToGovernanceDeposits IsValid K ctx s fromAddr amount).state.supplySum = s.supplySum ∧
      (TransferToGovernanceDeposits IsValid K ctx s fromAddr amount).state.totalSupply
        = s.totalSupply) ∧
    (∀ toAddr amount, (TransferFromGovernanceDeposits IsValid K ctx s toAddr amount).ret = .ok () →
      (TransferFromGovernanceDeposits IsValid K ctx s toAddr amount).state.supplySum = s.supplySum ∧
      (TransferFromGovernanceDeposits IsValid K ctx s toAddr amount).state.totalSupply
        = s.totalSupply) ∧
    (∀ amount, (DiscardGovernanceDeposit K ctx s amount).ret = .ok () →
      (DiscardGovernanceDeposit K ctx s amount).state.supplySum = s.supplySum ∧
      (DiscardGovernanceDeposit K ctx s amount).state.totalSupply = s.totalSupply) ∧
    (∀ time factor addresses, (AddRewards IsValid K ctx s time factor addresses).ret = .ok () →
      (AddRewards IsValid K ctx s time factor addresses).state.supplySum = s.supplySum ∧
      (AddRewards IsValid K ctx s time factor addresses).state.totalSupply = s.totalSupply) ∧
    (∀ time factor attenuationNumerator attenuationDenominator address,
      (AddRewardSingleAttenuated IsValid K ctx s time factor attenuationNumerator
        attenuationDenominator address).ret = .ok () →
      (AddRewardSingleAttenuated IsValid K ctx s time factor attenuationNumerator
        attenuationDenominator address).state.supplySum = s.supplySum ∧
      (AddRewardSingleAttenuated IsValid K ctx s time factor attenuationNumerator
        attenuationDenominator address).state.totalSupply = s.totalSupply) ∧
    (∀ epoch, (onEpochChange.releaseAll IsValid (s.ExpiredDebondingQueue epoch) s).ret = .ok () →
      (onEpochChange.releaseAll IsValid (s.ExpiredDebondingQueue epoch) s).state.supplySum
        = s.supplySum ∧
      (onEpochChange.releaseAll IsValid (s.ExpiredDebondingQueue epoch) s).state.totalSupply
        = s.totalSupply) :=
  ⟨fun fromAddr toAddr amount h => by
     have e := Transfer_of_ok IsValid ctx s fromAddr toAddr amount h
     rw [e] at h ⊢
     exact Transfer_conserves ctx s fromAddr toAddr amount h,
   fun fromAddr amount slashed h => by
     rw [SlashEscrow_of_ok IsValid ctx s fromAddr amount slashed h]
     exact SlashEscrow_conserves ctx s fromAddr amount,
   fun toAddr amount escrow moved h => by
     have e := TransferFromCommon_of_ok IsValid K ctx s toAddr amount escrow moved h
     rw [e] at h ⊢
     exact TransferFromCommon_conserves K ctx s toAddr amount escrow moved h,
   fun fromAddr amount h => by
     have e := TransferToGovernanceDeposits_of_ok IsValid K ctx s fromAddr amount h
     rw [e] at h ⊢
     exact TransferToGovernanceDeposits_conserves K ctx s fromAddr amount h,
   fun toAddr amount h => by
     have e := TransferFromGovernanceDeposits_of_ok IsValid K ctx s toAddr amount h
     rw [e] at h ⊢
     exact TransferFromGovernanceDeposits_conserves K ctx s toAddr amount h,
   fun amount h => DiscardGovernanceDeposit_conserves K ctx s amount h,
   fun time factor addresses h => by
     have e := AddRewards_of_ok IsValid K ctx s time factor addresses h
     rw [e] at h ⊢
     exact AddRewards_conserves K ctx s time factor addresses h,
   fun time factor num den address h => by
     have e := AddRewardSingleAttenuated_of_ok IsValid K ctx s time factor num den address h
     rw [e] at h ⊢
     exact AddRewardSingleAttenuated_conserves K ctx s time factor num den address h,
   fun epoch h => by
     have e := onEpochChange.releaseAll_of_ok IsValid (s.ExpiredDebondingQueue epoch) s h
     rw [e] at h ⊢
     exact onEpochChange.releaseAll_conserves (s.ExpiredDebondingQueue epoch) s h⟩

/-- C1 at concrete inputs: every operation succeeds on a state with a supply sum of 6010 and
leaves it at 6010, although accounts and pools change. -/
theorem supply_conservation_witness :
    rewardState.supplySum = 6010 ∧
    (Transfer scenarioValid {} rewardState 1 2 5).state.supplySum = 6010 ∧
    (SlashEscrow scenarioValid {} rewardState 2 700).state.supplySum = 6010 ∧
    (TransferFromCommon scenarioValid rewardConstants {} rewardState 1 300 true).state.supplySum =
        6010 ∧
    (TransferToGovernanceDeposits scenarioValid rewardConstants {} rewardState 1 10).state.supplySum
        = 6010 ∧
    (TransferFromGovernanceDeposits scenarioValid rewardConstants {} rewardState 3
        200).state.supplySum
      = 6010 ∧
    (DiscardGovernanceDeposit rewardConstants {} rewardState 500).state.supplySum = 6010 ∧
    (AddRewards scenarioValid rewardConstants {} rewardState 5 20000 [1, 2, 1]).state.supplySum =
        6010 ∧
    (AddRewardSingleAttenuated scenarioValid rewardConstants {} rewardState 5 20000 1 2
        1).state.supplySum
      = 6010 ∧
    (onEpochChange.releaseAll scenarioValid (scenarioD.ExpiredDebondingQueue 2)
        scenarioD).state.supplySum
      = scenarioD.supplySum ∧
    (Transfer scenarioValid {} rewardState 1 2 5).state.accounts ≠ rewardState.accounts ∧
    (AddRewards scenarioValid rewardConstants {} rewardState 5 20000 [1, 2, 1]).state.commonPool =
        some 460 ∧
    (onEpochChange.releaseAll scenarioValid (scenarioD.ExpiredDebondingQueue 2)
        scenarioD).state.debondingQueue
      = [] :=
  have h := supply_conservation scenarioValid rewardConstants {} rewardState
  have hD := supply_conservation scenarioValid rewardConstants {} scenarioD
  have h0 : rewardState.supplySum = 6010 := by decide
  ⟨h0,
   ((h.1 1 2 5 (by decide)).1).trans h0,
   ((h.2.1 2 700 700 (by decide)).1).trans h0,
   ((h.2.2.1 1 300 true true (by decide)).1).trans h0,
   ((h.2.2.2.1 1 10 (by decide)).1).trans h0,
   ((h.2.2.2.2.1 3 200 (by decide)).1).trans h0,
   ((h.2.2.2.2.2.1 500 (by decide)).1).trans h0,
   ((h.2.2.2.2.2.2.1 5 20000 [1, 2, 1] (by decide)).1).trans h0,
   ((h.2.2.2.2.2.2.2.1 5 20000 1 2 1 (by decide)).1).trans h0,
   (hD.2.2.2.2.2.2.2.2 2 (by decide)).1,
   by decide, by decide, by decide⟩

/-- C2, counterexample. In scenario A, with `MinTransactBalance = 1`, `Transfer(Alice, common
pool, 500)` meets every condition of the claim, yet the common pool address is reserved: the load
of the destination account fails, `Transfer` returns the error of the load and writes nothing. -/
theorem Transfer_success_counterexample :
    (scenarioA 1).parameters = some { minTransactBalance := 1 } ∧ (1 : Address) ≠ 100 ∧ 0 < 500 ∧
    500 ≤ ((scenarioA 1).accountOf 1).general.balance ∧
    1 ≤ ((scenarioA 1).accountOf 1).general.balance - 500 ∧
    1 ≤ ((scenarioA 1).accountOf 100).general.balance + 500 ∧
    Transfer scenarioValid {} (scenarioA 1) 1 100 500
      = ⟨scenarioA 1, [], .error (.invalidAccountAddress 100)⟩ := by
  decide

/-- C2, as amended. Transfer success: for distinct valid addresses and a non-zero amount that the
source balance covers, with both resulting balances at or above `MinTransactBalance`, `Transfer`
returns no error, the general balance of the source falls by exactly the amount and that of
the destination rises by exactly the amount (nothing else of the two accounts changes), the
stored entry of every other address and every global balance is as before, and the events
are exactly one `TransferEvent{From, To, Amount}` unless the context is check-only. -/
theorem Transfer_success (IsValid : Address → Bool) (ctx : Context) (s : State)
    (fromAddr toAddr : Address) (amount : Nat)
    (hvalidFrom : IsValid fromAddr = true) (hvalidTo : IsValid toAddr = true)
    (params : ConsensusParameters) (hparams : s.parameters = some params)
    (hne : fromAddr ≠ toAddr) (hpos : 0 < amount)
    (hbal : amount ≤ (s.accountOf fromAddr).general.balance)
    (hfrom : params.minTransactBalance ≤ (s.accountOf fromAddr).general.balance - amount)
    (hto : params.minTransactBalance ≤ (s.accountOf toAddr).general.balance + amount) :
    (Transfer IsValid ctx s fromAddr toAddr amount).ret = .ok () ∧
    (Transfer IsValid ctx s fromAddr toAddr amount).state.accountOf fromAddr =
      { s.accountOf fromAddr with
        general := { (s.accountOf fromAddr).general with
          balance := (s.accountOf fromAddr).general.balance - amount } } ∧
    (Transfer IsValid ctx s fromAddr toAddr amount).state.accountOf toAddr =
      { s.accountOf toAddr with
        general := { (s.accountOf toAddr).general with
          balance := (s.accountOf toAddr).general.balance + amount } } ∧
    (∀ a, a ≠ fromAddr → a ≠ toAddr →
      kvGet (Transfer IsValid ctx s fromAddr toAddr amount).state.accounts a = kvGet s.accounts a) ∧
    (Transfer IsValid ctx s fromAddr toAddr amount).state.totalSupply = s.totalSupply ∧
    (Transfer IsValid ctx s fromAddr toAddr amount).state.commonPool = s.commonPool ∧
    (Transfer IsValid ctx s fromAddr toAddr amount).state.lastBlockFees = s.lastBlockFees ∧
    (Transfer IsValid ctx s fromAddr toAddr amount).state.governanceDeposits = s.governanceDeposits
        ∧
    (Transfer IsValid ctx s fromAddr toAddr amount).events =
      if ctx.checkOnly then []
      else [Event.Transfer { From := fromAddr, To := toAddr, Amount := amount }] := by
  rw [Transfer_of_valid IsValid ctx s fromAddr toAddr amount hvalidFrom hvalidTo]
  have h0 : ¬ (fromAddr = toAddr ∨ amount = 0) := by
    rintro (h | h)
    · exact hne h
    · omega
  have h1 : ¬ ((s.accountOf fromAddr).general.balance < amount) := by omega
  have h2 : ¬ ((s.accountOf fromAddr).general.balance - amount < params.minTransactBalance) := by
    omega
  have h3 : ¬ ((s.accountOf toAddr).general.balance + amount < params.minTransactBalance) := by
    omega
  have hT : Transfer allValid ctx s fromAddr toAddr amount =
      ⟨(s.SetAccount fromAddr
          { s.accountOf fromAddr with
            general := { (s.accountOf fromAddr).general with
              balance := (s.accountOf fromAddr).general.balance - amount } }).SetAccount toAddr
          { s.accountOf toAddr with
            general := { (s.accountOf toAddr).general with
              balance := (s.accountOf toAddr).general.balance + amount } },
        ctx.emit [Event.Transfer { From := fromAddr, To := toAddr, Amount := amount }],
        .ok ()⟩ := by
    simp only [Transfer, State.Account_allValid, if_neg h0, quantity.Move, quantity.Sub, if_neg h1,
      State.ConsensusParameters, hparams, if_neg h2, if_neg h3]
  rw [hT]
  refine ⟨rfl, ?_, ?_, ?_, rfl, rfl, rfl, rfl, rfl⟩
  · rw [State.accountOf_SetAccount_ne _ _ _ _ hne, State.accountOf_SetAccount_self]
  · rw [State.accountOf_SetAccount_self]
  · intro a ha hb
    show kvGet (State.SetAccount _ toAddr _).accounts a = _
    rw [State.accounts_SetAccount_ne _ _ _ _ hb, State.accounts_SetAccount_ne _ _ _ _ ha]

/-- C2 in scenario A: Alice has 1000, `Transfer(Alice, Bob, 500)` with `MinTransactBalance = 1`
gives Alice 500 and Bob 500, the stored total supply stays 1000 and one event is emitted. -/
theorem Transfer_success_witness :
    scenarioValid 1 = true ∧ scenarioValid 2 = true ∧
    (scenarioA 1).parameters = some { minTransactBalance := 1 } ∧ (1 : Address) ≠ 2 ∧ 0 < 500 ∧
    500 ≤ ((scenarioA 1).accountOf 1).general.balance ∧
    (Transfer scenarioValid {} (scenarioA 1) 1 2 500).ret = .ok () ∧
    ((Transfer scenarioValid {} (scenarioA 1) 1 2 500).state.accountOf 1).general.balance = 500 ∧
    ((Transfer scenarioValid {} (scenarioA 1) 1 2 500).state.accountOf 2).general.balance = 500 ∧
    (Transfer scenarioValid {} (scenarioA 1) 1 2 500).state.totalSupply = some 1000 ∧
    (Transfer scenarioValid {} (scenarioA 1) 1 2 500).events
      = [Event.Transfer { From := 1, To := 2, Amount := 500 }] :=
  have h := Transfer_success scenarioValid {} (scenarioA 1) 1 2 500 rfl rfl
    { minTransactBalance := 1 } rfl
    (by decide) (by decide) (by decide) (by decide) (by decide)
  ⟨rfl, rfl, rfl, by decide, by decide, by decide, h.1,
   (congrArg (fun a => a.general.balance) h.2.1).trans (by decide),
   (congrArg (fun a => a.general.balance) h.2.2.1).trans (by decide),
   h.2.2.2.2.1.trans (by decide), h.2.2.2.2.2.2.2.2.trans (by decide)⟩

/-- C3, counterexample. In scenario A, `Transfer(Alice, common pool, 1500)` asks for more than
the 1000 Alice holds, yet it does not return `ErrInsufficientBalance`: the common pool address is
reserved, so the load of the destination account fails before the balances are compared. -/
theorem Transfer_insufficient_balance_counterexample :
    (1 : Address) ≠ 100 ∧ 0 < 1500 ∧
    ((scenarioA 1).accountOf 1).general.balance < 1500 ∧
    (Transfer scenarioValid {} (scenarioA 1) 1 100 1500).ret
      = .error (.invalidAccountAddress 100) ∧
    (Transfer scenarioValid {} (scenarioA 1) 1 100 1500).ret ≠ .error .ErrInsufficientBalance := by
  decide

/-- C3, as amended. For distinct valid addresses and a non-zero amount, `Transfer` returns
`ErrInsufficientBalance` if and only if the general balance of the source is smaller than the
amount, whatever the minimum balance is; in that case the state is the one before the call
and no event is emitted. -/
theorem Transfer_insufficient_balance (IsValid : Address → Bool) (ctx : Context) (s : State)
    (fromAddr toAddr : Address) (amount : Nat)
    (hvalidFrom : IsValid fromAddr = true) (hvalidTo : IsValid toAddr = true)
    (hne : fromAddr ≠ toAddr) (hpos : 0 < amount) :
    ((Transfer IsValid ctx s fromAddr toAddr amount).ret = .error .ErrInsufficientBalance ↔
      (s.accountOf fromAddr).general.balance < amount) ∧
    ((s.accountOf fromAddr).general.balance < amount →
      (Transfer IsValid ctx s fromAddr toAddr amount).state = s ∧
      (Transfer IsValid ctx s fromAddr toAddr amount).events = []) := by
  rw [Transfer_of_valid IsValid ctx s fromAddr toAddr amount hvalidFrom hvalidTo]
  have h0 : ¬ (fromAddr = toAddr ∨ amount = 0) := by
    rintro (h | h)
    · exact hne h
    · omega
  by_cases h1 : (s.accountOf fromAddr).general.balance < amount
  · have hT : Transfer allValid ctx s fromAddr toAddr amount =
      ⟨s, [], .error .ErrInsufficientBalance⟩ := by
      simp only [Transfer, State.Account_allValid, if_neg h0, quantity.Move, quantity.Sub, if_pos
          h1]
    rw [hT]
    exact ⟨⟨fun _ => h1, fun _ => rfl⟩, fun _ => ⟨rfl, rfl⟩⟩
  · refine ⟨⟨fun h => ?_, fun h => absurd h h1⟩, fun h => absurd h h1⟩
    exfalso
    revert h
    simp only [Transfer, State.Account_allValid, if_neg h0, quantity.Move, quantity.Sub, if_neg h1,
      State.ConsensusParameters]
    cases s.parameters with
    | none => simp
    | some params =>
      simp only []
      split
      · simp
      · split <;> simp

/-- C3 in scenario A: a transfer of 1500 out of a balance of 1000 is refused. -/
theorem Transfer_insufficient_balance_witness :
    scenarioValid 1 = true ∧ scenarioValid 2 = true ∧ (1 : Address) ≠ 2 ∧ 0 < 1500 ∧
    (Transfer scenarioValid {} (scenarioA 1) 1 2 1500).ret = .error .ErrInsufficientBalance ∧
    (Transfer scenarioValid {} (scenarioA 1) 1 2 1500).state = scenarioA 1 ∧
    (Transfer scenarioValid {} (scenarioA 1) 1 2 1500).events = [] :=
  have h := Transfer_insufficient_balance scenarioValid {} (scenarioA 1) 1 2 1500 rfl rfl
    (by decide) (by decide)
  ⟨rfl, rfl, by decide, by decide, h.1.2 (by decide), h.2 (by decide)⟩

/-- C4, counterexample. In scenario A with `MinTransactBalance = 600`, `Transfer(Alice, common
pool, 500)` would leave both sides below the minimum, yet it does not return `ErrBalanceTooLow`:
the common pool address is reserved, so the load of the destination account fails first. -/
theorem Transfer_balance_too_low_counterexample :
    (scenarioA 600).parameters = some { minTransactBalance := 600 } ∧ (1 : Address) ≠ 100 ∧
    0 < 500 ∧ 500 ≤ ((scenarioA 600).accountOf 1).general.balance ∧
    ((scenarioA 600).accountOf 1).general.balance - 500 < 600 ∧
    ((scenarioA 600).accountOf 100).general.balance + 500 < 600 ∧
    (Transfer scenarioValid {} (scenarioA 600) 1 100 500).ret
      = .error (.invalidAccountAddress 100) ∧
    ¬ ∃ side, (Transfer scenarioValid {} (scenarioA 600) 1 100 500).ret
      = .error (.ErrBalanceTooLow side) := by
  refine ⟨rfl, by decide, by decide, by decide, by decide, by decide, by decide, ?_⟩
  rintro ⟨side, h⟩
  have h2 : (Transfer scenarioValid {} (scenarioA 600) 1 100 500).ret
      = .error (.invalidAccountAddress 100) := by decide
  rw [h2] at h
  cases h

/-- C4, as amended. For distinct valid addresses and a non-zero amount that the source balance
covers,
`Transfer` returns `ErrBalanceTooLow` if and only if the source balance minus the amount, or
the destination balance plus the amount, is below `MinTransactBalance`; on that error the state
is the one before the call and no event is emitted. -/
theorem Transfer_balance_too_low (IsValid : Address → Bool) (ctx : Context) (s : State)
    (fromAddr toAddr : Address) (amount : Nat)
    (hvalidFrom : IsValid fromAddr = true) (hvalidTo : IsValid toAddr = true)
    (params : ConsensusParameters) (hparams : s.parameters = some params)
    (hne : fromAddr ≠ toAddr) (hpos : 0 < amount)
    (hbal : amount ≤ (s.accountOf fromAddr).general.balance) :
    ((∃ side, (Transfer IsValid ctx s fromAddr toAddr amount).ret = .error (.ErrBalanceTooLow side))
        ↔
      ((s.accountOf fromAddr).general.balance - amount < params.minTransactBalance ∨
       (s.accountOf toAddr).general.balance + amount < params.minTransactBalance)) ∧
    (∀ side, (Transfer IsValid ctx s fromAddr toAddr amount).ret = .error (.ErrBalanceTooLow side) →
      (Transfer IsValid ctx s fromAddr toAddr amount).state = s ∧
      (Transfer IsValid ctx s fromAddr toAddr amount).events = []) := by
  rw [Transfer_of_valid IsValid ctx s fromAddr toAddr amount hvalidFrom hvalidTo]
  have h0 : ¬ (fromAddr = toAddr ∨ amount = 0) := by
    rintro (h | h)
    · exact hne h
    · omega
  have h1 : ¬ ((s.accountOf fromAddr).general.balance < amount) := by omega
  by_cases h2 : (s.accountOf fromAddr).general.balance - amount < params.minTransactBalance
  · have hT : Transfer allValid ctx s fromAddr toAddr amount =
        ⟨s, [], .error (.ErrBalanceTooLow .source)⟩ := by
      simp only [Transfer, State.Account_allValid, if_neg h0, quantity.Move, quantity.Sub, if_neg
          h1,
        State.ConsensusParameters, hparams, if_pos h2]
    rw [hT]
    exact ⟨⟨fun _ => Or.inl h2, fun _ => ⟨_, rfl⟩⟩, fun _ _ => ⟨rfl, rfl⟩⟩
  · by_cases h3 : (s.accountOf toAddr).general.balance + amount < params.minTransactBalance
    · have hT : Transfer allValid ctx s fromAddr toAddr amount =
          ⟨s, [], .error (.ErrBalanceTooLow .dest)⟩ := by
        simp only [Transfer, State.Account_allValid, if_neg h0, quantity.Move, quantity.Sub, if_neg
            h1,
          State.ConsensusParameters, hparams, if_neg h2, if_pos h3]
      rw [hT]
      exact ⟨⟨fun _ => Or.inr h3, fun _ => ⟨_, rfl⟩⟩, fun _ _ => ⟨rfl, rfl⟩⟩
    · have hT : (Transfer allValid ctx s fromAddr toAddr amount).ret = .ok () := by
        simp only [Transfer, State.Account_allValid, if_neg h0, quantity.Move, quantity.Sub, if_neg
            h1,
          State.ConsensusParameters, hparams, if_neg h2, if_neg h3]
      rw [hT]
      refine ⟨⟨?_, ?_⟩, ?_⟩
      · rintro ⟨side, h⟩
        cases h
      · rintro (h | h)
        · exact absurd h h2
        · exact absurd h h3
      · intro side h
        cases h

/-- C4 in scenario A: with `MinTransactBalance = 600` the transfer of 500 fails with
`ErrBalanceTooLow`. -/
theorem Transfer_balance_too_low_witness :
    scenarioValid 1 = true ∧ scenarioValid 2 = true ∧
    (scenarioA 600).parameters = some { minTransactBalance := 600 } ∧ (1 : Address) ≠ 2 ∧
    0 < 500 ∧ 500 ≤ ((scenarioA 600).accountOf 1).general.balance ∧
    (∃ side, (Transfer scenarioValid {} (scenarioA 600) 1 2 500).ret = .error
        (.ErrBalanceTooLow side)) ∧
    (Transfer scenarioValid {} (scenarioA 600) 1 2 500).state = scenarioA 600 ∧
    (Transfer scenarioValid {} (scenarioA 600) 1 2 500).events = [] :=
  have h := Transfer_balance_too_low scenarioValid {} (scenarioA 600) 1 2 500 rfl rfl
    { minTransactBalance := 600 } rfl (by decide) (by decide) (by decide)
  ⟨rfl, rfl, rfl, by decide, by decide, by decide, h.1.2 (Or.inl (by decide)),
    h.2 .source (by decide)⟩

/-- C5. `Transfer` is a no-op if source and destination are the same address or the amount
is zero: whatever the state, it returns no error, leaves the state as it is and emits no
event. -/
theorem Transfer_noop (IsValid : Address → Bool) (ctx : Context) (s : State)
    (fromAddr toAddr : Address) (amount : Nat) (h : fromAddr = toAddr ∨ amount = 0) :
    Transfer IsValid ctx s fromAddr toAddr amount = ⟨s, [], .ok ()⟩ := by
  simp only [Transfer, if_pos h]

/-- C5 in scenario A with `MinTransactBalance = 2000`: a transfer to oneself of more than
the balance, and a transfer of zero, change nothing. -/
theorem Transfer_noop_witness :
    ((1 : Address) = 1 ∨ 5000 = 0) ∧
    Transfer scenarioValid {} (scenarioA 2000) 1 1 5000 = ⟨scenarioA 2000, [], .ok ()⟩ ∧
    ((1 : Address) = 2 ∨ 0 = 0) ∧
    Transfer scenarioValid {} (scenarioA 2000) 1 2 0 = ⟨scenarioA 2000, [], .ok ()⟩ :=
  ⟨Or.inl rfl, Transfer_noop scenarioValid {} (scenarioA 2000) 1 1 5000 (Or.inl rfl),
   Or.inr rfl, Transfer_noop scenarioValid {} (scenarioA 2000) 1 2 0 (Or.inr rfl)⟩

/-- C6. The split of `SlashEscrow`: for an account, as `Account` returns it, with active balance
`A` and debonding balance `D`, `A + D > 0`, and an amount `m`, the active balance becomes
`A − min A ⌊m·A/(A+D)⌋`, the debonding balance `D − min D ⌊m·D/(A+D)⌋`, the returned quantity
is the sum of the two deductions, the common pool grows by the returned quantity and the
total shares of both pools are as before. -/
theorem SlashEscrow_split (IsValid : Address → Bool) (ctx : Context) (s : State)
    (fromAddr : Address) (acct : Account) (hacct : s.Account IsValid fromAddr = .ok acct)
    (amount : Nat)
    (hpos : 0 < acct.escrow.active.balance
      + acct.escrow.debonding.balance) :
    ((SlashEscrow IsValid ctx s fromAddr amount).state.accountOf fromAddr).escrow.active.balance =
      acct.escrow.active.balance
        - min acct.escrow.active.balance
            (amount * acct.escrow.active.balance
              / (acct.escrow.active.balance
                  + acct.escrow.debonding.balance)) ∧
    ((SlashEscrow IsValid ctx s fromAddr amount).state.accountOf fromAddr).escrow.debonding.balance
        =
      acct.escrow.debonding.balance
        - min acct.escrow.debonding.balance
            (amount * acct.escrow.debonding.balance
              / (acct.escrow.active.balance
                  + acct.escrow.debonding.balance)) ∧
    (SlashEscrow IsValid ctx s fromAddr amount).ret =
      .ok (min acct.escrow.active.balance
            (amount * acct.escrow.active.balance
              / (acct.escrow.active.balance
                  + acct.escrow.debonding.balance))
          + min acct.escrow.debonding.balance
            (amount * acct.escrow.debonding.balance
              / (acct.escrow.active.balance
                  + acct.escrow.debonding.balance))) ∧
    (∀ slashed, (SlashEscrow IsValid ctx s fromAddr amount).ret = .ok slashed →
      (SlashEscrow IsValid ctx s fromAddr amount).state.CommonPool = s.CommonPool + slashed) ∧
    ((SlashEscrow IsValid ctx s fromAddr amount).state.accountOf fromAddr).escrow.active.totalShares
        =
      acct.escrow.active.totalShares ∧
    ((SlashEscrow IsValid ctx s fromAddr amount).state.accountOf
        fromAddr).escrow.debonding.totalShares =
      acct.escrow.debonding.totalShares := by
  obtain ⟨hvalid, rfl⟩ := (State.Account_ok_iff IsValid s fromAddr acct).1 hacct
  rw [SlashEscrow_of_valid IsValid ctx s fromAddr amount hvalid]
  have _ := hpos
  rw [SlashEscrow_account]
  refine ⟨?_, ?_, ?_, ?_, rfl, rfl⟩
  · simp only [slashedAccount, slashedPart, Nat.mul_comm amount]
  · simp only [slashedAccount, slashedPart, Nat.mul_comm amount]
  · rw [SlashEscrow_eq]
    simp only [slashedPart, Nat.mul_comm amount]
    split
    · rename_i h
      rw [h]
    · rfl
  · intro slashed
    rw [SlashEscrow_eq]
    simp only []
    split
    · intro h
      cases h
      rfl
    · intro h
      cases h
      simp [State.SetAccount, State.SetCommonPool, State.CommonPool, State.loadStoredBalance]

/-- C6 at a concrete input: pools of 600 and 400 slashed by 100 lose 60 and 40. -/
theorem SlashEscrow_split_witness :
    twoPoolState.Account scenarioValid 1 = .ok (twoPoolState.accountOf 1) ∧
    0 < (twoPoolState.accountOf 1).escrow.active.balance
      + (twoPoolState.accountOf 1).escrow.debonding.balance ∧
    ((SlashEscrow scenarioValid {} twoPoolState 1 100).state.accountOf 1).escrow.active.balance =
        540 ∧
    ((SlashEscrow scenarioValid {} twoPoolState 1 100).state.accountOf 1).escrow.debonding.balance =
        360 ∧
    (SlashEscrow scenarioValid {} twoPoolState 1 100).ret = .ok 100 ∧
    (SlashEscrow scenarioValid {} twoPoolState 1 100).state.CommonPool = 100 :=
  have h := SlashEscrow_split scenarioValid {} twoPoolState 1 (twoPoolState.accountOf 1)
    (by decide) 100 (by decide)
  ⟨by decide, by decide, h.1.trans (by decide), h.2.1.trans (by decide), h.2.2.1.trans (by decide),
    (h.2.2.2.1 100 (h.2.2.1.trans (by decide))).trans (by decide)⟩

/-- C7. Full slash: for an account, as `Account` returns it, with `A + D > 0` and an amount of
at least `A + D`,
`SlashEscrow` leaves the active and the debonding balance at zero, returns `A + D`, and the
event it emits (unless check-only) is one `TakeEscrowEvent` with `Amount = A + D` and
`DebondingAmount = D`. -/
theorem SlashEscrow_full (IsValid : Address → Bool) (ctx : Context) (s : State)
    (fromAddr : Address) (acct : Account) (hacct : s.Account IsValid fromAddr = .ok acct)
    (amount : Nat)
    (hpos : 0 < acct.escrow.active.balance
      + acct.escrow.debonding.balance)
    (hamount : acct.escrow.active.balance
      + acct.escrow.debonding.balance ≤ amount) :
    ((SlashEscrow IsValid ctx s fromAddr amount).state.accountOf fromAddr).escrow.active.balance = 0
        ∧
    ((SlashEscrow IsValid ctx s fromAddr amount).state.accountOf fromAddr).escrow.debonding.balance
        = 0 ∧
    (SlashEscrow IsValid ctx s fromAddr amount).ret =
      .ok (acct.escrow.active.balance
        + acct.escrow.debonding.balance) ∧
    (SlashEscrow IsValid ctx s fromAddr amount).events =
      if ctx.checkOnly then []
      else [Event.TakeEscrow
        { Owner := fromAddr
          Amount := acct.escrow.active.balance
            + acct.escrow.debonding.balance
          DebondingAmount := acct.escrow.debonding.balance }] := by
  obtain ⟨hvalid, rfl⟩ := (State.Account_ok_iff IsValid s fromAddr acct).1 hacct
  rw [SlashEscrow_of_valid IsValid ctx s fromAddr amount hvalid]
  have ha := slashedPart_full (s.accountOf fromAddr).escrow.active.balance amount _
    (Nat.le_add_right _ _) hamount
  have hd := slashedPart_full (s.accountOf fromAddr).escrow.debonding.balance amount _
    (Nat.le_add_left _ _) hamount
  refine ⟨?_, ?_, ?_, ?_⟩
  · rw [SlashEscrow_account]
    simp only [slashedAccount, ha, Nat.sub_self]
  · rw [SlashEscrow_account]
    simp only [slashedAccount, hd, Nat.sub_self]
  · rw [SlashEscrow_eq]
    simp only [ha, hd, if_neg (Nat.pos_iff_ne_zero.mp hpos)]
  · rw [SlashEscrow_eq]
    simp only [ha, hd, if_neg (Nat.pos_iff_ne_zero.mp hpos), Context.emit]

/-- C7 in scenario B: the `MaxInt64` slash takes the whole active balance of 1000. -/
theorem SlashEscrow_full_witness :
    scenarioB.Account scenarioValid 1 = .ok (scenarioB.accountOf 1) ∧
    0 < (scenarioB.accountOf 1).escrow.active.balance
      + (scenarioB.accountOf 1).escrow.debonding.balance ∧
    (scenarioB.accountOf 1).escrow.active.balance
      + (scenarioB.accountOf 1).escrow.debonding.balance ≤ 2 ^ 63 - 1 ∧
    ((SlashEscrow scenarioValid {} scenarioB 1 (2 ^ 63 - 1)).state.accountOf
        1).escrow.active.balance = 0 ∧
    (SlashEscrow scenarioValid {} scenarioB 1 (2 ^ 63 - 1)).ret = .ok 1000 ∧
    (SlashEscrow scenarioValid {} scenarioB 1 (2 ^ 63 - 1)).events =
      [Event.TakeEscrow { Owner := 1, Amount := 1000, DebondingAmount := 0 }] :=
  have h := SlashEscrow_full scenarioValid {} scenarioB 1 (scenarioB.accountOf 1) (by decide)
    (2 ^ 63 - 1) (by decide) (by decide)
  ⟨by decide, by decide, by decide, h.1, h.2.2.1, h.2.2.2⟩

/-- C8, as stated, fails: in scenario B both pools of the entity are coherent before the
equivocation slash, and afterwards the active pool has 1000 shares and no balance. -/
theorem SlashEscrow_coherence_counterexample :
    (scenarioB.accountOf 1).escrow.active.Coherent ∧
    (scenarioB.accountOf 1).escrow.debonding.Coherent ∧
    ¬ ((SlashEscrow scenarioValid {} scenarioB 1 (2 ^ 63 - 1)).state.accountOf
        1).escrow.active.Coherent := by
  decide

/-- C8, amended. If both pools of the account are coherent before the call, then after
`SlashEscrow` each pool without shares has no balance; and if the amount is smaller than the
sum of the two pool balances, both pools are coherent again (`totalShares = 0 ⇔ balance = 0`). -/
theorem SlashEscrow_coherence (IsValid : Address → Bool) (ctx : Context) (s : State)
    (fromAddr : Address) (amount : Nat)
    (hactive : (s.accountOf fromAddr).escrow.active.Coherent)
    (hdebonding : (s.accountOf fromAddr).escrow.debonding.Coherent) :
    (((SlashEscrow IsValid ctx s fromAddr amount).state.accountOf
        fromAddr).escrow.active.totalShares = 0 →
      ((SlashEscrow IsValid ctx s fromAddr amount).state.accountOf fromAddr).escrow.active.balance =
          0) ∧
    (((SlashEscrow IsValid ctx s fromAddr amount).state.accountOf
        fromAddr).escrow.debonding.totalShares = 0 →
      ((SlashEscrow IsValid ctx s fromAddr amount).state.accountOf
          fromAddr).escrow.debonding.balance = 0) ∧
    (amount < (s.accountOf fromAddr).escrow.active.balance
        + (s.accountOf fromAddr).escrow.debonding.balance →
      ((SlashEscrow IsValid ctx s fromAddr amount).state.accountOf fromAddr).escrow.active.Coherent
          ∧
      ((SlashEscrow IsValid ctx s fromAddr amount).state.accountOf
          fromAddr).escrow.debonding.Coherent) := by
  cases hvalid : IsValid fromAddr
  · rw [SlashEscrow_of_invalid IsValid ctx s fromAddr amount hvalid]
    exact ⟨fun h => hactive.mp h, fun h => hdebonding.mp h, fun _ => ⟨hactive, hdebonding⟩⟩
  rw [SlashEscrow_of_valid IsValid ctx s fromAddr amount hvalid]
  rw [SlashEscrow_account]
  unfold SharePool.Coherent at *
  simp only [slashedAccount]
  refine ⟨fun h => ?_, fun h => ?_, fun hlt => ⟨⟨fun h => ?_, fun h => ?_⟩, fun h => ?_, fun h =>
      ?_⟩⟩
  · rw [hactive.mp h]; exact Nat.zero_sub _
  · rw [hdebonding.mp h]; exact Nat.zero_sub _
  · rw [hactive.mp h]; exact Nat.zero_sub _
  · by_contra hne
    have hb : 0 < (s.accountOf fromAddr).escrow.active.balance :=
      Nat.pos_of_ne_zero (fun h0 => hne (hactive.mpr h0))
    have := slashedPart_lt _ amount _ hb hlt
    omega
  · rw [hdebonding.mp h]; exact Nat.zero_sub _
  · by_contra hne
    have hb : 0 < (s.accountOf fromAddr).escrow.debonding.balance :=
      Nat.pos_of_ne_zero (fun h0 => hne (hdebonding.mpr h0))
    have := slashedPart_lt _ amount _ hb hlt
    omega

/-- C8, amended, at a concrete input: pools of 600 and 400 slashed by 100 stay coherent. -/
theorem SlashEscrow_coherence_witness :
    (twoPoolState.accountOf 1).escrow.active.Coherent ∧
    (twoPoolState.accountOf 1).escrow.debonding.Coherent ∧
    100 < (twoPoolState.accountOf 1).escrow.active.balance
        + (twoPoolState.accountOf 1).escrow.debonding.balance ∧
    ((SlashEscrow scenarioValid {} twoPoolState 1 100).state.accountOf 1).escrow.active.Coherent ∧
    ((SlashEscrow scenarioValid {} twoPoolState 1 100).state.accountOf 1).escrow.debonding.Coherent
        :=
  ⟨by decide, by decide, by decide,
    (SlashEscrow_coherence scenarioValid {} twoPoolState 1 100 (by decide) (by decide)).2.2
        (by decide)⟩

/-- C9, counterexample. `SlashEscrow` of the common pool address, which is reserved, returns
neither zero nor any other total: the load of the account fails, and the call returns the error
of the load (without an event and without a write). -/
theorem SlashEscrow_event_counterexample :
    ({} : Context).checkOnly = false ∧
    SlashEscrow scenarioValid {} twoPoolState 100 5
      = ⟨twoPoolState, [], .error (.invalidAccountAddress 100)⟩ ∧
    ¬ ∃ totalSlashed, (SlashEscrow scenarioValid {} twoPoolState 100 5).ret = .ok totalSlashed := by
  refine ⟨rfl, by decide, ?_⟩
  rintro ⟨totalSlashed, h⟩
  have h2 : (SlashEscrow scenarioValid {} twoPoolState 100 5).ret
      = .error (.invalidAccountAddress 100) := by decide
  rw [h2] at h
  cases h

/-- C9, as amended. The event of `SlashEscrow` for a valid address: when the context is not
check-only the call returns the total slashed; if that is non-zero the events are exactly one
`TakeEscrowEvent` with the slashed address as owner, the total slashed as amount and the part taken
from the debonding pool as debonding amount; if it is zero no event is emitted and the state is the
one before the call. -/
theorem SlashEscrow_event (IsValid : Address → Bool) (ctx : Context) (s : State)
    (fromAddr : Address) (amount : Nat) (hvalid : IsValid fromAddr = true)
    (hcheck : ctx.checkOnly = false) :
    ∃ totalSlashed, (SlashEscrow IsValid ctx s fromAddr amount).ret = .ok totalSlashed ∧
      (totalSlashed ≠ 0 →
        (SlashEscrow IsValid ctx s fromAddr amount).events =
          [Event.TakeEscrow
            { Owner := fromAddr
              Amount := totalSlashed
              DebondingAmount := (s.accountOf fromAddr).escrow.debonding.balance
                - ((SlashEscrow IsValid ctx s fromAddr amount).state.accountOf
                    fromAddr).escrow.debonding.balance }]) ∧
      (totalSlashed = 0 →
        (SlashEscrow IsValid ctx s fromAddr amount).events = [] ∧
        (SlashEscrow IsValid ctx s fromAddr amount).state = s) := by
  rw [SlashEscrow_of_valid IsValid ctx s fromAddr amount hvalid]
  have hacc := SlashEscrow_account ctx s fromAddr amount
  have hle := slashedPart_le (s.accountOf fromAddr).escrow.debonding.balance amount
    ((s.accountOf fromAddr).escrow.active.balance + (s.accountOf fromAddr).escrow.debonding.balance)
  have hdeb : (s.accountOf fromAddr).escrow.debonding.balance
      - ((SlashEscrow allValid ctx s fromAddr amount).state.accountOf
          fromAddr).escrow.debonding.balance
      = slashedPart (s.accountOf fromAddr).escrow.debonding.balance amount
          ((s.accountOf fromAddr).escrow.active.balance
            + (s.accountOf fromAddr).escrow.debonding.balance) := by
    rw [hacc]
    simp only [slashedAccount]
    omega
  rw [hdeb]
  rw [SlashEscrow_eq]
  simp only []
  split
  · exact ⟨0, rfl, fun h => absurd rfl h, fun _ => ⟨rfl, rfl⟩⟩
  · rename_i hne
    exact ⟨_, rfl, fun _ => by simp only [Context.emit, hcheck]; rfl, fun h => absurd h hne⟩

/-- C9 at concrete inputs: a slash of 100 emits one event, a slash of 0 none. -/
theorem SlashEscrow_event_witness :
    scenarioValid 1 = true ∧ ({} : Context).checkOnly = false ∧
    (SlashEscrow scenarioValid {} twoPoolState 1 100).ret = .ok 100 ∧
    (SlashEscrow scenarioValid {} twoPoolState 1 100).events =
      [Event.TakeEscrow { Owner := 1, Amount := 100, DebondingAmount := 40 }] ∧
    (SlashEscrow scenarioValid {} twoPoolState 1 0).ret = .ok 0 ∧
    (SlashEscrow scenarioValid {} twoPoolState 1 0).events = [] ∧
    (SlashEscrow scenarioValid {} twoPoolState 1 0).state = twoPoolState := by
  obtain ⟨t, ht, hev, _⟩ := SlashEscrow_event scenarioValid {} twoPoolState 1 100 rfl rfl
  obtain ⟨t0, ht0, _, hz⟩ := SlashEscrow_event scenarioValid {} twoPoolState 1 0 rfl rfl
  have e : t = 100 := by
    have h : (SlashEscrow scenarioValid {} twoPoolState 1 100).ret = .ok 100 := by decide
    rw [ht] at h
    cases h
    rfl
  have e0 : t0 = 0 := by
    have h : (SlashEscrow scenarioValid {} twoPoolState 1 0).ret = .ok 0 := by decide
    rw [ht0] at h
    cases h
    rfl
  subst e
  subst e0
  exact ⟨rfl, rfl, ht, (hev (by decide)).trans (by decide), ht0, hz rfl⟩

/-- C10. `computeCommission(rate, total)` with a rate of at most `CommissionRateDenominator`
(a positive constant) returns `(com, rest)` with `com = ⌊total · rate / denominator⌋` and
`rest = total − com`, so `com ≤ total` and `com + rest = total`; a `nil` rate stands for the
`MinCommissionRate` consensus parameter. The inputs are values here, so nothing can modify
them: the Go code works on clones of `total`. -/
theorem computeCommission_spec (K : Constants) (s : State) (rate total : Nat)
    (hden : 0 < K.CommissionRateDenominator) (hrate : rate ≤ K.CommissionRateDenominator) :
    computeCommission K s (some rate) total =
      .ok (total * rate / K.CommissionRateDenominator,
           total - total * rate / K.CommissionRateDenominator) ∧
    total * rate / K.CommissionRateDenominator ≤ total ∧
    total * rate / K.CommissionRateDenominator
      + (total - total * rate / K.CommissionRateDenominator) = total ∧
    (∀ params, s.parameters = some params →
      computeCommission K s none total =
        computeCommission K s (some params.commissionScheduleRules.minCommissionRate) total) := by
  have hle : total * rate / K.CommissionRateDenominator ≤ total := by
    apply Nat.div_le_of_le_mul
    calc total * rate ≤ total * K.CommissionRateDenominator := Nat.mul_le_mul_left total hrate
      _ = K.CommissionRateDenominator * total := Nat.mul_comm _ _
  refine ⟨?_, hle, by omega, ?_⟩
  · simp only [computeCommission, quantity.Mul, quantity.Quo, quantity.Sub,
      if_neg (Nat.pos_iff_ne_zero.mp hden), if_neg (Nat.not_lt.mpr hle)]
  · intro params hp
    simp only [computeCommission, State.ConsensusParameters, hp]

/-- C10 at a concrete input: 20% of 1001 is 200, the rest is 801. -/
theorem computeCommission_spec_witness :
    0 < 100000 ∧ 20000 ≤ 100000 ∧
    computeCommission ⟨0, 0, 100000, 100000000⟩ (scenarioA 1) (some 20000) 1001
      = .ok (200, 801) :=
  ⟨by decide, by decide,
    (computeCommission_spec ⟨0, 0, 100000, 100000000⟩ (scenarioA 1) 20000 1001
      (by decide) (by decide)).1⟩

/-- C11, as stated, fails twice. With `escrow = true` and a commission rate above the
denominator the commission cannot be computed, so although 300 could be moved the call does not
return true and the common pool keeps its 1500. And with the governance deposits address, which
is reserved, as the destination the load of the account fails, so although 300 could be moved the
call does not return true and the common pool keeps its 1500. -/
theorem TransferFromCommon_moves_counterexample :
    0 < min 300 overUnityState.CommonPool ∧
    (TransferFromCommon scenarioValid rewardConstants {} overUnityState 1 300 true).ret
      ≠ .ok true ∧
    (TransferFromCommon scenarioValid rewardConstants {} overUnityState 1 300 true).state.CommonPool
      ≠ overUnityState.CommonPool - min 300 overUnityState.CommonPool ∧
    0 < min 300 rewardState.CommonPool ∧
    TransferFromCommon scenarioValid rewardConstants {} rewardState 101 300 false
      = ⟨rewardState, [], .error (.invalidAccountAddress 101)⟩ ∧
    (TransferFromCommon scenarioValid rewardConstants {} rewardState 101 300 false).state.CommonPool
      ≠ rewardState.CommonPool - min 300 rewardState.CommonPool := by
  decide

/-- C11, amended. For a valid destination address, with `moved = min(amount, commonPool)`: if
`moved = 0` the call returns
false, writes nothing and emits no event; with `escrow = false` it returns true if and only
if `moved > 0`, the common pool decreases by exactly `moved` and the general balance of the
destination increases by exactly `moved`; and with either flag, whenever the call returns no
error, it returns true if and only if `moved > 0` and the common pool has decreased by
exactly `moved`. -/
theorem TransferFromCommon_moves (IsValid : Address → Bool) (K : Constants) (ctx : Context)
    (s : State) (toAddr : Address) (amount : Nat) (escrow : Bool)
    (hvalid : IsValid toAddr = true) :
    (min amount s.CommonPool = 0 →
      TransferFromCommon IsValid K ctx s toAddr amount escrow = ⟨s, [], .ok false⟩) ∧
    (escrow = false →
      (TransferFromCommon IsValid K ctx s toAddr amount escrow).ret
        = .ok (decide (0 < min amount s.CommonPool)) ∧
      (TransferFromCommon IsValid K ctx s toAddr amount escrow).state.CommonPool
        = s.CommonPool - min amount s.CommonPool ∧
      ((TransferFromCommon IsValid K ctx s toAddr amount escrow).state.accountOf
          toAddr).general.balance
        = (s.accountOf toAddr).general.balance + min amount s.CommonPool) ∧
    (∀ moved, (TransferFromCommon IsValid K ctx s toAddr amount escrow).ret = .ok moved →
      (moved = true ↔ 0 < min amount s.CommonPool) ∧
      (TransferFromCommon IsValid K ctx s toAddr amount escrow).state.CommonPool
        = s.CommonPool - min amount s.CommonPool) := by
  rw [TransferFromCommon_of_valid IsValid K ctx s toAddr amount escrow hvalid]
  rw [Nat.min_comm amount s.CommonPool]
  refine ⟨TransferFromCommon_zero K ctx s toAddr amount escrow, ?_,
    fun moved h => TransferFromCommon_ok K ctx s toAddr amount escrow moved h⟩
  intro he
  subst he
  by_cases ht : min s.CommonPool amount = 0
  · rw [TransferFromCommon_zero K ctx s toAddr amount false ht, ht]
    exact ⟨rfl, rfl, rfl⟩
  · rw [TransferFromCommon_false K ctx s toAddr amount ht]
    refine ⟨?_, rfl, ?_⟩
    · simp [Nat.pos_of_ne_zero ht]
    · simp only []
      rw [State.accountOf_SetAccount_self]

/-- C11, amended, at concrete inputs: 3000 asked from a common pool of 1500 moves 1500 to the
general balance of account 3; nothing can be moved out of an empty pool. -/
theorem TransferFromCommon_moves_witness :
    scenarioValid 3 = true ∧ scenarioValid 1 = true ∧
    (TransferFromCommon scenarioValid rewardConstants {} rewardState 3 3000 false).ret = .ok true ∧
    (TransferFromCommon scenarioValid rewardConstants {} rewardState 3 3000 false).state.CommonPool
        = 0 ∧
    ((TransferFromCommon scenarioValid rewardConstants {} rewardState 3 3000 false).state.accountOf
        3
      ).general.balance = 1500 ∧
    TransferFromCommon scenarioValid rewardConstants {} scenarioD 3 3000 true =
        ⟨scenarioD, [], .ok false⟩ ∧
    (TransferFromCommon scenarioValid rewardConstants {} rewardState 1 300 true).state.CommonPool =
        1200 :=
  have h := TransferFromCommon_moves scenarioValid rewardConstants {} rewardState 3 3000 false rfl
  have h0 := TransferFromCommon_moves scenarioValid rewardConstants {} scenarioD 3 3000 true rfl
  have h1 := TransferFromCommon_moves scenarioValid rewardConstants {} rewardState 1 300 true rfl
  ⟨rfl, rfl, (h.2.1 rfl).1.trans (by decide), (h.2.1 rfl).2.1.trans (by decide),
   (h.2.1 rfl).2.2.trans (by decide), h0.1 (by decide),
   (h1.2.2 true (by decide)).2.trans (by decide)⟩

/-- C12, counterexample. `TransferFromCommon` with `escrow = true` to the governance deposits
address, which is reserved and holds no shares: 300 could be moved, yet the load of the account
fails, the call returns the error of the load, and neither the active balance nor the
self-delegation of the destination rises. -/
theorem TransferFromCommon_escrow_counterexample :
    300 = min 300 rewardState.CommonPool ∧ 0 < 300 ∧
    (rewardState.accountOf 101).escrow.active.totalShares = 0 ∧
    TransferFromCommon scenarioValid rewardConstants {} rewardState 101 300 true
      = ⟨rewardState, [], .error (.invalidAccountAddress 101)⟩ ∧
    ((TransferFromCommon scenarioValid rewardConstants {} rewardState 101 300 true).state.accountOf
      101).escrow.active.balance ≠ (rewardState.accountOf 101).escrow.active.balance + 300 := by
  decide

/-- C12, as amended. `TransferFromCommon` to a valid destination address with `escrow = true` and
`moved = min(amount, commonPool) > 0`. If the active pool of the destination has shares, and the
rate in force `r` (the schedule rate at the current epoch, or `MinCommissionRate` if there is none)
is at most the positive `CommissionRateDenominator`, then with `com = ⌊moved · r / denominator⌋` the
call succeeds, the general balance is as before, the active balance has risen by `moved`, and the
total shares of the pool and the self-delegation have both risen by the new shares: none if
`com = 0`, else the shares for `com` at the price of the pool after `moved − com` was added to its
balance. If the active pool has no shares, the whole of `moved` is commission: the same holds with
`moved` new shares. -/
theorem TransferFromCommon_escrow (IsValid : Address → Bool) (K : Constants) (ctx : Context)
    (s : State) (toAddr : Address) (hvalid : IsValid toAddr = true)
    (amount moved : Nat) (hmoved : moved = min amount s.CommonPool) (hpos : 0 < moved) :
    (∀ r com newShares,
      (s.accountOf toAddr).escrow.active.totalShares ≠ 0 →
      0 < K.CommissionRateDenominator →
      ((s.accountOf toAddr).escrow.commissionSchedule.CurrentRate ctx.currentEpoch = some r ∨
        ((s.accountOf toAddr).escrow.commissionSchedule.CurrentRate ctx.currentEpoch = none ∧
          ∃ params, s.parameters = some params ∧
            params.commissionScheduleRules.minCommissionRate = r)) →
      r ≤ K.CommissionRateDenominator →
      com = moved * r / K.CommissionRateDenominator →
      newShares =
        (if com = 0 then 0
         else SharePool.sharesForStake
            { balance := (s.accountOf toAddr).escrow.active.balance + (moved - com)
              totalShares := (s.accountOf toAddr).escrow.active.totalShares } com) →
      (TransferFromCommon IsValid K ctx s toAddr amount true).ret = .ok true ∧
      ((TransferFromCommon IsValid K ctx s toAddr amount true).state.accountOf
          toAddr).general.balance
        = (s.accountOf toAddr).general.balance ∧
      ((TransferFromCommon IsValid K ctx s toAddr amount true).state.accountOf
          toAddr).escrow.active.balance
        = (s.accountOf toAddr).escrow.active.balance + moved ∧
      ((TransferFromCommon IsValid K ctx s toAddr amount true).state.accountOf toAddr
        ).escrow.active.totalShares
        = (s.accountOf toAddr).escrow.active.totalShares + newShares ∧
      ((TransferFromCommon IsValid K ctx s toAddr amount true).state.Delegation toAddr
          toAddr).shares
        = (s.Delegation toAddr toAddr).shares + newShares) ∧
    ((s.accountOf toAddr).escrow.active.totalShares = 0 →
      (TransferFromCommon IsValid K ctx s toAddr amount true).ret = .ok true ∧
      ((TransferFromCommon IsValid K ctx s toAddr amount true).state.accountOf
          toAddr).general.balance
        = (s.accountOf toAddr).general.balance ∧
      ((TransferFromCommon IsValid K ctx s toAddr amount true).state.accountOf
          toAddr).escrow.active.balance
        = (s.accountOf toAddr).escrow.active.balance + moved ∧
      ((TransferFromCommon IsValid K ctx s toAddr amount true).state.accountOf toAddr
        ).escrow.active.totalShares = moved ∧
      ((TransferFromCommon IsValid K ctx s toAddr amount true).state.Delegation toAddr
          toAddr).shares
        = (s.Delegation toAddr toAddr).shares + moved) := by
  rw [TransferFromCommon_of_valid IsValid K ctx s toAddr amount true hvalid]
  rw [Nat.min_comm] at hmoved
  subst hmoved
  have ht : min s.CommonPool amount ≠ 0 := Nat.pos_iff_ne_zero.mp hpos
  have hdel : ∀ (x : State) (q : Nat) (a : Address) (acct : Account),
      ((x.SetCommonPool q).SetAccount a acct).Delegation toAddr toAddr
        = x.Delegation toAddr toAddr := fun _ _ _ _ => rfl
  constructor
  · intro r com newShares hs hden hrate hle hcom hnew
    have hC := computeCommission_rate K s _ r (min s.CommonPool amount) hden hle hrate
    rw [← hcom] at hC
    have hcle : com ≤ min s.CommonPool amount := by
      rw [hcom]
      apply Nat.div_le_of_le_mul
      calc min s.CommonPool amount * r
          ≤ min s.CommonPool amount * K.CommissionRateDenominator :=
            Nat.mul_le_mul_left _ hle
        _ = K.CommissionRateDenominator * min s.CommonPool amount := Nat.mul_comm _ _
    have hlt : ¬ ((s.accountOf toAddr).general.balance + min s.CommonPool amount
        < min s.CommonPool amount - com) := by omega
    by_cases hc : com = 0
    · rw [if_pos hc] at hnew
      subst hnew
      have hc' : ¬ com ≠ 0 := fun h => h hc
      have hT : TransferFromCommon allValid K ctx s toAddr (amount) true =
          ⟨(s.SetCommonPool (s.CommonPool - min s.CommonPool amount)).SetAccount toAddr
            { general :=
                { balance := (s.accountOf toAddr).general.balance + min s.CommonPool amount
                    - (min s.CommonPool amount - com),
                  nonce := (s.accountOf toAddr).general.nonce },
              escrow :=
                { active :=
                    { balance := (s.accountOf toAddr).escrow.active.balance
                        + (min s.CommonPool amount - com),
                      totalShares := (s.accountOf toAddr).escrow.active.totalShares },
                  debonding := (s.accountOf toAddr).escrow.debonding,
                  commissionSchedule := (s.accountOf toAddr).escrow.commissionSchedule } },
           ctx.emit [.AddEscrow
             { Owner := K.CommonPoolAddress, Escrow := toAddr,
               Amount := min s.CommonPool amount - com, NewShares := 0 }],
           .ok true⟩ := by
        simp only [TransferFromCommon, State.Account_allValid, quantity.MoveUpTo, if_neg ht, if_neg
            hs, hC,
          quantity.Move, quantity.Sub, if_neg hlt, if_neg hc']
      rw [hT]
      refine ⟨rfl, ?_, ?_, ?_, ?_⟩
      · rw [State.accountOf_SetAccount_self]
        simp only []
        omega
      · rw [State.accountOf_SetAccount_self]
        simp only []
        omega
      · rw [State.accountOf_SetAccount_self]
        rfl
      · rw [hdel]
        rfl
    · rw [if_neg hc] at hnew
      subst hnew
      have hlt2 : ¬ ((s.accountOf toAddr).general.balance + min s.CommonPool amount
          - (min s.CommonPool amount - com) < com) := by omega
      have hT : TransferFromCommon allValid K ctx s toAddr (amount) true =
          ⟨((s.SetDelegation toAddr toAddr
              { shares := (s.Delegation toAddr toAddr).shares
                  + SharePool.sharesForStake
                      { balance := (s.accountOf toAddr).escrow.active.balance
                          + (min s.CommonPool amount - com)
                        totalShares := (s.accountOf toAddr).escrow.active.totalShares }
                      com }).SetCommonPool
              (s.CommonPool - min s.CommonPool amount)).SetAccount toAddr
            { general :=
                { balance := (s.accountOf toAddr).general.balance + min s.CommonPool amount
                    - (min s.CommonPool amount - com) - com,
                  nonce := (s.accountOf toAddr).general.nonce },
              escrow :=
                { active :=
                    { balance := (s.accountOf toAddr).escrow.active.balance
                        + (min s.CommonPool amount - com) + com,
                      totalShares := (s.accountOf toAddr).escrow.active.totalShares
                        + SharePool.sharesForStake
                            { balance := (s.accountOf toAddr).escrow.active.balance
                                + (min s.CommonPool amount - com)
                              totalShares := (s.accountOf toAddr).escrow.active.totalShares }
                            com },
                  debonding := (s.accountOf toAddr).escrow.debonding,
                  commissionSchedule := (s.accountOf toAddr).escrow.commissionSchedule } },
           ctx.emit [.AddEscrow
             { Owner := K.CommonPoolAddress, Escrow := toAddr,
               Amount := min s.CommonPool amount - com, NewShares := 0 }]
            ++ ctx.emit
              [.Transfer { From := K.CommonPoolAddress, To := toAddr, Amount := com },
               .AddEscrow
                { Owner := toAddr, Escrow := toAddr, Amount := com,
                  NewShares := SharePool.sharesForStake
                    { balance := (s.accountOf toAddr).escrow.active.balance
                        + (min s.CommonPool amount - com)
                      totalShares := (s.accountOf toAddr).escrow.active.totalShares }
                    com }],
           .ok true⟩ := by
        simp only [TransferFromCommon, State.Account_allValid, quantity.MoveUpTo, if_neg ht, if_neg
            hs, hC,
          quantity.Move, quantity.Sub, if_neg hlt, if_pos (show com ≠ 0 from hc),
          SharePool.Deposit, if_neg hlt2]
      rw [hT]
      refine ⟨rfl, ?_, ?_, ?_, ?_⟩
      · rw [State.accountOf_SetAccount_self]
        simp only []
        omega
      · rw [State.accountOf_SetAccount_self]
        simp only []
        omega
      · rw [State.accountOf_SetAccount_self]
      · rw [hdel, State.Delegation_SetDelegation_self]
  · intro hs
    have hlt : ¬ ((s.accountOf toAddr).general.balance + min s.CommonPool amount
        < min s.CommonPool amount) := by omega
    have hsh : SharePool.sharesForStake (s.accountOf toAddr).escrow.active
        (min s.CommonPool amount) = min s.CommonPool amount := by
      simp only [SharePool.sharesForStake, hs, Nat.lt_irrefl, and_false, if_false]
    have hT : TransferFromCommon allValid K ctx s toAddr (amount) true =
        ⟨((s.SetDelegation toAddr toAddr
            { shares := (s.Delegation toAddr toAddr).shares
                + min s.CommonPool amount }).SetCommonPool
            (s.CommonPool - min s.CommonPool amount)).SetAccount toAddr
          { general :=
              { balance := (s.accountOf toAddr).general.balance + min s.CommonPool amount
                  - min s.CommonPool amount,
                nonce := (s.accountOf toAddr).general.nonce },
            escrow :=
              { active :=
                  { balance := (s.accountOf toAddr).escrow.active.balance
                      + min s.CommonPool amount,
                    totalShares := (s.accountOf toAddr).escrow.active.totalShares
                      + min s.CommonPool amount },
                debonding := (s.accountOf toAddr).escrow.debonding,
                commissionSchedule := (s.accountOf toAddr).escrow.commissionSchedule } },
         [] ++ ctx.emit
            [.Transfer
              { From := K.CommonPoolAddress, To := toAddr, Amount := min s.CommonPool amount },
             .AddEscrow
              { Owner := toAddr, Escrow := toAddr, Amount := min s.CommonPool amount,
                NewShares := min s.CommonPool amount }],
         .ok true⟩ := by
      simp only [TransferFromCommon, State.Account_allValid, quantity.MoveUpTo, if_neg ht, if_pos
          hs,
        if_pos (show min s.CommonPool amount ≠ 0 from ht),
        SharePool.Deposit, quantity.Move, quantity.Sub, if_neg hlt, hsh]
    rw [hT]
    refine ⟨rfl, ?_, ?_, ?_, ?_⟩
    · rw [State.accountOf_SetAccount_self]
      simp only []
      omega
    · rw [State.accountOf_SetAccount_self]
    · rw [State.accountOf_SetAccount_self]
      simp only [hs, Nat.zero_add]
    · rw [hdel, State.Delegation_SetDelegation_self]

/-- C12 at concrete inputs: 300 moved to account 1 (pool 1000 with 500 shares, rate 20%) gives
a commission of 60 that buys 24 shares at the price of the pool of 1240; 300 moved to the
empty account 3 is all commission and buys 300 shares. -/
theorem TransferFromCommon_escrow_witness :
    scenarioValid 1 = true ∧ scenarioValid 3 = true ∧
    (300 = min 300 rewardState.CommonPool) ∧ 0 < 300 ∧
    (rewardState.accountOf 1).escrow.active.totalShares ≠ 0 ∧
    0 < rewardConstants.CommissionRateDenominator ∧
    (rewardState.accountOf 1).escrow.commissionSchedule.CurrentRate 0 = some 20000 ∧
    20000 ≤ rewardConstants.CommissionRateDenominator ∧
    (TransferFromCommon scenarioValid rewardConstants {} rewardState 1 300 true).ret = .ok true ∧
    ((TransferFromCommon scenarioValid rewardConstants {} rewardState 1 300 true).state.accountOf 1
      ).general.balance = 10 ∧
    ((TransferFromCommon scenarioValid rewardConstants {} rewardState 1 300 true).state.accountOf 1
      ).escrow.active.balance = 1300 ∧
    ((TransferFromCommon scenarioValid rewardConstants {} rewardState 1 300 true).state.accountOf 1
      ).escrow.active.totalShares = 524 ∧
    ((TransferFromCommon scenarioValid rewardConstants {} rewardState 1 300 true).state.Delegation 1
        1).shares
      = 524 ∧
    (rewardState.accountOf 3).escrow.active.totalShares = 0 ∧
    ((TransferFromCommon scenarioValid rewardConstants {} rewardState 3 300 true).state.accountOf 3
      ).escrow.active.totalShares = 300 ∧
    ((TransferFromCommon scenarioValid rewardConstants {} rewardState 3 300 true).state.Delegation 3
        3).shares
      = 300 :=
  have h := (TransferFromCommon_escrow scenarioValid rewardConstants {} rewardState 1 rfl 300 300
    (by decide)
    (by decide)).1 20000 60 24 (by decide) (by decide) (Or.inl (by decide)) (by decide)
    (by decide) (by decide)
  have h3 := (TransferFromCommon_escrow scenarioValid rewardConstants {} rewardState 3 rfl 300 300
    (by decide)
    (by decide)).2 (by decide)
  ⟨rfl, rfl, by decide, by decide, by decide, by decide, by decide, by decide,
   h.1, h.2.1.trans (by decide), h.2.2.1.trans (by decide), h.2.2.2.1.trans (by decide),
   h.2.2.2.2.trans (by decide), by decide, h3.2.2.2.1, h3.2.2.2.2.trans (by decide)⟩

/-- C13, counterexample. `AddRewards` over the list of the common pool address and account 1:
the common pool address is reserved and holds no stake, so its reward is zero, yet the call does
not go on to account 1: the load of the account fails, and the call returns the error of the load
with nothing paid. -/
theorem AddRewards_pays_counterexample :
    (rewardState.accountOf 100).escrow.active.balance * 20000 * 1000
      / rewardConstants.RewardAmountDenominator = 0 ∧
    AddRewards scenarioValid rewardConstants {} rewardState 5 20000 [100, 1]
      = ⟨rewardState, [], .error (.invalidAccountAddress 100)⟩ ∧
    (AddRewards scenarioValid rewardConstants {} rewardState 5 20000 [1]).ret = .ok () ∧
    ((AddRewards scenarioValid rewardConstants {} rewardState 5 20000 [1]).state.accountOf 1
      ).escrow.active.balance = 1200 := by
  decide

/-- C13, as amended. `AddRewards`, for a state with consensus parameters and a positive
`RewardAmountDenominator`; the turns of the loop are those of valid addresses. If no step of the
reward schedule has `time < Until`, the call changes nothing, emits nothing and returns no error;
otherwise the active step is the first one with `time < Until`, the call runs the loop over the
listed addresses in order, starting from the stored common pool, and stores the pool that the loop
leaves. In one turn of the loop, at the state `s1` and with `pool` left, the reward of `addr` is
`r = ⌊active balance · factor · scale / RewardAmountDenominator⌋`. If `r = 0` or `r` exceeds `pool`,
the turn leaves the state unchanged, emits nothing, returns no error, and the rest of the addresses
are processed from the same state against the same `pool`. If `0 < r ≤ pool` and the commission rate
in force (the current rate of the schedule of the account, or the minimum rate of the parameters
when there is none) is at most `CommissionRateDenominator`, the turn returns `pool - r`, the active
balance of `addr` grows by `r`, its general balance and every other account are unchanged, and the
rest of the addresses are processed from the new state against `pool - r`. -/
theorem AddRewards_pays (IsValid : Address → Bool) (K : Constants) (ctx : Context) (s : State)
    (time : EpochTime) (factor : Nat) (params : ConsensusParameters)
        (hparams : s.parameters = some params)
    (hden : 0 < K.RewardAmountDenominator) :
    (activeRewardStep params.rewardSchedule time = none →
      (∀ step ∈ params.rewardSchedule, ¬ time < step.until_) ∧
      ∀ addresses, AddRewards IsValid K ctx s time factor addresses = ⟨s, [], .ok ()⟩) ∧
    (∀ activeStep, activeRewardStep params.rewardSchedule time = some activeStep →
      (time < activeStep.until_ ∧
        ∃ before after, params.rewardSchedule = before ++ activeStep :: after ∧
          ∀ step ∈ before, ¬ time < step.until_) ∧
      (∀ addresses commonPool,
        (AddRewards.loop IsValid K time factor activeStep addresses s s.CommonPool).ret
          = .ok commonPool →
        AddRewards IsValid K ctx s time factor addresses =
          ⟨(AddRewards.loop IsValid K time factor activeStep addresses s
              s.CommonPool).state.SetCommonPool
              commonPool,
            (AddRewards.loop IsValid K time factor activeStep addresses s s.CommonPool).events,
            .ok ()⟩) ∧
      (∀ (s1 : State) (pool : Nat) (addr : Address) (rest : List Address) (r : Nat),
        IsValid addr = true →
        r = (s1.accountOf addr).escrow.active.balance * factor * activeStep.scale
            / K.RewardAmountDenominator →
        ((r = 0 ∨ pool < r) →
          AddRewards.step IsValid K time factor activeStep s1 pool addr = ⟨s1, [], .ok pool⟩ ∧
          AddRewards.loop IsValid K time factor activeStep (addr :: rest) s1 pool
            = AddRewards.loop IsValid K time factor activeStep rest s1 pool) ∧
        (∀ rate, r ≠ 0 → r ≤ pool → 0 < K.CommissionRateDenominator →
          ((s1.accountOf addr).escrow.commissionSchedule.CurrentRate time = some rate ∨
            ((s1.accountOf addr).escrow.commissionSchedule.CurrentRate time = none ∧
              ∃ params1, s1.parameters = some params1 ∧
                params1.commissionScheduleRules.minCommissionRate = rate)) →
          rate ≤ K.CommissionRateDenominator →
          (AddRewards.step IsValid K time factor activeStep s1 pool addr).ret = .ok (pool - r) ∧
          ((AddRewards.step IsValid K time factor activeStep s1 pool addr).state.accountOf addr
            ).escrow.active.balance = (s1.accountOf addr).escrow.active.balance + r ∧
          ((AddRewards.step IsValid K time factor activeStep s1 pool addr).state.accountOf
              addr).general
            = (s1.accountOf addr).general ∧
          (∀ a, a ≠ addr →
            (AddRewards.step IsValid K time factor activeStep s1 pool addr).state.accountOf a
              = s1.accountOf a) ∧
          AddRewards.loop IsValid K time factor activeStep (addr :: rest) s1 pool =
            ⟨(AddRewards.loop IsValid K time factor activeStep rest
                (AddRewards.step IsValid K time factor activeStep s1 pool addr).state
                    (pool - r)).state,
             (AddRewards.step IsValid K time factor activeStep s1 pool addr).events
               ++ (AddRewards.loop IsValid K time factor activeStep rest
                (AddRewards.step IsValid K time factor activeStep s1 pool addr).state
                    (pool - r)).events,
             (AddRewards.loop IsValid K time factor activeStep rest
                (AddRewards.step IsValid K time factor activeStep s1 pool addr).state
                    (pool - r)).ret⟩))) := by
  have hd : ¬ K.RewardAmountDenominator = 0 := Nat.pos_iff_ne_zero.mp hden
  constructor
  · intro hnone
    refine ⟨?_, ?_⟩
    · intro step hmem
      have h := List.find?_eq_none.mp hnone step hmem
      simpa using h
    · intro addresses
      simp only [AddRewards, State.Account_allValid, State.RewardSchedule,
          State.ConsensusParameters, hparams, hnone]
  · intro activeStep hstep
    refine ⟨?_, ?_, ?_⟩
    · have h := List.find?_eq_some.mp hstep
      refine ⟨by simpa using h.1, ?_⟩
      obtain ⟨as, bs, e, hb⟩ := h.2
      exact ⟨as, bs, e, fun x hx => by simpa using hb x hx⟩
    · intro addresses commonPool hl
      simp only [AddRewards, State.Account_allValid, State.RewardSchedule,
          State.ConsensusParameters, hparams, hstep, hl]
    · intro s1 pool addr rest r hvalid hr
      have hv := AddRewards.step_of_valid IsValid K time factor activeStep s1 pool addr hvalid
      rw [hv]
      constructor
      · intro hskip
        have hS : AddRewards.step allValid K time factor activeStep s1 pool addr
            = ⟨s1, [], .ok pool⟩ := by
          rcases hskip with h0 | hlt
          · rw [hr] at h0
            simp only [AddRewards.step, State.Account_allValid, quantity.Mul, quantity.Quo, if_neg
                hd, if_pos h0]
          · rw [hr] at hlt
            by_cases h0 : (s1.accountOf addr).escrow.active.balance * factor * activeStep.scale
                / K.RewardAmountDenominator = 0
            · simp only [AddRewards.step, State.Account_allValid, quantity.Mul, quantity.Quo, if_neg
                hd, if_pos h0]
            · simp only [AddRewards.step, State.Account_allValid, quantity.Mul, quantity.Quo, if_neg
                hd, if_neg h0,
                gt_iff_lt, if_pos hlt]
        refine ⟨hS, ?_⟩
        simp only [AddRewards.loop, hv, hS, List.nil_append]
      · intro rate hr0 hrle hcden hrate hratele
        have hS : AddRewards.step allValid K time factor activeStep s1 pool addr
            = payReward K s1 pool time addr (s1.accountOf addr) r := by
          rw [hr] at hr0 hrle
          have hgt : ¬ ((s1.accountOf addr).escrow.active.balance * factor * activeStep.scale
              / K.RewardAmountDenominator > pool) := Nat.not_lt.mpr hrle
          simp only [AddRewards.step, State.Account_allValid, quantity.Mul, quantity.Quo, if_neg hd,
              if_neg hr0,
            if_neg hgt, hr]
        have hP := payReward_pays K s1 pool time addr r rate hcden hratele hrate hrle
        rw [← hS] at hP
        refine ⟨hP.1, hP.2.1, hP.2.2.1, hP.2.2.2, ?_⟩
        simp only [AddRewards.loop, hv, hP.1]

/-- Witness of `AddRewards_pays` on `rewardState` at time 5 with factor 20000: with 100 left in
the pool the reward 200 of account 1 is skipped; with 1500 left it is paid. -/
theorem AddRewards_pays_witness :
    scenarioValid 1 = true ∧
    rewardState.parameters
      = some { rewardSchedule := [{ until_ := 10, scale := 1000 }], minTransactBalance := 1 } ∧
    0 < rewardConstants.RewardAmountDenominator ∧
    AddRewards.loop scenarioValid rewardConstants 5 20000 { until_ := 10, scale := 1000 } [1, 2]
        rewardState 100
      = AddRewards.loop scenarioValid rewardConstants 5 20000 { until_ := 10, scale := 1000 } [2]
          rewardState
          100 ∧
    (AddRewards.step scenarioValid rewardConstants 5 20000 { until_ := 10, scale := 1000 }
        rewardState 1500 1
      ).ret = .ok 1300 ∧
    ((AddRewards.step scenarioValid rewardConstants 5 20000 { until_ := 10, scale := 1000 }
        rewardState 1500 1
      ).state.accountOf 1).escrow.active.balance = 1200 :=
  have h := (AddRewards_pays scenarioValid rewardConstants {} rewardState 5 20000
    { rewardSchedule := [{ until_ := 10, scale := 1000 }], minTransactBalance := 1 } rfl
    (by decide)).2 { until_ := 10, scale := 1000 } (by decide)
  have h1 := h.2.2 rewardState 100 1 [2] 200 rfl (by decide)
  have h2 := h.2.2 rewardState 1500 1 [] 200 rfl (by decide)
  have h3 := h2.2 20000 (by decide) (by decide) (by decide) (Or.inl (by decide)) (by decide)
  ⟨rfl, rfl, by decide, (h1.1 (Or.inr (by decide))).2, h3.1, h3.2.1.trans (by decide)⟩

/-- C15. `SetDebondingDelegation` with a descriptor `d` (Go: `d` non-nil), for every state and
every call: the call returns no error; if a descriptor `deb` is stored under
`(delegator, escrow, epoch)`, the descriptor stored there afterwards has the shares
`deb.shares + d.shares`; if none is stored, it has the shares `d.shares`; in both cases it has
the end time of `d`, and the descriptors under every other key are unchanged. The embedding
passes `d` by value, as the Go method works on a copy of `d`, so `d` itself is not modified. -/
theorem SetDebondingDelegation_merges (s : State) (delegatorAddr escrowAddr : Address)
    (epoch : EpochTime) (d : DebondingDelegation) :
    ∃ s1, s.SetDebondingDelegation delegatorAddr escrowAddr epoch (some d) = .ok s1 ∧
      (∀ deb, kvGet s.debondingDelegations (delegatorAddr, escrowAddr, epoch) = some deb →
        s1.DebondingDelegation delegatorAddr escrowAddr epoch
          = { shares := deb.shares + d.shares, debondEndTime := d.debondEndTime } ∧
        kvGet s1.debondingDelegations (delegatorAddr, escrowAddr, epoch)
          = some { shares := deb.shares + d.shares, debondEndTime := d.debondEndTime }) ∧
      (kvGet s.debondingDelegations (delegatorAddr, escrowAddr, epoch) = none →
        s1.DebondingDelegation delegatorAddr escrowAddr epoch
          = { shares := d.shares, debondEndTime := d.debondEndTime } ∧
        kvGet s1.debondingDelegations (delegatorAddr, escrowAddr, epoch)
          = some { shares := d.shares, debondEndTime := d.debondEndTime }) ∧
      (∀ key, key ≠ (delegatorAddr, escrowAddr, epoch) →
        kvGet s1.debondingDelegations key = kvGet s.debondingDelegations key) := by
  cases hget : kvGet s.debondingDelegations (delegatorAddr, escrowAddr, epoch) with
  | none =>
    have e : s.SetDebondingDelegation delegatorAddr escrowAddr epoch (some d) = .ok
        { s with
          debondingQueue := keyInsert s.debondingQueue (d.debondEndTime, delegatorAddr, escrowAddr)
          debondingDelegations := kvInsert s.debondingDelegations
            (delegatorAddr, escrowAddr, epoch)
            { shares := d.shares, debondEndTime := d.debondEndTime } } := by
      simp only [State.SetDebondingDelegation, hget]
    refine ⟨_, e, ?_, ?_, ?_⟩
    · intro deb h
      cases h
    · intro _
      simp only [State.DebondingDelegation, kvGet_kvInsert_self, Option.getD_some, and_self]
    · intro key hne
      exact kvGet_kvInsert_ne _ _ _ _ hne
  | some deb0 =>
    have e : s.SetDebondingDelegation delegatorAddr escrowAddr epoch (some d) = .ok
        { s with
          debondingQueue := keyInsert s.debondingQueue (d.debondEndTime, delegatorAddr, escrowAddr)
          debondingDelegations := kvInsert s.debondingDelegations
            (delegatorAddr, escrowAddr, epoch)
            { shares := d.shares + deb0.shares, debondEndTime := d.debondEndTime } } := by
      simp only [State.SetDebondingDelegation, hget, DebondingDelegation.Merge, quantity.Add]
    refine ⟨_, e, ?_, ?_, ?_⟩
    · intro deb h
      cases h
      simp only [State.DebondingDelegation, kvGet_kvInsert_self, Option.getD_some,
        Nat.add_comm, and_self]
    · intro h
      cases h
    · intro key hne
      exact kvGet_kvInsert_ne _ _ _ _ hne

/-- Witness of `SetDebondingDelegation_merges` on `scenarioD`: 50 more shares of delegator 1 in
escrow account 2 until epoch 2 are merged into the 1000 stored there. -/
theorem SetDebondingDelegation_merges_witness :
    kvGet scenarioD.debondingDelegations (1, 2, 2) = some { shares := 1000, debondEndTime := 2 } ∧
    ∃ s1, scenarioD.SetDebondingDelegation 1 2 2 (some { shares := 50, debondEndTime := 2 })
        = .ok s1 ∧
      s1.DebondingDelegation 1 2 2 = { shares := 1050, debondEndTime := 2 } := by
  obtain ⟨s1, h1, h2, _⟩ :=
    SetDebondingDelegation_merges scenarioD 1 2 2 { shares := 50, debondEndTime := 2 }
  exact ⟨by decide, s1, h1, (h2 { shares := 1000, debondEndTime := 2 } (by decide)).1⟩

/-- C16, counterexample. The empty state satisfies the debonding closure; the call
`SetDebondingDelegation(1, 2, 5, d)` with `d = {Shares: 10, DebondEndTime: 7}` returns no error
and stores `d` under `(1, 2, 5)` but queues `(7, 1, 2)`: afterwards the stored debonding
delegation has no queue entry `(5, 1, 2)`, and the queue entry `(7, 1, 2)` resolves to no stored
debonding delegation. -/
theorem SetDebondingDelegation_closure_counterexample :
    State.DebondingClosure {} ∧
    ∃ s1, State.SetDebondingDelegation {} 1 2 5 (some { shares := 10, debondEndTime := 7 })
        = .ok s1 ∧
      ¬ s1.DebondingClosure ∧
      kvGet s1.debondingDelegations (1, 2, 5) = some { shares := 10, debondEndTime := 7 } ∧
      (5, 1, 2) ∉ s1.debondingQueue ∧
      (7, 1, 2) ∈ s1.debondingQueue ∧
      kvGet s1.debondingDelegations (1, 2, 7) = none :=
  ⟨by decide, _, rfl, by decide, by decide, by decide, by decide, by decide⟩

/-- C16, amended. For every address test: if before the call the debonding closure holds (every
stored debonding delegation `(delegator, escrow, end-epoch)` has the queue entry
`(end-epoch, delegator, escrow)` and every queue entry resolves to a stored debonding delegation)
and every stored debonding delegation carries the end-epoch of its key as its `DebondEndTime`, then
both hold again after every call `SetDebondingDelegation(delegator, escrow, epoch, d)` with `d`
non-nil and `d.DebondEndTime = epoch`, which returns no error; after the debonding loop of
`onEpochChange`, whether it returns an error or not; and after `onEpochChange`, for every
`rewardEpochSigning` that leaves the two debonding tables as they are. -/
theorem debonding_closure (IsValid : Address → Bool) (s : State) (hclosure : s.DebondingClosure)
    (hend : s.DebondEndTimesMatch) :
    (∀ (delegatorAddr escrowAddr : Address) (epoch : EpochTime) (d : DebondingDelegation),
      d.debondEndTime = epoch →
      ∃ s1, s.SetDebondingDelegation delegatorAddr escrowAddr epoch (some d) = .ok s1 ∧
        s1.DebondingClosure ∧ s1.DebondEndTimesMatch) ∧
    (∀ epoch : EpochTime,
      (onEpochChange.releaseAll IsValid (s.ExpiredDebondingQueue epoch) s).state.DebondingClosure ∧
      (onEpochChange.releaseAll IsValid (s.ExpiredDebondingQueue epoch)
          s).state.DebondEndTimesMatch) ∧
    (∀ (rewardEpochSigning : State → EpochTime → Outcome Unit) (epoch : EpochTime),
      (∀ s1 : State,
        (rewardEpochSigning s1 epoch).state.debondingQueue = s1.debondingQueue ∧
        (rewardEpochSigning s1 epoch).state.debondingDelegations = s1.debondingDelegations) →
      (onEpochChange IsValid rewardEpochSigning s epoch).state.DebondingClosure ∧
      (onEpochChange IsValid rewardEpochSigning s epoch).state.DebondEndTimesMatch) := by
  have hloop : ∀ epoch : EpochTime,
      (onEpochChange.releaseAll IsValid (s.ExpiredDebondingQueue epoch) s).state.DebondingClosure ∧
      (onEpochChange.releaseAll IsValid (s.ExpiredDebondingQueue epoch) s).state.DebondEndTimesMatch
          :=
    fun epoch => onEpochChange.releaseAll_closure IsValid _ s
      (State.ExpiredDebondingQueue_endTimes s epoch hclosure hend) ⟨hclosure, hend⟩
  refine ⟨?_, hloop, ?_⟩
  · intro delegatorAddr escrowAddr epoch d hd
    have hmerged : ∃ debDel : DebondingDelegation, debDel.debondEndTime = epoch ∧
        s.SetDebondingDelegation delegatorAddr escrowAddr epoch (some d) = .ok
          { s with
            debondingQueue := keyInsert s.debondingQueue (epoch, delegatorAddr, escrowAddr)
            debondingDelegations := kvInsert s.debondingDelegations
              (delegatorAddr, escrowAddr, epoch) debDel } := by
      cases hget : kvGet s.debondingDelegations (delegatorAddr, escrowAddr, epoch) with
      | none =>
        exact ⟨{ shares := d.shares, debondEndTime := d.debondEndTime }, hd, by
          simp only [State.SetDebondingDelegation, hget, hd]⟩
      | some deb0 =>
        exact ⟨{ shares := d.shares + deb0.shares, debondEndTime := d.debondEndTime }, hd, by
          simp only [State.SetDebondingDelegation, hget, DebondingDelegation.Merge,
            quantity.Add, hd]⟩
    obtain ⟨debDel, hdeb, e⟩ := hmerged
    refine ⟨_, e, ⟨?_, ?_⟩, ?_⟩
    · intro kv hkv
      simp only [] at hkv ⊢
      rw [mem_keyInsert]
      rcases mem_kvInsert _ _ _ _ hkv with h | h
      · exact Or.inl (hclosure.1 kv h)
      · exact Or.inr (by rw [h])
    · intro k hk
      simp only [] at hk ⊢
      rw [mem_keyInsert] at hk
      rcases hk with h | h
      · exact kvGet_isSome_kvInsert _ _ _ _ (hclosure.2 k h)
      · rw [h, kvGet_kvInsert_self]
        rfl
    · intro kv hkv
      simp only [] at hkv ⊢
      rcases mem_kvInsert _ _ _ _ hkv with h | h
      · exact hend kv h
      · rw [h]
        exact hdeb
  · intro rewardEpochSigning epoch hr
    simp only [onEpochChange]
    split
    · exact hloop epoch
    · exact State.closure_of_tables _ _ (hr _).1 (hr _).2 (hloop epoch)

/-- Witness of `debonding_closure` on `scenarioD`: 50 more shares of delegator 1 in escrow
account 2 until epoch 2, and the debonding loop at epoch 2. -/
theorem debonding_closure_witness :
    scenarioD.DebondingClosure ∧ scenarioD.DebondEndTimesMatch ∧
    (∃ s1, scenarioD.SetDebondingDelegation 1 2 2 (some { shares := 50, debondEndTime := 2 })
        = .ok s1 ∧ s1.DebondingClosure ∧ s1.DebondEndTimesMatch) ∧
    (onEpochChange.releaseAll scenarioValid (scenarioD.ExpiredDebondingQueue 2) scenarioD
      ).state.DebondingClosure :=
  have h := debonding_closure scenarioValid scenarioD (by decide) (by decide)
  ⟨by decide, by decide, h.1 1 2 2 { shares := 50, debondEndTime := 2 } rfl, (h.2.1 2).1⟩

/-- The debonding loop when no load of an account fails. -/
theorem onEpochChange_debonding_loaded (s : State) (epoch : EpochTime)
    (hshares : s.HoldsExpiredShares epoch) (hend : s.ExpiredEndTimesMatch epoch) :
    (∀ k ∈ s.debondingQueue, k.1 ≤ epoch →
      { Epoch := k.1, DelegatorAddr := k.2.1, EscrowAddr := k.2.2,
        Delegation := s.DebondingDelegation k.2.1 k.2.2 k.1 } ∈ s.ExpiredDebondingQueue epoch) ∧
    (∀ e ∈ s.ExpiredDebondingQueue epoch,
      (e.Epoch, e.DelegatorAddr, e.EscrowAddr) ∈ s.debondingQueue ∧ e.Epoch ≤ epoch ∧
      e.Delegation = s.DebondingDelegation e.DelegatorAddr e.EscrowAddr e.Epoch) ∧
    (onEpochChange.releaseAll allValid (s.ExpiredDebondingQueue epoch) s).ret = .ok () ∧
    (∀ pre e post, s.ExpiredDebondingQueue epoch = pre ++ e :: post →
      (onEpochChange.releaseAll allValid pre s).ret = .ok () ∧
      e.Delegation.shares ≤ ((onEpochChange.releaseAll allValid pre s).state.accountOf e.EscrowAddr
        ).escrow.debonding.totalShares ∧
      onEpochChange.releaseAll allValid (s.ExpiredDebondingQueue epoch) s =
        ⟨(onEpochChange.releaseAll allValid post
            (onEpochChange.release allValid (onEpochChange.releaseAll allValid pre s).state
                e).state).state,
         (onEpochChange.releaseAll allValid pre s).events
           ++ ((onEpochChange.release allValid (onEpochChange.releaseAll allValid pre s).state
               e).events
             ++ (onEpochChange.releaseAll allValid post
                  (onEpochChange.release allValid (onEpochChange.releaseAll allValid pre s).state
                      e).state).events),
         (onEpochChange.releaseAll allValid post
            (onEpochChange.release allValid (onEpochChange.releaseAll allValid pre s).state
                e).state).ret⟩) ∧
    (∀ e ∈ s.ExpiredDebondingQueue epoch,
      kvGet (onEpochChange.releaseAll allValid (s.ExpiredDebondingQueue epoch) s
        ).state.debondingDelegations (e.DelegatorAddr, e.EscrowAddr, e.Epoch) = none ∧
      (e.Epoch, e.DelegatorAddr, e.EscrowAddr) ∉
        (onEpochChange.releaseAll allValid (s.ExpiredDebondingQueue epoch) s).state.debondingQueue)
            ∧
    (onEpochChange.releaseAll allValid (s.ExpiredDebondingQueue epoch)
        s).state.ExpiredDebondingQueue epoch
      = [] ∧
    (∀ rewardEpochSigning : State → EpochTime → Outcome Unit,
      onEpochChange allValid rewardEpochSigning s epoch =
        ⟨(rewardEpochSigning
            (onEpochChange.releaseAll allValid (s.ExpiredDebondingQueue epoch) s).state
                epoch).state,
         (onEpochChange.releaseAll allValid (s.ExpiredDebondingQueue epoch) s).events
           ++ (rewardEpochSigning
            (onEpochChange.releaseAll allValid (s.ExpiredDebondingQueue epoch) s).state
                epoch).events,
         (rewardEpochSigning
            (onEpochChange.releaseAll allValid (s.ExpiredDebondingQueue epoch) s).state epoch).ret⟩
                ∧
      ((rewardEpochSigning
          (onEpochChange.releaseAll allValid (s.ExpiredDebondingQueue epoch) s).state epoch
        ).state.debondingQueue
          = (onEpochChange.releaseAll allValid (s.ExpiredDebondingQueue epoch)
              s).state.debondingQueue →
        (onEpochChange allValid rewardEpochSigning s epoch).state.ExpiredDebondingQueue epoch = []))
            ∧
    (∀ (s1 : State) (e : DebondingQueueEntry),
      e.Delegation.shares ≤ (s1.accountOf e.EscrowAddr).escrow.debonding.totalShares →
      (onEpochChange.release allValid s1 e).ret = .ok () ∧
      (onEpochChange.release allValid s1 e).events =
        [.ReclaimEscrow
          { Owner := e.DelegatorAddr, Escrow := e.EscrowAddr,
            Amount := e.Delegation.shares * (s1.accountOf e.EscrowAddr).escrow.debonding.balance
              / (s1.accountOf e.EscrowAddr).escrow.debonding.totalShares,
            Shares := e.Delegation.shares }] ∧
      ((onEpochChange.release allValid s1 e).state.accountOf e.DelegatorAddr).general.balance
        = (s1.accountOf e.DelegatorAddr).general.balance
          + e.Delegation.shares * (s1.accountOf e.EscrowAddr).escrow.debonding.balance
              / (s1.accountOf e.EscrowAddr).escrow.debonding.totalShares ∧
      ((onEpochChange.release allValid s1 e).state.accountOf e.EscrowAddr).escrow.debonding
        = { balance := (s1.accountOf e.EscrowAddr).escrow.debonding.balance
              - e.Delegation.shares * (s1.accountOf e.EscrowAddr).escrow.debonding.balance
                  / (s1.accountOf e.EscrowAddr).escrow.debonding.totalShares
            totalShares := (s1.accountOf e.EscrowAddr).escrow.debonding.totalShares
              - e.Delegation.shares } ∧
      e.Delegation.shares * (s1.accountOf e.EscrowAddr).escrow.debonding.balance
          / (s1.accountOf e.EscrowAddr).escrow.debonding.totalShares
        ≤ (s1.accountOf e.EscrowAddr).escrow.debonding.balance ∧
      (∀ a, a ≠ e.DelegatorAddr → a ≠ e.EscrowAddr →
        (onEpochChange.release allValid s1 e).state.accountOf a = s1.accountOf a) ∧
      (onEpochChange.release allValid s1 e).state.debondingQueue
        = keyRemove s1.debondingQueue (e.Epoch, e.DelegatorAddr, e.EscrowAddr) ∧
      (onEpochChange.release allValid s1 e).state.debondingDelegations
        = kvRemove s1.debondingDelegations
            (e.DelegatorAddr, e.EscrowAddr, e.Delegation.debondEndTime)) := by
  have hall := State.HoldsExpiredShares_all s epoch hshares
  have hok := onEpochChange.releaseAll_ok _ s hall
  have hnil := State.ExpiredDebondingQueue_eq_nil _ epoch
    (onEpochChange.releaseAll_later s epoch hok)
  refine ⟨State.ExpiredDebondingQueue_covers s epoch, State.ExpiredDebondingQueue_mem s epoch,
    hok, ?_, ?_, hnil, ?_, ?_⟩
  · intro pre e post hsplit
    rw [hsplit] at hall ⊢
    obtain ⟨h1, h2, h3⟩ := onEpochChange.releaseAll_append pre (e :: post) s hall
    have hx := h2 e.EscrowAddr
    rw [debondingSharesOf_cons_self] at hx
    have hn : e.Delegation.shares ≤ ((onEpochChange.releaseAll allValid pre s).state.accountOf
        e.EscrowAddr
        ).escrow.debonding.totalShares := by
      omega
    refine ⟨h1, hn, ?_⟩
    rw [h3, onEpochChange.releaseAll_cons_ok e post _
      (onEpochChange.release_effects _ e hn).1]
  · intro e he
    constructor
    · rw [← hend e he]
      exact onEpochChange.releaseAll_delegations _ s hok e he
    · intro hmem
      exact (onEpochChange.releaseAll_queue _ s hok _ hmem).2 e he rfl
  · intro rewardEpochSigning
    have heq : onEpochChange allValid rewardEpochSigning s epoch =
        ⟨(rewardEpochSigning
            (onEpochChange.releaseAll allValid (s.ExpiredDebondingQueue epoch) s).state
                epoch).state,
         (onEpochChange.releaseAll allValid (s.ExpiredDebondingQueue epoch) s).events
           ++ (rewardEpochSigning
            (onEpochChange.releaseAll allValid (s.ExpiredDebondingQueue epoch) s).state
                epoch).events,
         (rewardEpochSigning
            (onEpochChange.releaseAll allValid (s.ExpiredDebondingQueue epoch) s).state epoch).ret⟩
                := by
      simp only [onEpochChange, State.Account_allValid, hok]
    refine ⟨heq, ?_⟩
    intro hq
    rw [heq]
    apply State.ExpiredDebondingQueue_eq_nil
    simp only []
    rw [hq]
    exact onEpochChange.releaseAll_later s epoch hok
  · intro s1 e hn
    obtain ⟨h1, h2, h3, h4, _, h6⟩ := onEpochChange.release_effects s1 e hn
    have hle := SharePool.stakeForShares_le _ _ hn
    simp only [SharePool.stakeForShares] at h2 h3 h4 hle
    rcases onEpochChange.release_tables _ s1 e with ⟨_, _, herr⟩ | ⟨hq, hd, _⟩
    · exact absurd h1 herr
    · exact ⟨h1, h2, h3, h4, hle, h6, hq, hd⟩


/-- C14, counterexample. In `shortPoolState` the entry `(2, 1, 2)` has 1000 shares and the
debonding pool of escrow account 2 is `{balance 500, totalShares 500}`: `onEpochChange` at epoch 2
returns an error, writes nothing, and `ExpiredDebondingQueue(2)` is not empty afterwards. In
`endTimeMismatchState` the debonding delegation stored under `(1, 2, 2)` carries the
`DebondEndTime` 3: `onEpochChange` at epoch 2 returns no error, pays out and removes the queue
entry, but the debonding delegation is still stored. In `reservedDelegatorState` the pool holds
the shares and the end time matches, but the delegator is the common pool address, which is
reserved: the load of the delegator account fails, `onEpochChange` at epoch 2 returns the error
of the load, writes nothing, and `ExpiredDebondingQueue(2)` is not empty afterwards. -/
theorem onEpochChange_debonding_counterexample :
    (onEpochChange scenarioValid (fun s1 _ => ⟨s1, [], .ok ()⟩) shortPoolState 2).ret
      = .error (.quantity .ErrInsufficientBalance) ∧
    (onEpochChange scenarioValid (fun s1 _ => ⟨s1, [], .ok ()⟩) shortPoolState 2).state =
        shortPoolState ∧
    (onEpochChange scenarioValid (fun s1 _ => ⟨s1, [], .ok ()⟩) shortPoolState
        2).state.ExpiredDebondingQueue 2
      ≠ [] ∧
    (onEpochChange scenarioValid (fun s1 _ => ⟨s1, [], .ok ()⟩) endTimeMismatchState 2).ret = .ok ()
        ∧
    ((onEpochChange scenarioValid (fun s1 _ => ⟨s1, [], .ok ()⟩) endTimeMismatchState
        2).state.accountOf 1
      ).general.balance = 1000 ∧
    (2, 1, 2) ∉
      (onEpochChange scenarioValid (fun s1 _ => ⟨s1, [], .ok ()⟩) endTimeMismatchState
          2).state.debondingQueue ∧
    kvGet (onEpochChange scenarioValid (fun s1 _ => ⟨s1, [], .ok ()⟩) endTimeMismatchState 2
      ).state.debondingDelegations (1, 2, 2) = some { shares := 1000, debondEndTime := 3 } ∧
    reservedDelegatorState.HoldsExpiredShares 2 ∧ reservedDelegatorState.ExpiredEndTimesMatch 2 ∧
    onEpochChange scenarioValid (fun s1 _ => ⟨s1, [], .ok ()⟩) reservedDelegatorState 2
      = ⟨reservedDelegatorState, [], .error (.invalidAccountAddress 100)⟩ ∧
    (onEpochChange scenarioValid (fun s1 _ => ⟨s1, [], .ok ()⟩) reservedDelegatorState 2
      ).state.ExpiredDebondingQueue 2 ≠ [] := by
  decide

/-- C14, amended. Debonding maturation, for every state and epoch in which the debonding pools hold
the shares that debond until `epoch` (`HoldsExpiredShares`), every expired entry carries the epoch
of its queue key as the `DebondEndTime` of its debonding delegation (`ExpiredEndTimesMatch`), and
the delegator and the escrow address of every expired entry are valid.
`ExpiredDebondingQueue(epoch)` lists every queue entry with end epoch ≤ `epoch`, and nothing else.
The debonding loop of `onEpochChange` returns no error; it releases each expired entry `e`, after
the entries `pre` before it, at a state in which the debonding pool of the escrow account holds the
shares of `e`. Afterwards the debonding delegation and the queue entry of every expired entry are
removed and `ExpiredDebondingQueue(epoch)` is empty, also after the whole of `onEpochChange` when
`rewardEpochSigning` leaves the queue as it is. The release of an entry with valid addresses and `n`
shares at a state `s1` in which the debonding pool of the escrow account is
`{balance b, totalShares s}` with `n ≤ s` returns no error, emits one `ReclaimEscrowEvent` with the
amount `⌊n·b/s⌋` and `n` shares, adds `⌊n·b/s⌋` to the general balance of the delegator, leaves the
pool at `{b - ⌊n·b/s⌋, s - n}`, changes no other account, and removes the queue entry
`(epoch, delegator, escrow)` and the debonding delegation under
`(delegator, escrow, DebondEndTime)`. -/
theorem onEpochChange_debonding (IsValid : Address → Bool) (s : State) (epoch : EpochTime)
    (hshares : s.HoldsExpiredShares epoch) (hend : s.ExpiredEndTimesMatch epoch)
    (hvalid : ∀ e ∈ s.ExpiredDebondingQueue epoch,
      IsValid e.DelegatorAddr = true ∧ IsValid e.EscrowAddr = true) :
    (∀ k ∈ s.debondingQueue, k.1 ≤ epoch →
      { Epoch := k.1, DelegatorAddr := k.2.1, EscrowAddr := k.2.2,
        Delegation := s.DebondingDelegation k.2.1 k.2.2 k.1 } ∈ s.ExpiredDebondingQueue epoch) ∧
    (∀ e ∈ s.ExpiredDebondingQueue epoch,
      (e.Epoch, e.DelegatorAddr, e.EscrowAddr) ∈ s.debondingQueue ∧ e.Epoch ≤ epoch ∧
      e.Delegation = s.DebondingDelegation e.DelegatorAddr e.EscrowAddr e.Epoch) ∧
    (onEpochChange.releaseAll IsValid (s.ExpiredDebondingQueue epoch) s).ret = .ok () ∧
    (∀ pre e post, s.ExpiredDebondingQueue epoch = pre ++ e :: post →
      (onEpochChange.releaseAll IsValid pre s).ret = .ok () ∧
      e.Delegation.shares ≤ ((onEpochChange.releaseAll IsValid pre s).state.accountOf e.EscrowAddr
        ).escrow.debonding.totalShares ∧
      onEpochChange.releaseAll IsValid (s.ExpiredDebondingQueue epoch) s =
        ⟨(onEpochChange.releaseAll IsValid post
            (onEpochChange.release IsValid (onEpochChange.releaseAll IsValid pre s).state
                e).state).state,
         (onEpochChange.releaseAll IsValid pre s).events
           ++ ((onEpochChange.release IsValid (onEpochChange.releaseAll IsValid pre s).state
               e).events
             ++ (onEpochChange.releaseAll IsValid post
                  (onEpochChange.release IsValid (onEpochChange.releaseAll IsValid pre s).state
                      e).state).events),
         (onEpochChange.releaseAll IsValid post
            (onEpochChange.release IsValid (onEpochChange.releaseAll IsValid pre s).state
                e).state).ret⟩) ∧
    (∀ e ∈ s.ExpiredDebondingQueue epoch,
      kvGet (onEpochChange.releaseAll IsValid (s.ExpiredDebondingQueue epoch) s
        ).state.debondingDelegations (e.DelegatorAddr, e.EscrowAddr, e.Epoch) = none ∧
      (e.Epoch, e.DelegatorAddr, e.EscrowAddr) ∉
        (onEpochChange.releaseAll IsValid (s.ExpiredDebondingQueue epoch) s).state.debondingQueue) ∧
    (onEpochChange.releaseAll IsValid (s.ExpiredDebondingQueue epoch) s).state.ExpiredDebondingQueue
        epoch
      = [] ∧
    (∀ rewardEpochSigning : State → EpochTime → Outcome Unit,
      onEpochChange IsValid rewardEpochSigning s epoch =
        ⟨(rewardEpochSigning
            (onEpochChange.releaseAll IsValid (s.ExpiredDebondingQueue epoch) s).state epoch).state,
         (onEpochChange.releaseAll IsValid (s.ExpiredDebondingQueue epoch) s).events
           ++ (rewardEpochSigning
            (onEpochChange.releaseAll IsValid (s.ExpiredDebondingQueue epoch) s).state
                epoch).events,
         (rewardEpochSigning
            (onEpochChange.releaseAll IsValid (s.ExpiredDebondingQueue epoch) s).state epoch).ret⟩ ∧
      ((rewardEpochSigning
          (onEpochChange.releaseAll IsValid (s.ExpiredDebondingQueue epoch) s).state epoch
        ).state.debondingQueue
          = (onEpochChange.releaseAll IsValid (s.ExpiredDebondingQueue epoch)
              s).state.debondingQueue →
        (onEpochChange IsValid rewardEpochSigning s epoch).state.ExpiredDebondingQueue epoch = []))
            ∧
    (∀ (s1 : State) (e : DebondingQueueEntry),
      IsValid e.DelegatorAddr = true → IsValid e.EscrowAddr = true →
      e.Delegation.shares ≤ (s1.accountOf e.EscrowAddr).escrow.debonding.totalShares →
      (onEpochChange.release IsValid s1 e).ret = .ok () ∧
      (onEpochChange.release IsValid s1 e).events =
        [.ReclaimEscrow
          { Owner := e.DelegatorAddr, Escrow := e.EscrowAddr,
            Amount := e.Delegation.shares * (s1.accountOf e.EscrowAddr).escrow.debonding.balance
              / (s1.accountOf e.EscrowAddr).escrow.debonding.totalShares,
            Shares := e.Delegation.shares }] ∧
      ((onEpochChange.release IsValid s1 e).state.accountOf e.DelegatorAddr).general.balance
        = (s1.accountOf e.DelegatorAddr).general.balance
          + e.Delegation.shares * (s1.accountOf e.EscrowAddr).escrow.debonding.balance
              / (s1.accountOf e.EscrowAddr).escrow.debonding.totalShares ∧
      ((onEpochChange.release IsValid s1 e).state.accountOf e.EscrowAddr).escrow.debonding
        = { balance := (s1.accountOf e.EscrowAddr).escrow.debonding.balance
              - e.Delegation.shares * (s1.accountOf e.EscrowAddr).escrow.debonding.balance
                  / (s1.accountOf e.EscrowAddr).escrow.debonding.totalShares
            totalShares := (s1.accountOf e.EscrowAddr).escrow.debonding.totalShares
              - e.Delegation.shares } ∧
      e.Delegation.shares * (s1.accountOf e.EscrowAddr).escrow.debonding.balance
          / (s1.accountOf e.EscrowAddr).escrow.debonding.totalShares
        ≤ (s1.accountOf e.EscrowAddr).escrow.debonding.balance ∧
      (∀ a, a ≠ e.DelegatorAddr → a ≠ e.EscrowAddr →
        (onEpochChange.release IsValid s1 e).state.accountOf a = s1.accountOf a) ∧
      (onEpochChange.release IsValid s1 e).state.debondingQueue
        = keyRemove s1.debondingQueue (e.Epoch, e.DelegatorAddr, e.EscrowAddr) ∧
      (onEpochChange.release IsValid s1 e).state.debondingDelegations
        = kvRemove s1.debondingDelegations
            (e.DelegatorAddr, e.EscrowAddr, e.Delegation.debondEndTime)) := by
  have H := onEpochChange_debonding_loaded s epoch hshares hend
  have hall := onEpochChange.releaseAll_of_valid IsValid _ s hvalid
  have hoe : ∀ r, onEpochChange IsValid r s epoch = onEpochChange allValid r s epoch := by
    intro r
    simp only [onEpochChange, hall]
  rw [hall]
  refine ⟨H.1, H.2.1, H.2.2.1, ?_, H.2.2.2.2.1, H.2.2.2.2.2.1, ?_, ?_⟩
  · intro pre e post hsplit
    have hpre : ∀ x ∈ pre, IsValid x.DelegatorAddr = true ∧ IsValid x.EscrowAddr = true :=
      fun x hx => hvalid x (by rw [hsplit]; exact List.mem_append_left _ hx)
    have he := hvalid e (by rw [hsplit]; simp)
    have hpost : ∀ x ∈ post, IsValid x.DelegatorAddr = true ∧ IsValid x.EscrowAddr = true :=
      fun x hx => hvalid x (by
        rw [hsplit]
        exact List.mem_append_right _ (List.mem_cons_of_mem _ hx))
    rw [onEpochChange.releaseAll_of_valid IsValid pre s hpre,
      onEpochChange.release_of_valid IsValid _ e he.1 he.2,
      onEpochChange.releaseAll_of_valid IsValid post _ hpost]
    exact H.2.2.2.1 pre e post hsplit
  · intro r
    rw [hoe r]
    exact H.2.2.2.2.2.2.1 r
  · intro s1 e hd he hn
    rw [onEpochChange.release_of_valid IsValid s1 e hd he]
    exact H.2.2.2.2.2.2.2 s1 e hn

/-- Witness of `onEpochChange_debonding`, scenario D: 1000 escrowed and fully reclaimed, the
debonding interval elapsed at epoch 2; the general balance of the delegator grows by 1000, the
debonding pool is empty and so is the queue. -/
theorem onEpochChange_debonding_witness :
    scenarioD.HoldsExpiredShares 2 ∧ scenarioD.ExpiredEndTimesMatch 2 ∧
    (∀ e ∈ scenarioD.ExpiredDebondingQueue 2,
      scenarioValid e.DelegatorAddr = true ∧ scenarioValid e.EscrowAddr = true) ∧
    (onEpochChange.releaseAll scenarioValid (scenarioD.ExpiredDebondingQueue 2) scenarioD).ret = .ok
        () ∧
    (onEpochChange.releaseAll scenarioValid (scenarioD.ExpiredDebondingQueue 2) scenarioD
      ).state.ExpiredDebondingQueue 2 = [] ∧
    ((onEpochChange.releaseAll scenarioValid (scenarioD.ExpiredDebondingQueue 2)
        scenarioD).state.accountOf 1
      ).general.balance = 1000 ∧
    ((onEpochChange.releaseAll scenarioValid (scenarioD.ExpiredDebondingQueue 2)
        scenarioD).state.accountOf 2
      ).escrow.debonding = { balance := 0, totalShares := 0 } ∧
    (onEpochChange.releaseAll scenarioValid (scenarioD.ExpiredDebondingQueue 2)
        scenarioD).state.debondingQueue
      = [] ∧
    (onEpochChange.releaseAll scenarioValid (scenarioD.ExpiredDebondingQueue 2) scenarioD
      ).state.debondingDelegations = [] :=
  have h := onEpochChange_debonding scenarioValid scenarioD 2 (by decide) (by decide)
    (by decide)
  ⟨by decide, by decide, by decide, h.2.2.1, h.2.2.2.2.2.1, by decide, by decide, by decide, by
      decide⟩

/-- C18. The commission schedule index under `SetAccount(addr, account)`, which has no failure of
its own: afterwards `addr` is returned by `CommissionScheduleAddresses` if and only if the
commission schedule of `account` is non-empty, and the membership of every other address is
unchanged; so if the index contained exactly the addresses whose stored account has a non-empty
schedule before the call, it does after. -/
theorem SetAccount_commission_index (s : State) (addr : Address) (account : Account) :
    (addr ∈ (s.SetAccount addr account).CommissionScheduleAddresses ↔
      account.escrow.commissionSchedule.IsEmpty = false) ∧
    (∀ a, a ≠ addr →
      (a ∈ (s.SetAccount addr account).CommissionScheduleAddresses ↔
        a ∈ s.CommissionScheduleAddresses)) ∧
    ((∀ a, a ∈ s.CommissionScheduleAddresses ↔
        (s.accountOf a).escrow.commissionSchedule.IsEmpty = false) →
      ∀ a, a ∈ (s.SetAccount addr account).CommissionScheduleAddresses ↔
        ((s.SetAccount addr account).accountOf a).escrow.commissionSchedule.IsEmpty = false) := by
  have hself : addr ∈ (s.SetAccount addr account).CommissionScheduleAddresses ↔
      account.escrow.commissionSchedule.IsEmpty = false := by
    rw [State.mem_CommissionScheduleAddresses]
    cases hE : account.escrow.commissionSchedule.IsEmpty with
    | true =>
      simp only [State.SetAccount, hE, if_true, mem_keyRemove, ne_eq, not_true_eq_false,
        and_false, Bool.true_eq_false]
    | false =>
      simp only [State.SetAccount, hE, Bool.false_eq_true, if_false, mem_keyInsert, or_true]
  have hother : ∀ a, a ≠ addr →
      (a ∈ (s.SetAccount addr account).CommissionScheduleAddresses ↔
        a ∈ s.CommissionScheduleAddresses) := by
    intro a ha
    rw [State.mem_CommissionScheduleAddresses, State.mem_CommissionScheduleAddresses]
    cases hE : account.escrow.commissionSchedule.IsEmpty with
    | true =>
      simp only [State.SetAccount, hE, if_true, mem_keyRemove, ne_eq, ha, not_false_eq_true,
        and_true]
    | false =>
      simp only [State.SetAccount, hE, Bool.false_eq_true, if_false, mem_keyInsert, ha,
        or_false]
  refine ⟨hself, hother, ?_⟩
  intro hinv a
  by_cases ha : a = addr
  · rw [ha, State.accountOf_SetAccount_self]
    exact hself
  · rw [State.accountOf_SetAccount_ne _ _ _ _ ha, hother a ha]
    exact hinv a

/-- Witness of `SetAccount_commission_index` on `rewardState`: storing an account with a rate
step under address 2 adds 2 to the index, and storing the zero account under address 1 removes 1
from it. -/
theorem SetAccount_commission_index_witness :
    rewardState.CommissionScheduleAddresses = [1] ∧
    2 ∈ (rewardState.SetAccount 2
      { escrow := { commissionSchedule := { rates := [{ start := 0, rate := 5 }] } } }
      ).CommissionScheduleAddresses ∧
    1 ∉ (rewardState.SetAccount 1 {}).CommissionScheduleAddresses :=
  ⟨by decide,
   (SetAccount_commission_index rewardState 2
      { escrow := { commissionSchedule := { rates := [{ start := 0, rate := 5 }] } } }).1.mpr
      (by decide),
   fun h => absurd ((SetAccount_commission_index rewardState 1 {}).1.mp h) (by decide)⟩

/-- C17. The two delegation indices under `SetDelegation(delegator, escrow, d)`. If `d.Shares` is
zero, neither the forward index `(escrow, delegator)` nor the reverse index `(delegator, escrow)`
holds an entry for the pair afterwards; otherwise both hold `d`. The entries of all other pairs
are unchanged in both indices. Hence, if the forward and the reverse index held the same pairs
with the same values before, they do so after. After the call `DelegationsFor(delegator)[escrow]`
and `DelegationsTo(escrow)[delegator]` are the same entry (`d`, or none when `d.Shares` is zero)
and `Delegation(delegator, escrow)` is that entry, the zero delegation standing for none; and if
the indices agreed before the call, the three queries agree afterwards on every pair. -/
theorem SetDelegation_indices (s : State) (delegatorAddr escrowAddr : Address)
    (d : Delegation) :
    (d.shares = 0 →
      kvGet (s.SetDelegation delegatorAddr escrowAddr d).delegations
        (escrowAddr, delegatorAddr) = none ∧
      kvGet (s.SetDelegation delegatorAddr escrowAddr d).delegationsReverse
        (delegatorAddr, escrowAddr) = none) ∧
    (d.shares ≠ 0 →
      kvGet (s.SetDelegation delegatorAddr escrowAddr d).delegations
        (escrowAddr, delegatorAddr) = some d ∧
      kvGet (s.SetDelegation delegatorAddr escrowAddr d).delegationsReverse
        (delegatorAddr, escrowAddr) = some d) ∧
    (∀ a b : Address, (a, b) ≠ (delegatorAddr, escrowAddr) →
      kvGet (s.SetDelegation delegatorAddr escrowAddr d).delegations (b, a)
        = kvGet s.delegations (b, a) ∧
      kvGet (s.SetDelegation delegatorAddr escrowAddr d).delegationsReverse (a, b)
        = kvGet s.delegationsReverse (a, b)) ∧
    (s.DelegationIndicesAgree →
      (s.SetDelegation delegatorAddr escrowAddr d).DelegationIndicesAgree) ∧
    (kvGet ((s.SetDelegation delegatorAddr escrowAddr d).DelegationsFor delegatorAddr) escrowAddr
        = kvGet ((s.SetDelegation delegatorAddr escrowAddr d).DelegationsTo escrowAddr)
            delegatorAddr ∧
      kvGet ((s.SetDelegation delegatorAddr escrowAddr d).DelegationsFor delegatorAddr) escrowAddr
        = (if d.shares = 0 then none else some d) ∧
      (s.SetDelegation delegatorAddr escrowAddr d).Delegation delegatorAddr escrowAddr
        = (kvGet ((s.SetDelegation delegatorAddr escrowAddr d).DelegationsFor delegatorAddr)
            escrowAddr).getD {}) ∧
    (s.DelegationIndicesAgree →
      ∀ a b : Address,
        kvGet ((s.SetDelegation delegatorAddr escrowAddr d).DelegationsFor a) b
          = kvGet ((s.SetDelegation delegatorAddr escrowAddr d).DelegationsTo b) a ∧
        (s.SetDelegation delegatorAddr escrowAddr d).Delegation a b
          = (kvGet ((s.SetDelegation delegatorAddr escrowAddr d).DelegationsFor a) b).getD {}) := by
  have hzero : d.shares = 0 →
      kvGet (s.SetDelegation delegatorAddr escrowAddr d).delegations
        (escrowAddr, delegatorAddr) = none ∧
      kvGet (s.SetDelegation delegatorAddr escrowAddr d).delegationsReverse
        (delegatorAddr, escrowAddr) = none := by
    intro h
    have e : s.SetDelegation delegatorAddr escrowAddr d =
        { s with
          delegations := kvRemove s.delegations (escrowAddr, delegatorAddr)
          delegationsReverse := kvRemove s.delegationsReverse (delegatorAddr, escrowAddr) } := by
      simp only [State.SetDelegation, if_pos h]
    rw [e]
    exact ⟨kvGet_kvRemove_self _ _, kvGet_kvRemove_self _ _⟩
  have hpos : d.shares ≠ 0 →
      kvGet (s.SetDelegation delegatorAddr escrowAddr d).delegations
        (escrowAddr, delegatorAddr) = some d ∧
      kvGet (s.SetDelegation delegatorAddr escrowAddr d).delegationsReverse
        (delegatorAddr, escrowAddr) = some d := by
    intro h
    have e : s.SetDelegation delegatorAddr escrowAddr d =
        { s with
          delegations := kvInsert s.delegations (escrowAddr, delegatorAddr) d
          delegationsReverse := kvInsert s.delegationsReverse (delegatorAddr, escrowAddr) d } := by
      simp only [State.SetDelegation, if_neg h]
    rw [e]
    exact ⟨kvGet_kvInsert_self _ _ _, kvGet_kvInsert_self _ _ _⟩
  have hother : ∀ a b : Address, (a, b) ≠ (delegatorAddr, escrowAddr) →
      kvGet (s.SetDelegation delegatorAddr escrowAddr d).delegations (b, a)
        = kvGet s.delegations (b, a) ∧
      kvGet (s.SetDelegation delegatorAddr escrowAddr d).delegationsReverse (a, b)
        = kvGet s.delegationsReverse (a, b) := by
    intro a b hne
    have hne2 : (b, a) ≠ (escrowAddr, delegatorAddr) := by
      intro h
      apply hne
      rw [(Prod.mk.inj h).1, (Prod.mk.inj h).2]
    by_cases h : d.shares = 0
    · have e : s.SetDelegation delegatorAddr escrowAddr d =
          { s with
            delegations := kvRemove s.delegations (escrowAddr, delegatorAddr)
            delegationsReverse := kvRemove s.delegationsReverse (delegatorAddr, escrowAddr) } := by
        simp only [State.SetDelegation, if_pos h]
      rw [e]
      exact ⟨kvGet_kvRemove_ne _ _ _ hne2, kvGet_kvRemove_ne _ _ _ hne⟩
    · have e : s.SetDelegation delegatorAddr escrowAddr d =
          { s with
            delegations := kvInsert s.delegations (escrowAddr, delegatorAddr) d
            delegationsReverse := kvInsert s.delegationsReverse (delegatorAddr, escrowAddr) d } :=
                by
        simp only [State.SetDelegation, if_neg h]
      rw [e]
      exact ⟨kvGet_kvInsert_ne _ _ _ _ hne2, kvGet_kvInsert_ne _ _ _ _ hne⟩
  have hpair : kvGet (s.SetDelegation delegatorAddr escrowAddr d).delegations
        (escrowAddr, delegatorAddr)
      = kvGet (s.SetDelegation delegatorAddr escrowAddr d).delegationsReverse
        (delegatorAddr, escrowAddr) := by
    by_cases h : d.shares = 0
    · rw [(hzero h).1, (hzero h).2]
    · rw [(hpos h).1, (hpos h).2]
  have hagree : s.DelegationIndicesAgree →
      (s.SetDelegation delegatorAddr escrowAddr d).DelegationIndicesAgree := by
    intro hs a b
    by_cases hab : (a, b) = (delegatorAddr, escrowAddr)
    · rw [(Prod.mk.inj hab).1, (Prod.mk.inj hab).2]
      exact hpair
    · rw [(hother a b hab).1, (hother a b hab).2]
      exact hs a b
  refine ⟨hzero, hpos, hother, hagree, ⟨?_, ?_, ?_⟩, ?_⟩
  · rw [State.DelegationsFor_get, State.DelegationsTo_get]
    exact hpair.symm
  · rw [State.DelegationsFor_get]
    by_cases h : d.shares = 0
    · rw [if_pos h]
      exact (hzero h).2
    · rw [if_neg h]
      exact (hpos h).2
  · rw [State.DelegationsFor_get, ← hpair]
    rfl
  · intro hs a b
    rw [State.DelegationsFor_get, State.DelegationsTo_get]
    refine ⟨(hagree hs a b).symm, ?_⟩
    rw [← hagree hs a b]
    rfl

/-- Witness of `SetDelegation_indices` on `rewardState`: delegator 3 receives 40 shares of escrow
account 1, and the delegation of account 2 to itself is removed. -/
theorem SetDelegation_indices_witness :
    kvGet ((rewardState.SetDelegation 3 1 { shares := 40 }).DelegationsFor 3) 1
      = some { shares := 40 } ∧
    kvGet ((rewardState.SetDelegation 3 1 { shares := 40 }).DelegationsTo 1) 3
      = some { shares := 40 } ∧
    (rewardState.SetDelegation 3 1 { shares := 40 }).Delegation 3 1 = { shares := 40 } ∧
    kvGet (rewardState.SetDelegation 2 2 { shares := 0 }).delegations (2, 2) = none ∧
    kvGet (rewardState.SetDelegation 2 2 { shares := 0 }).delegationsReverse (2, 2) = none :=
  have h := SetDelegation_indices rewardState 3 1 { shares := 40 }
  have h2 := SetDelegation_indices rewardState 2 2 { shares := 0 }
  ⟨h.2.2.2.2.1.2.1.trans (by decide),
   (h.2.2.2.2.1.1.symm.trans (h.2.2.2.2.1.2.1.trans (by decide))),
   h.2.2.2.2.1.2.2.trans (by decide),
   (h2.1 (by decide)).1, (h2.1 (by decide)).2⟩

/-- C20. `EpochSigning.Update` never silently overflows: for every `EpochSigning` value with
`uint64` counters and every list of signing entities, `Update` returns an error if and only if
`Total = 2^64 - 1` or the count of some listed entity reaches `2^64 - 1` before one of its
increments, that is its count plus the number of its occurrences in the list is at least `2^64`;
otherwise it returns no error, `Total` grows by exactly 1, the count of each entity grows by the
number of times it occurs in the list, the counts of unlisted entities are unchanged, and the
counters are still `uint64` values. -/
theorem EpochSigning.Update_overflow (es : EpochSigning) (signingEntities : List PublicKey)
    (hrange : es.InRange) :
    ((es.Update signingEntities).2 ≠ .ok () ↔
      (es.Total = 2 ^ 64 - 1 ∨
        ∃ e ∈ signingEntities, 2 ^ 64 ≤ es.count e + signingEntities.count e)) ∧
    ((es.Update signingEntities).2 = .ok () →
      (es.Update signingEntities).1.Total = es.Total + 1 ∧
      (∀ e, (es.Update signingEntities).1.count e = es.count e + signingEntities.count e) ∧
      (∀ e, e ∉ signingEntities → (es.Update signingEntities).1.count e = es.count e) ∧
      (es.Update signingEntities).1.Total < 2 ^ 64 ∧
      (∀ e, (es.Update signingEntities).1.count e < 2 ^ 64)) := by
  have hm : ∀ e, (kvGet es.ByEntity e).getD 0 < 2 ^ 64 :=
    kvGet_getD_lt es.ByEntity (2 ^ 64) (by decide) hrange.2
  have htotal := hrange.1
  by_cases hmax : es.Total + 1 = 2 ^ 64
  · have hwrap : (es.Total + 1) % 2 ^ 64 = 0 := by
      rw [hmax]
      exact Nat.mod_self _
    have herr : (es.Update signingEntities).2 = .error .totalOverflow := by
      simp only [EpochSigning.Update, hwrap, Nat.zero_le, if_true]
    rw [herr]
    refine ⟨⟨fun _ => Or.inl (by omega), fun _ h => (by cases h)⟩, fun h => (by cases h)⟩
  · have hstep : (es.Total + 1) % 2 ^ 64 = es.Total + 1 := Nat.mod_eq_of_lt (by omega)
    have hgt : ¬ es.Total + 1 ≤ es.Total := by omega
    have heq : es.Update signingEntities =
        ({ es with
            Total := es.Total + 1
            ByEntity := (EpochSigning.Update.loop signingEntities es.ByEntity).1 },
          (EpochSigning.Update.loop signingEntities es.ByEntity).2) := by
      simp only [EpochSigning.Update, hstep, if_neg hgt]
    obtain ⟨h1, h2⟩ := EpochSigning.Update.loop_spec signingEntities es.ByEntity hm
    rw [heq]
    simp only [EpochSigning.count]
    refine ⟨⟨fun h => Or.inr ?_, fun h hok => ?_⟩, fun hok => ⟨trivial, ?_, ?_, ?_, ?_⟩⟩
    · by_contra hno
      apply h
      apply h1.mpr
      intro e he
      by_contra hlt
      exact hno ⟨e, he, Nat.not_lt.mp hlt⟩
    · rcases h with h | ⟨e, he, hle⟩
      · omega
      · have := h1.mp hok e he
        omega
    · exact h2 hok
    · intro e he
      rw [h2 hok e, List.count_eq_zero_of_not_mem he, Nat.add_zero]
    · omega
    · intro e
      rw [h2 hok e]
      by_cases he : e ∈ signingEntities
      · exact h1.mp hok e he
      · rw [List.count_eq_zero_of_not_mem he, Nat.add_zero]
        exact hm e

/-- Witness of `EpochSigning.Update_overflow`: entity 7 has signed 2 of 5 blocks; it signs the
next block, listed twice, together with entity 9. -/
theorem EpochSigning.Update_overflow_witness :
    EpochSigning.InRange { Total := 5, ByEntity := [(7, 2)] } ∧
    (EpochSigning.Update { Total := 5, ByEntity := [(7, 2)] } [7, 9, 7]).2 = .ok () ∧
    (EpochSigning.Update { Total := 5, ByEntity := [(7, 2)] } [7, 9, 7]).1.Total = 6 ∧
    (EpochSigning.Update { Total := 5, ByEntity := [(7, 2)] } [7, 9, 7]).1.count 7 = 4 ∧
    (EpochSigning.Update { Total := 5, ByEntity := [(7, 2)] } [7, 9, 7]).1.count 9 = 1 ∧
    (EpochSigning.Update { Total := 5, ByEntity := [(7, 2)] } [7, 9, 7]).1.count 8 = 0 :=
  have h := EpochSigning.Update_overflow { Total := 5, ByEntity := [(7, 2)] } [7, 9, 7]
    (by decide)
  have hok : (EpochSigning.Update { Total := 5, ByEntity := [(7, 2)] } [7, 9, 7]).2 = .ok () := by
    decide
  ⟨by decide, hok, (h.2 hok).1, ((h.2 hok).2.1 7).trans (by decide),
   ((h.2 hok).2.1 9).trans (by decide), ((h.2 hok).2.2.1 8 (by decide)).trans (by decide)⟩

/-- C19. `EligibleEntities(num, den)` for `num > 0` and `den > 0`. If neither `Total · num` nor
any `ByEntity[e] · den` exceeds `2^64 - 1`, the call returns a list that holds exactly the
entities `e` of `ByEntity` with `ByEntity[e] · den ≥ Total · num` in exact arithmetic, in strictly
ascending order of their public keys, hence each once. If `Total · num` or some
`ByEntity[e] · den` exceeds `2^64 - 1`, the call returns an error instead of a list. -/
theorem EpochSigning.EligibleEntities_spec (es : EpochSigning)
    (thresholdNumerator thresholdDenominator : Nat)
    (hnum : 0 < thresholdNumerator) (hden : 0 < thresholdDenominator) :
    ((es.Total * thresholdNumerator ≤ 2 ^ 64 - 1 ∧
        ∀ e c, kvGet es.ByEntity e = some c → c * thresholdDenominator ≤ 2 ^ 64 - 1) →
      ∃ eligibleEntities,
        es.EligibleEntities thresholdNumerator thresholdDenominator = .ok eligibleEntities ∧
        eligibleEntities.Sorted (fun a b => a < b) ∧
        ∀ e, e ∈ eligibleEntities ↔
          ∃ c, kvGet es.ByEntity e = some c ∧
            es.Total * thresholdNumerator ≤ c * thresholdDenominator) ∧
    ((2 ^ 64 - 1 < es.Total * thresholdNumerator ∨
        ∃ e c, kvGet es.ByEntity e = some c ∧ 2 ^ 64 - 1 < c * thresholdDenominator) →
      ∃ err, es.EligibleEntities thresholdNumerator thresholdDenominator = .error err) := by
  have hn0 : ¬ thresholdNumerator = 0 := Nat.pos_iff_ne_zero.mp hnum
  have hcheck : es.Total > maxUint64 / thresholdNumerator ↔
      2 ^ 64 - 1 < es.Total * thresholdNumerator := by
    unfold maxUint64
    rw [gt_iff_lt, Nat.div_lt_iff_lt_mul hnum]
  constructor
  · rintro ⟨htot, hcounts⟩
    have hle : ¬ es.Total > maxUint64 / thresholdNumerator := by
      rw [hcheck]
      exact Nat.not_lt.mpr htot
    have hmod : es.Total * thresholdNumerator % 2 ^ 64 = es.Total * thresholdNumerator :=
      Nat.mod_eq_of_lt (by omega)
    have hit : ∀ kv ∈ kvIterator (fun a b : PublicKey => a ≤ b) es.ByEntity,
        kv.2 * thresholdDenominator ≤ 2 ^ 64 - 1 := by
      intro kv hkv
      exact hcounts kv.1 kv.2 ((mem_kvIterator _ _ _ _).mp hkv)
    have heq : es.EligibleEntities thresholdNumerator thresholdDenominator = .ok
        ((((kvIterator (fun a b : PublicKey => a ≤ b) es.ByEntity).filter
          (fun kv => decide (es.Total * thresholdNumerator ≤ kv.2 * thresholdDenominator))).map
            Prod.fst).insertionSort (fun a b => a ≤ b)) := by
      simp only [EpochSigning.EligibleEntities, if_neg hn0, if_neg hle, hmod,
        EpochSigning.EligibleEntities.loop_ok _ _ hden _ _ hit, List.nil_append]
    refine ⟨_, heq, ?_, ?_⟩
    · have hs := @List.sorted_insertionSort _ (fun a b : PublicKey => a ≤ b) _
        ⟨Nat.le_total⟩ ⟨fun _ _ _ => Nat.le_trans⟩
        (((kvIterator (fun a b : PublicKey => a ≤ b) es.ByEntity).filter
          (fun kv => decide (es.Total * thresholdNumerator ≤ kv.2 * thresholdDenominator))).map
            Prod.fst)
      have hnd : ((((kvIterator (fun a b : PublicKey => a ≤ b) es.ByEntity).filter
          (fun kv => decide (es.Total * thresholdNumerator ≤ kv.2 * thresholdDenominator))).map
            Prod.fst).insertionSort (fun a b => a ≤ b)).Nodup := by
        rw [(List.perm_insertionSort _ _).nodup_iff]
        exact (kvIterator_keys_nodup _ es.ByEntity).sublist
          ((List.filter_sublist _).map Prod.fst)
      exact (List.pairwise_and_iff.mpr ⟨hs, hnd⟩).imp
        (fun h => Nat.lt_of_le_of_ne h.1 h.2)
    · intro e
      rw [(List.perm_insertionSort _ _).mem_iff, List.mem_map]
      constructor
      · rintro ⟨kv, hkv, hfst⟩
        rw [List.mem_filter] at hkv
        refine ⟨kv.2, ?_, of_decide_eq_true hkv.2⟩
        rw [← hfst]
        exact (mem_kvIterator _ _ _ _).mp hkv.1
      · rintro ⟨c, hget, hge⟩
        refine ⟨(e, c), ?_, rfl⟩
        rw [List.mem_filter]
        exact ⟨(mem_kvIterator _ _ _ _).mpr hget, decide_eq_true hge⟩
  · rintro (htot | ⟨e, c, hget, hlt⟩)
    · exact ⟨.thresholdOverflow, by
        simp only [EpochSigning.EligibleEntities, if_neg hn0, if_pos (hcheck.mpr htot)]⟩
    · by_cases hle : es.Total > maxUint64 / thresholdNumerator
      · exact ⟨.thresholdOverflow, by
          simp only [EpochSigning.EligibleEntities, if_neg hn0, if_pos hle]⟩
      · refine ⟨.comparisonOverflow, ?_⟩
        have hex : ∃ kv ∈ kvIterator (fun a b : PublicKey => a ≤ b) es.ByEntity,
            2 ^ 64 - 1 < kv.2 * thresholdDenominator :=
          ⟨(e, c), (mem_kvIterator _ _ _ _).mpr hget, hlt⟩
        simp only [EpochSigning.EligibleEntities, if_neg hn0, if_neg hle,
          EpochSigning.EligibleEntities.loop_error _ _ hden _ _ hex]

/-- Witness of `EpochSigning.EligibleEntities_spec`: of 10 blocks, entity 9 signed 8, entity 3
signed 10 and entity 5 signed 2; the threshold is 3/4. -/
theorem EpochSigning.EligibleEntities_spec_witness :
    0 < 3 ∧ 0 < 4 ∧
    EpochSigning.EligibleEntities { Total := 10, ByEntity := [(9, 8), (3, 10), (5, 2)] } 3 4
      = .ok [3, 9] ∧
    ∃ eligibleEntities,
      EpochSigning.EligibleEntities { Total := 10, ByEntity := [(9, 8), (3, 10), (5, 2)] } 3 4
        = .ok eligibleEntities ∧
      eligibleEntities.Sorted (fun a b => a < b) ∧
      ∀ e, e ∈ eligibleEntities ↔
        ∃ c, kvGet [(9, 8), (3, 10), (5, 2)] e = some c ∧ 10 * 3 ≤ c * 4 :=
  ⟨by decide, by decide, by decide,
   (EpochSigning.EligibleEntities_spec { Total := 10, ByEntity := [(9, 8), (3, 10), (5, 2)] } 3 4
      (by decide) (by decide)).1
      ⟨by decide, fun e c h =>
        (by decide : ∀ kv ∈ [((9 : Nat), (8 : Nat)), (3, 10), (5, 2)], kv.2 * 4 ≤ 2 ^ 64 - 1)
          (e, c) (kvGet_mem _ e c h)⟩⟩

end Staking

namespace Upgrade

/-! ## Lemmas on the upgrade manager -/

theorem Descriptor.Equals_iff (d other : Descriptor) : d.Equals other = true ↔ d = other := by
  simp [Descriptor.Equals]

theorem pending_any_equals (pending : List PendingUpgrade) (d : Descriptor) :
    pending.any (fun pu => pu.Descriptor.Equals d) = true ↔ ∃ pu ∈ pending, pu.Descriptor = d := by
  simp [List.any_eq_true, Descriptor.Equals]

theorem PendingUpgrade.not_completed_of_stages_nil (pu : PendingUpgrade) (h : pu.Stages = []) :
    pu.IsCompleted = false := by
  simp [PendingUpgrade.IsCompleted, PendingUpgrade.HasStage, h]

theorem filter_not_completed_eq (pending : List PendingUpgrade)
    (h : ∀ pu ∈ pending, pu.IsCompleted = false) :
    pending.filter (fun pu => !pu.IsCompleted) = pending := by
  apply List.filter_eq_self.mpr
  intro pu hpu
  simp [h pu hpu]

/-! ## Claims on the upgrade manager -/

/-- C27, counterexample. The pending list holds one upgrade, of handler 1 for epoch 5, with both
stages recorded. Submitting the descriptor of handler 2 for epoch 9 returns no error, but the
pending list afterwards is not the old list followed by the new upgrade: the flush has removed
the completed upgrade. -/
theorem SubmitDescriptor_append_counterexample :
    (SubmitDescriptor
      { pending := [{ Descriptor := { Handler := 1, Epoch := 5 }, UpgradeHeight := 7,
                      Stages := [.Startup, .Consensus] }] }
      (some { Handler := 2, Epoch := 9 })).ret = .ok () ∧
    (SubmitDescriptor
      { pending := [{ Descriptor := { Handler := 1, Epoch := 5 }, UpgradeHeight := 7,
                      Stages := [.Startup, .Consensus] }] }
      (some { Handler := 2, Epoch := 9 })).manager.pending
      = [{ Descriptor := { Handler := 2, Epoch := 9 } }] ∧
    (SubmitDescriptor
      { pending := [{ Descriptor := { Handler := 1, Epoch := 5 }, UpgradeHeight := 7,
                      Stages := [.Startup, .Consensus] }] }
      (some { Handler := 2, Epoch := 9 })).manager.pending
      ≠ [{ Descriptor := { Handler := 1, Epoch := 5 }, UpgradeHeight := 7,
           Stages := [.Startup, .Consensus] },
         { Descriptor := { Handler := 2, Epoch := 9 } }] := by
  decide

/-- C27, amended. `SubmitDescriptor`, for every manager state. Submitting nil returns
`ErrBadDescriptor` and leaves the manager unchanged. Submitting a descriptor equal to one already
pending returns `ErrAlreadyPending` and leaves the manager unchanged. Submitting any other
descriptor returns no error and appends, after the existing entries that are not completed (the
completed ones are dropped from the list), one pending upgrade in state Submitted (no height, no
stages); where no existing entry is completed the list is the old list followed by the new
upgrade. The list is persisted, no handler is invoked, the stop flag is unchanged, and a second
submission of the same descriptor returns `ErrAlreadyPending` and leaves the list unchanged. -/
theorem SubmitDescriptor_idempotent (u : upgradeManager) :
    SubmitDescriptor u none = ⟨u, [], .error .ErrBadDescriptor⟩ ∧
    (∀ d : Descriptor, (∃ pu ∈ u.pending, pu.Descriptor = d) →
      SubmitDescriptor u (some d) = ⟨u, [], .error .ErrAlreadyPending⟩) ∧
    (∀ d : Descriptor, (∀ pu ∈ u.pending, pu.Descriptor ≠ d) →
      (SubmitDescriptor u (some d)).ret = .ok () ∧
      (SubmitDescriptor u (some d)).invoked = [] ∧
      (SubmitDescriptor u (some d)).manager.pending
        = u.pending.filter (fun pu => !pu.IsCompleted)
          ++ [{ Descriptor := d, UpgradeHeight := InvalidUpgradeHeight, Stages := [] }] ∧
      ((∀ pu ∈ u.pending, pu.IsCompleted = false) →
        (SubmitDescriptor u (some d)).manager.pending
          = u.pending
            ++ [{ Descriptor := d, UpgradeHeight := InvalidUpgradeHeight, Stages := [] }]) ∧
      PendingUpgrade.Submitted
        { Descriptor := d, UpgradeHeight := InvalidUpgradeHeight, Stages := [] } ∧
      (SubmitDescriptor u (some d)).manager.store
        = some (SubmitDescriptor u (some d)).manager.pending ∧
      (SubmitDescriptor u (some d)).manager.shouldStop = u.shouldStop ∧
      SubmitDescriptor (SubmitDescriptor u (some d)).manager (some d)
        = ⟨(SubmitDescriptor u (some d)).manager, [], .error .ErrAlreadyPending⟩) := by
  refine ⟨rfl, ?_, ?_⟩
  · intro d h
    have hany := (pending_any_equals u.pending d).mpr h
    simp only [SubmitDescriptor, hany, if_true]
  · intro d h
    have hany : ¬ (u.pending.any (fun pu => pu.Descriptor.Equals d) = true) := by
      rw [pending_any_equals]
      rintro ⟨pu, hpu, heq⟩
      exact h pu hpu heq
    have hnew : PendingUpgrade.IsCompleted
        { Descriptor := d, UpgradeHeight := InvalidUpgradeHeight, Stages := [] } = false :=
      PendingUpgrade.not_completed_of_stages_nil _ rfl
    have hT : SubmitDescriptor u (some d) =
        ⟨{ pending := u.pending.filter (fun pu => !pu.IsCompleted)
              ++ [{ Descriptor := d, UpgradeHeight := InvalidUpgradeHeight, Stages := [] }]
           shouldStop := u.shouldStop
           store := some (u.pending.filter (fun pu => !pu.IsCompleted)
              ++ [{ Descriptor := d, UpgradeHeight := InvalidUpgradeHeight, Stages := [] }]) },
          [], .ok ()⟩ := by
      have hf : (u.pending ++ [({ Descriptor := d } : PendingUpgrade)]).filter
            (fun pu => !pu.IsCompleted)
          = u.pending.filter (fun pu => !pu.IsCompleted)
            ++ [{ Descriptor := d, UpgradeHeight := InvalidUpgradeHeight, Stages := [] }] := by
        rw [List.filter_append]
        rfl
      simp only [SubmitDescriptor, if_neg hany, flushDescriptorLocked, hf, storeOf]
      simp only [List.length_append, List.length_singleton, Nat.add_one_ne_zero, if_false]
    rw [hT]
    refine ⟨rfl, rfl, rfl, ?_, ⟨rfl, rfl⟩, rfl, rfl, ?_⟩
    · intro hc
      simp only []
      rw [filter_not_completed_eq _ hc]
    · have hany2 : (u.pending.filter (fun pu => !pu.IsCompleted)
          ++ [({ Descriptor := d, UpgradeHeight := InvalidUpgradeHeight, Stages := [] }
                : PendingUpgrade)]).any
            (fun pu => pu.Descriptor.Equals d) = true := by
        rw [pending_any_equals]
        exact ⟨_, List.mem_append_right _ (List.mem_singleton_self _), rfl⟩
      simp only [SubmitDescriptor, hany2, if_true]

/-- Witness of `SubmitDescriptor_idempotent`: the descriptor of handler 2 for epoch 9 is
submitted twice to a manager that holds the upgrade of handler 1 for epoch 5. -/
theorem SubmitDescriptor_idempotent_witness :
    (SubmitDescriptor { pending := [{ Descriptor := { Handler := 1, Epoch := 5 } }] }
      (some { Handler := 2, Epoch := 9 })).manager.pending
      = [{ Descriptor := { Handler := 1, Epoch := 5 } },
         { Descriptor := { Handler := 2, Epoch := 9 } }] ∧
    (SubmitDescriptor
      (SubmitDescriptor { pending := [{ Descriptor := { Handler := 1, Epoch := 5 } }] }
        (some { Handler := 2, Epoch := 9 })).manager
      (some { Handler := 2, Epoch := 9 })).ret = .error .ErrAlreadyPending :=
  have h := (SubmitDescriptor_idempotent
    { pending := [{ Descriptor := { Handler := 1, Epoch := 5 } }] }).2.2
    { Handler := 2, Epoch := 9 } (by decide)
  ⟨h.2.2.1.trans (by decide), congrArg Outcome.ret h.2.2.2.2.2.2.2⟩

end Upgrade

namespace Upgrade

theorem PendingUpgrade.Submitted_iff (pu : PendingUpgrade) :
    pu.Submitted ↔ ¬ (pu.UpgradeHeight ≠ InvalidUpgradeHeight ∨ pu.HasAnyStages = true) := by
  unfold PendingUpgrade.Submitted PendingUpgrade.HasAnyStages
  cases hS : pu.Stages with
  | nil => simp
  | cons a l => simp

/-- The loop of `CancelUpgrade` when every upgrade of the descriptor is in the state
Submitted: the upgrades of other descriptors are kept, in their order. -/
theorem CancelUpgrade.scan_ok (d : Descriptor) :
    ∀ (l pending : List PendingUpgrade),
      (∀ pu ∈ l, pu.Descriptor = d → pu.Submitted) →
      CancelUpgrade.scan d l pending
        = .ok (pending ++ l.filter (fun pu => !pu.Descriptor.Equals d)) := by
  intro l
  induction l with
  | nil =>
    intro pending _
    simp only [CancelUpgrade.scan, List.filter_nil, List.append_nil]
  | cons pu rest ih =>
    intro pending h
    have hrest : ∀ x ∈ rest, x.Descriptor = d → x.Submitted :=
      fun x hx => h x (List.mem_cons_of_mem _ hx)
    cases heq : pu.Descriptor.Equals d with
    | false =>
      simp only [CancelUpgrade.scan, heq, Bool.not_false, if_true, List.filter_cons]
      rw [ih _ hrest, List.append_assoc]
      rfl
    | true =>
      have hsub := (PendingUpgrade.Submitted_iff pu).mp
        (h pu (List.mem_cons_self _ _) ((Descriptor.Equals_iff _ _).mp heq))
      simp only [CancelUpgrade.scan, heq, Bool.not_true, Bool.false_eq_true, if_false,
        if_neg hsub, List.filter_cons]
      exact ih _ hrest

/-- The loop of `CancelUpgrade` when some upgrade of the descriptor has a height or a stage. -/
theorem CancelUpgrade.scan_error (d : Descriptor) :
    ∀ (l pending : List PendingUpgrade),
      (∃ pu ∈ l, pu.Descriptor = d ∧ ¬ pu.Submitted) →
      CancelUpgrade.scan d l pending = .error .ErrUpgradeInProgress := by
  intro l
  induction l with
  | nil =>
    intro pending h
    obtain ⟨pu, hpu, _⟩ := h
    cases hpu
  | cons pu rest ih =>
    intro pending h
    cases heq : pu.Descriptor.Equals d with
    | false =>
      have hrest : ∃ x ∈ rest, x.Descriptor = d ∧ ¬ x.Submitted := by
        obtain ⟨x, hx, hd, hs⟩ := h
        rcases List.mem_cons.mp hx with h1 | h1
        · rw [h1] at hd
          rw [(Descriptor.Equals_iff _ _).mpr hd] at heq
          cases heq
        · exact ⟨x, h1, hd, hs⟩
      simp only [CancelUpgrade.scan, heq, Bool.not_false, if_true]
      exact ih _ hrest
    | true =>
      by_cases hsub : pu.UpgradeHeight ≠ InvalidUpgradeHeight ∨ pu.HasAnyStages = true
      · simp only [CancelUpgrade.scan, heq, Bool.not_true, Bool.false_eq_true, if_false,
          if_pos hsub]
      · have hrest : ∃ x ∈ rest, x.Descriptor = d ∧ ¬ x.Submitted := by
          obtain ⟨x, hx, hd, hs⟩ := h
          rcases List.mem_cons.mp hx with h1 | h1
          · rw [h1] at hs
            exact absurd ((PendingUpgrade.Submitted_iff pu).mpr hsub) hs
          · exact ⟨x, h1, hd, hs⟩
        simp only [CancelUpgrade.scan, heq, Bool.not_true, Bool.false_eq_true, if_false,
          if_neg hsub]
        exact ih _ hrest

/-- The outcome of `CancelUpgrade` when every upgrade of the descriptor is Submitted. -/
theorem CancelUpgrade_ok (u : upgradeManager) (d : Descriptor)
    (h : ∀ pu ∈ u.pending, pu.Descriptor = d → pu.Submitted) :
    CancelUpgrade u (some d) =
      ⟨flushDescriptorLocked
        { u with pending := u.pending.filter (fun pu => !pu.Descriptor.Equals d) }, [],
        .ok ()⟩ := by
  by_cases hlen : u.pending.length = 0
  · have hnil : u.pending = [] := List.length_eq_zero.mp hlen
    obtain ⟨pending, shouldStop, store⟩ := u
    simp only [] at hnil
    subst hnil
    rfl
  · simp only [CancelUpgrade, if_neg hlen, CancelUpgrade.scan_ok d u.pending [] h,
      List.nil_append]

theorem CancelUpgrade_error (u : upgradeManager) (d : Descriptor)
    (h : ∃ pu ∈ u.pending, pu.Descriptor = d ∧ ¬ pu.Submitted) :
    CancelUpgrade u (some d) = ⟨u, [], .error .ErrUpgradeInProgress⟩ := by
  have hlen : ¬ u.pending.length = 0 := by
    obtain ⟨pu, hpu, _⟩ := h
    intro h0
    rw [List.length_eq_zero.mp h0] at hpu
    cases hpu
  simp only [CancelUpgrade, if_neg hlen, CancelUpgrade.scan_error d u.pending [] h]

/-- C28, counterexample. The pending list holds the upgrade of handler 1 for epoch 5, with both
stages recorded, and the Submitted upgrade of handler 2 for epoch 9. Cancelling the descriptor of
handler 2 returns no error, but the other pending upgrade is not kept: the flush has removed the
completed upgrade, and the pending list is empty. -/
theorem CancelUpgrade_counterexample :
    (CancelUpgrade
      { pending := [{ Descriptor := { Handler := 1, Epoch := 5 }, UpgradeHeight := 7,
                      Stages := [.Startup, .Consensus] },
                    { Descriptor := { Handler := 2, Epoch := 9 } }] }
      (some { Handler := 2, Epoch := 9 })).ret = .ok () ∧
    (CancelUpgrade
      { pending := [{ Descriptor := { Handler := 1, Epoch := 5 }, UpgradeHeight := 7,
                      Stages := [.Startup, .Consensus] },
                    { Descriptor := { Handler := 2, Epoch := 9 } }] }
      (some { Handler := 2, Epoch := 9 })).manager.pending = [] ∧
    (CancelUpgrade
      { pending := [{ Descriptor := { Handler := 1, Epoch := 5 }, UpgradeHeight := 7,
                      Stages := [.Startup, .Consensus] },
                    { Descriptor := { Handler := 2, Epoch := 9 } }] }
      (some { Handler := 2, Epoch := 9 })).manager.pending
      ≠ [{ Descriptor := { Handler := 1, Epoch := 5 }, UpgradeHeight := 7,
           Stages := [.Startup, .Consensus] }] := by
  decide

/-- C28, as amended. `CancelUpgrade`. `CancelUpgrade(nil)` returns `ErrBadDescriptor`.
`CancelUpgrade(D)` returns no error if and only if every pending upgrade of `D` has an invalid
`UpgradeHeight` and no stages recorded. It then removes `D` and the completed upgrades, which the
flush drops, and keeps all other pending upgrades in their order; where no pending upgrade is
completed the list is the old list without `D`. The list is persisted, no handler is invoked and
the stop flag is unchanged. Otherwise, when a pending upgrade of `D` has a height or a stage, the
call returns `ErrUpgradeInProgress` and the manager, its pending list included, is unchanged. -/
theorem CancelUpgrade_spec (u : upgradeManager) (d : Descriptor) :
    CancelUpgrade u none = ⟨u, [], .error .ErrBadDescriptor⟩ ∧
    ((CancelUpgrade u (some d)).ret = .ok () ↔
      ∀ pu ∈ u.pending, pu.Descriptor = d → pu.Submitted) ∧
    ((∀ pu ∈ u.pending, pu.Descriptor = d → pu.Submitted) →
      (CancelUpgrade u (some d)).manager.pending
        = (u.pending.filter (fun pu => decide (pu.Descriptor ≠ d))).filter
            (fun pu => !pu.IsCompleted) ∧
      ((∀ pu ∈ u.pending, pu.IsCompleted = false) →
        (CancelUpgrade u (some d)).manager.pending
          = u.pending.filter (fun pu => decide (pu.Descriptor ≠ d))) ∧
      (∀ pu ∈ (CancelUpgrade u (some d)).manager.pending, pu.Descriptor ≠ d) ∧
      (CancelUpgrade u (some d)).manager.store
        = storeOf (CancelUpgrade u (some d)).manager.pending ∧
      (CancelUpgrade u (some d)).manager.shouldStop = u.shouldStop ∧
      (CancelUpgrade u (some d)).invoked = []) ∧
    ((∃ pu ∈ u.pending, pu.Descriptor = d ∧ ¬ pu.Submitted) →
      CancelUpgrade u (some d) = ⟨u, [], .error .ErrUpgradeInProgress⟩) := by
  have hfilter : u.pending.filter (fun pu => !pu.Descriptor.Equals d)
      = u.pending.filter (fun pu => decide (pu.Descriptor ≠ d)) := by
    apply List.filter_congr
    intro pu _
    simp [Descriptor.Equals]
  refine ⟨rfl, ⟨?_, ?_⟩, ?_, CancelUpgrade_error u d⟩
  · intro hok
    by_contra hno
    have hex : ∃ pu ∈ u.pending, pu.Descriptor = d ∧ ¬ pu.Submitted := by
      by_contra hne
      apply hno
      intro pu hpu hd
      by_contra hs
      exact hne ⟨pu, hpu, hd, hs⟩
    rw [CancelUpgrade_error u d hex] at hok
    cases hok
  · intro h
    rw [CancelUpgrade_ok u d h]
  · intro h
    rw [CancelUpgrade_ok u d h, hfilter]
    refine ⟨rfl, ?_, ?_, rfl, rfl, rfl⟩
    · intro hc
      simp only [flushDescriptorLocked]
      exact filter_not_completed_eq _ (fun pu hpu => hc pu (List.mem_filter.mp hpu).1)
    · intro pu hpu
      simp only [flushDescriptorLocked] at hpu
      have := (List.mem_filter.mp (List.mem_filter.mp hpu).1).2
      exact of_decide_eq_true this

/-- Witness of `CancelUpgrade_spec`: of three pending upgrades the one of handler 2 is cancelled;
the upgrade of handler 3, which has a height, cannot be cancelled. -/
theorem CancelUpgrade_spec_witness :
    (CancelUpgrade
      { pending := [{ Descriptor := { Handler := 1, Epoch := 5 } },
                    { Descriptor := { Handler := 2, Epoch := 9 } },
                    { Descriptor := { Handler := 3, Epoch := 4 }, UpgradeHeight := 70 }] }
      (some { Handler := 2, Epoch := 9 })).manager.pending
      = [{ Descriptor := { Handler := 1, Epoch := 5 } },
         { Descriptor := { Handler := 3, Epoch := 4 }, UpgradeHeight := 70 }] ∧
    (CancelUpgrade
      { pending := [{ Descriptor := { Handler := 1, Epoch := 5 } },
                    { Descriptor := { Handler := 2, Epoch := 9 } },
                    { Descriptor := { Handler := 3, Epoch := 4 }, UpgradeHeight := 70 }] }
      (some { Handler := 3, Epoch := 4 })).ret = .error .ErrUpgradeInProgress :=
  have h := CancelUpgrade_spec
    { pending := [{ Descriptor := { Handler := 1, Epoch := 5 } },
                  { Descriptor := { Handler := 2, Epoch := 9 } },
                  { Descriptor := { Handler := 3, Epoch := 4 }, UpgradeHeight := 70 }] }
    { Handler := 2, Epoch := 9 }
  have h3 := CancelUpgrade_spec
    { pending := [{ Descriptor := { Handler := 1, Epoch := 5 } },
                  { Descriptor := { Handler := 2, Epoch := 9 } },
                  { Descriptor := { Handler := 3, Epoch := 4 }, UpgradeHeight := 70 }] }
    { Handler := 3, Epoch := 4 }
  ⟨(h.2.2.1 (by decide)).1.trans (by decide),
   congrArg Outcome.ret (h3.2.2.2 (by decide))⟩

end Upgrade

namespace Upgrade

theorem PendingUpgrade.HasStage_PushStage (pu : PendingUpgrade) (stage : UpgradeStage) :
    (pu.PushStage stage).HasStage stage = true := by
  simp [PendingUpgrade.HasStage, PendingUpgrade.PushStage]

/-- The steps that the loop of `StartupUpgrade` invokes are startup steps of upgrades it visits
that have a height and no startup stage recorded. -/
theorem StartupUpgrade.loop_invoked (env : Environment) :
    ∀ (rest done : List PendingUpgrade) (invoked : List Invocation),
      ∀ inv ∈ (StartupUpgrade.loop env done rest invoked).2.1,
        inv ∈ invoked ∨
        (inv.stage = .Startup ∧ inv.upgrade ∈ rest ∧
          inv.upgrade.UpgradeHeight ≠ InvalidUpgradeHeight ∧
          inv.upgrade.HasStage .Startup = false) := by
  intro rest
  induction rest with
  | nil =>
    intro done invoked inv hinv
    exact Or.inl hinv
  | cons pu rest ih =>
    intro done invoked inv hinv
    have hlift : ∀ (done1 : List PendingUpgrade) (invoked1 : List Invocation),
        (∀ x ∈ invoked1, x ∈ invoked ∨ (x.stage = .Startup ∧ x.upgrade ∈ pu :: rest ∧
          x.upgrade.UpgradeHeight ≠ InvalidUpgradeHeight ∧
          x.upgrade.HasStage .Startup = false)) →
        inv ∈ (StartupUpgrade.loop env done1 rest invoked1).2.1 →
        inv ∈ invoked ∨ (inv.stage = .Startup ∧ inv.upgrade ∈ pu :: rest ∧
          inv.upgrade.UpgradeHeight ≠ InvalidUpgradeHeight ∧
          inv.upgrade.HasStage .Startup = false) := by
      intro done1 invoked1 h1 h
      rcases ih done1 invoked1 inv h with h2 | ⟨h2, h3, h4, h5⟩
      · exact h1 inv h2
      · exact Or.inr ⟨h2, List.mem_cons_of_mem _ h3, h4, h5⟩
    by_cases hh : pu.UpgradeHeight = InvalidUpgradeHeight
    · simp only [StartupUpgrade.loop, if_pos hh] at hinv
      exact hlift _ _ (fun x hx => Or.inl hx) hinv
    · cases hs : pu.HasStage .Startup with
      | true =>
        simp only [StartupUpgrade.loop, if_neg hh, hs, if_true] at hinv
        exact hlift _ _ (fun x hx => Or.inl hx) hinv
      | false =>
        have hnew : ∀ x ∈ invoked ++ [(⟨pu, .Startup⟩ : Invocation)],
            x ∈ invoked ∨ (x.stage = .Startup ∧ x.upgrade ∈ pu :: rest ∧
              x.upgrade.UpgradeHeight ≠ InvalidUpgradeHeight ∧
              x.upgrade.HasStage .Startup = false) := by
          intro x hx
          rcases List.mem_append.mp hx with h1 | h1
          · exact Or.inl h1
          · rw [List.mem_singleton.mp h1]
            exact Or.inr ⟨rfl, List.mem_cons_self _ _, hh, hs⟩
        cases hg : env.GetHandler pu.Descriptor.Handler with
        | error e =>
          simp only [StartupUpgrade.loop, if_neg hh, hs, Bool.false_eq_true, if_false, hg] at hinv
          exact Or.inl hinv
        | ok handler =>
          cases hr : handler.StartupUpgrade with
          | error e =>
            simp only [StartupUpgrade.loop, if_neg hh, hs, Bool.false_eq_true, if_false, hg,
              hr] at hinv
            exact hnew inv hinv
          | ok v =>
            simp only [StartupUpgrade.loop, if_neg hh, hs, Bool.false_eq_true, if_false, hg,
              hr] at hinv
            exact hlift _ _ hnew hinv

/-- The loop of `StartupUpgrade` passes over a list of settled upgrades. -/
theorem StartupUpgrade.loop_settled (env : Environment) :
    ∀ (rest done : List PendingUpgrade) (invoked : List Invocation),
      (∀ pu ∈ rest, pu.StartupSettled) →
      StartupUpgrade.loop env done rest invoked = (done ++ rest, invoked, .ok ()) := by
  intro rest
  induction rest with
  | nil =>
    intro done invoked _
    simp only [StartupUpgrade.loop, List.append_nil]
  | cons pu rest ih =>
    intro done invoked h
    have hrest : ∀ x ∈ rest, x.StartupSettled := fun x hx => h x (List.mem_cons_of_mem _ hx)
    have hstep : StartupUpgrade.loop env done (pu :: rest) invoked
        = StartupUpgrade.loop env (done ++ [pu]) rest invoked := by
      by_cases hh : pu.UpgradeHeight = InvalidUpgradeHeight
      · simp only [StartupUpgrade.loop, if_pos hh]
      · rcases h pu (List.mem_cons_self _ _) with h1 | h1
        · exact absurd h1 hh
        · simp only [StartupUpgrade.loop, if_neg hh, h1, if_true]
    rw [hstep, ih _ _ hrest, List.append_assoc]
    rfl

/-- After a loop of `StartupUpgrade` without error every upgrade is settled, if those visited
before were. -/
theorem StartupUpgrade.loop_settles (env : Environment) :
    ∀ (rest done : List PendingUpgrade) (invoked : List Invocation),
      (∀ pu ∈ done, pu.StartupSettled) →
      (StartupUpgrade.loop env done rest invoked).2.2 = .ok () →
      ∀ pu ∈ (StartupUpgrade.loop env done rest invoked).1, pu.StartupSettled := by
  intro rest
  induction rest with
  | nil =>
    intro done invoked hd _ pu hpu
    exact hd pu hpu
  | cons pu rest ih =>
    intro done invoked hd hok
    have hext : ∀ x : PendingUpgrade, x.StartupSettled →
        ∀ y ∈ done ++ [x], y.StartupSettled := by
      intro x hx y hy
      rcases List.mem_append.mp hy with h1 | h1
      · exact hd y h1
      · rw [List.mem_singleton.mp h1]
        exact hx
    by_cases hh : pu.UpgradeHeight = InvalidUpgradeHeight
    · simp only [StartupUpgrade.loop, if_pos hh] at hok ⊢
      exact ih _ _ (hext pu (Or.inl hh)) hok
    · cases hs : pu.HasStage .Startup with
      | true =>
        simp only [StartupUpgrade.loop, if_neg hh, hs, if_true] at hok ⊢
        exact ih _ _ (hext pu (Or.inr hs)) hok
      | false =>
        cases hg : env.GetHandler pu.Descriptor.Handler with
        | error e =>
          simp only [StartupUpgrade.loop, if_neg hh, hs, Bool.false_eq_true, if_false, hg] at hok
          cases hok
        | ok handler =>
          cases hr : handler.StartupUpgrade with
          | error e =>
            simp only [StartupUpgrade.loop, if_neg hh, hs, Bool.false_eq_true, if_false, hg,
              hr] at hok
            cases hok
          | ok v =>
            simp only [StartupUpgrade.loop, if_neg hh, hs, Bool.false_eq_true, if_false, hg,
              hr] at hok ⊢
            exact ih _ _
              (hext _ (Or.inr (PendingUpgrade.HasStage_PushStage pu .Startup))) hok

theorem flushDescriptorLocked_idem (u : upgradeManager) :
    flushDescriptorLocked (flushDescriptorLocked u) = flushDescriptorLocked u := by
  simp only [flushDescriptorLocked, List.filter_filter, Bool.and_self]

/-- The outcome of `StartupUpgrade` on a manager whose upgrades are all settled and none of
them completed: nothing happens. -/
theorem StartupUpgrade_settled (env : Environment) (m : upgradeManager)
    (hsettled : ∀ pu ∈ m.pending, pu.StartupSettled)
    (hflush : flushDescriptorLocked m = m) :
    StartupUpgrade env m = ⟨m, [], .ok ()⟩ := by
  have h2 := StartupUpgrade.loop_settled env m.pending [] [] hsettled
  rw [List.nil_append] at h2
  have hm : ({ m with pending := m.pending } : upgradeManager) = m := rfl
  simp only [StartupUpgrade, h2, hm, hflush]

/-- C29. Re-running `StartupUpgrade` is a no-op, for every manager state and every registry of
handlers. Every step that `StartupUpgrade` invokes is the startup step of a pending upgrade that
has an `UpgradeHeight` and no startup stage recorded: the startup handler of an upgrade with the
startup stage recorded, or without height, is never invoked. And a second `StartupUpgrade` right
after one that returned no error, whatever the handlers do then, returns no error, invokes no
handler and leaves the manager, its pending list included, unchanged. -/
theorem StartupUpgrade_rerun (env : Environment) (u : upgradeManager) :
    (∀ inv ∈ (StartupUpgrade env u).invoked,
      inv.stage = .Startup ∧ inv.upgrade ∈ u.pending ∧
      inv.upgrade.UpgradeHeight ≠ InvalidUpgradeHeight ∧
      inv.upgrade.HasStage .Startup = false) ∧
    ((StartupUpgrade env u).ret = .ok () →
      ∀ env2 : Environment,
        StartupUpgrade env2 (StartupUpgrade env u).manager
          = ⟨(StartupUpgrade env u).manager, [], .ok ()⟩) := by
  constructor
  · intro inv hinv
    have hinv2 : inv ∈ (StartupUpgrade.loop env [] u.pending []).2.1 := by
      unfold StartupUpgrade at hinv
      simp only [] at hinv
      split at hinv <;> exact hinv
    rcases StartupUpgrade.loop_invoked env u.pending [] [] inv hinv2 with h | h
    · cases h
    · exact h
  · intro hok env2
    have hloop : (StartupUpgrade.loop env [] u.pending []).2.2 = .ok () := by
      unfold StartupUpgrade at hok
      simp only [] at hok
      split at hok
      · cases hok
      · rename_i h
        exact h
    have hm : (StartupUpgrade env u).manager
        = flushDescriptorLocked
            { u with pending := (StartupUpgrade.loop env [] u.pending []).1 } := by
      simp only [StartupUpgrade, hloop]
    have hsettled : ∀ pu ∈ (StartupUpgrade env u).manager.pending, pu.StartupSettled := by
      intro pu hpu
      rw [hm] at hpu
      simp only [flushDescriptorLocked] at hpu
      exact StartupUpgrade.loop_settles env u.pending [] []
        (fun x hx => by cases hx) hloop pu (List.mem_filter.mp hpu).1
    have hflush : flushDescriptorLocked (StartupUpgrade env u).manager
        = (StartupUpgrade env u).manager := by
      rw [hm]
      exact flushDescriptorLocked_idem _
    exact StartupUpgrade_settled env2 _ hsettled hflush

/-- Witness of `StartupUpgrade_rerun`: a registry whose handler has a startup stage and whose
steps succeed, and one pending upgrade with a height. -/
theorem StartupUpgrade_rerun_witness :
    (StartupUpgrade
      { GetHandler := fun _ => .ok
          { HasStartupUpgrade := true, StartupUpgrade := .ok (),
            ConsensusUpgrade := fun _ => .ok () },
        EnsureCompatible := fun _ => .ok () }
      { pending := [{ Descriptor := { Handler := 1, Epoch := 5 }, UpgradeHeight := 70 }] }).ret
      = .ok () ∧
    (StartupUpgrade
      { GetHandler := fun _ => .ok
          { HasStartupUpgrade := true, StartupUpgrade := .ok (),
            ConsensusUpgrade := fun _ => .ok () },
        EnsureCompatible := fun _ => .ok () }
      (StartupUpgrade
        { GetHandler := fun _ => .ok
            { HasStartupUpgrade := true, StartupUpgrade := .ok (),
              ConsensusUpgrade := fun _ => .ok () },
          EnsureCompatible := fun _ => .ok () }
        { pending := [{ Descriptor := { Handler := 1, Epoch := 5 }, UpgradeHeight := 70 }] }
        ).manager).invoked = [] :=
  ⟨by decide,
   congrArg Outcome.invoked
    ((StartupUpgrade_rerun
      { GetHandler := fun _ => .ok
          { HasStartupUpgrade := true, StartupUpgrade := .ok (),
            ConsensusUpgrade := fun _ => .ok () },
        EnsureCompatible := fun _ => .ok () }
      { pending := [{ Descriptor := { Handler := 1, Epoch := 5 }, UpgradeHeight := 70 }] }).2
      (by decide) _)⟩

end Upgrade

namespace Upgrade

/-- The loop of `ConsensusUpgrade` over upgrades without height whose epoch is still to come:
nothing is invoked or written. -/
theorem ConsensusUpgrade.loop_before (env : Environment) (privateCtx : Option PrivateCtx)
    (currentEpoch : Staking.EpochTime) (currentHeight : Int) :
    ∀ (rest : List PendingUpgrade) (done : List Slot) (st : ConsensusUpgrade.LoopState),
      (∀ pu ∈ rest, pu.UpgradeHeight = InvalidUpgradeHeight ∧ currentEpoch < pu.Descriptor.Epoch) →
      ConsensusUpgrade.loop env privateCtx currentEpoch currentHeight done rest st
        = (done ++ rest.map (Slot.unvisited st.flushed), st, .ok ()) := by
  intro rest
  induction rest with
  | nil =>
    intro done st _
    simp only [ConsensusUpgrade.loop, List.map_nil, List.append_nil]
  | cons pu rest ih =>
    intro done st h
    have hpu := h pu (List.mem_cons_self _ _)
    simp only [ConsensusUpgrade.loop, if_pos hpu.1, if_pos hpu.2]
    rw [ih _ _ (fun x hx => h x (List.mem_cons_of_mem _ hx)), List.append_assoc]
    rfl

theorem listedUpgrades_unflushed (pending : List PendingUpgrade)
    (h : ∀ pu ∈ pending, pu.IsCompleted = false) :
    listedUpgrades (flushSlots (pending.map (Slot.unvisited false))) = pending := by
  induction pending with
  | nil => rfl
  | cons pu rest ih =>
    have hpu := h pu (List.mem_cons_self _ _)
    have hrest := ih (fun x hx => h x (List.mem_cons_of_mem _ hx))
    simp only [listedUpgrades, flushSlots, List.map_cons, Slot.unvisited, Bool.false_and,
      Bool.not_false, Bool.true_and, hpu, List.filter_cons, if_true] at hrest ⊢
    rw [hrest]

/-- C30. Before the upgrade epoch `ConsensusUpgrade` leaves the state unchanged: for every
manager that is not stopping and whose pending upgrades are all Submitted (no height, no stages)
with `Descriptor.Epoch > currentEpoch`, whatever the handlers, the private context and the current
height are, the call returns no error, invokes no handler, and leaves the pending list, with the
height and the stages of every pending upgrade, and the stop flag unchanged; the store holds the
pending list afterwards, so a manager whose store held it before is unchanged altogether. -/
theorem ConsensusUpgrade_before_epoch (env : Environment) (u : upgradeManager)
    (privateCtx : Option PrivateCtx) (currentEpoch : Staking.EpochTime) (currentHeight : Int)
    (hstop : u.shouldStop = false)
    (hpending : ∀ pu ∈ u.pending, pu.Submitted ∧ currentEpoch < pu.Descriptor.Epoch) :
    (ConsensusUpgrade env u privateCtx currentEpoch currentHeight).ret = .ok () ∧
    (ConsensusUpgrade env u privateCtx currentEpoch currentHeight).invoked = [] ∧
    (ConsensusUpgrade env u privateCtx currentEpoch currentHeight).manager.pending = u.pending ∧
    (ConsensusUpgrade env u privateCtx currentEpoch currentHeight).manager.shouldStop
      = u.shouldStop ∧
    (ConsensusUpgrade env u privateCtx currentEpoch currentHeight).manager.store
      = storeOf u.pending ∧
    (u.store = storeOf u.pending →
      (ConsensusUpgrade env u privateCtx currentEpoch currentHeight).manager = u) := by
  have hloop := ConsensusUpgrade.loop_before env privateCtx currentEpoch currentHeight u.pending []
    { flushed := false, shouldStop := u.shouldStop, store := u.store, invoked := [] }
    (fun pu hpu => ⟨(hpending pu hpu).1.1, (hpending pu hpu).2⟩)
  have hlisted := listedUpgrades_unflushed u.pending
    (fun pu hpu => PendingUpgrade.not_completed_of_stages_nil pu (hpending pu hpu).1.2)
  have hT : ConsensusUpgrade env u privateCtx currentEpoch currentHeight
      = ⟨{ pending := u.pending, shouldStop := u.shouldStop, store := storeOf u.pending },
          [], .ok ()⟩ := by
    have hs : ¬ u.shouldStop = true := by rw [hstop]; exact Bool.false_ne_true
    simp only [ConsensusUpgrade, if_neg hs, hloop, List.nil_append, hlisted]
  rw [hT]
  refine ⟨rfl, rfl, rfl, rfl, rfl, ?_⟩
  intro hstore
  simp only []
  rw [← hstore]

/-- Witness of `ConsensusUpgrade_before_epoch`: a descriptor for epoch 5, and the call at
epoch 4. -/
theorem ConsensusUpgrade_before_epoch_witness :
    ({ pending := [{ Descriptor := { Handler := 1, Epoch := 5 } }],
       store := some [{ Descriptor := { Handler := 1, Epoch := 5 } }] } : upgradeManager
      ).shouldStop = false ∧
    ConsensusUpgrade
      { GetHandler := fun _ => .error .ErrUpgradeNotFound, EnsureCompatible := fun _ => .ok () }
      { pending := [{ Descriptor := { Handler := 1, Epoch := 5 } }],
        store := some [{ Descriptor := { Handler := 1, Epoch := 5 } }] }
      (some 0) 4 40
      = ⟨{ pending := [{ Descriptor := { Handler := 1, Epoch := 5 } }],
           store := some [{ Descriptor := { Handler := 1, Epoch := 5 } }] }, [], .ok ()⟩ :=
  have h := ConsensusUpgrade_before_epoch
    { GetHandler := fun _ => .error .ErrUpgradeNotFound, EnsureCompatible := fun _ => .ok () }
    { pending := [{ Descriptor := { Handler := 1, Epoch := 5 } }],
      store := some [{ Descriptor := { Handler := 1, Epoch := 5 } }] }
    (some 0) 4 40 rfl (by decide)
  ⟨rfl, by
    have h1 := h.1
    have h2 := h.2.1
    have h6 := h.2.2.2.2.2 (by decide)
    generalize ConsensusUpgrade
      { GetHandler := fun _ => .error .ErrUpgradeNotFound, EnsureCompatible := fun _ => .ok () }
      { pending := [{ Descriptor := { Handler := 1, Epoch := 5 } }],
        store := some [{ Descriptor := { Handler := 1, Epoch := 5 } }] }
      (some 0) 4 40 = o at h1 h2 h6 ⊢
    cases o
    simp only [] at h1 h2 h6
    rw [h1, h2, h6]⟩

end Upgrade

namespace Governance

open Staking (kvGet kvInsert keyInsert EpochTime Address)

/-! ## Lemmas on the governance genesis -/

theorem foldl_SetVote_proposals (id : Nat) (votes : List VoteEntry) :
    ∀ s : State,
      (votes.foldl (fun s vote => s.SetVote id vote.Voter vote.Vote) s).proposals
        = s.proposals := by
  induction votes with
  | nil => intro s; rfl
  | cons v rest ih =>
    intro s
    rw [List.foldl_cons, ih]
    rfl

theorem foldl_SetPendingUpgrade_proposals (ups : List (UpgradeDescriptor × Nat)) :
    ∀ s : State,
      (ups.foldl (fun s up => s.SetPendingUpgrade up.2 up.1) s).proposals = s.proposals := by
  induction ups with
  | nil => intro s; rfl
  | cons v rest ih =>
    intro s
    rw [List.foldl_cons, ih]
    rfl

/-- The proposals table after one turn of the loop: the proposal is stored under its
identifier. -/
theorem InitChain.insertProposals_cons (st : Genesis) (proposal : Proposal)
    (rest : List Proposal) (largest : Nat) (state : State) :
    ∃ state2 : State,
      state2.proposals = kvInsert state.proposals proposal.ID proposal ∧
      InitChain.insertProposals st (proposal :: rest) largest state
        = InitChain.insertProposals st rest (max largest proposal.ID) state2 := by
  have hmax : (if proposal.ID > largest then proposal.ID else largest)
      = max largest proposal.ID := by
    by_cases h : proposal.ID > largest
    · rw [if_pos h, Nat.max_eq_right (Nat.le_of_lt h)]
    · rw [if_neg h, Nat.max_eq_left (Nat.not_lt.mp h)]
  refine ⟨((kvGet st.VoteEntries proposal.ID).getD []).foldl
      (fun s vote => s.SetVote proposal.ID vote.Voter vote.Vote)
      (match proposal.State with
        | .Active => state.SetActiveProposal proposal
        | _ => state.SetProposal proposal), ?_, ?_⟩
  · rw [foldl_SetVote_proposals]
    cases proposal.State <;> rfl
  · simp only [InitChain.insertProposals, hmax]

/-- The largest identifier that the loop returns, and the proposals it has stored: one under the
identifier of every proposal of the list, and nothing else that was not stored before. -/
theorem InitChain.insertProposals_spec (st : Genesis) :
    ∀ (proposals : List Proposal) (largest : Nat) (state : State),
      (InitChain.insertProposals st proposals largest state).1
        = max largest (largestID proposals) ∧
      (∀ p ∈ proposals, ∃ q ∈ proposals, q.ID = p.ID ∧
        kvGet (InitChain.insertProposals st proposals largest state).2.proposals p.ID
          = some q) ∧
      (∀ id q, kvGet (InitChain.insertProposals st proposals largest state).2.proposals id
          = some q →
        (q ∈ proposals ∧ q.ID = id) ∨ kvGet state.proposals id = some q) := by
  intro proposals
  induction proposals with
  | nil =>
    intro largest state
    refine ⟨?_, fun p hp => (by cases hp), fun id q h => Or.inr h⟩
    simp [InitChain.insertProposals, largestID]
  | cons proposal rest ih =>
    intro largest state
    obtain ⟨state2, hprops, hstep⟩ := InitChain.insertProposals_cons st proposal rest largest state
    rw [hstep]
    obtain ⟨h1, h2, h3⟩ := ih (max largest proposal.ID) state2
    refine ⟨?_, ?_, ?_⟩
    · rw [h1]
      simp only [largestID, List.map_cons, List.foldr_cons]
      rw [Nat.max_assoc]
    · intro p hp
      by_cases hin : ∃ q ∈ rest, q.ID = p.ID
      · obtain ⟨q0, hq0, hid0⟩ := hin
        obtain ⟨q, hq, hid, hget⟩ := h2 q0 hq0
        rw [hid0] at hid hget
        exact ⟨q, List.mem_cons_of_mem _ hq, hid, hget⟩
      · have hpid : p.ID = proposal.ID := by
          rcases List.mem_cons.mp hp with h | h
          · rw [h]
          · exact absurd ⟨p, h, rfl⟩ hin
        refine ⟨proposal, List.mem_cons_self _ _, hpid.symm, ?_⟩
        cases hget : kvGet (InitChain.insertProposals st rest (max largest proposal.ID)
            state2).2.proposals p.ID with
        | none =>
          exfalso
          -- the key was inserted before the rest of the loop and is never removed
          have hkeep : ∀ (l : List Proposal) (lg : Nat) (s : State) (id : Nat),
              (kvGet s.proposals id).isSome = true →
              (kvGet (InitChain.insertProposals st l lg s).2.proposals id).isSome = true := by
            intro l
            induction l with
            | nil => intro lg s id h; exact h
            | cons x l ihl =>
              intro lg s id h
              obtain ⟨s2, hp2, hs2⟩ := InitChain.insertProposals_cons st x l lg s
              rw [hs2]
              apply ihl
              rw [hp2]
              exact Staking.kvGet_isSome_kvInsert _ _ _ _ h
          have hsome := hkeep rest (max largest proposal.ID) state2 p.ID (by
            rw [hprops, hpid, Staking.kvGet_kvInsert_self]
            rfl)
          rw [hget] at hsome
          cases hsome
        | some q =>
          rcases h3 p.ID q hget with ⟨hq, _⟩ | hq
          · exact absurd ⟨q, hq, by assumption⟩ hin
          · rw [hprops, hpid, Staking.kvGet_kvInsert_self] at hq
            exact hq.symm ▸ rfl
    · intro id q hget
      rcases h3 id q hget with ⟨hq, hid⟩ | hq
      · exact Or.inl ⟨List.mem_cons_of_mem _ hq, hid⟩
      · rw [hprops] at hq
        by_cases hid : id = proposal.ID
        · rw [hid, Staking.kvGet_kvInsert_self] at hq
          cases hq
          exact Or.inl ⟨List.mem_cons_self _ _, hid.symm⟩
        · rw [Staking.kvGet_kvInsert_ne _ _ _ _ hid] at hq
          exact Or.inr hq

theorem le_largestID (proposals : List Proposal) (p : Proposal) (hp : p ∈ proposals) :
    p.ID ≤ largestID proposals := by
  induction proposals with
  | nil => cases hp
  | cons x rest ih =>
    simp only [largestID, List.map_cons, List.foldr_cons]
    rcases List.mem_cons.mp hp with h | h
    · rw [h]
      exact Nat.le_max_left _ _
    · exact Nat.le_trans (ih h) (Nat.le_max_right _ _)

theorem largestID_lt (proposals : List Proposal) (bound : Nat) (hb : 0 < bound)
    (h : ∀ p ∈ proposals, p.ID < bound) : largestID proposals < bound := by
  induction proposals with
  | nil => exact hb
  | cons x rest ih =>
    simp only [largestID, List.map_cons, List.foldr_cons]
    exact Nat.max_lt.mpr ⟨h x (List.mem_cons_self _ _),
      ih (fun p hp => h p (List.mem_cons_of_mem _ hp))⟩

/-! ## Claims on the governance genesis -/

/-- C26, counterexample. A genesis document with one proposal whose identifier is the largest
`uint64`: `InitChain` stores the proposal and sets `NextProposalIdentifier` to 0, which is not
above the identifier of the stored proposal. -/
theorem InitChain_next_identifier_counterexample :
    ∃ s, InitChain (.ok 0) {} { Proposals := [{ ID := 2 ^ 64 - 1 }] } = .ok s ∧
      s.nextProposalIdentifier = some 0 ∧
      kvGet s.proposals (2 ^ 64 - 1) = some { ID := 2 ^ 64 - 1 } ∧
      ¬ (0 > ({ ID := 2 ^ 64 - 1 } : Proposal).ID) :=
  ⟨_, rfl, by decide, by decide, by decide⟩

/-- C26, amended. Governance `InitChain` on the empty governance state, for every genesis
document and every current epoch: the call returns no error, stores exactly the genesis
proposals, each under its identifier, and sets `NextProposalIdentifier` to `max(id) + 1` over the
genesis proposals in `uint64` arithmetic (1 when there are none). For every genesis document
whose proposal identifiers are below `2^64 - 1` this is `max(id) + 1`, so that after `InitChain`
`NextProposalIdentifier > id(p)` for every stored proposal `p`. -/
theorem InitChain_next_identifier (epoch : EpochTime) (st : Genesis) :
    ∃ s, InitChain (.ok epoch) {} st = .ok s ∧
      s.nextProposalIdentifier = some ((largestID st.Proposals + 1) % 2 ^ 64) ∧
      (st.Proposals = [] → s.nextProposalIdentifier = some 1) ∧
      (∀ p ∈ st.Proposals, ∃ q ∈ st.Proposals, q.ID = p.ID ∧
        kvGet s.proposals p.ID = some q) ∧
      (∀ id q, kvGet s.proposals id = some q → q ∈ st.Proposals ∧ q.ID = id) ∧
      ((∀ p ∈ st.Proposals, p.ID < 2 ^ 64 - 1) →
        s.nextProposalIdentifier = some (largestID st.Proposals + 1) ∧
        ∀ id q, kvGet s.proposals id = some q → q.ID < largestID st.Proposals + 1) := by
  obtain ⟨h1, h2, h3⟩ := InitChain.insertProposals_spec st st.Proposals 0
    (State.SetConsensusParameters {} st.Parameters)
  have hstored : ∀ id q,
      kvGet ((PendingUpgradesFromProposals st.Proposals epoch).foldl
        (fun s up => s.SetPendingUpgrade up.2 up.1)
        (InitChain.insertProposals st st.Proposals 0
          (State.SetConsensusParameters {} st.Parameters)).2).proposals id = some q →
      q ∈ st.Proposals ∧ q.ID = id := by
    intro id q hget
    rw [foldl_SetPendingUpgrade_proposals] at hget
    rcases h3 id q hget with h | h
    · exact h
    · cases h
  rw [Nat.zero_max] at h1
  refine ⟨_, rfl, ?_, ?_, ?_, ?_, ?_⟩
  · simp only [State.SetNextProposalIdentifier, h1]
  · intro hnil
    simp only [State.SetNextProposalIdentifier, h1, hnil, largestID, List.map_nil,
      List.foldr_nil]
    rfl
  · intro p hp
    obtain ⟨q, hq, hid, hget⟩ := h2 p hp
    refine ⟨q, hq, hid, ?_⟩
    simp only [State.SetNextProposalIdentifier]
    rw [foldl_SetPendingUpgrade_proposals]
    exact hget
  · exact hstored
  · intro hids
    have hlt : largestID st.Proposals < 2 ^ 64 - 1 :=
      largestID_lt st.Proposals (2 ^ 64 - 1) (by decide) hids
    have hmod : (largestID st.Proposals + 1) % 2 ^ 64 = largestID st.Proposals + 1 :=
      Nat.mod_eq_of_lt (by omega)
    refine ⟨?_, ?_⟩
    · simp only [State.SetNextProposalIdentifier, h1, hmod]
    · intro id q hget
      exact Nat.lt_succ_of_le (le_largestID st.Proposals q (hstored id q hget).1)

/-- Witness of `InitChain_next_identifier`: a genesis document with the proposals 3 and 7. -/
theorem InitChain_next_identifier_witness :
    ∃ s, InitChain (.ok 4) {} { Proposals := [{ ID := 3, State := .Passed }, { ID := 7 }] }
        = .ok s ∧
      s.nextProposalIdentifier = some 8 ∧
      ∀ id q, kvGet s.proposals id = some q → q.ID < 8 := by
  obtain ⟨s, h1, _, _, _, _, h6⟩ := InitChain_next_identifier 4
    { Proposals := [{ ID := 3, State := .Passed }, { ID := 7 }] }
  exact ⟨s, h1, (h6 (by decide)).1, (h6 (by decide)).2⟩

end Governance

namespace Scheduler

open Staking (kvGet kvInsert kvRemove kvIterator keyInsert Address PublicKey)

/-! ## Lemmas on the validator updates -/

theorem diffValidators.removals_mem (pending : List (PublicKey × Validator)) :
    ∀ (l : List (PublicKey × Validator)) (updates : List ValidatorUpdate) (u : ValidatorUpdate),
      u ∈ diffValidators.removals pending l updates ↔
        u ∈ updates ∨ (u.Power = 0 ∧ ∃ kv ∈ l, kv.1 = u.PubKey ∧ kvGet pending kv.1 = none) := by
  intro l
  induction l with
  | nil =>
    intro updates u
    simp [diffValidators.removals]
  | cons hd tl ih =>
    intro updates u
    obtain ⟨v, val⟩ := hd
    have hadd : u ∈ diffValidators.removals pending tl (updates ++ [⟨v, 0⟩]) ↔
        (u ∈ updates ∨ u = ⟨v, 0⟩) ∨
        (u.Power = 0 ∧ ∃ kv ∈ tl, kv.1 = u.PubKey ∧ kvGet pending kv.1 = none) := by
      rw [ih, List.mem_append, List.mem_singleton]
    have hu : u = ⟨v, 0⟩ ↔ (v = u.PubKey ∧ u.Power = 0) := by
      cases u
      simp only [ValidatorUpdate.mk.injEq]
      constructor
      · rintro ⟨h1, h2⟩
        exact ⟨h1.symm, h2⟩
      · rintro ⟨h1, h2⟩
        exact ⟨h1.symm, h2⟩
    cases hget : kvGet pending v with
    | none =>
      simp only [diffValidators.removals, hget, hadd, List.mem_cons, hu]
      constructor
      · rintro ((h | ⟨h1, h2⟩) | ⟨h0, kv, hkv, hk, hn⟩)
        · exact Or.inl h
        · exact Or.inr ⟨h2, (v, val), Or.inl rfl, h1, hget⟩
        · exact Or.inr ⟨h0, kv, Or.inr hkv, hk, hn⟩
      · rintro (h | ⟨h0, kv, hkv | hkv, hk, hn⟩)
        · exact Or.inl (Or.inl h)
        · rw [hkv] at hk
          exact Or.inl (Or.inr ⟨hk, h0⟩)
        · exact Or.inr ⟨h0, kv, hkv, hk, hn⟩
    | some w =>
      simp only [diffValidators.removals, hget, ih, List.mem_cons]
      constructor
      · rintro (h | ⟨h0, kv, hkv, hk, hn⟩)
        · exact Or.inl h
        · exact Or.inr ⟨h0, kv, Or.inr hkv, hk, hn⟩
      · rintro (h | ⟨h0, kv, hkv | hkv, hk, hn⟩)
        · exact Or.inl h
        · rw [hkv] at hn
          simp only [] at hn
          rw [hget] at hn
          cases hn
        · exact Or.inr ⟨h0, kv, hkv, hk, hn⟩

theorem diffValidators.removals_keys (pending : List (PublicKey × Validator)) :
    ∀ (l : List (PublicKey × Validator)) (updates : List ValidatorUpdate),
      (diffValidators.removals pending l updates).map (fun u => u.PubKey)
        = updates.map (fun u => u.PubKey)
          ++ (l.filter (fun kv => (kvGet pending kv.1).isNone)).map Prod.fst := by
  intro l
  induction l with
  | nil =>
    intro updates
    simp [diffValidators.removals]
  | cons hd tl ih =>
    intro updates
    obtain ⟨v, val⟩ := hd
    cases hget : kvGet pending v with
    | none =>
      simp only [diffValidators.removals, hget, ih, List.map_append, List.map_cons, List.map_nil,
        List.filter_cons, Option.isNone_none, if_true, List.append_assoc, List.singleton_append]
    | some w =>
      simp only [diffValidators.removals, hget, ih, List.filter_cons, Option.isNone_some,
        Bool.false_eq_true, if_false]

/-- The updates of the second loop of `diffValidators`: one for every validator it visits that is
not current with the same voting power. -/
theorem diffValidators.upserts_mem (current : List (PublicKey × Validator)) :
    ∀ (l : List (PublicKey × Validator)) (updates : List ValidatorUpdate) (u : ValidatorUpdate),
      u ∈ diffValidators.upserts current l updates ↔
        u ∈ updates ∨
        (∃ kv ∈ l, kv.1 = u.PubKey ∧ kv.2.VotingPower = u.Power ∧
          ∀ c, kvGet current kv.1 = some c → c.VotingPower ≠ kv.2.VotingPower) := by
  intro l
  induction l with
  | nil =>
    intro updates u
    simp [diffValidators.upserts]
  | cons hd tl ih =>
    intro updates u
    obtain ⟨v, new⟩ := hd
    have hadd : u ∈ diffValidators.upserts current tl (updates ++ [⟨v, new.VotingPower⟩]) ↔
        (u ∈ updates ∨ u = ⟨v, new.VotingPower⟩) ∨
        (∃ kv ∈ tl, kv.1 = u.PubKey ∧ kv.2.VotingPower = u.Power ∧
          ∀ c, kvGet current kv.1 = some c → c.VotingPower ≠ kv.2.VotingPower) := by
      rw [ih, List.mem_append, List.mem_singleton]
    have hu : u = ⟨v, new.VotingPower⟩ ↔ (v = u.PubKey ∧ new.VotingPower = u.Power) := by
      cases u
      simp only [ValidatorUpdate.mk.injEq]
      constructor
      · rintro ⟨h1, h2⟩
        exact ⟨h1.symm, h2.symm⟩
      · rintro ⟨h1, h2⟩
        exact ⟨h1.symm, h2.symm⟩
    cases hget : kvGet current v with
    | none =>
      simp only [diffValidators.upserts, hget, hadd, List.mem_cons, hu]
      constructor
      · rintro ((h | ⟨h1, h2⟩) | ⟨kv, hkv, h⟩)
        · exact Or.inl h
        · exact Or.inr ⟨(v, new), Or.inl rfl, h1, h2, fun c hc => by
            simp only [] at hc
            rw [hget] at hc
            cases hc⟩
        · exact Or.inr ⟨kv, Or.inr hkv, h⟩
      · rintro (h | ⟨kv, hkv | hkv, h1, h2, h3⟩)
        · exact Or.inl (Or.inl h)
        · rw [hkv] at h1 h2
          exact Or.inl (Or.inr ⟨h1, h2⟩)
        · exact Or.inr ⟨kv, hkv, h1, h2, h3⟩
    | some curr =>
      by_cases heq : curr.VotingPower = new.VotingPower
      · simp only [diffValidators.upserts, hget, if_pos heq, ih, List.mem_cons]
        constructor
        · rintro (h | ⟨kv, hkv, h⟩)
          · exact Or.inl h
          · exact Or.inr ⟨kv, Or.inr hkv, h⟩
        · rintro (h | ⟨kv, hkv | hkv, h1, h2, h3⟩)
          · exact Or.inl h
          · rw [hkv] at h3
            exact absurd heq (h3 curr hget)
          · exact Or.inr ⟨kv, hkv, h1, h2, h3⟩
      · simp only [diffValidators.upserts, hget, if_neg heq, hadd, List.mem_cons, hu]
        constructor
        · rintro ((h | ⟨h1, h2⟩) | ⟨kv, hkv, h⟩)
          · exact Or.inl h
          · exact Or.inr ⟨(v, new), Or.inl rfl, h1, h2, fun c hc => by
              simp only [] at hc
              rw [hget] at hc
              cases hc
              exact heq⟩
          · exact Or.inr ⟨kv, Or.inr hkv, h⟩
        · rintro (h | ⟨kv, hkv | hkv, h1, h2, h3⟩)
          · exact Or.inl (Or.inl h)
          · rw [hkv] at h1 h2
            exact Or.inl (Or.inr ⟨h1, h2⟩)
          · exact Or.inr ⟨kv, hkv, h1, h2, h3⟩

theorem diffValidators.upserts_keys (current : List (PublicKey × Validator)) :
    ∀ (l : List (PublicKey × Validator)) (updates : List ValidatorUpdate),
      ∃ l1 : List (PublicKey × Validator), l1.Sublist l ∧
        (diffValidators.upserts current l updates).map (fun u => u.PubKey)
          = updates.map (fun u => u.PubKey) ++ l1.map Prod.fst := by
  intro l
  induction l with
  | nil =>
    intro updates
    exact ⟨[], List.Sublist.slnil, by simp [diffValidators.upserts]⟩
  | cons hd tl ih =>
    intro updates
    obtain ⟨v, new⟩ := hd
    have hadd : ∃ l1 : List (PublicKey × Validator), l1.Sublist ((v, new) :: tl) ∧
        (diffValidators.upserts current tl (updates ++ [⟨v, new.VotingPower⟩])).map
            (fun u => u.PubKey)
          = updates.map (fun u => u.PubKey) ++ l1.map Prod.fst := by
      obtain ⟨l1, hs, he⟩ := ih (updates ++ [⟨v, new.VotingPower⟩])
      refine ⟨(v, new) :: l1, hs.cons₂ _, ?_⟩
      rw [he]
      simp only [List.map_append, List.map_cons, List.map_nil, List.append_assoc,
        List.singleton_append]
    have hkeep : ∃ l1 : List (PublicKey × Validator), l1.Sublist ((v, new) :: tl) ∧
        (diffValidators.upserts current tl updates).map (fun u => u.PubKey)
          = updates.map (fun u => u.PubKey) ++ l1.map Prod.fst := by
      obtain ⟨l1, hs, he⟩ := ih updates
      exact ⟨l1, hs.cons _, he⟩
    cases hget : kvGet current v with
    | none =>
      simp only [diffValidators.upserts, hget]
      exact hadd
    | some curr =>
      by_cases heq : curr.VotingPower = new.VotingPower
      · simp only [diffValidators.upserts, hget, if_pos heq]
        exact hkeep
      · simp only [diffValidators.upserts, hget, if_neg heq]
        exact hadd

theorem diffValidators_mem (current pending : List (PublicKey × Validator))
    (u : ValidatorUpdate) :
    u ∈ diffValidators current pending ↔
      (u.Power = 0 ∧ (kvGet current u.PubKey).isSome = true ∧ kvGet pending u.PubKey = none) ∨
      (∃ new, kvGet pending u.PubKey = some new ∧ new.VotingPower = u.Power ∧
        ∀ curr, kvGet current u.PubKey = some curr → curr.VotingPower ≠ new.VotingPower) := by
  unfold diffValidators
  simp only []
  rw [diffValidators.upserts_mem, diffValidators.removals_mem]
  constructor
  · rintro ((h | ⟨h0, kv, hkv, hk, hn⟩) | ⟨kv, hkv, hk, hp, hc⟩)
    · cases h
    · left
      obtain ⟨k, v⟩ := kv
      simp only [] at hk hn
      rw [← hk]
      have hget := (Staking.mem_kvIterator _ _ _ _).mp hkv
      exact ⟨h0, by rw [hget]; rfl, hn⟩
    · right
      obtain ⟨k, v⟩ := kv
      simp only [] at hk hp hc
      rw [← hk]
      exact ⟨v, (Staking.mem_kvIterator _ _ _ _).mp hkv, hp, hc⟩
  · rintro (⟨h0, hs, hn⟩ | ⟨new, hget, hp, hc⟩)
    · left
      right
      cases hcur : kvGet current u.PubKey with
      | none => rw [hcur] at hs; cases hs
      | some c =>
        exact ⟨h0, (u.PubKey, c), (Staking.mem_kvIterator _ _ _ _).mpr hcur, rfl, hn⟩
    · right
      exact ⟨(u.PubKey, new), (Staking.mem_kvIterator _ _ _ _).mpr hget, rfl, hp, hc⟩

theorem diffValidators_keys_nodup (current pending : List (PublicKey × Validator)) :
    ((diffValidators current pending).map (fun u => u.PubKey)).Nodup := by
  unfold diffValidators
  simp only []
  obtain ⟨l1, hs, he⟩ := diffValidators.upserts_keys current
    (kvIterator (fun a b : PublicKey => a ≤ b) pending)
    (diffValidators.removals pending (kvIterator (fun a b : PublicKey => a ≤ b) current) [])
  rw [he, diffValidators.removals_keys, List.map_nil, List.nil_append]
  apply List.Nodup.append
  · exact (Staking.kvIterator_keys_nodup _ current).sublist ((List.filter_sublist _).map Prod.fst)
  · exact (Staking.kvIterator_keys_nodup _ pending).sublist (hs.map Prod.fst)
  · intro k hk1 hk2
    obtain ⟨kv1, hkv1, hk1e⟩ := List.mem_map.mp hk1
    obtain ⟨kv2, hkv2, hk2e⟩ := List.mem_map.mp hk2
    have hnone := (List.mem_filter.mp hkv1).2
    have hsome := (Staking.mem_kvIterator _ pending kv2.1 kv2.2).mp (hs.subset hkv2)
    rw [hk1e, ← hk2e, hsome] at hnone
    cases hnone

/-! ## Claims on the validator updates -/

/-- C21. `diffValidators(current, pending)` returns exactly: one update `(k, 0)` for every
consensus key `k` in `current` that is not in `pending`, and one update
`(k, pending[k].VotingPower)` for every key `k` in `pending` that is either absent from `current`
or has a different voting power in `current`. Keys present in both with equal voting power
produce no update, and no key occurs twice in the result, so that no update occurs twice
either. -/
theorem diffValidators_exact (current pending : List (PublicKey × Validator)) :
    (∀ u : ValidatorUpdate, u ∈ diffValidators current pending ↔
      (u.Power = 0 ∧ (kvGet current u.PubKey).isSome = true ∧ kvGet pending u.PubKey = none) ∨
      (∃ new, kvGet pending u.PubKey = some new ∧ new.VotingPower = u.Power ∧
        ∀ curr, kvGet current u.PubKey = some curr →
          curr.VotingPower ≠ new.VotingPower)) ∧
    (∀ k curr new, kvGet current k = some curr → kvGet pending k = some new →
      curr.VotingPower = new.VotingPower →
      ∀ u ∈ diffValidators current pending, u.PubKey ≠ k) ∧
    ((diffValidators current pending).map (fun u => u.PubKey)).Nodup ∧
    (diffValidators current pending).Nodup := by
  refine ⟨diffValidators_mem current pending, ?_, diffValidators_keys_nodup current pending,
    (diffValidators_keys_nodup current pending).of_map⟩
  intro k curr new hc hp heq u hu hk
  rcases (diffValidators_mem current pending u).mp hu with ⟨_, _, hn⟩ | ⟨new2, hget, _, hne⟩
  · rw [hk, hp] at hn
    cases hn
  · rw [hk, hp] at hget
    cases hget
    rw [hk] at hne
    exact hne curr hc heq

/-- Witness of `diffValidators_exact`: validator 1 leaves, validator 2 stays with its power,
validator 3 changes its power and validator 4 joins. -/
theorem diffValidators_exact_witness :
    diffValidators
      [(1, ⟨11, 21, 5⟩), (2, ⟨12, 22, 7⟩), (3, ⟨13, 23, 9⟩)]
      [(2, ⟨12, 22, 7⟩), (3, ⟨13, 23, 4⟩), (4, ⟨14, 24, 6⟩)]
      = [⟨1, 0⟩, ⟨3, 4⟩, ⟨4, 6⟩] ∧
    (∀ u ∈ diffValidators
      [(1, ⟨11, 21, 5⟩), (2, ⟨12, 22, 7⟩), (3, ⟨13, 23, 9⟩)]
      [(2, ⟨12, 22, 7⟩), (3, ⟨13, 23, 4⟩), (4, ⟨14, 24, 6⟩)], u.PubKey ≠ 2) :=
  ⟨by decide,
   (diffValidators_exact
      [(1, ⟨11, 21, 5⟩), (2, ⟨12, 22, 7⟩), (3, ⟨13, 23, 9⟩)]
      [(2, ⟨12, 22, 7⟩), (3, ⟨13, 23, 4⟩), (4, ⟨14, 24, 6⟩)]).2.1 2 ⟨12, 22, 7⟩ ⟨12, 22, 7⟩
      (by decide) (by decide) rfl⟩

end Scheduler

namespace Scheduler

open Staking (kvGet kvInsert kvRemove kvIterator keyInsert Address PublicKey)

theorem kvGet_powerMap (validators : List (PublicKey × Validator)) (k : PublicKey) :
    kvGet (powerMap validators) k = (kvGet validators k).map (fun v => v.VotingPower) := by
  induction validators with
  | nil => rfl
  | cons hd tl ih =>
    obtain ⟨k1, v1⟩ := hd
    by_cases hk : k1 = k
    · simp only [powerMap, List.map_cons, kvGet, if_pos hk, Option.map_some']
    · simp only [powerMap, List.map_cons, kvGet, if_neg hk]
      exact ih

theorem applyUpdates_not_mem (k : PublicKey) :
    ∀ (updates : List ValidatorUpdate) (powers : List (PublicKey × Int)),
      (∀ u ∈ updates, u.PubKey ≠ k) →
      kvGet (applyUpdates powers updates) k = kvGet powers k := by
  intro updates
  induction updates with
  | nil => intro powers _; rfl
  | cons u rest ih =>
    intro powers h
    have hu : k ≠ u.PubKey := Ne.symm (h u (List.mem_cons_self _ _))
    simp only [applyUpdates]
    rw [ih _ (fun x hx => h x (List.mem_cons_of_mem _ hx))]
    by_cases h0 : u.Power = 0
    · rw [if_pos h0, Staking.kvGet_kvRemove_ne _ _ _ hu]
    · rw [if_neg h0, Staking.kvGet_kvInsert_ne _ _ _ _ hu]

theorem applyUpdates_mem (u : ValidatorUpdate) :
    ∀ (updates : List ValidatorUpdate) (powers : List (PublicKey × Int)),
      (updates.map (fun x => x.PubKey)).Nodup → u ∈ updates →
      kvGet (applyUpdates powers updates) u.PubKey
        = if u.Power = 0 then none else some u.Power := by
  intro updates
  induction updates with
  | nil => intro powers _ h; cases h
  | cons x rest ih =>
    intro powers hn hu
    rw [List.map_cons, List.nodup_cons] at hn
    simp only [applyUpdates]
    rcases List.mem_cons.mp hu with h | h
    · subst h
      rw [applyUpdates_not_mem _ rest _ (fun y hy hk => hn.1 (List.mem_map.mpr ⟨y, hy, hk⟩))]
      by_cases h0 : u.Power = 0
      · rw [if_pos h0, if_pos h0, Staking.kvGet_kvRemove_self]
      · rw [if_neg h0, if_neg h0, Staking.kvGet_kvInsert_self]
    · exact ih _ hn.2 h

/-- C22. The diff reproduces the pending set: for all validator maps `current` and `pending` in
which every pending voting power is non-zero, applying the updates of
`diffValidators(current, pending)` to the key → voting-power map of `current` (power 0 removes the
key, any other power inserts or overwrites it) yields exactly the key → voting-power map of
`pending`: the two maps hold the same power, or none, under every key. And `diffValidators(x, x)`
is empty for every validator map `x`. -/
theorem diffValidators_reproduces (current pending : List (PublicKey × Validator))
    (hpower : ∀ k new, kvGet pending k = some new → new.VotingPower ≠ 0) :
    (∀ k, kvGet (applyUpdates (powerMap current) (diffValidators current pending)) k
      = kvGet (powerMap pending) k) ∧
    diffValidators current current = [] ∧ diffValidators pending pending = [] := by
  have hself : ∀ x : List (PublicKey × Validator), diffValidators x x = [] := by
    intro x
    apply List.eq_nil_iff_forall_not_mem.mpr
    intro u hu
    rcases (diffValidators_mem x x u).mp hu with ⟨_, hs, hn⟩ | ⟨new, hget, _, hne⟩
    · rw [hn] at hs
      cases hs
    · exact hne new hget rfl
  refine ⟨?_, hself current, hself pending⟩
  intro k
  rw [kvGet_powerMap]
  have hnodup := diffValidators_keys_nodup current pending
  cases hp : kvGet pending k with
  | none =>
    cases hc : kvGet current k with
    | none =>
      rw [applyUpdates_not_mem, kvGet_powerMap, hc]
      intro u hu hk
      rcases (diffValidators_mem current pending u).mp hu with ⟨_, hs, _⟩ | ⟨new, hget, _, _⟩
      · rw [hk, hc] at hs
        cases hs
      · rw [hk, hp] at hget
        cases hget
    | some curr =>
      have hu : (⟨k, 0⟩ : ValidatorUpdate) ∈ diffValidators current pending :=
        (diffValidators_mem current pending ⟨k, 0⟩).mpr
          (Or.inl ⟨rfl, by simp only [hc]; rfl, hp⟩)
      have := applyUpdates_mem ⟨k, 0⟩ _ (powerMap current) hnodup hu
      simp only [if_true] at this
      rw [this]
      rfl
  | some new =>
    have hne := hpower k new hp
    by_cases hkeep : ∃ curr, kvGet current k = some curr ∧ curr.VotingPower = new.VotingPower
    · obtain ⟨curr, hc, heq⟩ := hkeep
      rw [applyUpdates_not_mem, kvGet_powerMap, hc]
      · simp only [Option.map_some', heq]
      · intro u hu hk
        rcases (diffValidators_mem current pending u).mp hu with ⟨_, _, hn⟩ | ⟨new2, hget, _, h⟩
        · rw [hk, hp] at hn
          cases hn
        · rw [hk, hp] at hget
          cases hget
          rw [hk] at h
          exact h curr hc heq
    · have hu : (⟨k, new.VotingPower⟩ : ValidatorUpdate) ∈ diffValidators current pending :=
        (diffValidators_mem current pending ⟨k, new.VotingPower⟩).mpr
          (Or.inr ⟨new, hp, rfl, fun curr hc heq => hkeep ⟨curr, hc, heq⟩⟩)
      have := applyUpdates_mem ⟨k, new.VotingPower⟩ _ (powerMap current) hnodup hu
      simp only [] at this
      rw [if_neg hne] at this
      rw [this]
      rfl

/-- Witness of `diffValidators_reproduces`: validator 1 leaves, validator 2 stays with its
power, validator 3 changes its power and validator 4 joins. -/
theorem diffValidators_reproduces_witness :
    kvGet (applyUpdates
      (powerMap [(1, ⟨11, 21, 5⟩), (2, ⟨12, 22, 7⟩), (3, ⟨13, 23, 9⟩)])
      (diffValidators
        [(1, ⟨11, 21, 5⟩), (2, ⟨12, 22, 7⟩), (3, ⟨13, 23, 9⟩)]
        [(2, ⟨12, 22, 7⟩), (3, ⟨13, 23, 4⟩), (4, ⟨14, 24, 6⟩)])) 3 = some 4 ∧
    applyUpdates
      (powerMap [(1, ⟨11, 21, 5⟩), (2, ⟨12, 22, 7⟩), (3, ⟨13, 23, 9⟩)])
      (diffValidators
        [(1, ⟨11, 21, 5⟩), (2, ⟨12, 22, 7⟩), (3, ⟨13, 23, 9⟩)]
        [(2, ⟨12, 22, 7⟩), (3, ⟨13, 23, 4⟩), (4, ⟨14, 24, 6⟩)])
      = [(2, 7), (3, 4), (4, 6)] :=
  ⟨((diffValidators_reproduces
      [(1, ⟨11, 21, 5⟩), (2, ⟨12, 22, 7⟩), (3, ⟨13, 23, 9⟩)]
      [(2, ⟨12, 22, 7⟩), (3, ⟨13, 23, 4⟩), (4, ⟨14, 24, 6⟩)]
      (fun k new h =>
        (by decide : ∀ kv ∈ [((2 : PublicKey), (⟨12, 22, 7⟩ : Validator)), (3, ⟨13, 23, 4⟩),
            (4, ⟨14, 24, 6⟩)], kv.2.VotingPower ≠ 0)
          (k, new) (Staking.kvGet_mem _ k new h))).1 3).trans (by decide),
   by decide⟩

end Scheduler

namespace Scheduler

open Staking (kvGet kvInsert kvRemove kvIterator keyInsert Address PublicKey)

/-! ## Lemmas on the validator election -/

theorem kvInsert_length_le {κ ν : Type} [DecidableEq κ] (m : List (κ × ν)) (k : κ) (v : ν) :
    (kvInsert m k v).length ≤ m.length + 1 := by
  induction m with
  | nil => simp [kvInsert]
  | cons x rest ih =>
    obtain ⟨k1, v1⟩ := x
    by_cases h : k1 = k
    · simp [kvInsert, h]
    · simp only [kvInsert, if_neg h, List.length_cons]
      omega

theorem kvInsert_keys {κ ν : Type} [DecidableEq κ] (m : List (κ × ν)) (k : κ) (v : ν) :
    (kvInsert m k v).map Prod.fst
      = if k ∈ m.map Prod.fst then m.map Prod.fst else m.map Prod.fst ++ [k] := by
  induction m with
  | nil => simp [kvInsert]
  | cons x rest ih =>
    obtain ⟨k1, v1⟩ := x
    by_cases h : k1 = k
    · subst h
      simp [kvInsert]
    · have h2 : ¬ k = k1 := fun e => h e.symm
      simp only [kvInsert, if_neg h, List.map_cons, ih, List.mem_cons, h2, false_or]
      by_cases hm : k ∈ rest.map Prod.fst
      · simp only [if_pos hm]
      · simp only [if_neg hm, List.cons_append]

theorem kvInsert_keys_nodup {κ ν : Type} [DecidableEq κ] (m : List (κ × ν)) (k : κ) (v : ν)
    (h : (m.map Prod.fst).Nodup) : ((kvInsert m k v).map Prod.fst).Nodup := by
  rw [kvInsert_keys]
  by_cases hm : k ∈ m.map Prod.fst
  · simpa only [if_pos hm] using h
  · simp only [if_neg hm]
    exact List.Nodup.append h (List.nodup_singleton k)
      (by
        intro x hx hx2
        rw [List.mem_singleton] at hx2
        exact hm (hx2 ▸ hx))

/-- The inner loop keeps the size of the new validator set at most `MaxValidators`, and below it
while the election goes on; the keys of the set stay distinct. -/
theorem electValidators.pick_bounds (env : Environment) (stakeAcc : Option StakeAccumulatorCache)
    (params : ConsensusParameters) (entAddr : Address) (nodes : List Node) (st : ElectState)
    (hlt : (st.newValidators.length : Int) < params.MaxValidators)
    (hnd : (st.newValidators.map Prod.fst).Nodup) :
    let r := electValidators.pick env stakeAcc params entAddr nodes st
    ((r.1.newValidators.length : Int) ≤ params.MaxValidators) ∧
      (r.2 = .next → (r.1.newValidators.length : Int) < params.MaxValidators) ∧
      (r.1.newValidators.map Prod.fst).Nodup := by
  induction nodes generalizing st with
  | nil => exact ⟨le_of_lt hlt, fun _ => hlt, hnd⟩
  | cons n nodes ih =>
    simp only [electValidators.pick]
    split
    · exact ⟨le_of_lt hlt, fun h => (by cases h), hnd⟩
    · rename_i power _
      have hlen := kvInsert_length_le st.newValidators n.ConsensusID
        ({ ID := n.ID, EntityID := n.EntityID, VotingPower := power } : Validator)
      have hnd2 := kvInsert_keys_nodup st.newValidators n.ConsensusID
        ({ ID := n.ID, EntityID := n.EntityID, VotingPower := power } : Validator) hnd
      split
      · refine ⟨?_, fun h => (by cases h), hnd2⟩
        show ((kvInsert st.newValidators n.ConsensusID _).length : Int) ≤ _
        omega
      · rename_i hge
        exact ih _ (by simpa using hge) hnd2

theorem electValidators.electLoop_bounds (env : Environment)
    (stakeAcc : Option StakeAccumulatorCache) (params : ConsensusParameters)
    (entityNodesMap : List (Address × List Node)) (sortedEntities : List Address)
    (st : ElectState)
    (hlt : (st.newValidators.length : Int) < params.MaxValidators)
    (hnd : (st.newValidators.map Prod.fst).Nodup) :
    let r := electValidators.electLoop env stakeAcc params entityNodesMap sortedEntities st
    ((r.1.newValidators.length : Int) ≤ params.MaxValidators) ∧
      (r.2 = .next → (r.1.newValidators.length : Int) < params.MaxValidators) ∧
      (r.1.newValidators.map Prod.fst).Nodup := by
  induction sortedEntities generalizing st with
  | nil => exact ⟨le_of_lt hlt, fun _ => hlt, hnd⟩
  | cons entAddr rest ih =>
    have hp := electValidators.pick_bounds env stakeAcc params entAddr
      (((kvGet entityNodesMap entAddr).getD []).take params.MaxValidatorsPerEntity.toNat) st
      hlt hnd
    simp only [electValidators.electLoop]
    generalize electValidators.pick env stakeAcc params entAddr
      (((kvGet entityNodesMap entAddr).getD []).take params.MaxValidatorsPerEntity.toNat) st
      = r at hp
    obtain ⟨st1, fl⟩ := r
    cases fl with
    | next => exact ih st1 (hp.2.1 rfl) hp.2.2
    | stop => exact ⟨hp.1, fun h => (by cases h), hp.2.2⟩
    | fail err => exact ⟨hp.1, fun h => (by cases h), hp.2.2⟩

/-- A successful call of `electValidators` writes the new validator set of the election loop,
which is not empty and has at least `MinValidators` members, and returns the validator entities
of the loop. -/
theorem electValidators_ok (env : Environment) (stakeAcc : Option StakeAccumulatorCache)
    (eligible : Option (List Address)) (nodes : List Node) (params : ConsensusParameters)
    (validatorEntities : List Address)
    (hok : (electValidators env stakeAcc eligible nodes params).ret = .ok validatorEntities) :
    ∃ weakEntropy sortedEntities shuffledNodes st flow,
      env.Beacon = .ok weakEntropy ∧
      stakingAddressMapToSliceByStake env
        (electValidators.filter env stakeAcc nodes ([], [])).2 stakeAcc weakEntropy
        = .ok sortedEntities ∧
      env.shuffleValidators (electValidators.filter env stakeAcc nodes ([], [])).1
        = .ok shuffledNodes ∧
      electValidators.electLoop env stakeAcc params
        (electValidators.gather env shuffledNodes []) sortedEntities ⟨eligible, [], []⟩
        = (st, flow) ∧
      (∀ err, flow ≠ .fail err) ∧
      st.newValidators.length ≠ 0 ∧
      params.MinValidators ≤ (st.newValidators.length : Int) ∧
      electValidators env stakeAcc eligible nodes params
        = ⟨st.entitiesEligibleForReward, some st.newValidators, .ok st.validatorEntities⟩ ∧
      validatorEntities = st.validatorEntities := by
  unfold electValidators at hok ⊢
  generalize electValidators.filter env stakeAcc nodes ([], []) = f at hok ⊢
  obtain ⟨nodeList, entities⟩ := f
  simp only at hok ⊢
  cases hb : env.Beacon with
  | error e => rw [hb] at hok; cases hok
  | ok weakEntropy =>
    rw [hb] at hok
    simp only at hok ⊢
    cases hs : stakingAddressMapToSliceByStake env entities stakeAcc weakEntropy with
    | error e => rw [hs] at hok; cases hok
    | ok sortedEntities =>
      rw [hs] at hok
      simp only at hok ⊢
      cases hsh : env.shuffleValidators nodeList with
      | error e => rw [hsh] at hok; cases hok
      | ok shuffledNodes =>
        rw [hsh] at hok
        simp only at hok ⊢
        generalize hl : electValidators.electLoop env stakeAcc params
          (electValidators.gather env shuffledNodes []) sortedEntities ⟨eligible, [], []⟩ = r
          at hok ⊢
        obtain ⟨st, flow⟩ := r
        refine ⟨weakEntropy, sortedEntities, shuffledNodes, st, flow, rfl, hs, rfl, hl, ?_⟩
        cases flow with
        | fail err => cases hok
        | next =>
          simp only at hok ⊢
          by_cases h0 : st.newValidators.length = 0
          · rw [if_pos h0] at hok; cases hok
          · rw [if_neg h0] at hok ⊢
            by_cases h1 : (st.newValidators.length : Int) < params.MinValidators
            · rw [if_pos h1] at hok; cases hok
            · rw [if_neg h1] at hok ⊢
              simp only [Except.ok.injEq] at hok
              exact ⟨fun err h => (by cases h), h0, not_lt.mp h1, rfl, hok.symm⟩
        | stop =>
          simp only at hok ⊢
          by_cases h0 : st.newValidators.length = 0
          · rw [if_pos h0] at hok; cases hok
          · rw [if_neg h0] at hok ⊢
            by_cases h1 : (st.newValidators.length : Int) < params.MinValidators
            · rw [if_pos h1] at hok; cases hok
            · rw [if_neg h1] at hok ⊢
              simp only [Except.ok.injEq] at hok
              exact ⟨fun err h => (by cases h), h0, not_lt.mp h1, rfl, hok.symm⟩

/-! ## Claims on the validator election -/

/-- C23, counterexample. With `MaxValidators = 0` (and `MinValidators = 0`, one validator per
entity, no stake accumulator) the election of one validator node returns without error and puts
a validator set of size 1 in the pending validators slot, above `MaxValidators`. -/
theorem electValidators_bounds_counterexample :
    ∃ newValidators validatorEntities,
      electValidators
        ⟨fun k => k, .ok 0, fun _ => .ok (fun _ => 0), fun l => .ok l, fun _ => .ok 1⟩
        none none [{ ID := 1, EntityID := 2, ConsensusID := 3 }]
        { MinValidators := 0, MaxValidators := 0, MaxValidatorsPerEntity := 1 }
        = ⟨none, some newValidators, .ok validatorEntities⟩ ∧
      ¬ ((newValidators.length : Int) ≤ 0) :=
  ⟨[(3, { ID := 1, EntityID := 2, VotingPower := 1 })], [2], by decide, by decide⟩

/-- C23, amended. Validator bounds: for every node list and every scheduler parameters with
`MaxValidators ≥ 1`, whenever `electValidators` returns without error the validator set it writes
to the pending validators slot has distinct consensus keys and a size `s` with
`MinValidators ≤ s ≤ MaxValidators` (and `s ≥ 1`). -/
theorem electValidators_bounds (env : Environment) (stakeAcc : Option StakeAccumulatorCache)
    (eligible : Option (List Address)) (nodes : List Node) (params : ConsensusParameters)
    (validatorEntities : List Address)
    (hmax : 1 ≤ params.MaxValidators)
    (hok : (electValidators env stakeAcc eligible nodes params).ret = .ok validatorEntities) :
    ∃ newValidators,
      (electValidators env stakeAcc eligible nodes params).pendingValidators
        = some newValidators ∧
      (newValidators.map Prod.fst).Nodup ∧
      1 ≤ newValidators.length ∧
      params.MinValidators ≤ (newValidators.length : Int) ∧
      (newValidators.length : Int) ≤ params.MaxValidators := by
  obtain ⟨weakEntropy, sortedEntities, shuffledNodes, st, flow, _, _, _, hl, _, h0, hmin, he, _⟩ :=
    electValidators_ok env stakeAcc eligible nodes params validatorEntities hok
  have hb := electValidators.electLoop_bounds env stakeAcc params
    (electValidators.gather env shuffledNodes []) sortedEntities ⟨eligible, [], []⟩
    (by simpa using hmax) (by simp)
  rw [hl] at hb
  exact ⟨st.newValidators, by rw [he], hb.2.2, Nat.one_le_iff_ne_zero.mpr h0, hmin, hb.1⟩

/-- Witness of `electValidators_bounds`: three validator nodes of three entities, at most two
validators. -/
theorem electValidators_bounds_witness :
    ∃ newValidators,
      (electValidators
        ⟨fun k => k, .ok 0, fun _ => .ok (fun _ => 0), fun l => .ok l, fun _ => .ok 1⟩
        none none
        [{ ID := 1, EntityID := 2, ConsensusID := 3 }, { ID := 4, EntityID := 5, ConsensusID := 6 },
          { ID := 7, EntityID := 8, ConsensusID := 9 }]
        { MinValidators := 1, MaxValidators := 2, MaxValidatorsPerEntity := 1 }).pendingValidators
        = some newValidators ∧
      (newValidators.map Prod.fst).Nodup ∧
      1 ≤ newValidators.length ∧
      ((1 : Int) ≤ (newValidators.length : Int)) ∧
      (newValidators.length : Int) ≤ 2 :=
  electValidators_bounds
    ⟨fun k => k, .ok 0, fun _ => .ok (fun _ => 0), fun l => .ok l, fun _ => .ok 1⟩
    none none
    [{ ID := 1, EntityID := 2, ConsensusID := 3 }, { ID := 4, EntityID := 5, ConsensusID := 6 },
      { ID := 7, EntityID := 8, ConsensusID := 9 }]
    { MinValidators := 1, MaxValidators := 2, MaxValidatorsPerEntity := 1 }
    [5, 8] (by decide) (by decide)

end Scheduler

namespace Scheduler

open Staking (kvGet kvInsert kvRemove kvIterator keyInsert Address PublicKey)

theorem countP_kvInsert_le {κ ν : Type} [DecidableEq κ] (p : κ × ν → Bool) (m : List (κ × ν))
    (k : κ) (v : ν) :
    (kvInsert m k v).countP p ≤ m.countP p + (if p (k, v) = true then 1 else 0) := by
  induction m with
  | nil => simp [kvInsert, List.countP_cons]
  | cons x rest ih =>
    obtain ⟨k1, v1⟩ := x
    by_cases h : k1 = k
    · simp only [kvInsert, if_pos h, List.countP_cons]
      omega
    · simp only [kvInsert, if_neg h, List.countP_cons]
      omega

/-- The nodes gathered for an entity are the nodes of the entity in the shuffled list, in the
order of that list. -/
theorem electValidators.gather_spec (env : Environment) (shuffledNodes : List Node)
    (m : List (Address × List Node)) (a : Address) :
    (kvGet (electValidators.gather env shuffledNodes m) a).getD []
      = (kvGet m a).getD []
        ++ shuffledNodes.filter (fun n => decide (env.NewAddress n.EntityID = a)) := by
  induction shuffledNodes generalizing m with
  | nil => simp [electValidators.gather]
  | cons n rest ih =>
    simp only [electValidators.gather]
    rw [ih]
    by_cases h : env.NewAddress n.EntityID = a
    · rw [h, Staking.kvGet_kvInsert_self]
      simp [List.filter_cons, h]
    · rw [Staking.kvGet_kvInsert_ne _ _ _ _ (fun e => h e.symm)]
      simp [List.filter_cons, h]

theorem electValidators.gather_nil (env : Environment) (shuffledNodes : List Node)
    (a : Address) :
    (kvGet (electValidators.gather env shuffledNodes []) a).getD []
      = shuffledNodes.filter (fun n => decide (env.NewAddress n.EntityID = a)) := by
  rw [electValidators.gather_spec]
  rfl

/-- The inner loop for an entity other than `a` leaves what is known of the validators of `a`:
they come from the nodes `t`, whose consensus keys stay in the set, and there are at most `c`
of them. -/
theorem electValidators.pick_other (env : Environment) (stakeAcc : Option StakeAccumulatorCache)
    (params : ConsensusParameters) (entAddr a : Address) (t : List Node) (c : Nat)
    (nodes : List Node) (st : ElectState)
    (hne : entAddr ≠ a)
    (haddr : ∀ n ∈ nodes, env.NewAddress n.EntityID = entAddr)
    (h1 : ∀ k v, kvGet st.newValidators k = some v → env.NewAddress v.EntityID = a →
      ∃ n ∈ t, n.ConsensusID = k ∧ n.ID = v.ID ∧ n.EntityID = v.EntityID)
    (h2 : ∀ n ∈ t, (kvGet st.newValidators n.ConsensusID).isSome = true)
    (h3 : st.newValidators.countP (fun kv => decide (env.NewAddress kv.2.EntityID = a)) ≤ c) :
    (∀ k v, kvGet (electValidators.pick env stakeAcc params entAddr nodes st).1.newValidators k
        = some v → env.NewAddress v.EntityID = a →
      ∃ n ∈ t, n.ConsensusID = k ∧ n.ID = v.ID ∧ n.EntityID = v.EntityID) ∧
    (∀ n ∈ t, (kvGet (electValidators.pick env stakeAcc params entAddr nodes st).1.newValidators
        n.ConsensusID).isSome = true) ∧
    (electValidators.pick env stakeAcc params entAddr nodes st).1.newValidators.countP
      (fun kv => decide (env.NewAddress kv.2.EntityID = a)) ≤ c := by
  induction nodes generalizing st with
  | nil => exact ⟨h1, h2, h3⟩
  | cons n nodes ih =>
    have hn : env.NewAddress n.EntityID ≠ a := by
      rw [haddr n (List.mem_cons_self _ _)]
      exact hne
    simp only [electValidators.pick]
    split
    · exact ⟨h1, h2, h3⟩
    · rename_i power _
      have g1 : ∀ k v, kvGet (kvInsert st.newValidators n.ConsensusID
          ({ ID := n.ID, EntityID := n.EntityID, VotingPower := power } : Validator)) k = some v →
          env.NewAddress v.EntityID = a →
          ∃ n ∈ t, n.ConsensusID = k ∧ n.ID = v.ID ∧ n.EntityID = v.EntityID := by
        intro k v hk hv
        by_cases hkn : k = n.ConsensusID
        · rw [hkn, Staking.kvGet_kvInsert_self] at hk
          simp only [Option.some.injEq] at hk
          rw [← hk] at hv
          exact absurd hv hn
        · rw [Staking.kvGet_kvInsert_ne _ _ _ _ hkn] at hk
          exact h1 k v hk hv
      have g2 : ∀ x ∈ t, (kvGet (kvInsert st.newValidators n.ConsensusID
          ({ ID := n.ID, EntityID := n.EntityID, VotingPower := power } : Validator))
          x.ConsensusID).isSome = true :=
        fun x hx => Staking.kvGet_isSome_kvInsert _ _ _ _ (h2 x hx)
      have g3 : (kvInsert st.newValidators n.ConsensusID
          ({ ID := n.ID, EntityID := n.EntityID, VotingPower := power } : Validator)).countP
          (fun kv => decide (env.NewAddress kv.2.EntityID = a)) ≤ c := by
        have := countP_kvInsert_le (fun kv => decide (env.NewAddress kv.2.EntityID = a))
          st.newValidators n.ConsensusID
          ({ ID := n.ID, EntityID := n.EntityID, VotingPower := power } : Validator)
        simp only [decide_eq_true_eq, if_neg hn] at this
        omega
      split
      · exact ⟨g1, g2, g3⟩
      · exact ih _ (fun x hx => haddr x (List.mem_cons_of_mem _ hx)) g1 g2 g3

/-- The inner loop for entity `a` takes a prefix `t1` of the nodes it visits: the validators of
`a` come from the nodes taken, whose consensus keys are in the set, and there are at most as
many as nodes taken. -/
theorem electValidators.pick_self (env : Environment) (stakeAcc : Option StakeAccumulatorCache)
    (params : ConsensusParameters) (a : Address) (t0 : List Node)
    (nodes : List Node) (st : ElectState)
    (h1 : ∀ k v, kvGet st.newValidators k = some v → env.NewAddress v.EntityID = a →
      ∃ n ∈ t0, n.ConsensusID = k ∧ n.ID = v.ID ∧ n.EntityID = v.EntityID)
    (h2 : ∀ n ∈ t0, (kvGet st.newValidators n.ConsensusID).isSome = true)
    (h3 : st.newValidators.countP (fun kv => decide (env.NewAddress kv.2.EntityID = a))
      ≤ t0.length) :
    ∃ t1, t1 <+: nodes ∧
      (∀ k v, kvGet (electValidators.pick env stakeAcc params a nodes st).1.newValidators k
          = some v → env.NewAddress v.EntityID = a →
        ∃ n ∈ t0 ++ t1, n.ConsensusID = k ∧ n.ID = v.ID ∧ n.EntityID = v.EntityID) ∧
      (∀ n ∈ t0 ++ t1, (kvGet (electValidators.pick env stakeAcc params a nodes st).1.newValidators
          n.ConsensusID).isSome = true) ∧
      (electValidators.pick env stakeAcc params a nodes st).1.newValidators.countP
        (fun kv => decide (env.NewAddress kv.2.EntityID = a)) ≤ (t0 ++ t1).length := by
  induction nodes generalizing st t0 with
  | nil =>
    refine ⟨[], List.prefix_refl _, ?_, ?_, ?_⟩
    · simpa using h1
    · simpa using h2
    · simpa using h3
  | cons n nodes ih =>
    simp only [electValidators.pick]
    split
    · refine ⟨[], List.nil_prefix, ?_, ?_, ?_⟩
      · simpa using h1
      · simpa using h2
      · simpa using h3
    · rename_i power _
      have g1 : ∀ k v, kvGet (kvInsert st.newValidators n.ConsensusID
          ({ ID := n.ID, EntityID := n.EntityID, VotingPower := power } : Validator)) k = some v →
          env.NewAddress v.EntityID = a →
          ∃ x ∈ t0 ++ [n], x.ConsensusID = k ∧ x.ID = v.ID ∧ x.EntityID = v.EntityID := by
        intro k v hk hv
        by_cases hkn : k = n.ConsensusID
        · rw [hkn, Staking.kvGet_kvInsert_self] at hk
          simp only [Option.some.injEq] at hk
          refine ⟨n, by simp, hkn.symm, ?_, ?_⟩
          · rw [← hk]
          · rw [← hk]
        · rw [Staking.kvGet_kvInsert_ne _ _ _ _ hkn] at hk
          obtain ⟨x, hx, hx2⟩ := h1 k v hk hv
          exact ⟨x, List.mem_append_left _ hx, hx2⟩
      have g2 : ∀ x ∈ t0 ++ [n], (kvGet (kvInsert st.newValidators n.ConsensusID
          ({ ID := n.ID, EntityID := n.EntityID, VotingPower := power } : Validator))
          x.ConsensusID).isSome = true := by
        intro x hx
        rw [List.mem_append, List.mem_singleton] at hx
        rcases hx with hx | hx
        · exact Staking.kvGet_isSome_kvInsert _ _ _ _ (h2 x hx)
        · rw [hx, Staking.kvGet_kvInsert_self]
          rfl
      have g3 : (kvInsert st.newValidators n.ConsensusID
          ({ ID := n.ID, EntityID := n.EntityID, VotingPower := power } : Validator)).countP
          (fun kv => decide (env.NewAddress kv.2.EntityID = a)) ≤ (t0 ++ [n]).length := by
        have := countP_kvInsert_le (fun kv => decide (env.NewAddress kv.2.EntityID = a))
          st.newValidators n.ConsensusID
          ({ ID := n.ID, EntityID := n.EntityID, VotingPower := power } : Validator)
        rw [List.length_append, List.length_singleton]
        split at this <;> omega
      split
      · refine ⟨[n], ?_, g1, g2, g3⟩
        exact List.prefix_iff_eq_append.mpr (by simp)
      · obtain ⟨t1, ht1, r1, r2, r3⟩ := ih (t0 ++ [n])
          ⟨st.entitiesEligibleForReward.map (keyInsert · a), keyInsert st.validatorEntities a,
            kvInsert st.newValidators n.ConsensusID
              { ID := n.ID, EntityID := n.EntityID, VotingPower := power }⟩ g1 g2 g3
        refine ⟨n :: t1, ?_, ?_, ?_, ?_⟩
        · obtain ⟨s, hs⟩ := ht1
          exact ⟨s, by rw [← hs]; rfl⟩
        · simpa using r1
        · simpa using r2
        · simpa using r3

theorem electValidators.electLoop_other (env : Environment)
    (stakeAcc : Option StakeAccumulatorCache) (params : ConsensusParameters)
    (entityNodesMap : List (Address × List Node)) (a : Address) (t : List Node) (c : Nat)
    (sortedEntities : List Address) (st : ElectState)
    (hna : a ∉ sortedEntities)
    (haddr : ∀ e, ∀ n ∈ (kvGet entityNodesMap e).getD [], env.NewAddress n.EntityID = e)
    (h1 : ∀ k v, kvGet st.newValidators k = some v → env.NewAddress v.EntityID = a →
      ∃ n ∈ t, n.ConsensusID = k ∧ n.ID = v.ID ∧ n.EntityID = v.EntityID)
    (h2 : ∀ n ∈ t, (kvGet st.newValidators n.ConsensusID).isSome = true)
    (h3 : st.newValidators.countP (fun kv => decide (env.NewAddress kv.2.EntityID = a)) ≤ c) :
    (∀ k v, kvGet (electValidators.electLoop env stakeAcc params entityNodesMap sortedEntities
        st).1.newValidators k = some v → env.NewAddress v.EntityID = a →
      ∃ n ∈ t, n.ConsensusID = k ∧ n.ID = v.ID ∧ n.EntityID = v.EntityID) ∧
    (∀ n ∈ t, (kvGet (electValidators.electLoop env stakeAcc params entityNodesMap sortedEntities
        st).1.newValidators n.ConsensusID).isSome = true) ∧
    (electValidators.electLoop env stakeAcc params entityNodesMap sortedEntities
      st).1.newValidators.countP (fun kv => decide (env.NewAddress kv.2.EntityID = a)) ≤ c := by
  induction sortedEntities generalizing st with
  | nil => exact ⟨h1, h2, h3⟩
  | cons entAddr rest ih =>
    have hne : entAddr ≠ a := fun e => hna (e ▸ List.mem_cons_self _ _)
    have hp := electValidators.pick_other env stakeAcc params entAddr a t c
      (((kvGet entityNodesMap entAddr).getD []).take params.MaxValidatorsPerEntity.toNat) st hne
      (fun n hn => haddr entAddr n (List.mem_of_mem_take hn)) h1 h2 h3
    simp only [electValidators.electLoop]
    generalize electValidators.pick env stakeAcc params entAddr
      (((kvGet entityNodesMap entAddr).getD []).take params.MaxValidatorsPerEntity.toNat) st
      = r at hp
    obtain ⟨st1, fl⟩ := r
    cases fl with
    | next => exact ih st1 (fun h => hna (List.mem_cons_of_mem _ h)) hp.1 hp.2.1 hp.2.2
    | stop => exact hp
    | fail err => exact hp

/-- The election loop takes, for every entity `a`, a prefix `t` of the first
`MaxValidatorsPerEntity` nodes gathered for the entity. -/
theorem electValidators.electLoop_self (env : Environment)
    (stakeAcc : Option StakeAccumulatorCache) (params : ConsensusParameters)
    (entityNodesMap : List (Address × List Node)) (a : Address)
    (sortedEntities : List Address) (st : ElectState)
    (hnd : sortedEntities.Nodup)
    (haddr : ∀ e, ∀ n ∈ (kvGet entityNodesMap e).getD [], env.NewAddress n.EntityID = e)
    (h1 : ∀ k v, kvGet st.newValidators k = some v → env.NewAddress v.EntityID = a →
      ∃ n ∈ ([] : List Node), n.ConsensusID = k ∧ n.ID = v.ID ∧ n.EntityID = v.EntityID)
    (h3 : st.newValidators.countP (fun kv => decide (env.NewAddress kv.2.EntityID = a)) ≤ 0) :
    ∃ t, t <+: ((kvGet entityNodesMap a).getD []).take params.MaxValidatorsPerEntity.toNat ∧
      (∀ k v, kvGet (electValidators.electLoop env stakeAcc params entityNodesMap sortedEntities
          st).1.newValidators k = some v → env.NewAddress v.EntityID = a →
        ∃ n ∈ t, n.ConsensusID = k ∧ n.ID = v.ID ∧ n.EntityID = v.EntityID) ∧
      (∀ n ∈ t, (kvGet (electValidators.electLoop env stakeAcc params entityNodesMap
          sortedEntities st).1.newValidators n.ConsensusID).isSome = true) ∧
      (electValidators.electLoop env stakeAcc params entityNodesMap sortedEntities
        st).1.newValidators.countP (fun kv => decide (env.NewAddress kv.2.EntityID = a))
        ≤ t.length := by
  have h2 : ∀ n ∈ ([] : List Node), (kvGet st.newValidators n.ConsensusID).isSome = true :=
    fun n hn => absurd hn (List.not_mem_nil n)
  induction sortedEntities generalizing st with
  | nil => exact ⟨[], List.nil_prefix, h1, h2, h3⟩
  | cons entAddr rest ih =>
    rw [List.nodup_cons] at hnd
    by_cases hea : entAddr = a
    · subst hea
      obtain ⟨t1, ht1, hp⟩ := electValidators.pick_self env stakeAcc params entAddr []
        (((kvGet entityNodesMap entAddr).getD []).take params.MaxValidatorsPerEntity.toNat) st
        h1 h2 h3
      rw [List.nil_append] at hp
      simp only [electValidators.electLoop]
      generalize electValidators.pick env stakeAcc params entAddr
        (((kvGet entityNodesMap entAddr).getD []).take params.MaxValidatorsPerEntity.toNat) st
        = r at hp
      obtain ⟨st1, fl⟩ := r
      cases fl with
      | next =>
        exact ⟨t1, ht1, electValidators.electLoop_other env stakeAcc params entityNodesMap
          entAddr t1 t1.length rest st1 hnd.1 haddr hp.1 hp.2.1 hp.2.2⟩
      | stop => exact ⟨t1, ht1, hp⟩
      | fail err => exact ⟨t1, ht1, hp⟩
    · have hp := electValidators.pick_other env stakeAcc params entAddr a [] 0
        (((kvGet entityNodesMap entAddr).getD []).take params.MaxValidatorsPerEntity.toNat) st
        hea (fun n hn => haddr entAddr n (List.mem_of_mem_take hn)) h1 h2 h3
      simp only [electValidators.electLoop]
      generalize electValidators.pick env stakeAcc params entAddr
        (((kvGet entityNodesMap entAddr).getD []).take params.MaxValidatorsPerEntity.toNat) st
        = r at hp
      obtain ⟨st1, fl⟩ := r
      cases fl with
      | next => exact ih st1 hnd.2 hp.1 hp.2.2 hp.2.1
      | stop => exact ⟨[], List.nil_prefix, hp⟩
      | fail err => exact ⟨[], List.nil_prefix, hp⟩

end Scheduler

namespace Scheduler

open Staking (kvGet kvInsert kvRemove kvIterator keyInsert Address PublicKey)

theorem swapEntities_perm (entities : List Address) (i j : Nat) :
    (swapEntities entities i j).Perm entities := by
  unfold swapEntities
  cases hi : entities[i]? with
  | none => exact List.Perm.refl _
  | some a =>
    cases hj : entities[j]? with
    | none => exact List.Perm.refl _
    | some b =>
      simp only
      obtain ⟨hil, hia⟩ := List.getElem?_eq_some.mp hi
      obtain ⟨hjl, hjb⟩ := List.getElem?_eq_some.mp hj
      rw [List.perm_iff_count]
      intro x
      have hjl2 : j < (entities.set i b).length := by rw [List.length_set]; exact hjl
      rw [List.count_set _ _ _ _ hjl2, List.count_set _ _ _ _ hil, List.getElem_set, hia]
      have hb : (if i = j then b else entities[j]) = b := by
        by_cases h : i = j
        · rw [if_pos h]
        · rw [if_neg h, hjb]
      rw [hb]
      have ha : (if (a == x) = true then 1 else 0) ≤ entities.count x := by
        by_cases h : a = x
        · subst h
          simp only [beq_self_eq_true, if_true]
          exact List.count_pos_iff.mpr (hia ▸ List.getElem_mem _)
        · simp [h]
      omega

theorem shuffleEntities_perm (draw : Nat → Nat) (i : Nat) (entities : List Address) :
    (shuffleEntities draw i entities).Perm entities := by
  induction i generalizing entities with
  | zero => exact List.Perm.refl _
  | succ i ih =>
    simp only [shuffleEntities]
    exact (ih _).trans (swapEntities_perm _ _ _)

theorem stakingAddressMapToSortedSlice_perm (m : List Address) :
    (stakingAddressMapToSortedSlice m).Perm m.dedup :=
  List.perm_insertionSort _ _

/-- A successful call of `stakingAddressMapToSliceByStake`: the random number generator was
instantiated, and the result is the shuffled slice, stable-sorted by descending escrow balance
when there is a stake accumulator, none of whose queries failed if there are two entities. -/
theorem stakingAddressMapToSliceByStake_ok (env : Environment) (entMap : List Address)
    (stakeAcc : Option StakeAccumulatorCache) (beacon : Nat) (sorted : List Address)
    (h : stakingAddressMapToSliceByStake env entMap stakeAcc beacon = .ok sorted) :
    ∃ draw, env.entitiesRng beacon = .ok draw ∧
      (stakeAcc = none → sorted = shuffleEntities draw
        ((stakingAddressMapToSortedSlice entMap).length - 1)
        (stakingAddressMapToSortedSlice entMap)) ∧
      (∀ acc, stakeAcc = some acc → sorted = (shuffleEntities draw
        ((stakingAddressMapToSortedSlice entMap).length - 1)
        (stakingAddressMapToSortedSlice entMap)).insertionSort
          (fun a b => acc.balance b ≤ acc.balance a)) := by
  unfold stakingAddressMapToSliceByStake at h
  simp only at h
  cases hr : env.entitiesRng beacon with
  | error e => rw [hr] at h; cases h
  | ok draw =>
    rw [hr] at h
    simp only at h
    refine ⟨draw, rfl, ?_, ?_⟩
    · intro hn
      subst hn
      simp only [Except.ok.injEq] at h
      exact h.symm
    · intro acc hacc
      subst hacc
      simp only at h
      split at h
      · cases h
      · simp only [Except.ok.injEq] at h
        exact h.symm

theorem stakingAddressMapToSliceByStake_perm (env : Environment) (entMap : List Address)
    (stakeAcc : Option StakeAccumulatorCache) (beacon : Nat) (sorted : List Address)
    (h : stakingAddressMapToSliceByStake env entMap stakeAcc beacon = .ok sorted) :
    sorted.Perm entMap.dedup := by
  obtain ⟨draw, _, h1, h2⟩ := stakingAddressMapToSliceByStake_ok env entMap stakeAcc beacon
    sorted h
  cases stakeAcc with
  | none =>
    rw [h1 rfl]
    exact (shuffleEntities_perm _ _ _).trans (stakingAddressMapToSortedSlice_perm _)
  | some acc =>
    rw [h2 acc rfl]
    exact (List.perm_insertionSort _ _).trans
      ((shuffleEntities_perm _ _ _).trans (stakingAddressMapToSortedSlice_perm _))

theorem stakingAddressMapToSliceByStake_nodup (env : Environment) (entMap : List Address)
    (stakeAcc : Option StakeAccumulatorCache) (beacon : Nat) (sorted : List Address)
    (h : stakingAddressMapToSliceByStake env entMap stakeAcc beacon = .ok sorted) :
    sorted.Nodup :=
  (stakingAddressMapToSliceByStake_perm env entMap stakeAcc beacon sorted h).nodup_iff.mpr
    (List.nodup_dedup _)

end Scheduler

namespace Scheduler

open Staking (kvGet kvInsert kvRemove kvIterator keyInsert Address PublicKey)

/-- C24. Per-entity cap: for every successful `electValidators` call, no entity (by staking
address, and so by entity key) has more than `MaxValidatorsPerEntity` validators in the elected
set, and the validators taken from one entity are the first ones of that entity in the shuffled
node order: for every entity there is a prefix `taken` of the nodes of the entity in the shuffled
list, of length at most `MaxValidatorsPerEntity`, such that every validator of the entity in the
elected set was made from a node of `taken` and the consensus key of every node of `taken` is in
the elected set; when the consensus keys of the shuffled nodes are distinct, every node of
`taken` is a validator of the elected set. -/
theorem electValidators_per_entity (env : Environment) (stakeAcc : Option StakeAccumulatorCache)
    (eligible : Option (List Address)) (nodes : List Node) (params : ConsensusParameters)
    (validatorEntities : List Address)
    (hok : (electValidators env stakeAcc eligible nodes params).ret = .ok validatorEntities) :
    ∃ shuffledNodes newValidators,
      env.shuffleValidators (electValidators.filter env stakeAcc nodes ([], [])).1
        = .ok shuffledNodes ∧
      (electValidators env stakeAcc eligible nodes params).pendingValidators
        = some newValidators ∧
      (∀ a, ((newValidators.countP
          (fun kv => decide (env.NewAddress kv.2.EntityID = a)) : Nat) : Int)
        ≤ params.MaxValidatorsPerEntity) ∧
      (∀ entity, ((newValidators.countP (fun kv => decide (kv.2.EntityID = entity)) : Nat) : Int)
        ≤ params.MaxValidatorsPerEntity) ∧
      ∀ a, ∃ taken,
        taken <+: shuffledNodes.filter (fun n => decide (env.NewAddress n.EntityID = a)) ∧
        ((taken.length : Nat) : Int) ≤ params.MaxValidatorsPerEntity ∧
        (∀ k v, kvGet newValidators k = some v → env.NewAddress v.EntityID = a →
          ∃ n ∈ taken, n.ConsensusID = k ∧ n.ID = v.ID ∧ n.EntityID = v.EntityID) ∧
        (∀ n ∈ taken, (kvGet newValidators n.ConsensusID).isSome = true) ∧
        ((shuffledNodes.map Node.ConsensusID).Nodup → ∀ n ∈ taken, ∃ v,
          kvGet newValidators n.ConsensusID = some v ∧ v.ID = n.ID ∧ v.EntityID = n.EntityID) := by
  obtain ⟨weakEntropy, sortedEntities, shuffledNodes, st, flow, _, hs, hsh, hl, _, h0, _, he, _⟩ :=
    electValidators_ok env stakeAcc eligible nodes params validatorEntities hok
  have hnd := stakingAddressMapToSliceByStake_nodup _ _ _ _ _ hs
  have haddr : ∀ e, ∀ n ∈ (kvGet (electValidators.gather env shuffledNodes []) e).getD [],
      env.NewAddress n.EntityID = e := by
    intro e n hn
    rw [electValidators.gather_nil, List.mem_filter] at hn
    exact of_decide_eq_true hn.2
  have key : ∀ a, ∃ t,
      t <+: (shuffledNodes.filter (fun n => decide (env.NewAddress n.EntityID = a))).take
        params.MaxValidatorsPerEntity.toNat ∧
      (∀ k v, kvGet st.newValidators k = some v → env.NewAddress v.EntityID = a →
        ∃ n ∈ t, n.ConsensusID = k ∧ n.ID = v.ID ∧ n.EntityID = v.EntityID) ∧
      (∀ n ∈ t, (kvGet st.newValidators n.ConsensusID).isSome = true) ∧
      st.newValidators.countP (fun kv => decide (env.NewAddress kv.2.EntityID = a))
        ≤ t.length := by
    intro a
    have := electValidators.electLoop_self env stakeAcc params
      (electValidators.gather env shuffledNodes []) a sortedEntities ⟨eligible, [], []⟩ hnd haddr
      (fun k v h => by cases h) (by simp)
    rw [hl, electValidators.gather_nil] at this
    exact this
  -- Something was elected, so that `MaxValidatorsPerEntity` is positive.
  have hcap : ((params.MaxValidatorsPerEntity.toNat : Nat) : Int)
      = params.MaxValidatorsPerEntity := by
    cases hnv : st.newValidators with
    | nil => rw [hnv] at h0; exact absurd rfl h0
    | cons kv rest =>
      obtain ⟨k, v⟩ := kv
      have hget : kvGet st.newValidators k = some v := by
        rw [hnv]
        simp [kvGet]
      obtain ⟨t, ht, h1, _, _⟩ := key (env.NewAddress v.EntityID)
      obtain ⟨n, hn, _⟩ := h1 k v hget rfl
      have hlen : 0 < t.length := List.length_pos_of_mem hn
      have hle := ht.length_le
      rw [List.length_take] at hle
      have : 0 < params.MaxValidatorsPerEntity.toNat := by omega
      omega
  have hlen : ∀ (a : Address) (t : List Node),
      t <+: (shuffledNodes.filter (fun n => decide (env.NewAddress n.EntityID = a))).take
        params.MaxValidatorsPerEntity.toNat →
      ((t.length : Nat) : Int) ≤ params.MaxValidatorsPerEntity := by
    intro a t ht
    have hle := ht.length_le
    rw [List.length_take] at hle
    omega
  have hcount : ∀ a, ((st.newValidators.countP
      (fun kv => decide (env.NewAddress kv.2.EntityID = a)) : Nat) : Int)
      ≤ params.MaxValidatorsPerEntity := by
    intro a
    obtain ⟨t, ht, _, _, h3⟩ := key a
    have := hlen a t ht
    omega
  refine ⟨shuffledNodes, st.newValidators, hsh, by rw [he], hcount, ?_, ?_⟩
  · intro entity
    have hmono : st.newValidators.countP (fun kv => decide (kv.2.EntityID = entity))
        ≤ st.newValidators.countP
          (fun kv => decide (env.NewAddress kv.2.EntityID = env.NewAddress entity)) :=
      List.countP_mono_left (fun kv _ h => by
        simp only [decide_eq_true_eq] at h ⊢
        rw [h])
    have := hcount (env.NewAddress entity)
    omega
  · intro a
    obtain ⟨t, ht, h1, h2, _⟩ := key a
    refine ⟨t, ht.trans (List.take_prefix _ _), hlen a t ht, h1, h2, ?_⟩
    intro hcons n hn
    cases hv : kvGet st.newValidators n.ConsensusID with
    | none =>
      have := h2 n hn
      rw [hv] at this
      cases this
    | some v =>
      refine ⟨v, rfl, ?_⟩
      obtain ⟨t2, ht2, g1, _, _⟩ := key (env.NewAddress v.EntityID)
      obtain ⟨n2, hn2, hc, hid, hent⟩ := g1 n.ConsensusID v hv rfl
      have hmem : ∀ (b : Address) (t : List Node) (x : Node),
          t <+: (shuffledNodes.filter (fun n => decide (env.NewAddress n.EntityID = b))).take
            params.MaxValidatorsPerEntity.toNat → x ∈ t → x ∈ shuffledNodes :=
        fun b t x hp hx => List.mem_of_mem_filter (List.mem_of_mem_take (hp.subset hx))
      have heq : n2 = n :=
        List.inj_on_of_nodup_map hcons (hmem _ t2 n2 ht2 hn2) (hmem _ t n ht hn) hc
      rw [← heq]
      exact ⟨hid.symm, hent.symm⟩

/-- Witness of `electValidators_per_entity`: five nodes of three entities, at most two validators
of an entity. -/
theorem electValidators_per_entity_witness :
    ∃ shuffledNodes newValidators,
      (fun l => Except.ok l.reverse : List Node → Except ElectError (List Node))
        (electValidators.filter
          ⟨fun k => k + 100, .ok 7, fun _ => .ok (fun i => i * 7 + 3), fun l => .ok l.reverse,
            fun s => .ok s⟩
          none
          [⟨1, 1, 11, true⟩, ⟨2, 1, 12, true⟩, ⟨3, 1, 13, true⟩, ⟨4, 2, 14, true⟩,
            ⟨5, 3, 15, false⟩] ([], [])).1
        = .ok shuffledNodes ∧
      (electValidators
        ⟨fun k => k + 100, .ok 7, fun _ => .ok (fun i => i * 7 + 3), fun l => .ok l.reverse,
          fun s => .ok s⟩
        none (some [])
        [⟨1, 1, 11, true⟩, ⟨2, 1, 12, true⟩, ⟨3, 1, 13, true⟩, ⟨4, 2, 14, true⟩,
          ⟨5, 3, 15, false⟩]
        ⟨1, 5, 2⟩).pendingValidators = some newValidators ∧
      (∀ a, ((newValidators.countP (fun kv => decide (kv.2.EntityID + 100 = a)) : Nat) : Int)
        ≤ 2) ∧
      (∀ entity, ((newValidators.countP (fun kv => decide (kv.2.EntityID = entity)) : Nat) : Int)
        ≤ 2) ∧
      ∀ a, ∃ taken,
        taken <+: shuffledNodes.filter (fun n => decide (n.EntityID + 100 = a)) ∧
        ((taken.length : Nat) : Int) ≤ 2 ∧
        (∀ k v, kvGet newValidators k = some v → v.EntityID + 100 = a →
          ∃ n ∈ taken, n.ConsensusID = k ∧ n.ID = v.ID ∧ n.EntityID = v.EntityID) ∧
        (∀ n ∈ taken, (kvGet newValidators n.ConsensusID).isSome = true) ∧
        ((shuffledNodes.map Node.ConsensusID).Nodup → ∀ n ∈ taken, ∃ v,
          kvGet newValidators n.ConsensusID = some v ∧ v.ID = n.ID ∧ v.EntityID = n.EntityID) :=
  electValidators_per_entity
    ⟨fun k => k + 100, .ok 7, fun _ => .ok (fun i => i * 7 + 3), fun l => .ok l.reverse,
      fun s => .ok s⟩
    none (some [])
    [⟨1, 1, 11, true⟩, ⟨2, 1, 12, true⟩, ⟨3, 1, 13, true⟩, ⟨4, 2, 14, true⟩, ⟨5, 3, 15, false⟩]
    ⟨1, 5, 2⟩ [102, 101] (by decide)

end Scheduler

namespace Scheduler

open Staking (kvGet kvInsert kvRemove kvIterator keyInsert Address PublicKey)

theorem StakeAccumulatorCache.balance_eq (stakeAcc : StakeAccumulatorCache) (addr : Address)
    (bal : Nat) (h : stakeAcc.GetEscrowBalance addr = .ok bal) : stakeAcc.balance addr = bal := by
  unfold StakeAccumulatorCache.balance
  rw [h]

theorem StakeAccumulatorCache.balance_ok (stakeAcc : StakeAccumulatorCache) (addr : Address)
    (h : stakeAcc.balanceFails addr = false) :
    stakeAcc.GetEscrowBalance addr = .ok (stakeAcc.balance addr) := by
  unfold StakeAccumulatorCache.balanceFails at h
  unfold StakeAccumulatorCache.balance
  cases hb : stakeAcc.GetEscrowBalance addr with
  | error e => rw [hb] at h; cases h
  | ok b => rfl

/-- The insertion sort is stable: the members with a given value of the sort key keep their
order. -/
theorem filter_insertionSort_stable (f : Address → Nat) (v : Nat) (l : List Address) :
    (l.insertionSort (fun a b => f b ≤ f a)).filter (fun a => decide (f a = v))
      = l.filter (fun a => decide (f a = v)) := by
  induction l with
  | nil => rfl
  | cons x rest ih =>
    rw [List.insertionSort_cons_eq_take_drop, List.filter_append, List.filter_cons]
    have hsplit := List.takeWhile_append_dropWhile (fun b => decide ¬ f b ≤ f x)
      (rest.insertionSort (fun a b => f b ≤ f a))
    by_cases hx : f x = v
    · have htw : (List.takeWhile (fun b => decide ¬ f b ≤ f x)
          (rest.insertionSort (fun a b => f b ≤ f a))).filter (fun a => decide (f a = v))
          = [] := by
        rw [List.filter_eq_nil_iff]
        intro a ha
        have := List.mem_takeWhile_imp ha
        simp only [decide_eq_true_eq] at this ⊢
        omega
      have hdw : (List.dropWhile (fun b => decide ¬ f b ≤ f x)
          (rest.insertionSort (fun a b => f b ≤ f a))).filter (fun a => decide (f a = v))
          = rest.filter (fun a => decide (f a = v)) := by
        rw [← ih]
        conv => rhs; rw [← hsplit]
        rw [List.filter_append, htw, List.nil_append]
      rw [htw, List.nil_append, hdw]
      simp [List.filter_cons, hx]
    · simp only [hx, decide_False, Bool.false_eq_true, if_false]
      rw [← List.filter_append, hsplit, ih]
      simp [List.filter_cons, hx]

theorem insertionSort_balance_pairwise (f : Address → Nat) (l : List Address) :
    (l.insertionSort (fun a b => f b ≤ f a)).Pairwise (fun a b => f b ≤ f a) :=
  @List.sorted_insertionSort _ (fun a b => f b ≤ f a) _
    ⟨fun a b => Nat.le_total (f b) (f a)⟩ ⟨fun _ _ _ h1 h2 => Nat.le_trans h2 h1⟩ l

theorem keyInsert_idem {κ : Type} [DecidableEq κ] (m : List κ) (k : κ) :
    keyInsert (keyInsert m k) k = keyInsert m k := by
  have hk : k ∈ keyInsert m k := (Staking.mem_keyInsert m k k).mpr (Or.inr rfl)
  generalize keyInsert m k = m2 at hk ⊢
  unfold keyInsert
  rw [if_pos hk]

theorem foldl_keyInsert_nodup {κ : Type} [DecidableEq κ] (xs l : List κ)
    (h : (l ++ xs).Nodup) : xs.foldl keyInsert l = l ++ xs := by
  induction xs generalizing l with
  | nil => simp
  | cons x rest ih =>
    have hx : x ∉ l := by
      intro hm
      rw [List.nodup_append] at h
      exact h.2.2 hm (List.mem_cons_self _ _)
    simp only [List.foldl_cons]
    have hk : keyInsert l x = l ++ [x] := by
      unfold keyInsert
      rw [if_neg hx]
    rw [hk, ih (l ++ [x]) (by simpa using h)]
    simp

/-- The filter at the head of the election keeps the nodes it has, and every entity it adds has
a node in the filtered list. -/
theorem electValidators.filter_spec (env : Environment) (stakeAcc : Option StakeAccumulatorCache)
    (nodes nodeList : List Node) (entities : List Address) :
    (∀ x ∈ nodeList, x ∈ (electValidators.filter env stakeAcc nodes (nodeList, entities)).1) ∧
    (∀ a ∈ (electValidators.filter env stakeAcc nodes (nodeList, entities)).2,
      a ∈ entities ∨
      ∃ n ∈ (electValidators.filter env stakeAcc nodes (nodeList, entities)).1,
        env.NewAddress n.EntityID = a) := by
  induction nodes generalizing nodeList entities with
  | nil => exact ⟨fun x hx => hx, fun a ha => Or.inl ha⟩
  | cons n nodes ih =>
    simp only [electValidators.filter]
    split
    · exact ih nodeList entities
    · split
      · exact ih nodeList entities
      · obtain ⟨g1, g2⟩ := ih (nodeList ++ [n]) (keyInsert entities (env.NewAddress n.EntityID))
        refine ⟨fun x hx => g1 x (List.mem_append_left _ hx), fun a ha => ?_⟩
        rcases g2 a ha with h | h
        · rcases (Staking.mem_keyInsert _ _ _).mp h with h | h
          · exact Or.inl h
          · exact Or.inr ⟨n, g1 n (by simp), h.symm⟩
        · exact Or.inr h

/-- The inner loop over at least one node, when it does not fail, adds the entity to the
validator entities. -/
theorem electValidators.pick_entities (env : Environment)
    (stakeAcc : Option StakeAccumulatorCache) (params : ConsensusParameters) (entAddr : Address)
    (nodes : List Node) (st st1 : ElectState) (flow : ElectFlow)
    (hp : electValidators.pick env stakeAcc params entAddr nodes st = (st1, flow))
    (hflow : ∀ err, flow ≠ .fail err) (hne : nodes ≠ []) :
    st1.validatorEntities = keyInsert st.validatorEntities entAddr := by
  induction nodes generalizing st with
  | nil => exact absurd rfl hne
  | cons n nodes ih =>
    simp only [electValidators.pick] at hp
    split at hp
    · simp only [Prod.mk.injEq] at hp
      exact absurd hp.2.symm (hflow _)
    · split at hp
      · simp only [Prod.mk.injEq] at hp
        rw [← hp.1]
      · cases nodes with
        | nil =>
          simp only [electValidators.pick, Prod.mk.injEq] at hp
          rw [← hp.1]
        | cons n2 nodes =>
          rw [ih _ hp (fun h => by cases h)]
          exact keyInsert_idem _ _

/-- The election loop, when it does not fail and every entity has a node to visit, adds the
entities of a prefix of the sorted list to the validator entities. -/
theorem electValidators.electLoop_entities (env : Environment)
    (stakeAcc : Option StakeAccumulatorCache) (params : ConsensusParameters)
    (entityNodesMap : List (Address × List Node)) (sortedEntities : List Address)
    (st st1 : ElectState) (flow : ElectFlow)
    (hl : electValidators.electLoop env stakeAcc params entityNodesMap sortedEntities st
      = (st1, flow))
    (hflow : ∀ err, flow ≠ .fail err)
    (hne : ∀ e ∈ sortedEntities,
      ((kvGet entityNodesMap e).getD []).take params.MaxValidatorsPerEntity.toNat ≠ []) :
    ∃ j, st1.validatorEntities = (sortedEntities.take j).foldl keyInsert st.validatorEntities := by
  induction sortedEntities generalizing st with
  | nil =>
    simp only [electValidators.electLoop, Prod.mk.injEq] at hl
    exact ⟨0, by rw [← hl.1]; rfl⟩
  | cons entAddr rest ih =>
    simp only [electValidators.electLoop] at hl
    cases hp : electValidators.pick env stakeAcc params entAddr
      (((kvGet entityNodesMap entAddr).getD []).take params.MaxValidatorsPerEntity.toNat) st with
    | mk st2 fl =>
      rw [hp] at hl
      have hne1 := hne entAddr (List.mem_cons_self _ _)
      cases fl with
      | next =>
        simp only at hl
        obtain ⟨j, hj⟩ := ih st2 hl (fun e he => hne e (List.mem_cons_of_mem _ he))
        refine ⟨j + 1, ?_⟩
        rw [hj, electValidators.pick_entities env stakeAcc params entAddr _ st st2 .next hp
          (fun err h => by cases h) hne1]
        rfl
      | stop =>
        simp only [Prod.mk.injEq] at hl
        refine ⟨1, ?_⟩
        rw [← hl.1, electValidators.pick_entities env stakeAcc params entAddr _ st st2 .stop hp
          (fun err h => by cases h) hne1]
        rfl
      | fail err =>
        simp only [Prod.mk.injEq] at hl
        exact absurd hl.2.symm (hflow err)

end Scheduler

namespace Scheduler

open Staking (kvGet kvInsert kvRemove kvIterator keyInsert Address PublicKey)

/-- A successful call of `stakingAddressMapToSliceByStake` with a stake accumulator and at least
two entities has queried the escrow balance of every entity without error. -/
theorem stakingAddressMapToSliceByStake_balances (env : Environment) (entMap : List Address)
    (acc : StakeAccumulatorCache) (beacon : Nat) (sorted : List Address)
    (h : stakingAddressMapToSliceByStake env entMap (some acc) beacon = .ok sorted)
    (hlen : 2 ≤ sorted.length) (e : Address) (he : e ∈ sorted) :
    acc.GetEscrowBalance e = .ok (acc.balance e) := by
  apply StakeAccumulatorCache.balance_ok
  unfold stakingAddressMapToSliceByStake at h
  simp only at h
  cases hr : env.entitiesRng beacon with
  | error err => rw [hr] at h; cases h
  | ok draw =>
    rw [hr] at h
    simp only at h
    split at h
    · cases h
    · rename_i hcond
      simp only [Except.ok.injEq] at h
      rw [← h, List.length_insertionSort] at hlen
      rw [← h, List.mem_insertionSort] at he
      cases hf : acc.balanceFails e with
      | false => rfl
      | true => exact absurd ⟨hlen, e, he, hf⟩ hcond

/-! ## Lemmas on the validators of the elected entities -/

theorem mem_kvInsert_key {κ ν : Type} [DecidableEq κ] (m : List (κ × ν)) (k : κ) (v : ν) :
    (k, v) ∈ kvInsert m k v := by
  induction m with
  | nil => simp [kvInsert]
  | cons hd tl ih =>
    obtain ⟨k1, v1⟩ := hd
    by_cases hk : k1 = k
    · simp [kvInsert, if_pos hk]
    · simp only [kvInsert, if_neg hk, List.mem_cons]
      exact Or.inr ih

theorem mem_kvInsert_other {κ ν : Type} [DecidableEq κ] (m : List (κ × ν)) (k : κ) (v : ν)
    (x : κ × ν) (hx : x ∈ m) (hne : x.1 ≠ k) : x ∈ kvInsert m k v := by
  induction m with
  | nil => cases hx
  | cons hd tl ih =>
    obtain ⟨k1, v1⟩ := hd
    by_cases hk : k1 = k
    · simp only [kvInsert, if_pos hk, List.mem_cons]
      rcases List.mem_cons.mp hx with h | h
      · rw [h] at hne
        exact absurd hk hne
      · exact Or.inr h
    · simp only [kvInsert, if_neg hk, List.mem_cons]
      rcases List.mem_cons.mp hx with h | h
      · exact Or.inl h
      · exact Or.inr (ih h)

/-- The nodes that the filter at the head of the election keeps are nodes it had or nodes of the
list. -/
theorem electValidators.filter_subset (env : Environment)
    (stakeAcc : Option StakeAccumulatorCache) (nodes nodeList : List Node)
    (entities : List Address) :
    ∀ x ∈ (electValidators.filter env stakeAcc nodes (nodeList, entities)).1,
      x ∈ nodeList ∨ x ∈ nodes := by
  induction nodes generalizing nodeList entities with
  | nil => exact fun x hx => Or.inl hx
  | cons n nodes ih =>
    simp only [electValidators.filter]
    split
    · intro x hx
      rcases ih nodeList entities x hx with h | h
      · exact Or.inl h
      · exact Or.inr (List.mem_cons_of_mem _ h)
    · split
      · intro x hx
        rcases ih nodeList entities x hx with h | h
        · exact Or.inl h
        · exact Or.inr (List.mem_cons_of_mem _ h)
      · intro x hx
        rcases ih _ _ x hx with h | h
        · rcases List.mem_append.mp h with h1 | h1
          · exact Or.inl h1
          · rw [List.mem_singleton.mp h1]
            exact Or.inr (List.mem_cons_self _ _)
        · exact Or.inr (List.mem_cons_of_mem _ h)

/-- The inner loop keeps the tie between the validator set and the validator entities, when no
two nodes share a consensus key: every validator of the set is that of a node, and its entity is
among the validator entities; every validator entity has a validator in the set. -/
theorem electValidators.pick_validators (env : Environment)
    (stakeAcc : Option StakeAccumulatorCache) (params : ConsensusParameters) (entAddr : Address)
    (all : List Node)
    (hinj : ∀ n1 ∈ all, ∀ n2 ∈ all, n1.ConsensusID = n2.ConsensusID → n1 = n2)
    (nodes : List Node) (st : ElectState)
    (hnodes : ∀ n ∈ nodes, n ∈ all ∧ env.NewAddress n.EntityID = entAddr)
    (h1 : ∀ kv ∈ st.newValidators, (∃ n ∈ all, n.ConsensusID = kv.1 ∧ n.EntityID = kv.2.EntityID) ∧
      env.NewAddress kv.2.EntityID ∈ st.validatorEntities)
    (h2 : ∀ E ∈ st.validatorEntities, ∃ kv ∈ st.newValidators, env.NewAddress kv.2.EntityID = E) :
    (∀ kv ∈ (electValidators.pick env stakeAcc params entAddr nodes st).1.newValidators,
      (∃ n ∈ all, n.ConsensusID = kv.1 ∧ n.EntityID = kv.2.EntityID) ∧
      env.NewAddress kv.2.EntityID
        ∈ (electValidators.pick env stakeAcc params entAddr nodes st).1.validatorEntities) ∧
    (∀ E ∈ (electValidators.pick env stakeAcc params entAddr nodes st).1.validatorEntities,
      ∃ kv ∈ (electValidators.pick env stakeAcc params entAddr nodes st).1.newValidators,
        env.NewAddress kv.2.EntityID = E) := by
  induction nodes generalizing st with
  | nil => exact ⟨h1, h2⟩
  | cons n nodes ih =>
    simp only [electValidators.pick]
    split
    · exact ⟨h1, h2⟩
    · rename_i power _
      obtain ⟨hn, hna⟩ := hnodes n (List.mem_cons_self _ _)
      have g1 : ∀ kv ∈ kvInsert st.newValidators n.ConsensusID
            ({ ID := n.ID, EntityID := n.EntityID, VotingPower := power } : Validator),
          (∃ n0 ∈ all, n0.ConsensusID = kv.1 ∧ n0.EntityID = kv.2.EntityID) ∧
          env.NewAddress kv.2.EntityID ∈ keyInsert st.validatorEntities entAddr := by
        intro kv hkv
        rcases Staking.mem_kvInsert _ _ _ _ hkv with h | h
        · exact ⟨(h1 kv h).1, (Staking.mem_keyInsert _ _ _).mpr (Or.inl (h1 kv h).2)⟩
        · rw [h]
          exact ⟨⟨n, hn, rfl, rfl⟩, (Staking.mem_keyInsert _ _ _).mpr (Or.inr hna)⟩
      have g2 : ∀ E ∈ keyInsert st.validatorEntities entAddr,
          ∃ kv ∈ kvInsert st.newValidators n.ConsensusID
            ({ ID := n.ID, EntityID := n.EntityID, VotingPower := power } : Validator),
            env.NewAddress kv.2.EntityID = E := by
        intro E hE
        rcases (Staking.mem_keyInsert _ _ _).mp hE with h | h
        · obtain ⟨kv, hkv, hkvE⟩ := h2 E h
          by_cases hk : kv.1 = n.ConsensusID
          · obtain ⟨n0, hn0, hc, he⟩ := (h1 kv hkv).1
            have e : n0 = n := hinj n0 hn0 n hn (hc.trans hk)
            refine ⟨_, mem_kvInsert_key _ _ _, ?_⟩
            rw [← hkvE, ← he, e]
          · exact ⟨kv, mem_kvInsert_other _ _ _ kv hkv hk, hkvE⟩
        · refine ⟨_, mem_kvInsert_key _ _ _, ?_⟩
          rw [h]
          exact hna
      split
      · exact ⟨g1, g2⟩
      · exact ih _ (fun x hx => hnodes x (List.mem_cons_of_mem _ hx)) g1 g2

/-- The election loop keeps the tie between the validator set and the validator entities, when
no two nodes share a consensus key. -/
theorem electValidators.electLoop_validators (env : Environment)
    (stakeAcc : Option StakeAccumulatorCache) (params : ConsensusParameters)
    (entityNodesMap : List (Address × List Node)) (all : List Node)
    (hinj : ∀ n1 ∈ all, ∀ n2 ∈ all, n1.ConsensusID = n2.ConsensusID → n1 = n2)
    (hmap : ∀ e, ∀ n ∈ (kvGet entityNodesMap e).getD [], n ∈ all ∧ env.NewAddress n.EntityID = e)
    (sortedEntities : List Address) (st : ElectState)
    (h1 : ∀ kv ∈ st.newValidators, (∃ n ∈ all, n.ConsensusID = kv.1 ∧ n.EntityID = kv.2.EntityID) ∧
      env.NewAddress kv.2.EntityID ∈ st.validatorEntities)
    (h2 : ∀ E ∈ st.validatorEntities, ∃ kv ∈ st.newValidators, env.NewAddress kv.2.EntityID = E) :
    (∀ kv ∈ (electValidators.electLoop env stakeAcc params entityNodesMap sortedEntities
        st).1.newValidators,
      (∃ n ∈ all, n.ConsensusID = kv.1 ∧ n.EntityID = kv.2.EntityID) ∧
      env.NewAddress kv.2.EntityID
        ∈ (electValidators.electLoop env stakeAcc params entityNodesMap sortedEntities
            st).1.validatorEntities) ∧
    (∀ E ∈ (electValidators.electLoop env stakeAcc params entityNodesMap sortedEntities
        st).1.validatorEntities,
      ∃ kv ∈ (electValidators.electLoop env stakeAcc params entityNodesMap sortedEntities
          st).1.newValidators,
        env.NewAddress kv.2.EntityID = E) := by
  induction sortedEntities generalizing st with
  | nil => exact ⟨h1, h2⟩
  | cons entAddr rest ih =>
    simp only [electValidators.electLoop]
    have hp := electValidators.pick_validators env stakeAcc params entAddr all hinj
      (((kvGet entityNodesMap entAddr).getD []).take params.MaxValidatorsPerEntity.toNat) st
      (fun n hn => hmap entAddr n (List.mem_of_mem_take hn)) h1 h2
    generalize electValidators.pick env stakeAcc params entAddr
      (((kvGet entityNodesMap entAddr).getD []).take params.MaxValidatorsPerEntity.toNat) st
      = r at hp
    obtain ⟨st2, fl⟩ := r
    cases fl with
    | next => exact ih st2 hp.1 hp.2
    | stop => exact hp
    | fail err => exact hp

/-! ## Claims on the election by stake -/

/-- C25, counterexample. Two validator nodes, of the entities 101 (escrow balance 2) and 103
(escrow balance 1), register the same consensus key 11. The election returns no error and lists
both entities, but the validator set it writes, which is a map by consensus key, holds one
validator only, that of entity 103: the node of entity 103 has overwritten the validator of
entity 101, so the entity with strictly more stake has no validator in the set. -/
theorem election_by_stake_counterexample :
    electValidators electionEnvironment (some electionStakes) none
      [⟨1, 1, 11, true⟩, ⟨2, 3, 11, true⟩]
      { MinValidators := 1, MaxValidators := 3, MaxValidatorsPerEntity := 1 }
      = ⟨none, some [(11, { ID := 2, EntityID := 3, VotingPower := 1 })], .ok [101, 103]⟩ ∧
    electionStakes.GetEscrowBalance 101 = .ok 2 ∧ electionStakes.GetEscrowBalance 103 = .ok 1 ∧
    electionEnvironment.NewAddress 3 = 103 ∧
    ¬ ∃ kv ∈ [((11 : PublicKey), ({ ID := 2, EntityID := 3, VotingPower := 1 } : Validator))],
      electionEnvironment.NewAddress kv.2.EntityID = 101 := by
  decide

/-- C25, as amended. Election by descending stake. A successful call of
`stakingAddressMapToSliceByStake` returns a permutation of the keys of the entity map; with a stake
accumulator the escrow balances are non-increasing along the result (every balance was queried
without error when there are two entities or more) and the entities of equal balance keep the
relative order of the beacon-seeded shuffle, without one the result is the shuffled slice.
Consequently, for `MaxValidatorsPerEntity ≥ 1`, a shuffle of the nodes that returns a permutation of
the node list, and nodes of which no two share a consensus key, the entities that have a validator
in the set that a successful `electValidators` call writes are those of a prefix of the sorted
entities, which is also the list the call returns: if eligible entity `B` has a validator in the set
and eligible entity `A` has strictly more stake than `B`, then `A` has a validator in the set too.
-/
theorem election_by_stake (env : Environment) (entMap : List Address)
    (stakeAcc : Option StakeAccumulatorCache) (beacon : Nat) (sorted : List Address)
    (eligible : Option (List Address)) (nodes : List Node) (params : ConsensusParameters)
    (validatorEntities : List Address) :
    (stakingAddressMapToSliceByStake env entMap stakeAcc beacon = .ok sorted →
      sorted.Perm entMap.dedup ∧
      ∃ draw, env.entitiesRng beacon = .ok draw ∧
        (stakeAcc = none → sorted = shuffleEntities draw
          ((stakingAddressMapToSortedSlice entMap).length - 1)
          (stakingAddressMapToSortedSlice entMap)) ∧
        ∀ acc, stakeAcc = some acc →
          sorted.Pairwise (fun a b => acc.balance b ≤ acc.balance a) ∧
          (2 ≤ sorted.length → ∀ e ∈ sorted, acc.GetEscrowBalance e = .ok (acc.balance e)) ∧
          ∀ v, sorted.filter (fun a => decide (acc.balance a = v))
            = (shuffleEntities draw ((stakingAddressMapToSortedSlice entMap).length - 1)
                (stakingAddressMapToSortedSlice entMap)).filter
                (fun a => decide (acc.balance a = v))) ∧
    (1 ≤ params.MaxValidatorsPerEntity →
      (∀ l l2, env.shuffleValidators l = .ok l2 → l2.Perm l) →
      (∀ n1 ∈ nodes, ∀ n2 ∈ nodes, n1.ConsensusID = n2.ConsensusID → n1 = n2) →
      (electValidators env stakeAcc eligible nodes params).ret = .ok validatorEntities →
      ∃ weakEntropy sortedEntities j validators,
        env.Beacon = .ok weakEntropy ∧
        stakingAddressMapToSliceByStake env
          (electValidators.filter env stakeAcc nodes ([], [])).2 stakeAcc weakEntropy
          = .ok sortedEntities ∧
        (electValidators env stakeAcc eligible nodes params).pendingValidators
          = some validators ∧
        (∀ E, (∃ kv ∈ validators, env.NewAddress kv.2.EntityID = E)
          ↔ E ∈ sortedEntities.take j) ∧
        validatorEntities = sortedEntities.take j ∧
        ∀ acc A B balA balB, stakeAcc = some acc →
          A ∈ (electValidators.filter env stakeAcc nodes ([], [])).2 →
          (∃ kv ∈ validators, env.NewAddress kv.2.EntityID = B) →
          acc.GetEscrowBalance A = .ok balA → acc.GetEscrowBalance B = .ok balB →
          balB < balA → ∃ kv ∈ validators, env.NewAddress kv.2.EntityID = A) := by
  have hsorted : ∀ (entMap : List Address) (beacon : Nat) (sorted : List Address)
      (acc : StakeAccumulatorCache),
      stakingAddressMapToSliceByStake env entMap (some acc) beacon = .ok sorted →
      sorted.Pairwise (fun a b => acc.balance b ≤ acc.balance a) := by
    intro entMap beacon sorted acc h
    obtain ⟨draw, _, _, h2⟩ := stakingAddressMapToSliceByStake_ok env entMap (some acc) beacon
      sorted h
    rw [h2 acc rfl]
    exact insertionSort_balance_pairwise _ _
  constructor
  · intro h
    refine ⟨stakingAddressMapToSliceByStake_perm env entMap stakeAcc beacon sorted h, ?_⟩
    obtain ⟨draw, hdraw, h1, h2⟩ := stakingAddressMapToSliceByStake_ok env entMap stakeAcc beacon
      sorted h
    refine ⟨draw, hdraw, h1, ?_⟩
    intro acc hacc
    subst hacc
    refine ⟨hsorted entMap beacon sorted acc h,
      fun hlen e he => stakingAddressMapToSliceByStake_balances env entMap acc beacon sorted h
        hlen e he, ?_⟩
    intro v
    rw [h2 acc rfl]
    exact filter_insertionSort_stable _ _ _
  · intro hcap hshuffle hinj hok
    obtain ⟨weakEntropy, sortedEntities, shuffledNodes, st, flow, hb, hs, hsh, hl, hflow, _, _,
      heq, hve⟩ := electValidators_ok env stakeAcc eligible nodes params validatorEntities hok
    have hsub : ∀ n ∈ shuffledNodes, n ∈ nodes := by
      intro n hn
      have h1 : n ∈ (electValidators.filter env stakeAcc nodes ([], [])).1 :=
        (hshuffle _ _ hsh).mem_iff.mp hn
      rcases electValidators.filter_subset env stakeAcc nodes [] [] n h1 with h | h
      · cases h
      · exact h
    have htie := electValidators.electLoop_validators env stakeAcc params
      (electValidators.gather env shuffledNodes []) shuffledNodes
      (fun n1 h1 n2 h2 hc => hinj n1 (hsub n1 h1) n2 (hsub n2 h2) hc)
      (fun e n hn => by
        rw [electValidators.gather_nil] at hn
        have := List.mem_filter.mp hn
        exact ⟨this.1, of_decide_eq_true this.2⟩)
      sortedEntities ⟨eligible, [], []⟩
      (fun kv hkv => by cases hkv) (fun E hE => by cases hE)
    rw [hl] at htie
    simp only [] at htie
    have hperm := stakingAddressMapToSliceByStake_perm _ _ _ _ _ hs
    have hnd := stakingAddressMapToSliceByStake_nodup _ _ _ _ _ hs
    have hne : ∀ e ∈ sortedEntities,
        ((kvGet (electValidators.gather env shuffledNodes []) e).getD []).take
          params.MaxValidatorsPerEntity.toNat ≠ [] := by
      intro e he
      have he2 : e ∈ (electValidators.filter env stakeAcc nodes ([], [])).2 :=
        List.mem_dedup.mp (hperm.mem_iff.mp he)
      rcases (electValidators.filter_spec env stakeAcc nodes [] []).2 e he2 with h | h
      · cases h
      · obtain ⟨n, hn, hna⟩ := h
        have hn2 : n ∈ shuffledNodes := (hshuffle _ _ hsh).mem_iff.mpr hn
        have hn3 : n ∈ shuffledNodes.filter (fun n => decide (env.NewAddress n.EntityID = e)) :=
          List.mem_filter.mpr ⟨hn2, decide_eq_true hna⟩
        rw [electValidators.gather_nil]
        intro hnil
        have hlen := congrArg List.length hnil
        rw [List.length_take] at hlen
        have h1 := List.length_pos_of_mem hn3
        have h2 : 0 < params.MaxValidatorsPerEntity.toNat := by omega
        simp only [List.length_nil] at hlen
        omega
    obtain ⟨j, hj⟩ := electValidators.electLoop_entities env stakeAcc params _ sortedEntities
      _ st flow hl hflow hne
    have htake : validatorEntities = sortedEntities.take j := by
      rw [hve, hj]
      have := foldl_keyInsert_nodup (sortedEntities.take j) []
        (by
          rw [List.nil_append]
          exact List.Nodup.sublist (List.take_sublist _ _) hnd)
      rw [this, List.nil_append]
    have hiff : ∀ E, (∃ kv ∈ st.newValidators, env.NewAddress kv.2.EntityID = E)
        ↔ E ∈ sortedEntities.take j := by
      intro E
      rw [← htake, hve]
      constructor
      · rintro ⟨kv, hkv, hE⟩
        rw [← hE]
        exact (htie.1 kv hkv).2
      · exact htie.2 E
    refine ⟨weakEntropy, sortedEntities, j, st.newValidators, hb, hs, by rw [heq], hiff, htake,
      ?_⟩
    intro acc A B balA balB hacc hA hB hbalA hbalB hlt
    subst hacc
    rw [hiff] at hB ⊢
    rw [← htake] at hB ⊢
    have hA2 : A ∈ sortedEntities := hperm.mem_iff.mpr (List.mem_dedup.mpr hA)
    have hpw := hsorted _ _ _ acc hs
    rw [← List.take_append_drop j sortedEntities, List.pairwise_append] at hpw
    rw [← List.take_append_drop j sortedEntities, List.mem_append] at hA2
    rw [htake] at hB ⊢
    rcases hA2 with h | h
    · exact h
    · have := hpw.2.2 B hB A h
      rw [StakeAccumulatorCache.balance_eq acc A balA hbalA,
        StakeAccumulatorCache.balance_eq acc B balB hbalB] at this
      omega

end Scheduler

namespace Scheduler

open Staking (kvGet kvInsert kvRemove kvIterator keyInsert Address PublicKey)

/-- Witness of `election_by_stake`: five eligible entities with escrow balances 2, 0, 1, 2, 0,
shuffled to 105, 104, 103, 101, 102 and sorted to 104, 101, 103, 105, 102; with at most three
validators, one for an entity, the first three entities are elected. -/
theorem election_by_stake_witness :
    ([104, 101, 103, 105, 102].Perm [101, 102, 103, 104, 105].dedup ∧
      ∃ draw, electionEnvironment.entitiesRng 7 = .ok draw ∧
        (some electionStakes = none → [104, 101, 103, 105, 102] = shuffleEntities draw
          ((stakingAddressMapToSortedSlice [101, 102, 103, 104, 105]).length - 1)
          (stakingAddressMapToSortedSlice [101, 102, 103, 104, 105])) ∧
        ∀ acc, some electionStakes = some acc →
          [104, 101, 103, 105, 102].Pairwise (fun a b => acc.balance b ≤ acc.balance a) ∧
          (2 ≤ [104, 101, 103, 105, 102].length → ∀ e ∈ [104, 101, 103, 105, 102],
            acc.GetEscrowBalance e = .ok (acc.balance e)) ∧
          ∀ v, [104, 101, 103, 105, 102].filter (fun a => decide (acc.balance a = v))
            = (shuffleEntities draw
                ((stakingAddressMapToSortedSlice [101, 102, 103, 104, 105]).length - 1)
                (stakingAddressMapToSortedSlice [101, 102, 103, 104, 105])).filter
                (fun a => decide (acc.balance a = v))) ∧
    (∀ n1 ∈ electionNodes, ∀ n2 ∈ electionNodes, n1.ConsensusID = n2.ConsensusID → n1 = n2) ∧
    ∃ weakEntropy sortedEntities j validators,
      electionEnvironment.Beacon = .ok weakEntropy ∧
      stakingAddressMapToSliceByStake electionEnvironment
        (electValidators.filter electionEnvironment (some electionStakes) electionNodes
          ([], [])).2 (some electionStakes) weakEntropy
        = .ok sortedEntities ∧
      (electValidators electionEnvironment (some electionStakes) (some []) electionNodes
        ⟨1, 3, 1⟩).pendingValidators = some validators ∧
      (∀ E, (∃ kv ∈ validators, electionEnvironment.NewAddress kv.2.EntityID = E)
        ↔ E ∈ sortedEntities.take j) ∧
      [104, 101, 103] = sortedEntities.take j ∧
      ∀ acc A B balA balB, some electionStakes = some acc →
        A ∈ (electValidators.filter electionEnvironment (some electionStakes) electionNodes
          ([], [])).2 →
        (∃ kv ∈ validators, electionEnvironment.NewAddress kv.2.EntityID = B) →
        acc.GetEscrowBalance A = .ok balA → acc.GetEscrowBalance B = .ok balB →
        balB < balA → ∃ kv ∈ validators, electionEnvironment.NewAddress kv.2.EntityID = A :=
  ⟨(election_by_stake electionEnvironment [101, 102, 103, 104, 105] (some electionStakes) 7
      [104, 101, 103, 105, 102] (some []) electionNodes ⟨1, 3, 1⟩ [104, 101, 103]).1
      (by decide),
    by decide,
    (election_by_stake electionEnvironment [101, 102, 103, 104, 105] (some electionStakes) 7
      [104, 101, 103, 105, 102] (some []) electionNodes ⟨1, 3, 1⟩ [104, 101, 103]).2
      (by decide)
      (fun l l2 h => by
        have h2 : l.reverse = l2 := by
          have h3 : (Except.ok l.reverse : Except ElectError (List Node)) = .ok l2 := h
          simpa using h3
        rw [← h2]
        exact List.reverse_perm l)
      (by decide) (by decide)⟩

end Scheduler

namespace Upgrade

/-! ## Lemmas on the loop of `ConsensusUpgrade` -/

theorem Slot.unvisited_of_not_completed (flushed : Bool) (pu : PendingUpgrade)
    (h : pu.IsCompleted = false) : Slot.unvisited flushed pu = ⟨pu, true⟩ := by
  simp [Slot.unvisited, h]

theorem map_unvisited_of_not_completed (flushed : Bool) (l : List PendingUpgrade)
    (h : ∀ pu ∈ l, pu.IsCompleted = false) :
    l.map (Slot.unvisited flushed) = l.map (fun pu => (⟨pu, true⟩ : Slot)) :=
  List.map_congr_left (fun pu hpu => Slot.unvisited_of_not_completed flushed pu (h pu hpu))

/-- Slots that are listed and hold no completed upgrade: a flush leaves them, and the pending
list of the manager is the list of their upgrades. -/
theorem flushSlots_of_not_completed (slots : List Slot)
    (h : ∀ sl ∈ slots, sl.listed = true ∧ sl.pu.IsCompleted = false) :
    flushSlots slots = slots ∧ listedUpgrades slots = slots.map (fun sl => sl.pu) := by
  induction slots with
  | nil => exact ⟨rfl, rfl⟩
  | cons sl rest ih =>
    obtain ⟨h1, h2⟩ := ih (fun x hx => h x (List.mem_cons_of_mem _ hx))
    obtain ⟨hl, hc⟩ := h sl (List.mem_cons_self _ _)
    obtain ⟨pu, listed⟩ := sl
    simp only at hl hc
    subst hl
    simp only [flushSlots, listedUpgrades, List.map_cons, List.filter_cons, hc, Bool.not_false,
      Bool.and_self, if_true] at h1 h2 ⊢
    rw [h1, h2]
    exact ⟨rfl, rfl⟩

/-- The loop of `ConsensusUpgrade` passes over upgrades without height whose epoch is still to
come. -/
theorem ConsensusUpgrade.loop_before_append (env : Environment) (privateCtx : Option PrivateCtx)
    (currentEpoch : Staking.EpochTime) (currentHeight : Int) :
    ∀ (pre l : List PendingUpgrade) (done : List Slot) (st : ConsensusUpgrade.LoopState),
      (∀ pu ∈ pre, pu.UpgradeHeight = InvalidUpgradeHeight ∧ currentEpoch < pu.Descriptor.Epoch) →
      ConsensusUpgrade.loop env privateCtx currentEpoch currentHeight done (pre ++ l) st
        = ConsensusUpgrade.loop env privateCtx currentEpoch currentHeight
            (done ++ pre.map (Slot.unvisited st.flushed)) l st := by
  intro pre
  induction pre with
  | nil =>
    intro l done st _
    simp only [List.nil_append, List.map_nil, List.append_nil]
  | cons pu pre ih =>
    intro l done st h
    have hpu := h pu (List.mem_cons_self _ _)
    simp only [List.cons_append, ConsensusUpgrade.loop, if_pos hpu.1, if_pos hpu.2]
    have e := ih l (done ++ [Slot.unvisited st.flushed pu]) st
      (fun x hx => h x (List.mem_cons_of_mem _ hx))
    rw [List.append_assoc] at e
    exact e

end Upgrade

namespace Upgrade

theorem storeOf_cons_append (pre rest : List PendingUpgrade) (pu : PendingUpgrade) :
    storeOf (pre ++ pu :: rest) = some (pre ++ pu :: rest) := by
  unfold storeOf
  rw [if_neg]
  simp

theorem listedUpgrades_listed (pre rest : List PendingUpgrade) (sl : Slot)
    (hl : sl.listed = true) :
    listedUpgrades (pre.map (fun pu => (⟨pu, true⟩ : Slot)) ++ sl
      :: rest.map (fun pu => (⟨pu, true⟩ : Slot))) = pre ++ sl.pu :: rest := by
  simp [listedUpgrades, List.filter_map, Function.comp_def, hl, List.filter_cons]

theorem flushSlots_listed (l : List PendingUpgrade)
    (h : ∀ pu ∈ l, pu.IsCompleted = false) :
    flushSlots (l.map (fun pu => (⟨pu, true⟩ : Slot))) = l.map (fun pu => (⟨pu, true⟩ : Slot)) :=
  (flushSlots_of_not_completed _ (by
    intro sl hsl
    obtain ⟨pu, hpu, rfl⟩ := List.mem_map.mp hsl
    exact ⟨rfl, h pu hpu⟩)).1

/-- A turn of the loop of `ConsensusUpgrade` at an upgrade without height and stages whose epoch
is reached, when the node must stop: the height is stamped and persisted, and the loop returns
`ErrStopForUpgrade`. -/
theorem ConsensusUpgrade.loop_stop (env : Environment) (privateCtx : Option PrivateCtx)
    (currentEpoch : Staking.EpochTime) (currentHeight : Int)
    (pre rest : List PendingUpgrade) (pu : PendingUpgrade) (st : ConsensusUpgrade.LoopState)
    (hpre : ∀ x ∈ pre, x.IsCompleted = false) (hrest : ∀ x ∈ rest, x.IsCompleted = false)
    (hsub : pu.Submitted) (hepoch : pu.Descriptor.Epoch ≤ currentEpoch)
    (hmust : ConsensusUpgrade.mustStop env { pu with UpgradeHeight := currentHeight } = true) :
    ConsensusUpgrade.loop env privateCtx currentEpoch currentHeight
        (pre.map (fun pu => (⟨pu, true⟩ : Slot))) (pu :: rest) st
      = (pre.map (fun pu => (⟨pu, true⟩ : Slot))
          ++ ⟨{ pu with UpgradeHeight := currentHeight }, true⟩
            :: rest.map (fun pu => (⟨pu, true⟩ : Slot)),
         { st with flushed := true, shouldStop := true,
                   store := some (pre ++ { pu with UpgradeHeight := currentHeight } :: rest) },
         .error .ErrStopForUpgrade) := by
  have hnc : ({ pu with UpgradeHeight := currentHeight } : PendingUpgrade).IsCompleted = false :=
    PendingUpgrade.not_completed_of_stages_nil _ hsub.2
  have hnc0 : pu.IsCompleted = false := PendingUpgrade.not_completed_of_stages_nil _ hsub.2
  simp only [ConsensusUpgrade.loop, if_pos hsub.1, if_neg (Nat.not_lt.mpr hepoch), hmust, if_true,
    flushSlots_listed pre hpre, map_unvisited_of_not_completed true rest hrest,
    Slot.unvisited_of_not_completed _ pu hnc0, hnc, Bool.not_false, Bool.and_self]
  rw [listedUpgrades_listed pre rest ⟨_, true⟩ rfl, storeOf_cons_append]

/-- The consensus step of `ConsensusUpgrade` for an upgrade at the current height that has no
consensus stage: with a private context the consensus step of the handler runs, and no stage is
recorded. -/
theorem ConsensusUpgrade.atHeight_at (env : Environment) (privateCtx : Option PrivateCtx)
    (currentHeight : Int) (pu : PendingUpgrade) (handler : Handler)
    (hheight : pu.UpgradeHeight = currentHeight) (hstage : pu.HasStage .Consensus = false)
    (hhandler : env.GetHandler pu.Descriptor.Handler = .ok handler) :
    ConsensusUpgrade.atHeight env privateCtx currentHeight pu
      = (pu,
         (match privateCtx with
          | none => []
          | some _ => [⟨pu, .Consensus⟩]),
         (match privateCtx with
          | none => .ok ()
          | some ctx => handler.ConsensusUpgrade ctx)) := by
  unfold ConsensusUpgrade.atHeight
  rw [hheight, if_neg (lt_irrefl _), if_neg (lt_irrefl _)]
  cases privateCtx with
  | none => rfl
  | some ctx =>
    simp only [hstage, Bool.not_false, if_true, hhandler]
    cases handler.ConsensusUpgrade ctx <;> rfl

/-- A turn of the loop of `ConsensusUpgrade` at an upgrade without height and stages whose epoch
is reached, when the upgrade can proceed in place, followed by upgrades whose epoch is still to
come: the height is stamped and persisted, the startup stage is recorded, and with a private
context the consensus step of the handler runs, whose result is the result of the loop. -/
theorem ConsensusUpgrade.loop_in_place (env : Environment) (privateCtx : Option PrivateCtx)
    (currentEpoch : Staking.EpochTime) (currentHeight : Int)
    (pre rest : List PendingUpgrade) (pu : PendingUpgrade) (st : ConsensusUpgrade.LoopState)
    (handler : Handler)
    (hpre : ∀ x ∈ pre, x.IsCompleted = false)
    (hrest : ∀ x ∈ rest, x.Submitted ∧ currentEpoch < x.Descriptor.Epoch)
    (hsub : pu.Submitted) (hepoch : pu.Descriptor.Epoch ≤ currentEpoch)
    (hmust : ConsensusUpgrade.mustStop env { pu with UpgradeHeight := currentHeight } = false)
    (hhandler : env.GetHandler pu.Descriptor.Handler = .ok handler) :
    ConsensusUpgrade.loop env privateCtx currentEpoch currentHeight
        (pre.map (fun pu => (⟨pu, true⟩ : Slot))) (pu :: rest) st
      = (pre.map (fun pu => (⟨pu, true⟩ : Slot))
          ++ ⟨{ pu with UpgradeHeight := currentHeight, Stages := [.Startup] }, true⟩
            :: rest.map (fun pu => (⟨pu, true⟩ : Slot)),
         { flushed := true, shouldStop := false,
           store := some (pre ++ { pu with UpgradeHeight := currentHeight } :: rest),
           invoked := st.invoked ++
             (match privateCtx with
              | none => []
              | some _ =>
                [⟨{ pu with UpgradeHeight := currentHeight, Stages := [.Startup] },
                  .Consensus⟩]) },
         (match privateCtx with
          | none => .ok ()
          | some ctx => handler.ConsensusUpgrade ctx)) := by
  have hnc : ({ pu with UpgradeHeight := currentHeight } : PendingUpgrade).IsCompleted = false :=
    PendingUpgrade.not_completed_of_stages_nil _ hsub.2
  have hnc0 : pu.IsCompleted = false := PendingUpgrade.not_completed_of_stages_nil _ hsub.2
  have hrestnc : ∀ x ∈ rest, x.IsCompleted = false :=
    fun x hx => PendingUpgrade.not_completed_of_stages_nil x (hrest x hx).1.2
  have hpush : ({ pu with UpgradeHeight := currentHeight } : PendingUpgrade).PushStage .Startup
      = { pu with UpgradeHeight := currentHeight, Stages := [.Startup] } := by
    simp [PendingUpgrade.PushStage, hsub.2]
  have hat := ConsensusUpgrade.atHeight_at env privateCtx currentHeight
    { pu with UpgradeHeight := currentHeight, Stages := [.Startup] } handler rfl
        (by simp [PendingUpgrade.HasStage])
    hhandler
  have hne : ¬ (false = true) := Bool.false_ne_true
  simp only [ConsensusUpgrade.loop, if_pos hsub.1, if_neg (Nat.not_lt.mpr hepoch), hmust, hne,
    if_false, flushSlots_listed pre hpre, map_unvisited_of_not_completed true rest hrestnc,
    Slot.unvisited_of_not_completed _ pu hnc0, hnc, Bool.not_false, Bool.and_self, hpush, hat]
  rw [listedUpgrades_listed pre rest ⟨_, true⟩ rfl, storeOf_cons_append]
  cases privateCtx with
  | none =>
    simp only
    rw [ConsensusUpgrade.loop_before env none currentEpoch currentHeight rest _ _
      (fun x hx => ⟨(hrest x hx).1.1, (hrest x hx).2⟩),
      map_unvisited_of_not_completed true rest hrestnc]
    simp
  | some ctx =>
    simp only
    cases hc : handler.ConsensusUpgrade ctx with
    | error e => rfl
    | ok v =>
      simp only
      rw [ConsensusUpgrade.loop_before env (some ctx) currentEpoch currentHeight rest _ _
        (fun x hx => ⟨(hrest x hx).1.1, (hrest x hx).2⟩),
        map_unvisited_of_not_completed true rest hrestnc]
      simp

end Upgrade

namespace Upgrade

theorem ConsensusUpgrade.mustStop_eq (env : Environment) (pu : PendingUpgrade)
    (handler : Handler) (hhandler : env.GetHandler pu.Descriptor.Handler = .ok handler) :
    (ConsensusUpgrade.mustStop env pu = true ↔
      (env.EnsureCompatible pu.Descriptor ≠ .ok () ∨ handler.HasStartupUpgrade = true)) := by
  unfold ConsensusUpgrade.mustStop
  cases hc : env.EnsureCompatible pu.Descriptor with
  | error e => simp
  | ok v => simp [hhandler]

theorem listedUpgrades_flushSlots_listed (pre rest : List PendingUpgrade) (pu : PendingUpgrade)
    (hpre : ∀ x ∈ pre, x.IsCompleted = false) (hrest : ∀ x ∈ rest, x.IsCompleted = false)
    (hpu : pu.IsCompleted = false) :
    listedUpgrades (flushSlots (pre.map (fun pu => (⟨pu, true⟩ : Slot)) ++ ⟨pu, true⟩
      :: rest.map (fun pu => (⟨pu, true⟩ : Slot)))) = pre ++ pu :: rest := by
  rw [(flushSlots_of_not_completed _ (by
    intro sl hsl
    rw [List.mem_append, List.mem_cons] at hsl
    rcases hsl with h | h | h
    · obtain ⟨x, hx, rfl⟩ := List.mem_map.mp h
      exact ⟨rfl, hpre x hx⟩
    · rw [h]
      exact ⟨rfl, hpu⟩
    · obtain ⟨x, hx, rfl⟩ := List.mem_map.mp h
      exact ⟨rfl, hrest x hx⟩)).1]
  exact listedUpgrades_listed pre rest ⟨pu, true⟩ rfl

/-! ## Claims on the upgrade epoch -/

end Upgrade

namespace Upgrade

/-- A turn of the loop of `ConsensusUpgrade` at an upgrade with a height, before any flush of
this call and followed by upgrades whose epoch is still to come: the loop returns what the step
at the height returns. -/
theorem ConsensusUpgrade.loop_with_height (env : Environment) (privateCtx : Option PrivateCtx)
    (currentEpoch : Staking.EpochTime) (currentHeight : Int)
    (done : List Slot) (rest : List PendingUpgrade) (pu : PendingUpgrade)
    (st : ConsensusUpgrade.LoopState)
    (hrest : ∀ x ∈ rest, x.UpgradeHeight = InvalidUpgradeHeight ∧ currentEpoch < x.Descriptor.Epoch)
    (hheight : pu.UpgradeHeight ≠ InvalidUpgradeHeight) (hflushed : st.flushed = false) :
    ConsensusUpgrade.loop env privateCtx currentEpoch currentHeight done (pu :: rest) st
      = (done ++ ⟨(ConsensusUpgrade.atHeight env privateCtx currentHeight pu).1, true⟩
          :: rest.map (Slot.unvisited false),
         { st with invoked := st.invoked
            ++ (ConsensusUpgrade.atHeight env privateCtx currentHeight pu).2.1 },
         (ConsensusUpgrade.atHeight env privateCtx currentHeight pu).2.2) := by
  simp only [ConsensusUpgrade.loop, if_neg hheight, hflushed, Slot.unvisited, Bool.false_and,
    Bool.not_false]
  cases hr : (ConsensusUpgrade.atHeight env privateCtx currentHeight pu).2.2 with
  | error e => rfl
  | ok v =>
    simp only
    rw [ConsensusUpgrade.loop_before env privateCtx currentEpoch currentHeight rest _ _ hrest]
    simp [hflushed, Slot.unvisited]

theorem listedUpgrades_append (a b : List Slot) :
    listedUpgrades (a ++ b) = listedUpgrades a ++ listedUpgrades b := by
  simp [listedUpgrades]

theorem flushSlots_append (a b : List Slot) :
    flushSlots (a ++ b) = flushSlots a ++ flushSlots b := by
  simp [flushSlots]

theorem listedUpgrades_flushSlots_map (l : List PendingUpgrade) :
    listedUpgrades (flushSlots (l.map (fun pu => (⟨pu, true⟩ : Slot))))
      = l.filter (fun pu => !pu.IsCompleted) := by
  induction l with
  | nil => rfl
  | cons x rest ih =>
    simp only [listedUpgrades, flushSlots, List.map_cons, List.filter_cons, Bool.true_and] at ih ⊢
    cases hx : x.IsCompleted with
    | false => simp only [Bool.not_false, if_true, List.map_cons, ih]
    | true =>
      simp only [Bool.not_true, Bool.false_eq_true, if_false]
      exact ih

theorem listedUpgrades_flushSlots_completed (pre rest : List PendingUpgrade)
    (pu : PendingUpgrade)
    (hpre : ∀ x ∈ pre, x.IsCompleted = false) (hrest : ∀ x ∈ rest, x.IsCompleted = false)
    (hpu : pu.IsCompleted = true) :
    listedUpgrades (flushSlots (pre.map (fun pu => (⟨pu, true⟩ : Slot)) ++ ⟨pu, true⟩
      :: rest.map (fun pu => (⟨pu, true⟩ : Slot)))) = pre ++ rest := by
  have hcons : (⟨pu, true⟩ : Slot) :: rest.map (fun pu => (⟨pu, true⟩ : Slot))
      = (pu :: rest).map (fun pu => (⟨pu, true⟩ : Slot)) := rfl
  rw [hcons, flushSlots_append, listedUpgrades_append, listedUpgrades_flushSlots_map,
    listedUpgrades_flushSlots_map, filter_not_completed_eq pre hpre, List.filter_cons, hpu,
    filter_not_completed_eq rest hrest]
  rfl

theorem ConsensusUpgrade.atHeight_below (env : Environment) (privateCtx : Option PrivateCtx)
    (currentHeight : Int) (pu : PendingUpgrade) (h : pu.UpgradeHeight < currentHeight) :
    ConsensusUpgrade.atHeight env privateCtx currentHeight pu
      = (pu.PushStage .Consensus, [], .ok ()) := by
  unfold ConsensusUpgrade.atHeight
  rw [if_pos h]

theorem PendingUpgrade.completed_of_startup (pu : PendingUpgrade)
    (h : pu.HasStage .Startup = true) : (pu.PushStage .Consensus).IsCompleted = true := by
  simp only [PendingUpgrade.HasStage, decide_eq_true_eq] at h
  simp [PendingUpgrade.IsCompleted, PendingUpgrade.HasStage, PendingUpgrade.PushStage, h]

theorem PendingUpgrade.not_completed_of_no_consensus (pu : PendingUpgrade)
    (h : pu.HasStage .Consensus = false) : pu.IsCompleted = false := by
  simp [PendingUpgrade.IsCompleted, h]

/-- The outcome of `ConsensusUpgrade` on a pending list in which one upgrade has a height and
the others, without height and stages, have their epoch still to come: what the step at the
height does to the upgrade, followed by the flush when it returns no error. -/
theorem ConsensusUpgrade_with_height (env : Environment) (u : upgradeManager)
    (privateCtx : Option PrivateCtx) (currentEpoch : Staking.EpochTime) (currentHeight : Int)
    (pre rest : List PendingUpgrade) (pu : PendingUpgrade)
    (hstop : u.shouldStop = false)
    (hpending : u.pending = pre ++ pu :: rest)
    (hothers : ∀ x ∈ pre ++ rest, x.Submitted ∧ currentEpoch < x.Descriptor.Epoch)
    (hheight : pu.UpgradeHeight ≠ InvalidUpgradeHeight) :
    ConsensusUpgrade.loop env privateCtx currentEpoch currentHeight [] u.pending
        { flushed := false, shouldStop := u.shouldStop, store := u.store, invoked := [] }
      = (pre.map (fun pu => (⟨pu, true⟩ : Slot))
          ++ ⟨(ConsensusUpgrade.atHeight env privateCtx currentHeight pu).1, true⟩
            :: rest.map (fun pu => (⟨pu, true⟩ : Slot)),
         { flushed := false, shouldStop := false, store := u.store,
           invoked := (ConsensusUpgrade.atHeight env privateCtx currentHeight pu).2.1 },
         (ConsensusUpgrade.atHeight env privateCtx currentHeight pu).2.2) ∧
    ((ConsensusUpgrade.atHeight env privateCtx currentHeight pu).2.2 = .ok () →
      ConsensusUpgrade env u privateCtx currentEpoch currentHeight
        = ⟨{ pending := (pre ++ (ConsensusUpgrade.atHeight env privateCtx currentHeight pu).1
                :: rest).filter (fun pu => !pu.IsCompleted),
             shouldStop := false,
             store := storeOf ((pre ++ (ConsensusUpgrade.atHeight env privateCtx currentHeight
                pu).1 :: rest).filter (fun pu => !pu.IsCompleted)) },
           (ConsensusUpgrade.atHeight env privateCtx currentHeight pu).2.1, .ok ()⟩) := by
  have hs : ¬ u.shouldStop = true := by rw [hstop]; exact Bool.false_ne_true
  have hpre : ∀ x ∈ pre, x.Submitted ∧ currentEpoch < x.Descriptor.Epoch :=
    fun x hx => hothers x (List.mem_append_left _ hx)
  have hrest : ∀ x ∈ rest, x.Submitted ∧ currentEpoch < x.Descriptor.Epoch :=
    fun x hx => hothers x (List.mem_append_right _ hx)
  have hprenc : ∀ x ∈ pre, x.IsCompleted = false :=
    fun x hx => PendingUpgrade.not_completed_of_stages_nil x (hpre x hx).1.2
  have hrestnc : ∀ x ∈ rest, x.IsCompleted = false :=
    fun x hx => PendingUpgrade.not_completed_of_stages_nil x (hrest x hx).1.2
  have hloop0 := ConsensusUpgrade.loop_before_append env privateCtx currentEpoch currentHeight pre
    (pu :: rest) []
    { flushed := false, shouldStop := u.shouldStop, store := u.store, invoked := [] }
    (fun x hx => ⟨(hpre x hx).1.1, (hpre x hx).2⟩)
  rw [List.nil_append, map_unvisited_of_not_completed false pre hprenc] at hloop0
  have hloop1 := ConsensusUpgrade.loop_with_height env privateCtx currentEpoch currentHeight
    (pre.map (fun pu => (⟨pu, true⟩ : Slot))) rest pu
    { flushed := false, shouldStop := u.shouldStop, store := u.store, invoked := [] }
    (fun x hx => ⟨(hrest x hx).1.1, (hrest x hx).2⟩) hheight rfl
  rw [map_unvisited_of_not_completed false rest hrestnc] at hloop1
  have hloop : ConsensusUpgrade.loop env privateCtx currentEpoch currentHeight [] u.pending
      { flushed := false, shouldStop := u.shouldStop, store := u.store, invoked := [] }
      = (pre.map (fun pu => (⟨pu, true⟩ : Slot))
          ++ ⟨(ConsensusUpgrade.atHeight env privateCtx currentHeight pu).1, true⟩
            :: rest.map (fun pu => (⟨pu, true⟩ : Slot)),
         { flushed := false, shouldStop := false, store := u.store,
           invoked := (ConsensusUpgrade.atHeight env privateCtx currentHeight pu).2.1 },
         (ConsensusUpgrade.atHeight env privateCtx currentHeight pu).2.2) := by
    rw [hpending, hloop0, hloop1, hstop]
    simp
  refine ⟨hloop, fun hok => ?_⟩
  have hcons : (⟨(ConsensusUpgrade.atHeight env privateCtx currentHeight pu).1, true⟩ : Slot)
      :: rest.map (fun pu => (⟨pu, true⟩ : Slot))
      = ((ConsensusUpgrade.atHeight env privateCtx currentHeight pu).1 :: rest).map
          (fun pu => (⟨pu, true⟩ : Slot)) := rfl
  simp only [ConsensusUpgrade, if_neg hs, hloop, hok]
  rw [hcons, ← List.map_append, listedUpgrades_flushSlots_map]

end Upgrade

namespace Upgrade

/-! ## Claims on the consensus stage -/

end Upgrade

namespace Upgrade

/-- The outcome of `ConsensusUpgrade` when an upgrade without height and stages reaches its epoch
and can proceed in place, and the consensus step of the handler, if it runs, succeeds. -/
theorem ConsensusUpgrade_in_place (env : Environment) (u : upgradeManager)
    (privateCtx : Option PrivateCtx) (currentEpoch : Staking.EpochTime) (currentHeight : Int)
    (pre rest : List PendingUpgrade) (pu : PendingUpgrade) (handler : Handler)
    (hstop : u.shouldStop = false)
    (hpending : u.pending = pre ++ pu :: rest)
    (hothers : ∀ x ∈ pre ++ rest, x.Submitted ∧ currentEpoch < x.Descriptor.Epoch)
    (hsub : pu.Submitted) (hepoch : pu.Descriptor.Epoch ≤ currentEpoch)
    (hcompat : env.EnsureCompatible pu.Descriptor = .ok ())
    (hhandler : env.GetHandler pu.Descriptor.Handler = .ok handler)
    (hnostartup : handler.HasStartupUpgrade = false)
    (hstep : ∀ ctx, privateCtx = some ctx → handler.ConsensusUpgrade ctx = .ok ()) :
    ConsensusUpgrade env u privateCtx currentEpoch currentHeight
      = ⟨{ pending := pre ++ { pu with UpgradeHeight := currentHeight, Stages := [.Startup] }
              :: rest,
           shouldStop := false,
           store := some (pre ++ { pu with UpgradeHeight := currentHeight, Stages := [.Startup] }
              :: rest) },
         (match privateCtx with
          | none => []
          | some _ =>
            [⟨{ pu with UpgradeHeight := currentHeight, Stages := [.Startup] }, .Consensus⟩]),
         .ok ()⟩ := by
  have hs : ¬ u.shouldStop = true := by rw [hstop]; exact Bool.false_ne_true
  have hpre : ∀ x ∈ pre, x.Submitted ∧ currentEpoch < x.Descriptor.Epoch :=
    fun x hx => hothers x (List.mem_append_left _ hx)
  have hrest : ∀ x ∈ rest, x.Submitted ∧ currentEpoch < x.Descriptor.Epoch :=
    fun x hx => hothers x (List.mem_append_right _ hx)
  have hprenc : ∀ x ∈ pre, x.IsCompleted = false :=
    fun x hx => PendingUpgrade.not_completed_of_stages_nil x (hpre x hx).1.2
  have hrestnc : ∀ x ∈ rest, x.IsCompleted = false :=
    fun x hx => PendingUpgrade.not_completed_of_stages_nil x (hrest x hx).1.2
  have hloop0 := ConsensusUpgrade.loop_before_append env privateCtx currentEpoch currentHeight pre
    (pu :: rest) []
    { flushed := false, shouldStop := u.shouldStop, store := u.store, invoked := [] }
    (fun x hx => ⟨(hpre x hx).1.1, (hpre x hx).2⟩)
  rw [List.nil_append, map_unvisited_of_not_completed false pre hprenc] at hloop0
  have hmust : ConsensusUpgrade.mustStop env { pu with UpgradeHeight := currentHeight }
      = false := by
    simp [ConsensusUpgrade.mustStop, hcompat, hhandler, hnostartup]
  have hloop := ConsensusUpgrade.loop_in_place env privateCtx currentEpoch currentHeight pre
    rest pu { flushed := false, shouldStop := u.shouldStop, store := u.store, invoked := [] }
    handler hprenc hrest hsub hepoch hmust hhandler
  have hpu2 : ({ pu with UpgradeHeight := currentHeight, Stages := [.Startup] }
      : PendingUpgrade).IsCompleted = false := by
    simp [PendingUpgrade.IsCompleted, PendingUpgrade.HasStage]
  have hl2 := listedUpgrades_flushSlots_listed pre rest
    ({ pu with UpgradeHeight := currentHeight, Stages := [.Startup] } : PendingUpgrade)
    hprenc hrestnc hpu2
  simp only [ConsensusUpgrade, if_neg hs, hpending, hloop0, hloop, List.nil_append]
  cases privateCtx with
  | none => simp [hl2, storeOf_cons_append]
  | some ctx => simp [hstep ctx rfl, hl2, storeOf_cons_append]

/-! ## Claims on the upgrade in place -/

/-- C33, counterexample. A pending list holding the single Submitted descriptor for epoch 5, a
compatible binary and a handler without startup stage. If the consensus step of the handler
fails, `ConsensusUpgrade` at epoch 5 and height 70 with a private context returns the error of
the step. If the manager is already stopping, the call returns `ErrStopForUpgrade`. And if the
call is at height 0, which is `InvalidUpgradeHeight`, the upgrade is left without height, so that
after the following call at height 1 the pending list is not empty. -/
theorem ConsensusUpgrade_in_place_path_counterexample :
    epochFiveUpgrade.Submitted ∧
    failingStepEnvironment.EnsureCompatible epochFiveUpgrade.Descriptor = .ok () ∧
    failingStepHandler.HasStartupUpgrade = false ∧
    (ConsensusUpgrade failingStepEnvironment { pending := [epochFiveUpgrade] } (some 0) 5 70).ret
      = .error (.other 1) ∧
    ConsensusUpgrade inPlaceEnvironment { pending := [epochFiveUpgrade], shouldStop := true }
      (some 0) 5 70
      = ⟨{ pending := [epochFiveUpgrade], shouldStop := true }, [], .error .ErrStopForUpgrade⟩ ∧
    (ConsensusUpgrade inPlaceEnvironment { pending := [epochFiveUpgrade] } (some 0) 5 0).ret
      = .ok () ∧
    (ConsensusUpgrade inPlaceEnvironment
      (ConsensusUpgrade inPlaceEnvironment { pending := [epochFiveUpgrade] } (some 0) 5 0).manager
      (some 0) 5 1).manager.pending ≠ [] := by
  decide

/-- C33, as amended. In-place upgrade path: starting from a manager that is not stopping, with a
pending list holding a single Submitted descriptor for epoch `E`, with a compatible binary and a
handler that declares no startup stage and whose consensus step succeeds if there is a private
context, `ConsensusUpgrade` at an epoch from `E` on and at a height `h` other than
`InvalidUpgradeHeight` returns no error with the startup stage recorded and no stop requested; a
following `ConsensusUpgrade` at a height above `h` records the consensus stage in its loop,
whereupon the upgrade is completed and removed, so that the pending list and the store are
empty. -/
theorem ConsensusUpgrade_in_place_path (env : Environment) (u : upgradeManager)
    (privateCtx : Option PrivateCtx) (currentEpoch : Staking.EpochTime) (h : Int)
    (privateCtx2 : Option PrivateCtx) (epoch2 : Staking.EpochTime) (h2 : Int)
    (pu : PendingUpgrade) (handler : Handler)
    (hstop : u.shouldStop = false)
    (hpending : u.pending = [pu])
    (hsub : pu.Submitted) (hepoch : pu.Descriptor.Epoch ≤ currentEpoch)
    (hcompat : env.EnsureCompatible pu.Descriptor = .ok ())
    (hhandler : env.GetHandler pu.Descriptor.Handler = .ok handler)
    (hnostartup : handler.HasStartupUpgrade = false)
    (hstep : ∀ ctx, privateCtx = some ctx → handler.ConsensusUpgrade ctx = .ok ())
    (hheight : h ≠ InvalidUpgradeHeight) (habove : h < h2) :
    (ConsensusUpgrade env u privateCtx currentEpoch h).ret = .ok () ∧
    (ConsensusUpgrade env u privateCtx currentEpoch h).manager
      = { pending := [{ pu with UpgradeHeight := h, Stages := [.Startup] }],
          shouldStop := false,
          store := some [{ pu with UpgradeHeight := h, Stages := [.Startup] }] } ∧
    ({ pu with UpgradeHeight := h, Stages := [.Startup] } : PendingUpgrade).HasStage .Startup
      = true ∧
    (ConsensusUpgrade.loop env privateCtx2 epoch2 h2 []
      (ConsensusUpgrade env u privateCtx currentEpoch h).manager.pending
      { flushed := false,
        shouldStop := (ConsensusUpgrade env u privateCtx currentEpoch h).manager.shouldStop,
        store := (ConsensusUpgrade env u privateCtx currentEpoch h).manager.store,
        invoked := [] }).1
      = [⟨{ pu with UpgradeHeight := h, Stages := [.Startup, .Consensus] }, true⟩] ∧
    ({ pu with UpgradeHeight := h, Stages := [.Startup, .Consensus] }
      : PendingUpgrade).IsCompleted = true ∧
    ConsensusUpgrade env (ConsensusUpgrade env u privateCtx currentEpoch h).manager
        privateCtx2 epoch2 h2
      = ⟨{ pending := [], shouldStop := false, store := none }, [], .ok ()⟩ := by
  have h1 := ConsensusUpgrade_in_place env u privateCtx currentEpoch h [] [] pu handler hstop
    hpending (fun x hx => by cases hx) hsub hepoch hcompat hhandler hnostartup hstep
  simp only [List.nil_append] at h1
  have hat := ConsensusUpgrade.atHeight_below env privateCtx2 h2
    { pu with UpgradeHeight := h, Stages := [.Startup] } habove
  have hpush : ({ pu with UpgradeHeight := h, Stages := [.Startup] }
      : PendingUpgrade).PushStage .Consensus
      = { pu with UpgradeHeight := h, Stages := [.Startup, .Consensus] } := rfl
  have h2 := ConsensusUpgrade_with_height env
    { pending := [{ pu with UpgradeHeight := h, Stages := [.Startup] }], shouldStop := false,
      store := some [{ pu with UpgradeHeight := h, Stages := [.Startup] }] }
    privateCtx2 epoch2 h2 [] [] { pu with UpgradeHeight := h, Stages := [.Startup] } rfl rfl
    (fun x hx => by cases hx) hheight
  rw [hat, hpush] at h2
  have hdone : ({ pu with UpgradeHeight := h, Stages := [.Startup, .Consensus] }
      : PendingUpgrade).IsCompleted = true := by
    simp [PendingUpgrade.IsCompleted, PendingUpgrade.HasStage]
  rw [h1]
  refine ⟨rfl, rfl, by simp [PendingUpgrade.HasStage], ?_, hdone, ?_⟩
  · have := h2.1
    simp only [List.map_nil, List.nil_append] at this
    rw [this]
  · have := h2.2 rfl
    simp only [List.nil_append, List.filter_cons, hdone, Bool.not_true, List.filter_nil] at this
    exact this

/-- Witness of `ConsensusUpgrade_in_place_path`: the descriptor for epoch 5, the call at epoch 5
and height 70, and the call at height 71. -/
theorem ConsensusUpgrade_in_place_path_witness :
    ConsensusUpgrade inPlaceEnvironment { pending := [epochFiveUpgrade] } (some 0) 5 70
      = ⟨{ pending := [{ epochFiveUpgrade with UpgradeHeight := 70, Stages := [.Startup] }],
           store := some [{ epochFiveUpgrade with UpgradeHeight := 70, Stages := [.Startup] }] },
         [⟨{ epochFiveUpgrade with UpgradeHeight := 70, Stages := [.Startup] }, .Consensus⟩],
         .ok ()⟩ ∧
    ConsensusUpgrade inPlaceEnvironment
        (ConsensusUpgrade inPlaceEnvironment { pending := [epochFiveUpgrade] }
          (some 0) 5 70).manager (some 0) 5 71
      = ⟨{ pending := [], shouldStop := false, store := none }, [], .ok ()⟩ :=
  ⟨by decide,
    (ConsensusUpgrade_in_place_path inPlaceEnvironment { pending := [epochFiveUpgrade] }
      (some 0) 5 70 (some 0) 5 71 epochFiveUpgrade inPlaceHandler rfl rfl (by decide) (by decide)
      rfl rfl rfl (fun _ _ => rfl) (by decide) (by decide)).2.2.2.2.2⟩

end Upgrade

namespace Upgrade

/-! ## Lemmas on `checkStatus` -/

/-- The loop of `checkStatus` returns no error exactly when every stored upgrade that is not
completed and has a height has a compatible binary and a registered handler. -/
theorem checkStatus.scan_ok_iff (env : Environment) (stored : List PendingUpgrade) :
    checkStatus.scan env stored = .ok () ↔
      ∀ pu ∈ stored, pu.IsCompleted = false → pu.UpgradeHeight ≠ InvalidUpgradeHeight →
        env.EnsureCompatible pu.Descriptor = .ok () ∧
        ∃ handler, env.GetHandler pu.Descriptor.Handler = .ok handler := by
  induction stored with
  | nil => simp [checkStatus.scan]
  | cons pu rest ih =>
    simp only [checkStatus.scan, List.mem_cons, forall_eq_or_imp]
    by_cases hc : pu.IsCompleted = true
    · rw [if_pos hc, ih]
      constructor
      · intro h
        exact ⟨fun h2 => (by rw [hc] at h2; cases h2), h⟩
      · intro h
        exact h.2
    · rw [if_neg hc]
      have hcf : pu.IsCompleted = false := by
        cases h : pu.IsCompleted with
        | false => rfl
        | true => exact absurd h hc
      by_cases hh : pu.UpgradeHeight = InvalidUpgradeHeight
      · rw [if_pos hh, ih]
        constructor
        · intro h
          exact ⟨fun _ h2 => absurd hh h2, h⟩
        · intro h
          exact h.2
      · rw [if_neg hh]
        cases hcompat : env.EnsureCompatible pu.Descriptor with
        | error e =>
          simp only
          constructor
          · intro h
            cases h
          · intro h
            have := (h.1 hcf hh).1
            cases this
        | ok v =>
          cases hget : env.GetHandler pu.Descriptor.Handler with
          | error e =>
            simp only
            constructor
            · intro h
              cases h
            · intro h
              obtain ⟨handler, hhandler⟩ := (h.1 hcf hh).2
              cases hhandler
          | ok handler =>
            simp only
            rw [ih]
            constructor
            · intro h
              exact ⟨fun _ _ => (by simp), h⟩
            · intro h
              exact h.2

/-! ## Claims on `checkStatus` -/

/-- C37, counterexample. The store holds one pending upgrade, not completed and without height,
and no handler is registered: `checkStatus` returns no error. -/
theorem checkStatus_counterexample :
    epochFiveUpgrade.IsCompleted = false ∧
    emptyEnvironment.GetHandler epochFiveUpgrade.Descriptor.Handler
      = .error .ErrUpgradeNotFound ∧
    checkStatus emptyEnvironment { store := some [epochFiveUpgrade] }
      = ⟨{ pending := [epochFiveUpgrade], store := some [epochFiveUpgrade] }, [], .ok ()⟩ :=
  ⟨by decide, rfl, by decide⟩

/-- C37, amended. `checkStatus` validates the stored pending list on start: for every stored
list, `checkStatus` returns an error, with the stored list as the pending list, if some
non-completed entry that has already reached its epoch (`UpgradeHeight` set) has no registered
handler or an incompatible binary; if every non-completed entry that has reached its epoch has a
handler and a compatible binary it returns no error, the in-memory pending list equals the stored
list without its completed entries, and the store holds that list; when nothing is stored it
returns no error and the pending list is empty. -/
theorem checkStatus_spec (env : Environment) (u : upgradeManager) :
    (u.store = none → checkStatus env u = ⟨{ u with pending := [] }, [], .ok ()⟩) ∧
    ∀ stored, u.store = some stored →
      ((∃ pu ∈ stored, pu.IsCompleted = false ∧ pu.UpgradeHeight ≠ InvalidUpgradeHeight ∧
          (env.EnsureCompatible pu.Descriptor ≠ .ok () ∨
            ∀ handler, env.GetHandler pu.Descriptor.Handler ≠ .ok handler)) →
        ∃ e, checkStatus env u = ⟨{ u with pending := stored }, [], .error e⟩) ∧
      ((∀ pu ∈ stored, pu.IsCompleted = false → pu.UpgradeHeight ≠ InvalidUpgradeHeight →
          env.EnsureCompatible pu.Descriptor = .ok () ∧
          ∃ handler, env.GetHandler pu.Descriptor.Handler = .ok handler) →
        checkStatus env u
          = ⟨{ pending := stored.filter (fun pu => !pu.IsCompleted),
               shouldStop := u.shouldStop,
               store := storeOf (stored.filter (fun pu => !pu.IsCompleted)) }, [], .ok ()⟩) := by
  constructor
  · intro hnone
    simp only [checkStatus, hnone]
  · intro stored hstored
    constructor
    · rintro ⟨pu, hpu, hnc, hheight, hbad⟩
      cases hscan : checkStatus.scan env stored with
      | error e =>
        exact ⟨e, by simp only [checkStatus, hstored, hscan]⟩
      | ok v =>
        obtain ⟨hcompat, handler, hhandler⟩ :=
          (checkStatus.scan_ok_iff env stored).mp hscan pu hpu hnc hheight
        rcases hbad with h | h
        · exact absurd hcompat h
        · exact absurd hhandler (h handler)
    · intro hall
      have hscan := (checkStatus.scan_ok_iff env stored).mpr hall
      simp only [checkStatus, hstored, hscan, flushDescriptorLocked]

/-- Witness of `checkStatus_spec`: the store holds an upgrade that reached its epoch at height 70
and a completed upgrade; with an empty registry the call returns an error, with a registered
handler and a compatible binary the completed upgrade is dropped. -/
theorem checkStatus_spec_witness :
    (∃ e, checkStatus emptyEnvironment
        { store := some [{ epochFiveUpgrade with UpgradeHeight := 70 },
            { epochFiveUpgrade with UpgradeHeight := 30, Stages := [.Startup, .Consensus] }] }
      = ⟨{ pending := [{ epochFiveUpgrade with UpgradeHeight := 70 },
              { epochFiveUpgrade with UpgradeHeight := 30, Stages := [.Startup, .Consensus] }],
           store := some [{ epochFiveUpgrade with UpgradeHeight := 70 },
              { epochFiveUpgrade with UpgradeHeight := 30, Stages := [.Startup, .Consensus] }] },
          [], .error e⟩) ∧
    checkStatus restartEnvironment
        { store := some [{ epochFiveUpgrade with UpgradeHeight := 70 },
            { epochFiveUpgrade with UpgradeHeight := 30, Stages := [.Startup, .Consensus] }] }
      = ⟨{ pending := [{ epochFiveUpgrade with UpgradeHeight := 70 }],
           store := some [{ epochFiveUpgrade with UpgradeHeight := 70 }] }, [], .ok ()⟩ :=
  ⟨((checkStatus_spec emptyEnvironment
      { store := some [{ epochFiveUpgrade with UpgradeHeight := 70 },
          { epochFiveUpgrade with UpgradeHeight := 30, Stages := [.Startup, .Consensus] }] }).2
      _ rfl).1
      ⟨{ epochFiveUpgrade with UpgradeHeight := 70 }, by simp, by decide, by decide,
        Or.inr (fun handler h => by cases h)⟩,
    ((checkStatus_spec restartEnvironment
      { store := some [{ epochFiveUpgrade with UpgradeHeight := 70 },
          { epochFiveUpgrade with UpgradeHeight := 30, Stages := [.Startup, .Consensus] }] }).2
      _ rfl).2
      (fun pu _ _ _ => ⟨rfl, restartHandler, rfl⟩)⟩

end Upgrade

namespace Upgrade

/-! ## Lemmas on the heights of the pending upgrades -/

theorem ConsensusUpgrade.atHeight_height (env : Environment) (privateCtx : Option PrivateCtx)
    (currentHeight : Int) (pu : PendingUpgrade) :
    (ConsensusUpgrade.atHeight env privateCtx currentHeight pu).1.UpgradeHeight
      = pu.UpgradeHeight := by
  unfold ConsensusUpgrade.atHeight
  split
  · rfl
  · split
    · rfl
    · split
      · rfl
      · split
        · split
          · rfl
          · split <;> rfl
        · rfl

/-- The step at the height does not take the branch of the Go panic for an upgrade whose height
is not above the current height. -/
theorem ConsensusUpgrade.atHeight_no_panic (env : Environment) (privateCtx : Option PrivateCtx)
    (currentHeight : Int) (pu : PendingUpgrade) (henv : env.ReturnsErrors)
    (hle : pu.UpgradeHeight ≤ currentHeight) :
    (ConsensusUpgrade.atHeight env privateCtx currentHeight pu).2.2
      ≠ .error .panicFutureHeight := by
  unfold ConsensusUpgrade.atHeight
  split
  · intro h; cases h
  · rw [if_neg (not_lt.mpr hle)]
    split
    · intro h; cases h
    · split
      · split
        · rename_i e hget
          intro h
          simp only [Except.error.injEq] at h
          rw [h] at hget
          exact henv.1 _ hget
        · rename_i handler hget
          split
          · rename_i e hstep
            intro h
            simp only [Except.error.injEq] at h
            rw [h] at hstep
            exact henv.2 _ handler _ hget hstep
          · intro h; cases h
      · intro h; cases h

theorem mem_flushSlots_pu (slots : List Slot) (sl : Slot) (h : sl ∈ flushSlots slots) :
    ∃ sl0 ∈ slots, sl0.pu = sl.pu := by
  unfold flushSlots at h
  obtain ⟨sl0, hsl0, rfl⟩ := List.mem_map.mp h
  exact ⟨sl0, hsl0, rfl⟩

theorem mem_listedUpgrades (slots : List Slot) (pu : PendingUpgrade)
    (h : pu ∈ listedUpgrades slots) : ∃ sl ∈ slots, sl.pu = pu := by
  unfold listedUpgrades at h
  obtain ⟨sl, hsl, rfl⟩ := List.mem_map.mp h
  exact ⟨sl, List.mem_of_mem_filter hsl, rfl⟩

/-- The loop of `ConsensusUpgrade` over upgrades whose height is not set or not above the current
height: the same holds of the upgrades it leaves, and the branch of the Go panic is not taken. -/
theorem ConsensusUpgrade.loop_heights (env : Environment) (privateCtx : Option PrivateCtx)
    (currentEpoch : Staking.EpochTime) (currentHeight : Int) :
    ∀ (rest : List PendingUpgrade) (done : List Slot) (st : ConsensusUpgrade.LoopState),
      (∀ pu ∈ rest, pu.UpgradeHeight = InvalidUpgradeHeight ∨ pu.UpgradeHeight ≤ currentHeight) →
      (∀ sl ∈ done,
        sl.pu.UpgradeHeight = InvalidUpgradeHeight ∨ sl.pu.UpgradeHeight ≤ currentHeight) →
      (∀ sl ∈ (ConsensusUpgrade.loop env privateCtx currentEpoch currentHeight done rest st).1,
        sl.pu.UpgradeHeight = InvalidUpgradeHeight ∨ sl.pu.UpgradeHeight ≤ currentHeight) ∧
      (env.ReturnsErrors →
        (ConsensusUpgrade.loop env privateCtx currentEpoch currentHeight done rest st).2.2
          ≠ .error .panicFutureHeight) := by
  intro rest
  induction rest with
  | nil =>
    intro done st _ hdone
    simp only [ConsensusUpgrade.loop]
    exact ⟨hdone, fun _ h => by cases h⟩
  | cons pu rest ih =>
    intro done st hrest hdone
    have hpu := hrest pu (List.mem_cons_self _ _)
    have hrest2 : ∀ x ∈ rest,
        x.UpgradeHeight = InvalidUpgradeHeight ∨ x.UpgradeHeight ≤ currentHeight :=
      fun x hx => hrest x (List.mem_cons_of_mem _ hx)
    have hmapped : ∀ (b : Bool), ∀ sl ∈ rest.map (Slot.unvisited b),
        sl.pu.UpgradeHeight = InvalidUpgradeHeight ∨ sl.pu.UpgradeHeight ≤ currentHeight := by
      intro b sl hsl
      obtain ⟨x, hx, rfl⟩ := List.mem_map.mp hsl
      exact hrest2 x hx
    have hflushed : ∀ sl ∈ flushSlots done,
        sl.pu.UpgradeHeight = InvalidUpgradeHeight ∨ sl.pu.UpgradeHeight ≤ currentHeight := by
      intro sl hsl
      obtain ⟨sl0, hsl0, he⟩ := mem_flushSlots_pu done sl hsl
      rw [← he]
      exact hdone sl0 hsl0
    have happ : ∀ (a : List Slot) (sl : Slot) (b : List Slot),
        (∀ x ∈ a, x.pu.UpgradeHeight = InvalidUpgradeHeight ∨ x.pu.UpgradeHeight ≤ currentHeight) →
        (sl.pu.UpgradeHeight = InvalidUpgradeHeight ∨ sl.pu.UpgradeHeight ≤ currentHeight) →
        (∀ x ∈ b, x.pu.UpgradeHeight = InvalidUpgradeHeight ∨ x.pu.UpgradeHeight ≤ currentHeight) →
        ∀ x ∈ a ++ sl :: b,
          x.pu.UpgradeHeight = InvalidUpgradeHeight ∨ x.pu.UpgradeHeight ≤ currentHeight := by
      intro a sl b ha hsl hb x hx
      rw [List.mem_append, List.mem_cons] at hx
      rcases hx with h | h | h
      · exact ha x h
      · rw [h]; exact hsl
      · exact hb x h
    simp only [ConsensusUpgrade.loop]
    split
    · rename_i hinv
      split
      · exact ih _ _ hrest2 (by
          intro sl hsl
          rw [List.mem_append, List.mem_singleton] at hsl
          rcases hsl with h | h
          · exact hdone sl h
          · rw [h]; exact Or.inl hinv)
      · split
        · refine ⟨happ _ _ _ hflushed (Or.inr (le_refl _)) (hmapped true), fun _ h => ?_⟩
          cases h
        · have hh := ConsensusUpgrade.atHeight_height env privateCtx currentHeight
            (({ pu with UpgradeHeight := currentHeight } : PendingUpgrade).PushStage .Startup)
          have hnp := fun henv => ConsensusUpgrade.atHeight_no_panic env privateCtx currentHeight
            (({ pu with UpgradeHeight := currentHeight } : PendingUpgrade).PushStage .Startup)
            henv (le_refl _)
          have hsl2 : (ConsensusUpgrade.atHeight env privateCtx currentHeight
              (({ pu with UpgradeHeight := currentHeight } : PendingUpgrade).PushStage
                .Startup)).1.UpgradeHeight ≤ currentHeight := by
            rw [hh]
            exact le_refl _
          split
          · rename_i e he
            refine ⟨happ _ _ _ hflushed (Or.inr hsl2) (hmapped true), fun henv h => ?_⟩
            have h2 : e = .panicFutureHeight := by simpa using h
            rw [h2] at he
            exact hnp henv he
          · exact ih _ _ hrest2 (by
              intro sl hsl
              rw [List.mem_append, List.mem_singleton] at hsl
              rcases hsl with h | h
              · exact hflushed sl h
              · rw [h]; exact Or.inr hsl2)
    · rename_i hset
      have hle : pu.UpgradeHeight ≤ currentHeight := by
        rcases hpu with h | h
        · exact absurd h hset
        · exact h
      have hh := ConsensusUpgrade.atHeight_height env privateCtx currentHeight pu
      have hsl2 : (ConsensusUpgrade.atHeight env privateCtx currentHeight pu).1.UpgradeHeight
          ≤ currentHeight := by
        rw [hh]
        exact hle
      split
      · rename_i e he
        refine ⟨happ _ _ _ hdone (Or.inr hsl2) (hmapped _), fun henv h => ?_⟩
        have h2 : e = .panicFutureHeight := by simpa using h
        rw [h2] at he
        exact ConsensusUpgrade.atHeight_no_panic env privateCtx currentHeight pu henv hle he
      · exact ih _ _ hrest2 (by
          intro sl hsl
          rw [List.mem_append, List.mem_singleton] at hsl
          rcases hsl with h | h
          · exact hdone sl h
          · rw [h]; exact Or.inr hsl2)

end Upgrade

namespace Upgrade

/-- A call of `ConsensusUpgrade` on a manager whose pending upgrades have no height or one that
is not above the current height: the same holds of the pending upgrades it leaves, and the branch
of the Go panic is not taken. -/
theorem ConsensusUpgrade_heights (env : Environment) (u : upgradeManager)
    (privateCtx : Option PrivateCtx) (currentEpoch : Staking.EpochTime) (currentHeight : Int)
    (h : ∀ pu ∈ u.pending,
      pu.UpgradeHeight = InvalidUpgradeHeight ∨ pu.UpgradeHeight ≤ currentHeight) :
    (∀ pu ∈ (ConsensusUpgrade env u privateCtx currentEpoch currentHeight).manager.pending,
      pu.UpgradeHeight = InvalidUpgradeHeight ∨ pu.UpgradeHeight ≤ currentHeight) ∧
    (env.ReturnsErrors →
      (ConsensusUpgrade env u privateCtx currentEpoch currentHeight).ret
        ≠ .error .panicFutureHeight) := by
  unfold ConsensusUpgrade
  split
  · exact ⟨h, fun _ e => by cases e⟩
  · have hl := ConsensusUpgrade.loop_heights env privateCtx currentEpoch currentHeight u.pending []
      { flushed := false, shouldStop := u.shouldStop, store := u.store, invoked := [] } h
      (fun sl hsl => by cases hsl)
    simp only
    split
    · rename_i e he
      refine ⟨fun pu hpu => ?_, fun henv hp => ?_⟩
      · obtain ⟨sl, hsl, rfl⟩ := mem_listedUpgrades _ pu hpu
        exact hl.1 sl hsl
      · have h2 : e = .panicFutureHeight := by simpa using hp
        rw [h2] at he
        exact hl.2 henv he
    · refine ⟨fun pu hpu => ?_, fun _ hp => by cases hp⟩
      obtain ⟨sl, hsl, rfl⟩ := mem_listedUpgrades _ pu hpu
      obtain ⟨sl0, hsl0, he⟩ := mem_flushSlots_pu _ sl hsl
      rw [← he]
      exact hl.1 sl0 hsl0

theorem ConsensusUpgrade.calls_heights (env : Environment) :
    ∀ (calls : List ConsensusCall) (u : upgradeManager),
      (∀ pu ∈ u.pending, pu.UpgradeHeight = InvalidUpgradeHeight ∨
        ∀ call ∈ calls, pu.UpgradeHeight ≤ call.currentHeight) →
      (calls.map (fun call => call.currentHeight)).Pairwise (fun a b => a ≤ b) →
      ∀ x ∈ ConsensusUpgrade.calls env u calls,
        (∀ pu ∈ x.2.1.pending,
          pu.UpgradeHeight ≠ InvalidUpgradeHeight → pu.UpgradeHeight ≤ x.1.currentHeight) ∧
        (∀ pu ∈ x.2.2.manager.pending,
          pu.UpgradeHeight ≠ InvalidUpgradeHeight → pu.UpgradeHeight ≤ x.1.currentHeight) ∧
        (env.ReturnsErrors → x.2.2.ret ≠ .error .panicFutureHeight) := by
  intro calls
  induction calls with
  | nil =>
    intro u _ _ x hx
    cases hx
  | cons call rest ih =>
    intro u hu hmono x hx
    rw [List.map_cons, List.pairwise_cons] at hmono
    have hbelow : ∀ pu ∈ u.pending,
        pu.UpgradeHeight = InvalidUpgradeHeight ∨ pu.UpgradeHeight ≤ call.currentHeight := by
      intro pu hpu
      rcases hu pu hpu with h | h
      · exact Or.inl h
      · exact Or.inr (h call (List.mem_cons_self _ _))
    have hcall := ConsensusUpgrade_heights env u call.privateCtx call.currentEpoch
      call.currentHeight hbelow
    simp only [ConsensusUpgrade.calls, List.mem_cons] at hx
    rcases hx with hx | hx
    · rw [hx]
      refine ⟨fun pu hpu hne => ?_, fun pu hpu hne => ?_, hcall.2⟩
      · rcases hbelow pu hpu with h | h
        · exact absurd h hne
        · exact h
      · rcases hcall.1 pu hpu with h | h
        · exact absurd h hne
        · exact h
    · refine ih _ ?_ hmono.2 x hx
      intro pu hpu
      rcases hcall.1 pu hpu with h | h
      · exact Or.inl h
      · refine Or.inr (fun c hc => le_trans h ?_)
        exact hmono.1 c.currentHeight (List.mem_map.mpr ⟨c, hc, rfl⟩)

/-! ## Claims on the heights of the pending upgrades -/

/-- C40. The panic in `ConsensusUpgrade` is unreachable for monotone heights: for every sequence
of `ConsensusUpgrade` calls that starts from a pending list with no `UpgradeHeight` set and passes
non-decreasing `currentHeight` values, every pending upgrade with a set `UpgradeHeight` satisfies
`UpgradeHeight ≤ currentHeight` at each call, before it and after it, so the branch that panics
is never taken: no call returns the value that stands for the panic, the registry and the
handlers returning Go errors. -/
theorem ConsensusUpgrade_no_panic (env : Environment) (u : upgradeManager)
    (calls : List ConsensusCall)
    (hstart : ∀ pu ∈ u.pending, pu.UpgradeHeight = InvalidUpgradeHeight)
    (hmono : (calls.map (fun call => call.currentHeight)).Pairwise (fun a b => a ≤ b)) :
    ∀ x ∈ ConsensusUpgrade.calls env u calls,
      (∀ pu ∈ x.2.1.pending,
        pu.UpgradeHeight ≠ InvalidUpgradeHeight → pu.UpgradeHeight ≤ x.1.currentHeight) ∧
      (∀ pu ∈ x.2.2.manager.pending,
        pu.UpgradeHeight ≠ InvalidUpgradeHeight → pu.UpgradeHeight ≤ x.1.currentHeight) ∧
      (env.ReturnsErrors → x.2.2.ret ≠ .error .panicFutureHeight) :=
  ConsensusUpgrade.calls_heights env calls u (fun pu hpu => Or.inl (hstart pu hpu)) hmono

/-- Witness of `ConsensusUpgrade_no_panic`: the descriptor for epoch 5 and the calls at epoch 4 and
height 60, at epoch 5 and height 70, again at height 70, and at height 71. -/
theorem ConsensusUpgrade_no_panic_witness :
    (ConsensusUpgrade.calls inPlaceEnvironment { pending := [epochFiveUpgrade] }
      [⟨some 0, 4, 60⟩, ⟨some 0, 5, 70⟩, ⟨none, 5, 70⟩, ⟨some 0, 5, 71⟩]).map
        (fun x => (x.2.2.manager.pending, x.2.2.ret))
      = [([epochFiveUpgrade], .ok ()),
         ([{ epochFiveUpgrade with UpgradeHeight := 70, Stages := [.Startup] }], .ok ()),
         ([{ epochFiveUpgrade with UpgradeHeight := 70, Stages := [.Startup] }], .ok ()),
         ([], .ok ())] ∧
    ∀ x ∈ ConsensusUpgrade.calls inPlaceEnvironment { pending := [epochFiveUpgrade] }
        [⟨some 0, 4, 60⟩, ⟨some 0, 5, 70⟩, ⟨none, 5, 70⟩, ⟨some 0, 5, 71⟩],
      (∀ pu ∈ x.2.1.pending,
        pu.UpgradeHeight ≠ InvalidUpgradeHeight → pu.UpgradeHeight ≤ x.1.currentHeight) ∧
      (∀ pu ∈ x.2.2.manager.pending,
        pu.UpgradeHeight ≠ InvalidUpgradeHeight → pu.UpgradeHeight ≤ x.1.currentHeight) ∧
      (inPlaceEnvironment.ReturnsErrors → x.2.2.ret ≠ .error .panicFutureHeight) :=
  ⟨by decide,
    ConsensusUpgrade_no_panic inPlaceEnvironment { pending := [epochFiveUpgrade] }
      [⟨some 0, 4, 60⟩, ⟨some 0, 5, 70⟩, ⟨none, 5, 70⟩, ⟨some 0, 5, 71⟩]
      (by decide) (by decide)⟩

end Upgrade

namespace Staking

/-! ## Lemmas on the expired debonding queue -/

/-- The keys of the entries that the loop of `ExpiredDebondingQueue` returns: the keys of the
iterator up to the first one after `epoch`. -/
theorem State.ExpiredDebondingQueue.scan_keys (s : State) (epoch : EpochTime)
    (l : List (EpochTime × Address × Address)) :
    (State.ExpiredDebondingQueue.scan s epoch l).map
        (fun e => (e.Epoch, e.DelegatorAddr, e.EscrowAddr))
      = l.takeWhile (fun k => decide (k.1 ≤ epoch)) := by
  induction l with
  | nil => rfl
  | cons hd tl ih =>
    obtain ⟨ep, del, esc⟩ := hd
    by_cases hgt : ep > epoch
    · have hle : ¬ ep ≤ epoch := Nat.not_le.mpr hgt
      simp [State.ExpiredDebondingQueue.scan, hgt, List.takeWhile_cons, hle]
    · have hle : ep ≤ epoch := Nat.le_of_not_gt hgt
      simp only [State.ExpiredDebondingQueue.scan, if_neg hgt, List.map_cons, ih,
        List.takeWhile_cons, hle, decide_True, if_true]

/-- In a list sorted by the key order, the keys up to the first one after `epoch` are all the
keys up to `epoch`. -/
theorem takeWhile_epoch_eq_filter (epoch : EpochTime)
    (l : List (EpochTime × Address × Address)) (hs : l.Sorted debondingQueueKeyLe) :
    l.takeWhile (fun k => decide (k.1 ≤ epoch)) = l.filter (fun k => decide (k.1 ≤ epoch)) := by
  induction l with
  | nil => rfl
  | cons hd tl ih =>
    have hs2 := List.sorted_cons.mp hs
    by_cases hle : hd.1 ≤ epoch
    · simp only [List.takeWhile_cons, List.filter_cons, hle, decide_True, if_true, ih hs2.2]
    · simp only [List.takeWhile_cons, List.filter_cons, hle, decide_False, Bool.false_eq_true,
        if_false]
      symm
      rw [List.filter_eq_nil_iff]
      intro k hk
      have := debondingQueueKeyLe_epoch hd k (hs2.1 k hk)
      simp only [decide_eq_true_eq]
      exact fun h => hle (Nat.le_trans this h)

/-! ## Claims on the expired debonding queue -/

/-- C34. `ExpiredDebondingQueue(epoch)` finds all delegations maturing at or before the epoch:
for every state it returns exactly the debonding-queue entries whose end epoch is `≤ epoch`, with
none missing and none beyond (the keys of the result are the keys of the queue up to `epoch`, in
the order of the tree), in ascending order of (end epoch, delegator, escrow), each paired with the
debonding delegation stored under (delegator, escrow, end epoch), which reads as the zero
debonding delegation when none is stored. -/
theorem ExpiredDebondingQueue_spec (s : State) (epoch : EpochTime) :
    (∀ e, e ∈ s.ExpiredDebondingQueue epoch ↔
      (e.Epoch, e.DelegatorAddr, e.EscrowAddr) ∈ s.debondingQueue ∧ e.Epoch ≤ epoch ∧
      e.Delegation = s.DebondingDelegation e.DelegatorAddr e.EscrowAddr e.Epoch) ∧
    (s.ExpiredDebondingQueue epoch).map (fun e => (e.Epoch, e.DelegatorAddr, e.EscrowAddr))
      = (s.debondingQueue.insertionSort debondingQueueKeyLe).filter
          (fun k => decide (k.1 ≤ epoch)) ∧
    ((s.ExpiredDebondingQueue epoch).map
      (fun e => (e.Epoch, e.DelegatorAddr, e.EscrowAddr))).Sorted debondingQueueKeyLe ∧
    (s.debondingQueue.Nodup →
      ((s.ExpiredDebondingQueue epoch).map
        (fun e => (e.Epoch, e.DelegatorAddr, e.EscrowAddr))).Nodup) ∧
    (∀ e ∈ s.ExpiredDebondingQueue epoch, ∀ deb,
      kvGet s.debondingDelegations (e.DelegatorAddr, e.EscrowAddr, e.Epoch) = some deb →
      e.Delegation = deb) := by
  have hkeys : (s.ExpiredDebondingQueue epoch).map
      (fun e => (e.Epoch, e.DelegatorAddr, e.EscrowAddr))
      = (s.debondingQueue.insertionSort debondingQueueKeyLe).filter
          (fun k => decide (k.1 ≤ epoch)) := by
    unfold State.ExpiredDebondingQueue
    rw [State.ExpiredDebondingQueue.scan_keys,
      takeWhile_epoch_eq_filter epoch _ s.debondingQueueIterator_sorted]
    rfl
  refine ⟨fun e => ⟨State.ExpiredDebondingQueue_mem s epoch e, ?_⟩, hkeys, ?_, ?_, ?_⟩
  · rintro ⟨hq, hle, hd⟩
    have := State.ExpiredDebondingQueue_covers s epoch (e.Epoch, e.DelegatorAddr, e.EscrowAddr)
      hq hle
    simp only [← hd] at this
    exact this
  · rw [hkeys]
    exact List.Sorted.filter _ (State.debondingQueueIterator_sorted s)
  · intro hnd
    rw [hkeys]
    exact List.Nodup.filter _
      ((List.perm_insertionSort debondingQueueKeyLe s.debondingQueue).nodup_iff.mpr hnd)
  · intro e he deb hget
    rw [(State.ExpiredDebondingQueue_mem s epoch e he).2.2, State.DebondingDelegation, hget]
    rfl

/-- Witness of `ExpiredDebondingQueue_spec`: a queue with entries for the epochs 7, 3 and 5, of
which the delegation of epoch 5 is not stored, read at epoch 5. -/
theorem ExpiredDebondingQueue_spec_witness :
    ({ debondingQueue := [(7, 1, 2), (3, 4, 2), (5, 1, 2)],
       debondingDelegations := [((4, 2, 3), { shares := 10, debondEndTime := 3 }),
         ((1, 2, 7), { shares := 20, debondEndTime := 7 })] } : State).debondingQueue.Nodup ∧
    ({ debondingQueue := [(7, 1, 2), (3, 4, 2), (5, 1, 2)],
       debondingDelegations := [((4, 2, 3), { shares := 10, debondEndTime := 3 }),
         ((1, 2, 7), { shares := 20, debondEndTime := 7 })] } : State).ExpiredDebondingQueue 5
      = [{ Epoch := 3, DelegatorAddr := 4, EscrowAddr := 2,
           Delegation := { shares := 10, debondEndTime := 3 } },
         { Epoch := 5, DelegatorAddr := 1, EscrowAddr := 2, Delegation := {} }] ∧
    (List.map (fun e : DebondingQueueEntry => (e.Epoch, e.DelegatorAddr, e.EscrowAddr))
      (State.ExpiredDebondingQueue
        { debondingQueue := [(7, 1, 2), (3, 4, 2), (5, 1, 2)],
          debondingDelegations := [((4, 2, 3), { shares := 10, debondEndTime := 3 }),
            ((1, 2, 7), { shares := 20, debondEndTime := 7 })] } 5)).Nodup :=
  ⟨by decide, by decide,
    (ExpiredDebondingQueue_spec
      { debondingQueue := [(7, 1, 2), (3, 4, 2), (5, 1, 2)],
        debondingDelegations := [((4, 2, 3), { shares := 10, debondEndTime := 3 }),
          ((1, 2, 7), { shares := 20, debondEndTime := 7 })] } 5).2.2.2.1 (by decide)⟩

end Staking

namespace Staking

/-! ## Lemmas on the events under check-only -/

theorem Context.emit_check_only (ctx : Context) (evs : List Event) :
    Context.emit { ctx with checkOnly := true } evs = [] := by
  simp [Context.emit]

theorem SlashEscrow_check_only (IsValid : Address → Bool) (ctx : Context) (s : State)
    (fromAddr : Address) (amount : Nat) :
    (SlashEscrow IsValid { ctx with checkOnly := true } s fromAddr amount).events = [] := by
  unfold SlashEscrow
  simp only [Context.emit_check_only]
  repeat' split
  all_goals rfl

theorem Transfer_check_only (IsValid : Address → Bool) (ctx : Context) (s : State)
    (fromAddr toAddr : Address) (amount : Nat) :
    (Transfer IsValid { ctx with checkOnly := true } s fromAddr toAddr amount).events = [] := by
  unfold Transfer
  simp only [Context.emit_check_only]
  repeat' split
  all_goals rfl

theorem TransferFromCommon_check_only (IsValid : Address → Bool) (K : Constants) (ctx : Context)
    (s : State) (toAddr : Address) (amount : Nat) (escrow : Bool) :
    (TransferFromCommon IsValid K { ctx with checkOnly := true } s toAddr amount escrow).events
      = [] := by
  unfold TransferFromCommon
  simp only [quantity.MoveUpTo, Context.emit_check_only]
  rcases s.Account IsValid toAddr with e | toAcct
  · rfl
  simp only []
  by_cases h0 : min s.CommonPool amount = 0
  · simp only [if_pos h0]
  · simp only [if_neg h0]
    cases escrow with
    | false => rfl
    | true =>
      simp only
      by_cases hts : toAcct.escrow.active.totalShares = 0
      · simp only [if_pos hts]
        repeat' split
        all_goals rfl
      · simp only [if_neg hts]
        generalize computeCommission K s _ _ = cc
        cases cc with
        | error e => rfl
        | ok p =>
          obtain ⟨com, rest⟩ := p
          simp only
          generalize quantity.Move _ _ rest = mv
          cases mv with
          | error e => rfl
          | ok q =>
            obtain ⟨activeBalance, generalBalance⟩ := q
            simp only
            repeat' split
            all_goals rfl

theorem TransferToGovernanceDeposits_check_only (IsValid : Address → Bool) (K : Constants)
    (ctx : Context) (s : State) (fromAddr : Address) (amount : Nat) :
    (TransferToGovernanceDeposits IsValid K { ctx with checkOnly := true } s fromAddr amount).events
      = [] := by
  unfold TransferToGovernanceDeposits
  simp only [Context.emit_check_only]
  repeat' split
  all_goals rfl

theorem TransferFromGovernanceDeposits_check_only (IsValid : Address → Bool) (K : Constants)
    (ctx : Context) (s : State) (toAddr : Address) (amount : Nat) :
    (TransferFromGovernanceDeposits IsValid K { ctx with checkOnly := true } s toAddr amount).events
      = [] := by
  unfold TransferFromGovernanceDeposits
  simp only [Context.emit_check_only]
  repeat' split
  all_goals rfl

theorem DiscardGovernanceDeposit_check_only (K : Constants) (ctx : Context) (s : State)
    (amount : Nat) :
    (DiscardGovernanceDeposit K { ctx with checkOnly := true } s amount).events = [] := by
  unfold DiscardGovernanceDeposit
  simp only [Context.emit_check_only]
  repeat' split
  all_goals rfl

/-! ## Claims on the events under check-only -/

/-- C35, counterexample. `AddRewards` and `AddRewardSingleAttenuated` emit their events without
looking at the check-only flag: on `rewardState` at time 5 with factor 20000, under a check-only
context, the reward of account 1 emits one `AddEscrowEvent` for the rewarded part, and for the
commission one `TransferEvent` and one `AddEscrowEvent`. -/
theorem check_only_events_counterexample :
    (AddRewards scenarioValid rewardConstants { checkOnly := true } rewardState 5 20000 [1]).events
      = [.AddEscrow { Owner := 100, Escrow := 1, Amount := 160, NewShares := 0 },
         .Transfer { From := 100, To := 1, Amount := 40 },
         .AddEscrow { Owner := 1, Escrow := 1, Amount := 40, NewShares := 17 }] ∧
    (AddRewardSingleAttenuated scenarioValid rewardConstants { checkOnly := true } rewardState 5
      20000 1 1 1).events
      = [.AddEscrow { Owner := 100, Escrow := 1, Amount := 160, NewShares := 0 },
         .Transfer { From := 100, To := 1, Amount := 40 },
         .AddEscrow { Owner := 1, Escrow := 1, Amount := 40, NewShares := 17 }] :=
  ⟨by decide, by decide⟩

/-- C35, as amended. Events under check-only. For every address test, state and arguments, when
the context is check-only none of the staking state operations `SlashEscrow`, `Transfer`,
`TransferFromCommon`, `TransferToGovernanceDeposits`, `TransferFromGovernanceDeposits` and
`DiscardGovernanceDeposit` emits any event. -/
theorem check_only_events (IsValid : Address → Bool) (K : Constants) (ctx : Context) (s : State) :
    (∀ fromAddr amount,
      (SlashEscrow IsValid { ctx with checkOnly := true } s fromAddr amount).events = []) ∧
    (∀ fromAddr toAddr amount,
      (Transfer IsValid { ctx with checkOnly := true } s fromAddr toAddr amount).events = []) ∧
    (∀ toAddr amount escrow,
      (TransferFromCommon IsValid K { ctx with checkOnly := true } s toAddr amount escrow).events
        = []) ∧
    (∀ fromAddr amount,
      (TransferToGovernanceDeposits IsValid K { ctx with checkOnly := true } s fromAddr
        amount).events = []) ∧
    (∀ toAddr amount,
      (TransferFromGovernanceDeposits IsValid K { ctx with checkOnly := true } s toAddr
        amount).events = []) ∧
    (∀ amount,
      (DiscardGovernanceDeposit K { ctx with checkOnly := true } s amount).events = []) :=
  ⟨SlashEscrow_check_only IsValid ctx s, Transfer_check_only IsValid ctx s,
    TransferFromCommon_check_only IsValid K ctx s,
    TransferToGovernanceDeposits_check_only IsValid K ctx s,
    TransferFromGovernanceDeposits_check_only IsValid K ctx s,
    DiscardGovernanceDeposit_check_only K ctx s⟩

end Staking

namespace Staking

/-! ## Lemmas on the rounding of a slash -/

/-- The two rounded-down shares of an amount `m` split in the proportion `a : d` add up to `m`
or to `m - 1`. -/
theorem div_split_bounds (a d m : Nat) (hT : 0 < a + d) :
    a * m / (a + d) + d * m / (a + d) ≤ m ∧ m ≤ a * m / (a + d) + d * m / (a + d) + 1 := by
  have h1 := Nat.div_mul_le_self (a * m) (a + d)
  have h2 := Nat.div_mul_le_self (d * m) (a + d)
  have h3 := Nat.lt_mul_div_succ (a * m) hT
  have h4 := Nat.lt_mul_div_succ (d * m) hT
  constructor
  · apply Nat.le_of_mul_le_mul_right _ hT
    calc (a * m / (a + d) + d * m / (a + d)) * (a + d)
        = a * m / (a + d) * (a + d) + d * m / (a + d) * (a + d) := Nat.add_mul _ _ _
      _ ≤ a * m + d * m := Nat.add_le_add h1 h2
      _ = m * (a + d) := by rw [← Nat.add_mul, Nat.mul_comm]
  · have h5 : m * (a + d) < (a * m / (a + d) + d * m / (a + d) + 2) * (a + d) := by
      calc m * (a + d) = a * m + d * m := by rw [← Nat.add_mul, Nat.mul_comm]
        _ < (a + d) * (a * m / (a + d) + 1) + (a + d) * (d * m / (a + d) + 1) :=
            Nat.add_lt_add h3 h4
        _ = (a * m / (a + d) + d * m / (a + d) + 2) * (a + d) := by ring
    have h6 := Nat.lt_of_mul_lt_mul_right h5
    omega

theorem slashedPart_uncapped (b amount total : Nat) (hb : b ≤ total) (h : amount ≤ total) :
    b * amount / total ≤ b ∧ slashedPart b amount total = b * amount / total := by
  have hle : b * amount / total ≤ b := by
    by_cases ht : total = 0
    · subst ht
      simp
    · apply Nat.div_le_of_le_mul
      rw [Nat.mul_comm total b]
      exact Nat.mul_le_mul_left b h
  exact ⟨hle, Nat.min_eq_right hle⟩

/-! ## Claims on the rounding of a slash -/

/-- C38. Slashing loses at most one base unit to rounding: for every account, as `Account` returns
it, with active balance `A` and debonding balance `D` and every amount `m` with `0 < m ≤ A + D`,
`SlashEscrow` returns no error and the quantity it returns, `⌊A·m/(A+D)⌋ + ⌊D·m/(A+D)⌋`, is `m` or
`m − 1`; neither pool's cap is hit, as each of the two parts is at most the balance of its pool. -/
theorem SlashEscrow_rounding (IsValid : Address → Bool) (ctx : Context) (s : State)
    (fromAddr : Address) (acct : Account) (hacct : s.Account IsValid fromAddr = .ok acct)
    (m : Nat)
    (hpos : 0 < m)
    (hle : m ≤ acct.escrow.active.balance
      + acct.escrow.debonding.balance) :
    ∃ r, (SlashEscrow IsValid ctx s fromAddr m).ret = .ok r ∧ (r = m ∨ r = m - 1) ∧
      r = acct.escrow.active.balance * m
            / (acct.escrow.active.balance
                + acct.escrow.debonding.balance)
          + acct.escrow.debonding.balance * m
            / (acct.escrow.active.balance
                + acct.escrow.debonding.balance) ∧
      acct.escrow.active.balance * m
        / (acct.escrow.active.balance
            + acct.escrow.debonding.balance)
        ≤ acct.escrow.active.balance ∧
      acct.escrow.debonding.balance * m
        / (acct.escrow.active.balance
            + acct.escrow.debonding.balance)
        ≤ acct.escrow.debonding.balance := by
  obtain ⟨hvalid, rfl⟩ := (State.Account_ok_iff IsValid s fromAddr acct).1 hacct
  rw [SlashEscrow_of_valid IsValid ctx s fromAddr m hvalid]
  generalize hA : (s.accountOf fromAddr).escrow.active.balance = A at hle ⊢
  generalize hD : (s.accountOf fromAddr).escrow.debonding.balance = D at hle ⊢
  obtain ⟨ha1, ha2⟩ := slashedPart_uncapped A m (A + D) (Nat.le_add_right _ _) hle
  obtain ⟨hd1, hd2⟩ := slashedPart_uncapped D m (A + D) (Nat.le_add_left _ _) hle
  obtain ⟨hb1, hb2⟩ := div_split_bounds A D m (by omega)
  refine ⟨A * m / (A + D) + D * m / (A + D), ?_, by omega, rfl, ha1, hd1⟩
  rw [SlashEscrow_eq]
  simp only [hA, hD, ha2, hd2]
  split
  · rename_i h0
    rw [h0]
  · rfl

/-- Witness of `SlashEscrow_rounding`: an account with one base unit in each pool, slashed by
one base unit: both parts round down to zero and nothing at all is slashed. -/
theorem SlashEscrow_rounding_witness :
    SlashEscrow scenarioValid {}
      { accounts := [(1, { escrow := { active := { balance := 1, totalShares := 1 }
                                       debonding := { balance := 1, totalShares := 1 } } })] }
      1 1
      = ⟨{ accounts := [(1, { escrow := { active := { balance := 1, totalShares := 1 }
                                          debonding := { balance := 1, totalShares := 1 } } })] },
         [], .ok 0⟩ ∧
    ∃ r, (SlashEscrow scenarioValid {}
      { accounts := [(1, { escrow := { active := { balance := 1, totalShares := 1 }
                                       debonding := { balance := 1, totalShares := 1 } } })] }
      1 1).ret = .ok r ∧ (r = 1 ∨ r = 1 - 1) :=
  ⟨by decide,
    (SlashEscrow_rounding scenarioValid {}
      { accounts := [(1, { escrow := { active := { balance := 1, totalShares := 1 }
                                       debonding := { balance := 1, totalShares := 1 } } })] }
      1 { escrow := { active := { balance := 1, totalShares := 1 }
                      debonding := { balance := 1, totalShares := 1 } } }
      (by decide) 1 (by decide) (by decide)).imp (fun _ h => ⟨h.1, h.2.1⟩)⟩

end Staking

namespace Staking

/-! ## Lemmas on the unattenuated reward -/

theorem div_attenuation (x den k : Nat) (hk : 0 < k) : x * k / den / k = x / den := by
  rw [Nat.div_div_eq_div_mul, Nat.mul_div_mul_right x den hk]

theorem State.Delegation_SetCommonPool (s : State) (q : Nat) (a b : Address) :
    (s.SetCommonPool q).Delegation a b = s.Delegation a b := rfl

/-- The outcome of `AddRewardSingleAttenuated` with the attenuation `k / k` and the outcome of
`AddRewards` for the one address: the same return value and events, and the same state but for
`AddRewards` storing the common pool also when it pays nothing. -/
theorem AddRewardSingleAttenuated_eq (K : Constants) (ctx : Context) (s : State)
    (time : EpochTime) (factor : Nat) (address : Address) (k : Int) (hk : 1 ≤ k) :
    (AddRewardSingleAttenuated allValid K ctx s time factor k k address).ret
      = (AddRewards allValid K ctx s time factor [address]).ret ∧
    (AddRewardSingleAttenuated allValid K ctx s time factor k k address).events
      = (AddRewards allValid K ctx s time factor [address]).events ∧
    ((AddRewards allValid K ctx s time factor [address]).state
        = (AddRewardSingleAttenuated allValid K ctx s time factor k k address).state ∨
      (AddRewards allValid K ctx s time factor [address]).state
        = (AddRewardSingleAttenuated allValid K ctx s time factor k k address).state.SetCommonPool
            (AddRewardSingleAttenuated allValid K ctx s time factor k k address).state.CommonPool)
                := by
  have hk0 : ¬ k < 0 := by omega
  have hkn : k.toNat ≠ 0 := by omega
  unfold AddRewardSingleAttenuated AddRewards
  cases hsched : s.RewardSchedule with
  | error e => exact ⟨rfl, rfl, Or.inl rfl⟩
  | ok steps =>
    simp only
    cases hstep : activeRewardStep steps time with
    | none => exact ⟨rfl, rfl, Or.inl rfl⟩
    | some activeStep =>
      simp only [quantity.FromInt64, if_neg hk0, AddRewards.loop, State.Account_allValid,
          AddRewards.step, State.Account_allValid, quantity.Mul,
        quantity.Quo, if_neg hkn]
      by_cases hden : K.RewardAmountDenominator = 0
      · simp [if_pos hden]
      · simp only [if_neg hden, div_attenuation _ _ _ (Nat.pos_of_ne_zero hkn)]
        by_cases hq0 : (s.accountOf address).escrow.active.balance * factor * activeStep.scale
            / K.RewardAmountDenominator = 0
        · simp [if_pos hq0]
        · simp only [if_neg hq0]
          by_cases hgt : (s.accountOf address).escrow.active.balance * factor * activeStep.scale
              / K.RewardAmountDenominator > s.CommonPool
          · simp [if_neg hq0, if_pos hgt]
          · simp only [if_neg hgt]
            generalize payReward K s s.CommonPool time address (s.accountOf address) _ = r
            obtain ⟨rs, revents, rret⟩ := r
            cases rret with
            | error e => simp
            | ok pool => simp

/-! ## Claims on the unattenuated reward -/

/-- With an address that is not valid, both reward functions stop at the load of the account
(or before it, in the same way). -/
theorem AddRewardSingleAttenuated_invalid (IsValid : Address → Bool) (K : Constants)
    (ctx : Context) (s : State) (time : EpochTime) (factor : Nat) (address : Address) (k : Int)
    (hk : 1 ≤ k) (hvalid : IsValid address = false) :
    AddRewardSingleAttenuated IsValid K ctx s time factor k k address
      = AddRewards IsValid K ctx s time factor [address] := by
  have hk0 : ¬ k < 0 := by omega
  simp only [AddRewardSingleAttenuated, AddRewards, AddRewards.loop, AddRewards.step,
    State.Account_of_invalid IsValid s address hvalid, quantity.FromInt64, if_neg hk0]

/-- C39. Unattenuated single reward equals the list reward: for every address test, state, time,
factor, address and every integer `k ≥ 1`, `AddRewardSingleAttenuated(time, factor, k, k, address)`
and `AddRewards(time, factor, [address])` return the same value, emit the same sequence of events
and produce the same accounts, in particular the same resulting account of the address, the same
delegations, in particular the same self-delegation, and the same common-pool balance, because
`⌊⌊x·k / RewardAmountDenominator⌋ / k⌋ = ⌊x / RewardAmountDenominator⌋`. -/
theorem AddRewardSingleAttenuated_unattenuated (IsValid : Address → Bool) (K : Constants)
    (ctx : Context) (s : State) (time : EpochTime) (factor : Nat) (address : Address) (k : Int)
        (hk : 1 ≤ k) :
    (AddRewardSingleAttenuated IsValid K ctx s time factor k k address).ret
      = (AddRewards IsValid K ctx s time factor [address]).ret ∧
    (AddRewardSingleAttenuated IsValid K ctx s time factor k k address).events
      = (AddRewards IsValid K ctx s time factor [address]).events ∧
    (∀ a, (AddRewardSingleAttenuated IsValid K ctx s time factor k k address).state.accountOf a
      = (AddRewards IsValid K ctx s time factor [address]).state.accountOf a) ∧
    (∀ a b, (AddRewardSingleAttenuated IsValid K ctx s time factor k k address).state.Delegation a b
      = (AddRewards IsValid K ctx s time factor [address]).state.Delegation a b) ∧
    (AddRewardSingleAttenuated IsValid K ctx s time factor k k address).state.CommonPool
      = (AddRewards IsValid K ctx s time factor [address]).state.CommonPool ∧
    (∀ x, x * k.toNat / K.RewardAmountDenominator / k.toNat = x / K.RewardAmountDenominator) := by
  cases hvalid : IsValid address
  · rw [AddRewardSingleAttenuated_invalid IsValid K ctx s time factor address k hk hvalid]
    exact ⟨rfl, rfl, fun _ => rfl, fun _ _ => rfl, rfl,
      fun x => div_attenuation x _ _ (by omega)⟩
  rw [AddRewardSingleAttenuated_of_valid IsValid K ctx s time factor k k address hvalid,
    AddRewards_of_valid IsValid K ctx s time factor [address]
      (fun a ha => by rw [List.mem_singleton.mp ha]; exact hvalid)]
  obtain ⟨h1, h2, h3⟩ := AddRewardSingleAttenuated_eq K ctx s time factor address k hk
  refine ⟨h1, h2, ?_, ?_, ?_, fun x => div_attenuation x _ _ (by omega)⟩
  · intro a
    rcases h3 with h | h
    · rw [h]
    · rw [h, State.accountOf_SetCommonPool]
  · intro a b
    rcases h3 with h | h
    · rw [h]
    · rw [h, State.Delegation_SetCommonPool]
  · rcases h3 with h | h
    · rw [h]
    · rw [h, State.CommonPool_SetCommonPool]

/-- Witness of `AddRewardSingleAttenuated_unattenuated`: on `rewardState` at time 5 with factor
20000, the reward of account 1 with the attenuation 3/3. -/
theorem AddRewardSingleAttenuated_unattenuated_witness :
    (AddRewardSingleAttenuated scenarioValid rewardConstants {} rewardState 5 20000 3 3 1).events
      = (AddRewards scenarioValid rewardConstants {} rewardState 5 20000 [1]).events ∧
    (AddRewardSingleAttenuated scenarioValid rewardConstants {} rewardState 5 20000 3 3
        1).state.accountOf 1
      = (AddRewards scenarioValid rewardConstants {} rewardState 5 20000 [1]).state.accountOf 1 ∧
    ((AddRewards scenarioValid rewardConstants {} rewardState 5 20000 [1]).state.accountOf 1
      ).escrow.active.balance = 1200 :=
  have h := AddRewardSingleAttenuated_unattenuated scenarioValid rewardConstants {} rewardState 5
      20000 1 3
    (by decide)
  ⟨h.2.1, h.2.2.1 1, by decide⟩

end Staking

namespace Scheduler

open Staking (kvGet kvInsert kvRemove kvIterator keyInsert Address PublicKey)

/-! ## Lemmas on the executor workers -/

/-- The loop of `isSuitableExecutorWorker` returns true exactly when the node is not suspended
and the first runtime entry with the identifier of the runtime and the version of the deployment
meets the condition on the TEE capability. -/
theorem isSuitableExecutorWorker.scan_iff (verify : CapabilityTEE → Nat → PublicKey → Bool)
    (n : nodeWithStatus) (rt : Runtime) (epoch : Staking.EpochTime)
    (activeDeployment : VersionInfo) (runtimes : List NodeRuntime) :
    isSuitableExecutorWorker.scan verify n rt epoch activeDeployment runtimes = true ↔
      n.IsSuspended rt.ID epoch = false ∧
      ∃ nrt, runtimes.find?
          (fun nrt => decide (nrt.ID = rt.ID) && decide (nrt.Version = activeDeployment.Version))
          = some nrt ∧
        teeSuitable verify n rt activeDeployment nrt := by
  induction runtimes with
  | nil => simp [isSuitableExecutorWorker.scan]
  | cons nrt rest ih =>
    simp only [isSuitableExecutorWorker.scan, List.find?_cons]
    by_cases hid : nrt.ID = rt.ID
    · by_cases hv : nrt.Version = activeDeployment.Version
      · simp only [hid, hv, ne_eq, not_true_eq_false, if_false, decide_True, Bool.and_self,
          Option.some.injEq, exists_eq_left']
        cases hs : n.IsSuspended rt.ID epoch with
        | true => simp
        | false =>
          simp only [Bool.false_eq_true, if_false, true_and]
          unfold teeSuitable
          by_cases hw : rt.TEEHardware = TEEHardwareInvalid
          · simp only [if_pos hw, hw, true_and, ne_eq, not_true_eq_false, false_and, or_false]
            cases ht : nrt.TEE with
            | none => simp
            | some tee => simp
          · simp only [if_neg hw, hw, false_and, false_or, ne_eq, not_false_eq_true, true_and]
            cases ht : nrt.TEE with
            | none => simp
            | some tee =>
              simp only [Option.some.injEq, exists_eq_left']
              by_cases hh : tee.Hardware = rt.TEEHardware
              · cases hver : verify tee activeDeployment.TEE n.ID <;> simp [hh, hver]
              · simp [hh]
      · simp only [hid, hv, ne_eq, not_true_eq_false, not_false_eq_true, if_false, if_true,
          decide_True, decide_False, Bool.and_false, Bool.true_and]
        exact ih
    · simp only [hid, ne_eq, not_false_eq_true, if_true, decide_False, Bool.false_and]
      exact ih

/-! ## Claims on the executor workers -/

/-- C36. Executor eligibility: for every node, runtime `R` and epoch `E`,
`isSuitableExecutorWorker` returns true only if the node has the compute worker role,
`R.ActiveDeployment(E)` is non-nil, the node registers a runtime entry with the identifier of `R`
and the version of the active deployment, the node is not suspended for `R` at `E`, and either
`R.TEEHardware` is invalid and that entry carries no TEE capability, or the entry carries a TEE
capability of hardware `R.TEEHardware` whose verification succeeds; it returns false whenever any
of these fails. The entry is the first one with the identifier and the version: the function
returns true exactly when that entry meets the condition on the TEE capability, the node having
the role and not being suspended. -/
theorem isSuitableExecutorWorker_spec (verify : CapabilityTEE → Nat → PublicKey → Bool)
    (n : nodeWithStatus) (rt : Runtime) (epoch : Staking.EpochTime) :
    (isSuitableExecutorWorker verify n rt epoch = true → ExecutorEligible verify n rt epoch) ∧
    (¬ ExecutorEligible verify n rt epoch → isSuitableExecutorWorker verify n rt epoch = false) ∧
    (isSuitableExecutorWorker verify n rt epoch = true ↔
      n.computeWorker = true ∧
      ∃ activeDeployment, rt.ActiveDeployment epoch = some activeDeployment ∧
        n.IsSuspended rt.ID epoch = false ∧
        ∃ nrt, n.Runtimes.find?
            (fun nrt => decide (nrt.ID = rt.ID) &&
              decide (nrt.Version = activeDeployment.Version)) = some nrt ∧
          teeSuitable verify n rt activeDeployment nrt) := by
  have hiff : isSuitableExecutorWorker verify n rt epoch = true ↔
      n.computeWorker = true ∧
      ∃ activeDeployment, rt.ActiveDeployment epoch = some activeDeployment ∧
        n.IsSuspended rt.ID epoch = false ∧
        ∃ nrt, n.Runtimes.find?
            (fun nrt => decide (nrt.ID = rt.ID) &&
              decide (nrt.Version = activeDeployment.Version)) = some nrt ∧
          teeSuitable verify n rt activeDeployment nrt := by
    unfold isSuitableExecutorWorker
    cases hc : n.computeWorker with
    | false => simp
    | true =>
      simp only [Bool.not_true, Bool.false_eq_true, if_false, true_and]
      cases hd : rt.ActiveDeployment epoch with
      | none => simp
      | some dep =>
        simp only [Option.some.injEq, exists_eq_left']
        exact isSuitableExecutorWorker.scan_iff verify n rt epoch dep n.Runtimes
  have himp : isSuitableExecutorWorker verify n rt epoch = true →
      ExecutorEligible verify n rt epoch := by
    intro h
    obtain ⟨hc, dep, hd, hs, nrt, hfind, htee⟩ := hiff.mp h
    have hp := List.find?_some hfind
    simp only [Bool.and_eq_true, decide_eq_true_eq] at hp
    refine ⟨hc, dep, hd, nrt, List.mem_of_find?_eq_some hfind, hp.1, hp.2, hs, ?_⟩
    rcases htee with h1 | h2
    · exact Or.inl h1
    · exact Or.inr h2.2
  refine ⟨himp, fun hne => ?_, hiff⟩
  cases hv : isSuitableExecutorWorker verify n rt epoch with
  | false => rfl
  | true => exact absurd (himp hv) hne

/-- Witness of `isSuitableExecutorWorker_spec`: a compute worker with an entry for runtime 7 at
version 3 without TEE capability is suitable for the runtime without TEE hardware whose active
deployment has version 3; a node without the compute worker role is not. -/
theorem isSuitableExecutorWorker_spec_witness :
    isSuitableExecutorWorker (fun _ _ _ => true)
      { ID := 1, computeWorker := true, Runtimes := [{ ID := 7, Version := 2 },
          { ID := 7, Version := 3 }], IsSuspended := fun _ _ => false }
      { ID := 7, TEEHardware := TEEHardwareInvalid,
        ActiveDeployment := fun _ => some { Version := 3 } } 5 = true ∧
    ExecutorEligible (fun _ _ _ => true)
      { ID := 1, computeWorker := true, Runtimes := [{ ID := 7, Version := 2 },
          { ID := 7, Version := 3 }], IsSuspended := fun _ _ => false }
      { ID := 7, TEEHardware := TEEHardwareInvalid,
        ActiveDeployment := fun _ => some { Version := 3 } } 5 ∧
    isSuitableExecutorWorker (fun _ _ _ => true)
      { ID := 1, computeWorker := false, Runtimes := [{ ID := 7, Version := 3 }],
        IsSuspended := fun _ _ => false }
      { ID := 7, TEEHardware := TEEHardwareInvalid,
        ActiveDeployment := fun _ => some { Version := 3 } } 5 = false :=
  ⟨by decide,
    (isSuitableExecutorWorker_spec (fun _ _ _ => true)
      { ID := 1, computeWorker := true, Runtimes := [{ ID := 7, Version := 2 },
          { ID := 7, Version := 3 }], IsSuspended := fun _ _ => false }
      { ID := 7, TEEHardware := TEEHardwareInvalid,
        ActiveDeployment := fun _ => some { Version := 3 } } 5).1 (by decide),
    (isSuitableExecutorWorker_spec (fun _ _ _ => true)
      { ID := 1, computeWorker := false, Runtimes := [{ ID := 7, Version := 3 }],
        IsSuspended := fun _ _ => false }
      { ID := 7, TEEHardware := TEEHardwareInvalid,
        ActiveDeployment := fun _ => some { Version := 3 } } 5).2.1
      (fun h => Bool.false_ne_true h.1)⟩

end Scheduler
